import Mathlib

/-!
# BicBrickBread: dense matrices, layers and the network container

A shallow embedding of `Neural_Network/Source/Matrix.cpp`, `Layer.cpp`,
`NeuralNetwork.cpp`, `Training.cpp`, of the evolutionary trainer in
`Neural_Network/train.cpp`, of the 5 x 5 game in
`Games/Large_Tic_Tac_Toe/Large_Tic_Tac_Toe.cpp` and of the memory game in
`Games/Memory_Tic_Tac_Toe/Memory_Tic_Tac_Toe.cpp`.

Modelling conventions.

* `double` is an arbitrary type `R` carrying only the operations the source
  applies to it (`0`, `1`, `+`, `-`, `*`, unary minus).  No algebraic law is
  assumed unless a theorem says so, hence the structural results hold for
  IEEE arithmetic as well as for exact arithmetic.
* `int rows, cols` are natural numbers: every matrix the source builds has
  non-negative dimensions, and their product is taken exactly.  The constructors
  on arbitrary `int` arguments, with the `int` product, are `Matrix.ctorInt` and
  `Matrix.ofValuesInt`.
* `std::vector<double> data` is a `List R`.  `data[i]` with `i` out of range
  is undefined in the source; here a read yields `0` and a write is dropped.
  The theorems about values carry the shape hypotheses under which every
  access is in range.
* `throw std::runtime_error(...)` is an `Except Error` result.  A member
  function that mutates its object returns the result together with the
  object as it is when the call ends, also when it ends by throwing.
* Undefined behaviour of the game and of the trainer (an index out of range, a
  remainder by zero) is an `Except Fault` result.
* A `while` loop whose termination is a theorem, not a fact of its shape, is run
  with a bound on its iterations and returns `none` when the bound is reached.
* `std::sort` is the library's.  The theorems about selection and breeding hold for
  every sort that meets the contract of the C++ standard (`StdSortContract`); the
  ranking step itself is `std_sort`, libstdc++'s introsort function by function,
  which meets that contract (`std_sort_contract`).
-/

namespace BicBrickBread

/-- The `std::runtime_error`s thrown by the sources, one constructor per message. -/
inductive Error where
  /-- "Vector size does not match matrix dimensions" -/
  | vectorSize
  /-- "Hadamard: dimension mismatch" -/
  | hadamardDim
  /-- "Addition: dimension mismatch" -/
  | additionDim
  /-- "Subtraction: dimension mismatch" -/
  | subtractionDim
  /-- "Multiplication: size mismatch" -/
  | multiplicationSize
  /-- "NeuralNetwork requires at least input and output layers" -/
  | tooFewLayers
  /-- "Failed to open file for saving network" -/
  | saveOpen
  /-- "Failed to open file for loading network" -/
  | loadOpen
  /-- Not an exception: `layers.back()` on an empty vector, undefined in the source. -/
  | emptyBack
  /-- "Inputs and targets size mismatch" -/
  | sizeMismatch
  /-- "Predicted and target size mismatch" -/
  | predictedSize
  deriving DecidableEq, Repr

/-- The loop `for (int i = 0; i < n; ++i) s = body(i, s)`. -/
def forLoop {σ : Type} (n : Nat) (body : Nat → σ → σ) (s : σ) : σ :=
  match n with
  | 0 => s
  | k + 1 => body k (forLoop k body s)

/-- The class `Matrix`: `rows`, `cols` and the flattened row-major `data`. -/
structure Matrix (R : Type) where
  rows : Nat
  cols : Nat
  data : List R
  deriving DecidableEq, Repr

/-- The data invariant `data.size() == rows * cols`. -/
def Matrix.WF {R : Type} (m : Matrix R) : Prop :=
  m.data.length = m.rows * m.cols

instance {R : Type} (m : Matrix R) : Decidable m.WF :=
  inferInstanceAs (Decidable (m.data.length = m.rows * m.cols))

/-- `Matrix::Matrix(int rows, int cols, bool zero)` on non-negative dimensions whose
product fits an `int`, where the `int` product is the exact one (`ctorInt_of_nat`);
`Matrix.ctorInt` is the constructor on any two `int`s. -/
def Matrix.ctor {R : Type} [Zero R] [One R] (rows cols : Nat) (zero : Bool) : Matrix R :=
  { rows := rows, cols := cols, data := List.replicate (rows * cols) (if zero then 0 else 1) }

/-- `Matrix::Matrix(const std::vector<double>& values, int rows, int cols)` on
non-negative dimensions whose product fits an `int`, where the `int` product is the
exact one (`ofValuesInt_of_nat`); `Matrix.ofValuesInt` is the constructor on any
two `int`s. -/
def Matrix.ofValues {R : Type} (values : List R) (rows cols : Nat) : Except Error (Matrix R) :=
  if values.length ≠ rows * cols then .error Error.vectorSize
  else .ok { rows := rows, cols := cols, data := values }

/-- `Matrix::operator()(int r, int c) const`: read `data[r*cols + c]`. -/
def Matrix.get {R : Type} [Zero R] (m : Matrix R) (r c : Nat) : R :=
  m.data.getD (r * m.cols + c) 0

/-- `Matrix::operator()(int r, int c)` used as an lvalue: write `data[r*cols + c]`. -/
def Matrix.set {R : Type} (m : Matrix R) (r c : Nat) (v : R) : Matrix R :=
  { m with data := m.data.set (r * m.cols + c) v }

/-- The matrix `Matrix::random` returns, in terms of the draws that follow the seed:
`std::srand(std::time(nullptr))`, then one `std::rand()` per entry.  `now` is the
seed and `rand seed i` is the value of `(double)std::rand() / RAND_MAX` at the
`i`-th call after `std::srand(seed)`.  `Matrix.randomFrom` is the same function
with the generator's state threaded through (`randomFrom_eq`). -/
def Matrix.random {R : Type} [Zero R] [One R] [Add R] [Sub R] [Mul R]
    (rows cols : Nat) (min max : R) (rand : Nat → Nat → R) (now : Nat) : Matrix R :=
  forLoop (rows * cols)
    (fun i m => { m with data := m.data.set i (min + rand now i * (max - min)) })
    (Matrix.ctor rows cols true)

/-- `Matrix::apply`. -/
def Matrix.apply {R : Type} [Zero R] (m : Matrix R) (func : R → R) : Matrix R :=
  forLoop (m.rows * m.cols)
    (fun i t => { t with data := t.data.set i (func (t.data.getD i 0)) }) m

/-- `Matrix::hadamard`. -/
def Matrix.hadamard {R : Type} [Zero R] [Mul R] (m other : Matrix R) : Except Error (Matrix R) :=
  if m.rows ≠ other.rows ∨ m.cols ≠ other.cols then .error Error.hadamardDim
  else .ok (forLoop (m.rows * m.cols)
    (fun i t => { t with data := t.data.set i (t.data.getD i 0 * other.data.getD i 0) }) m)

/-- `Matrix::transpose`. -/
def Matrix.transpose {R : Type} [Zero R] [One R] (m : Matrix R) : Matrix R :=
  forLoop m.rows
    (fun r t => forLoop m.cols (fun c t => t.set c r (m.get r c)) t)
    (Matrix.ctor m.cols m.rows true)

/-- `Matrix::operator+`. -/
def Matrix.add {R : Type} [Zero R] [One R] [Add R] (m other : Matrix R) :
    Except Error (Matrix R) :=
  if m.rows ≠ other.rows ∨ m.cols ≠ other.cols then .error Error.additionDim
  else .ok (forLoop (m.rows * m.cols)
    (fun i res => { res with data := res.data.set i (m.data.getD i 0 + other.data.getD i 0) })
    (Matrix.ctor m.rows m.cols true))

/-- `Matrix::operator-`. -/
def Matrix.sub {R : Type} [Zero R] [One R] [Sub R] (m other : Matrix R) :
    Except Error (Matrix R) :=
  if m.rows ≠ other.rows ∨ m.cols ≠ other.cols then .error Error.subtractionDim
  else .ok (forLoop (m.rows * m.cols)
    (fun i res => { res with data := res.data.set i (m.data.getD i 0 - other.data.getD i 0) })
    (Matrix.ctor m.rows m.cols true))

/-- `Matrix::operator*`. -/
def Matrix.mul {R : Type} [Zero R] [One R] [Add R] [Mul R] (m other : Matrix R) :
    Except Error (Matrix R) :=
  if m.cols ≠ other.rows then .error Error.multiplicationSize
  else .ok (forLoop m.rows
    (fun r res => forLoop other.cols
      (fun c res => res.set r c
        (forLoop m.cols (fun k sum => sum + m.get r k * other.get k c) 0))
      res)
    (Matrix.ctor m.rows other.cols true))

/-- The class `Layer`: sizes, weights `W`, biases `B`, the caches `Z`, `A`,
`lastInput` of the latest forward pass, and the two activation closures. -/
structure Layer (R : Type) where
  inputSize : Nat
  neuronCount : Nat
  W : Matrix R
  B : Matrix R
  Z : Matrix R
  A : Matrix R
  lastInput : Matrix R
  activate : R → R
  activateDerivative : R → R

/-- `Layer::Layer`.  The members are initialised in declaration order, so `W` is
drawn before `B`; `nowW` and `nowB` are the clock readings of the two
`Matrix::random` calls. -/
def Layer.ctor {R : Type} [Zero R] [One R] [Add R] [Sub R] [Mul R] [Neg R]
    (inputSize neuronCount : Nat) (activation activationDerivative : R → R)
    (rand : Nat → Nat → R) (nowW nowB : Nat) : Layer R :=
  { inputSize := inputSize
    neuronCount := neuronCount
    W := Matrix.random neuronCount inputSize (-1) 1 rand nowW
    B := Matrix.random neuronCount 1 (-1) 1 rand nowB
    Z := Matrix.ctor neuronCount 1 true
    A := Matrix.ctor neuronCount 1 true
    lastInput := Matrix.ctor inputSize 1 true
    activate := activation
    activateDerivative := activationDerivative }

/-- `Layer::forward`.  `lastInput` is assigned before `W * input + B` can throw. -/
def Layer.forward {R : Type} [Zero R] [One R] [Add R] [Mul R]
    (l : Layer R) (input : Matrix R) : Except Error (Matrix R) × Layer R :=
  let l1 := { l with lastInput := input }
  match l1.W.mul input with
  | .error e => (.error e, l1)
  | .ok wx =>
    match wx.add l1.B with
    | .error e => (.error e, l1)
    | .ok z =>
      let l2 := { l1 with Z := z }
      let l3 := { l2 with A := l2.Z }
      let l4 := { l3 with A := l3.A.apply l3.activate }
      (.ok l4.A, l4)

/-- `Layer::backward`.  The statements are kept in source order: `W` and `B` are
updated first, and `dC_dX` is computed afterwards from the member `W`. -/
def Layer.backward {R : Type} [Zero R] [One R] [Add R] [Sub R] [Mul R]
    (l : Layer R) (dC_dA : Matrix R) (learningRate : R) :
    Except Error (Matrix R) × Layer R :=
  let dC_dZ := forLoop dC_dA.rows
    (fun i d => forLoop dC_dA.cols
      (fun j d => d.set i j (d.get i j * l.activateDerivative (l.Z.get i j))) d)
    dC_dA
  match dC_dZ.mul l.lastInput.transpose with
  | .error e => (.error e, l)
  | .ok dC_dW =>
    let dC_dB := dC_dZ
    let W1 := forLoop l.W.rows
      (fun i w => forLoop l.W.cols
        (fun j w => w.set i j (w.get i j - learningRate * dC_dW.get i j)) w)
      l.W
    let l1 := { l with W := W1 }
    let B1 := forLoop l1.B.rows
      (fun i b => forLoop l1.B.cols
        (fun j b => b.set i j (b.get i j - learningRate * dC_dB.get i j)) b)
      l1.B
    let l2 := { l1 with B := B1 }
    match l2.W.transpose.mul dC_dZ with
    | .error e => (.error e, l2)
    | .ok dC_dX => (.ok dC_dX, l2)

/-- `Layer::getOutput`. -/
def Layer.getOutput {R : Type} (l : Layer R) : Matrix R := l.A

/-- A binary file, read or written as a sequence of `double`s: each element stands
for the eight bytes of one value. -/
abbrev File (R : Type) := List R

/-- An open `std::ifstream`: the values not yet consumed and the stream's
`good()` flag. -/
structure IStream (R : Type) where
  rest : List R
  good : Bool

/-- `in.read(buf, n * sizeof(double))`: nothing happens on a stream that is not
good; otherwise up to `n` values are copied to the front of `buf`, and running
into the end of the file clears `good`. -/
def IStream.read {R : Type} (s : IStream R) (buf : List R) (n : Nat) : List R × IStream R :=
  if s.good then
    if n ≤ s.rest.length then
      (s.rest.take n ++ buf.drop n, { rest := s.rest.drop n, good := true })
    else
      (s.rest ++ buf.drop s.rest.length, { rest := [], good := false })
  else (buf, s)

/-- `Layer::save`: the values of `W`, then those of `B`, appended to `out`. -/
def Layer.save {R : Type} (l : Layer R) (out : File R) : File R :=
  let out1 := out ++ l.W.data.take (l.W.rows * l.W.cols)
  out1 ++ l.B.data.take (l.B.rows * l.B.cols)

/-- `Layer::load`: read into `W`, then into `B`. -/
def Layer.load {R : Type} (l : Layer R) (s : IStream R) : Layer R × IStream R :=
  let (w, s1) := s.read l.W.data (l.W.rows * l.W.cols)
  let l1 := { l with W := { l.W with data := w } }
  let (b, s2) := s1.read l1.B.data (l1.B.rows * l1.B.cols)
  ({ l1 with B := { l1.B with data := b } }, s2)

/-- The class `NeuralNetwork`: the vector `layers`. -/
structure NeuralNetwork (R : Type) where
  layers : List (Layer R)

/-- `NeuralNetwork::NeuralNetwork`.  The loop `for (i = 1; i < size; ++i)` is run
with `i = k + 1` for `k = 0, ..., size - 2`; `clock k` is the clock reading at
the `k`-th call of `Matrix::random` made by the construction (two per layer). -/
def NeuralNetwork.ctor {R : Type} [Zero R] [One R] [Add R] [Sub R] [Mul R] [Neg R]
    (layerSizes : List Nat) (activation activationDerivative : R → R)
    (rand : Nat → Nat → R) (clock : Nat → Nat) : Except Error (NeuralNetwork R) :=
  if layerSizes.length < 2 then .error Error.tooFewLayers
  else
    let layers := forLoop (layerSizes.length - 1)
      (fun k layers =>
        let i := k + 1
        layers ++ [Layer.ctor (layerSizes.getD (i - 1) 0) (layerSizes.getD i 0)
          activation activationDerivative rand (clock (2 * k)) (clock (2 * k + 1))])
      []
    .ok { layers := layers }

/-- The loop of `NeuralNetwork::forward`: `for (auto& layer : layers) out = layer.forward(out)`. -/
def forwardLayers {R : Type} [Zero R] [One R] [Add R] [Mul R] :
    List (Layer R) → Matrix R → Except Error (Matrix R) × List (Layer R)
  | [], out => (.ok out, [])
  | l :: ls, out =>
    match l.forward out with
    | (.error e, l1) => (.error e, l1 :: ls)
    | (.ok out1, l1) =>
      match forwardLayers ls out1 with
      | (r, ls1) => (r, l1 :: ls1)

/-- `NeuralNetwork::forward`. -/
def NeuralNetwork.forward {R : Type} [Zero R] [One R] [Add R] [Mul R]
    (net : NeuralNetwork R) (input : Matrix R) : Except Error (Matrix R) × NeuralNetwork R :=
  match forwardLayers net.layers input with
  | (r, ls) => (r, { layers := ls })

/-- The loop of `NeuralNetwork::backward`:
`for (int i = size - 1; i >= 0; --i) dC_dA = layers[i].backward(dC_dA, learningRate)`,
entered with the counter at `n - 1`. -/
def backwardLoop {R : Type} [Zero R] [One R] [Add R] [Sub R] [Mul R] (learningRate : R) :
    Nat → List (Layer R) → Matrix R → Except Error Unit × List (Layer R)
  | 0, layers, _ => (.ok (), layers)
  | i + 1, layers, dC_dA =>
    match layers[i]? with
    | none => (.ok (), layers) -- not reached: the counter starts at `size - 1`
    | some l =>
      match l.backward dC_dA learningRate with
      | (.error e, l1) => (.error e, layers.set i l1)
      | (.ok g, l1) => backwardLoop learningRate i (layers.set i l1) g

/-- `NeuralNetwork::backward`. -/
def NeuralNetwork.backward {R : Type} [Zero R] [One R] [Add R] [Sub R] [Mul R]
    (net : NeuralNetwork R) (expected : Matrix R) (learningRate : R) :
    Except Error Unit × NeuralNetwork R :=
  match net.layers.getLast? with
  | none => (.error Error.emptyBack, net)
  | some last =>
    match last.getOutput.sub expected with
    | .error e => (.error e, net)
    | .ok dC_dA =>
      match backwardLoop learningRate net.layers.length net.layers dC_dA with
      | (r, ls) => (r, { layers := ls })

/-- `NeuralNetwork::train`. -/
def NeuralNetwork.train {R : Type} [Zero R] [One R] [Add R] [Sub R] [Mul R]
    (net : NeuralNetwork R) (input expected : Matrix R) (learningRate : R) :
    Except Error Unit × NeuralNetwork R :=
  match net.forward input with
  | (.error e, net1) => (.error e, net1)
  | (.ok _, net1) => net1.backward expected learningRate

/-- `NeuralNetwork::predict`. -/
def NeuralNetwork.predict {R : Type} [Zero R] [One R] [Add R] [Mul R]
    (net : NeuralNetwork R) (input : Matrix R) : Except Error (Matrix R) × NeuralNetwork R :=
  net.forward input

/-- `NeuralNetwork::save`.  `opened` tells whether the `std::ofstream` could be
opened; the result is the content of the file written. -/
def NeuralNetwork.save {R : Type} (net : NeuralNetwork R) (opened : Bool) :
    Except Error (File R) :=
  if !opened then .error Error.saveOpen
  else .ok (net.layers.foldl (fun out layer => layer.save out) [])

/-- The loop of `NeuralNetwork::load`: `for (auto& layer : layers) layer.load(in)`. -/
def loadLayers {R : Type} : List (Layer R) → IStream R → List (Layer R) × IStream R
  | [], s => ([], s)
  | l :: ls, s =>
    match l.load s with
    | (l1, s1) =>
      match loadLayers ls s1 with
      | (ls1, s2) => (l1 :: ls1, s2)

/-- `NeuralNetwork::load`.  `file` is `none` when the file cannot be opened. -/
def NeuralNetwork.load {R : Type} (net : NeuralNetwork R) (file : Option (File R)) :
    Except Error Unit × NeuralNetwork R :=
  match file with
  | none => (.error Error.loadOpen, net)
  | some content =>
    (.ok (), { layers := (loadLayers net.layers { rest := content, good := true }).1 })

/-- `m` is a well-formed `r x c` matrix. -/
def Matrix.HasShape {R : Type} (m : Matrix R) (r c : Nat) : Prop :=
  m.rows = r ∧ m.cols = c ∧ m.WF

instance {R : Type} (m : Matrix R) (r c : Nat) : Decidable (m.HasShape r c) :=
  inferInstanceAs (Decidable (m.rows = r ∧ m.cols = c ∧ m.WF))

/-- The layer invariant of the data model: `W` is `neuronCount x inputSize` and
`B` is `neuronCount x 1`. -/
def Layer.Shaped {R : Type} (l : Layer R) : Prop :=
  l.W.HasShape l.neuronCount l.inputSize ∧ l.B.HasShape l.neuronCount 1

instance {R : Type} (l : Layer R) : Decidable l.Shaped :=
  inferInstanceAs (Decidable (_ ∧ _))

/-- The caches as a forward pass leaves them: `lastInput` is `inputSize x 1`,
`Z` and `A` are `neuronCount x 1`. -/
def Layer.Cached {R : Type} (l : Layer R) : Prop :=
  l.lastInput.HasShape l.inputSize 1 ∧ l.Z.HasShape l.neuronCount 1 ∧
    l.A.HasShape l.neuronCount 1

instance {R : Type} (l : Layer R) : Decidable l.Cached :=
  inferInstanceAs (Decidable (_ ∧ _ ∧ _))

/-- The network invariant of the data model, for input size `n`: every layer is
shaped, the first takes `n` inputs and each next one takes as many inputs as
its predecessor has neurons. -/
def Chain {R : Type} : List (Layer R) → Nat → Prop
  | [], _ => True
  | l :: ls, n => l.Shaped ∧ l.inputSize = n ∧ Chain ls l.neuronCount

/-- The size of the output of a chain of layers fed with `n` inputs. -/
def outSize {R : Type} : List (Layer R) → Nat → Nat
  | [], n => n
  | l :: ls, _ => outSize ls l.neuronCount

/-- The weights and biases of a list of layers. -/
def parameters {R : Type} (ls : List (Layer R)) : List (Matrix R × Matrix R) :=
  ls.map (fun l => (l.W, l.B))

/-- Two layers of the same architecture: same sizes, same activation. -/
def Layer.SameArch {R : Type} (a b : Layer R) : Prop :=
  a.inputSize = b.inputSize ∧ a.neuronCount = b.neuronCount ∧ a.activate = b.activate

/-- The forward pass in the words of the specification: the input is piped
through the layers in order, each layer contributing the value its `forward`
returns. -/
def forwardPipeline {R : Type} [Zero R] [One R] [Add R] [Mul R] :
    List (Layer R) → Matrix R → Except Error (Matrix R)
  | [], x => .ok x
  | l :: ls, x =>
    match (l.forward x).1 with
    | .error e => .error e
    | .ok y => forwardPipeline ls y

/-- The backward pass in the words of the specification, over the layers listed
from last to first: each layer's `backward` is called with the gradient the
layer before it in this list returned. -/
def backwardChain {R : Type} [Zero R] [One R] [Add R] [Sub R] [Mul R] (learningRate : R) :
    List (Layer R) → Matrix R → Except Error Unit × List (Layer R)
  | [], _ => (.ok (), [])
  | l :: ls, g =>
    match l.backward g learningRate with
    | (.error e, l1) => (.error e, l1 :: ls)
    | (.ok g1, l1) =>
      match backwardChain learningRate ls g1 with
      | (r, ls1) => (r, l1 :: ls1)

/-- A 1 x 1 layer over the integers after a forward pass on the input `[1]`:
`W = [2]`, `B = [0]`, identity activation with derivative `1`, so `Z = A = [2]`. -/
def unitLayer : Layer Int :=
  { inputSize := 1
    neuronCount := 1
    W := ⟨1, 1, [2]⟩
    B := ⟨1, 1, [0]⟩
    Z := ⟨1, 1, [2]⟩
    A := ⟨1, 1, [2]⟩
    lastInput := ⟨1, 1, [1]⟩
    activate := fun x => x
    activateDerivative := fun _ => 1 }

/-- The 2 x 2 identity layer over the integers: `W = [[1,0],[0,1]]`, `B = [0,0]`,
identity activation. -/
def identityLayer2 : Layer Int :=
  { inputSize := 2
    neuronCount := 2
    W := ⟨2, 2, [1, 0, 0, 1]⟩
    B := ⟨2, 1, [0, 0]⟩
    Z := ⟨2, 1, [0, 0]⟩
    A := ⟨2, 1, [0, 0]⟩
    lastInput := ⟨2, 1, [0, 0]⟩
    activate := fun x => x
    activateDerivative := fun _ => 1 }

/-- The layers listed from last to first are ready for a backward pass started
with a gradient of `m` rows: every layer is shaped with shaped caches, the first
listed has `m` neurons and each next one has as many neurons as the one listed
before it has inputs. -/
def BackChain {R : Type} : List (Layer R) → Nat → Prop
  | [], _ => True
  | l :: rs, m => l.Shaped ∧ l.Cached ∧ l.neuronCount = m ∧ BackChain rs l.inputSize

/-- A network of one 1 x 1 layer over the integers, after a forward pass on `[1]`. -/
def unitNetwork : NeuralNetwork Int := { layers := [unitLayer] }

/-- The file format in the words of the specification: per layer in network
order, the values of `W` row-major followed by the values of `B`; no header. -/
def payload {R : Type} : List (Layer R) → File R
  | [] => []
  | l :: ls => l.W.data ++ l.B.data ++ payload ls

/-- A one-layer network over the integers with `W = [5]` and `B = [7]`. -/
def trainedNetwork : NeuralNetwork Int :=
  { layers := [{ unitLayer with W := ⟨1, 1, [5]⟩, B := ⟨1, 1, [7]⟩ }] }

/-- The network `NeuralNetwork::NeuralNetwork` builds from the widths `[1, 1]` when
every random draw is `0` (each fresh weight is then `-1 + 0 * (1 - -1) = -1`). -/
def freshNetwork : NeuralNetwork Int :=
  { layers := [Layer.ctor 1 1 (fun x => x) (fun _ => 1) (fun _ _ => 0) 0 0] }

/-! ### Supervised trainer (`Training.cpp`) -/

/-- `Training::trainEpoch`.  An exception leaves the loop: once the state holds an
error the remaining iterations do nothing. -/
def Training.trainEpoch {R : Type} [Zero R] [One R] [Add R] [Sub R] [Mul R]
    (network : NeuralNetwork R) (inputs targets : List (Matrix R)) (learningRate : R) :
    Except Error Unit × NeuralNetwork R :=
  if inputs.length ≠ targets.length then (.error Error.sizeMismatch, network)
  else forLoop inputs.length
    (fun i st =>
      match st with
      | (.error e, net) => (.error e, net)
      | (.ok (), net) =>
        match inputs[i]?, targets[i]? with
        | some input, some target =>
          match net.forward input with
          | (.error e, net1) => (.error e, net1)
          | (.ok _, net1) => net1.backward target learningRate
        | _, _ => (.ok (), net) -- not reached: `i < inputs.size() == targets.size()`
      )
    (.ok (), network)

/-- `Training::meanSquaredError`. -/
def Training.meanSquaredError {R : Type} [Zero R] [Add R] [Sub R] [Mul R] [Div R] [NatCast R]
    (predicted target : Matrix R) : Except Error R :=
  if predicted.rows ≠ target.rows ∨ predicted.cols ≠ target.cols then
    .error Error.predictedSize
  else
    let sum := forLoop predicted.rows
      (fun r sum => forLoop predicted.cols
        (fun c sum =>
          let diff := predicted.get r c - target.get r c
          sum + diff * diff)
        sum)
      (0 : R)
    .ok (sum / ((predicted.rows * predicted.cols : Nat) : R))

/-- The verbose loop of `Training::train`:
`for (i < inputs.size()) totalError += meanSquaredError(network.forward(inputs[i]), targets[i])`. -/
def Training.totalError {R : Type} [Zero R] [One R] [Add R] [Sub R] [Mul R] [Div R] [NatCast R]
    (network : NeuralNetwork R) (inputs targets : List (Matrix R)) :
    Except Error R × NeuralNetwork R :=
  forLoop inputs.length
    (fun i st =>
      match st with
      | (.error e, net) => (.error e, net)
      | (.ok totalError, net) =>
        match inputs[i]?, targets[i]? with
        | some input, some target =>
          match net.forward input with
          | (.error e, net1) => (.error e, net1)
          | (.ok pred, net1) =>
            match Training.meanSquaredError pred target with
            | .error e => (.error e, net1)
            | .ok mse => (.ok (totalError + mse), net1)
        | _, _ => (.ok totalError, net) -- not reached
      )
    (.ok 0, network)

/-- `Training::train`.  The third component is what the verbose branch prints:
the mean error of every epoch. -/
def Training.train {R : Type} [Zero R] [One R] [Add R] [Sub R] [Mul R] [Div R] [NatCast R]
    (network : NeuralNetwork R) (inputs targets : List (Matrix R)) (learningRate : R)
    (epochs : Nat) (verbose : Bool) : Except Error Unit × NeuralNetwork R × List R :=
  forLoop epochs
    (fun _ st =>
      match st with
      | (.error e, net, log) => (.error e, net, log)
      | (.ok (), net, log) =>
        match Training.trainEpoch net inputs targets learningRate with
        | (.error e, net1) => (.error e, net1, log)
        | (.ok (), net1) =>
          if verbose then
            match Training.totalError net1 inputs targets with
            | (.error e, net2) => (.error e, net2, log)
            | (.ok totalError, net2) =>
              (.ok (), net2, log ++ [totalError / ((inputs.length : Nat) : R)])
          else (.ok (), net1, log))
    (.ok (), network, [])

/-- The epoch in the words of the specification: for each paired sample in
order, `Network.forward` then `Network.backward`. -/
def trainPairs {R : Type} [Zero R] [One R] [Add R] [Sub R] [Mul R] (learningRate : R) :
    List (Matrix R × Matrix R) → NeuralNetwork R → Except Error Unit × NeuralNetwork R
  | [], net => (.ok (), net)
  | (input, target) :: rest, net =>
    match net.forward input with
    | (.error e, net1) => (.error e, net1)
    | (.ok _, net1) =>
      match net1.backward target learningRate with
      | (.error e, net2) => (.error e, net2)
      | (.ok (), net2) => trainPairs learningRate rest net2

/-! ### Evolutionary trainer (`train.cpp`) -/

/-- `evaluateNetworkSafe`.  `coin i` is the value of `coin(rng)` in iteration `i`, and
`playFullGame i x o` is what the `playFullGame(x, o)` call of iteration `i`
returns: `'X'` when the first argument wins, `'O'` when the second wins, `'D'`
for a draw. -/
def evaluateNetworkSafe {N R : Type} [Zero R] [Add R] [OfScientific R]
    (playFullGame : Nat → N → N → Char) (coin : Nat → Nat) (nn opponent : N) (games : Nat) : R :=
  forLoop games
    (fun i score =>
      let winner := if coin i = 0 then playFullGame i nn opponent
        else playFullGame i opponent nn
      if winner = 'X' then score + 1.0
      else if winner = 'D' then score + 0.5
      else score)
    (0 : R)

/-- The fitness in the words of the specification: `1.0` per game `nn` won, `0.5`
per drawn game, nothing per game `nn` lost, whichever side `nn` played. -/
def fitnessOf {N R : Type} [Zero R] [Add R] [OfScientific R]
    (playFullGame : Nat → N → N → Char) (coin : Nat → Nat) (nn opponent : N) (games : Nat) : R :=
  forLoop games
    (fun i score =>
      if coin i = 0 then
        (if playFullGame i nn opponent = 'X' then score + 1.0
          else if playFullGame i nn opponent = 'D' then score + 0.5
          else score)
      else
        (if playFullGame i opponent nn = 'O' then score + 1.0
          else if playFullGame i opponent nn = 'D' then score + 0.5
          else score))
    (0 : R)

/-- The random generators of the breeding phase, as operations on a state `S`:
`next` is the raw draw that picks the parent (`rng_main()` in
`evolutionaryTrainingAllVsAll`, `rand()` in `evolutionaryTraining`) and `uniform`
is `dist(rng)` for `uniform_real_distribution<double>(-1.0, 1.0)`. -/
structure RandomSource (S R : Type) where
  next : S → Nat × S
  uniform : S → R × S

/-- The nested loop `for i, j: M(i,j) += dist(rng) * mutationRate` that
`mutateNetwork` runs over `W` and then over `B` of every layer. -/
def noiseLoop {S R : Type} [Zero R] [Add R] [Mul R] (rng : RandomSource S R)
    (mutationRate : R) (m : Matrix R) (s : S) : Matrix R × S :=
  forLoop m.rows
    (fun i st => forLoop m.cols
      (fun j st =>
        ((st.1.set i j (st.1.get i j + (rng.uniform st.2).1 * mutationRate)),
          (rng.uniform st.2).2))
      st)
    (m, s)

/-- The loop `for (auto& layer : nn.layers)` of `mutateNetwork`. -/
def mutateLayers {S R : Type} [Zero R] [Add R] [Mul R] (rng : RandomSource S R)
    (mutationRate : R) : List (Layer R) → S → List (Layer R) × S
  | [], s => ([], s)
  | layer :: rest, s =>
    let w := noiseLoop rng mutationRate layer.W s
    let b := noiseLoop rng mutationRate layer.B w.2
    let r := mutateLayers rng mutationRate rest b.2
    ({ layer with W := w.1, B := b.1 } :: r.1, r.2)

/-- `mutateNetwork`. -/
def mutateNetwork {S R : Type} [Zero R] [Add R] [Mul R] (rng : RandomSource S R)
    (nn : NeuralNetwork R) (mutationRate : R) (s : S) : NeuralNetwork R × S :=
  ({ layers := (mutateLayers rng mutationRate nn.layers s).1 },
    (mutateLayers rng mutationRate nn.layers s).2)

/-- Undefined behaviour the breeding phase can run into. -/
inductive Fault where
  /-- `v[i]` with `i >= v.size()`. -/
  | outOfRange
  /-- `x % 0`. -/
  | divisionByZero
  deriving DecidableEq, Repr

/-- The adaptive mutation rate of generation `g`:
`baseMutation - (baseMutation - finalMutation) * (g / double(generations))` with
`baseMutation = 0.2` and `finalMutation = 0.01`. -/
def mutationRate {R : Type} [Sub R] [Mul R] [Div R] [NatCast R] [OfScientific R]
    (g generations : Nat) : R :=
  let baseMutation : R := 0.2
  let finalMutation : R := 0.01
  baseMutation - (baseMutation - finalMutation) * ((g : R) / (generations : R))

/-- The comparator of the ranking step: `a.second > b.second`. -/
def byFitness {R : Type} [LT R] [DecidableRel (fun a b : R => a < b)]
    (a b : Nat × R) : Bool :=
  decide (a.2 > b.2)

/-- Elite selection:
`for (i < eliteCount) newPopulation.push_back(population[fitnessScores[i].first])`. -/
def selectElites {N R : Type} (population : List N) (fitnessScores : List (Nat × R))
    (eliteCount : Nat) : Except Fault (List N) :=
  forLoop eliteCount
    (fun i acc =>
      match acc with
      | .error f => .error f
      | .ok newPopulation =>
        match fitnessScores[i]? with
        | none => .error Fault.outOfRange
        | some entry =>
          match population[entry.1]? with
          | none => .error Fault.outOfRange
          | some nn => .ok (newPopulation ++ [nn]))
    (.ok [])

/-- Breeding: `while (newPopulation.size() < populationSize)` pick
`parentIndex = next % eliteCount`, copy `newPopulation[parentIndex]`, mutate the
copy and push it. -/
def breedLoop {S R : Type} [Zero R] [Add R] [Mul R] (rng : RandomSource S R)
    (populationSize eliteCount : Nat) (rate : R)
    (newPopulation : List (NeuralNetwork R)) (s : S) :
    Except Fault (List (NeuralNetwork R) × S) :=
  if newPopulation.length < populationSize then
    if eliteCount = 0 then .error Fault.divisionByZero
    else
      let parentIndex := (rng.next s).1 % eliteCount
      match newPopulation[parentIndex]? with
      | none => .error Fault.outOfRange
      | some parent =>
        let child := mutateNetwork rng parent rate (rng.next s).2
        breedLoop rng populationSize eliteCount rate (newPopulation ++ [child.1]) child.2
  else .ok (newPopulation, s)
termination_by populationSize - newPopulation.length
decreasing_by
  simp only [List.length_append, List.length_singleton]
  omega

/-- The rank, select and breed steps of one generation, shared by
`evolutionaryTrainingAllVsAll` and `evolutionaryTraining`: sort the fitness table
with `std::sort` and the comparator `byFitness`, copy the elites, breed the rest
with the mutation rate of generation `g`.  `stdSort` stands for the library's
`std::sort`; `fitnessScores` is the table the evaluation phase filled. -/
def rankSelectBreed {S R : Type} [Zero R] [Add R] [Sub R] [Mul R] [Div R] [NatCast R]
    [OfScientific R] [LT R] [DecidableRel (fun a b : R => a < b)]
    (stdSort : (Nat × R → Nat × R → Bool) → List (Nat × R) → List (Nat × R))
    (rng : RandomSource S R) (population : List (NeuralNetwork R))
    (fitnessScores : List (Nat × R)) (populationSize eliteCount g generations : Nat) (s : S) :
    Except Fault (List (NeuralNetwork R) × S) :=
  let ranked := stdSort byFitness fitnessScores
  match selectElites population ranked eliteCount with
  | .error f => .error f
  | .ok newPopulation =>
    breedLoop rng populationSize eliteCount (mutationRate g generations) newPopulation s

/-- What the C++ standard requires of a comparator: a strict weak ordering. -/
def StrictWeak {α : Type} (comp : α → α → Bool) : Prop :=
  (∀ a, comp a a = false) ∧
  (∀ a b c, comp a b = true → comp b c = true → comp a c = true) ∧
  (∀ a b c, comp a b = false → comp b a = false → comp b c = false → comp c b = false →
    comp a c = false ∧ comp c a = false)

/-- What the C++ standard guarantees of `std::sort`, and all it guarantees: for a
strict weak ordering the result is a rearrangement of the input in which no
element precedes, in the sense of `comp`, one that stands before it. -/
def StdSortContract {α : Type} (sort : (α → α → Bool) → List α → List α) : Prop :=
  ∀ comp l, StrictWeak comp →
    (sort comp l).Perm l ∧ (sort comp l).Pairwise (fun a b => comp b a = false)

/-- A sort is stable on `l` when elements that `comp` does not order keep their
relative order: the result restricted to any class of equivalent elements is the
input restricted to it. -/
def StableOn {α : Type} (sort : (α → α → Bool) → List α → List α)
    (comp : α → α → Bool) (l : List α) : Prop :=
  ∀ x, (sort comp l).filter (fun a => !comp a x && !comp x a)
    = l.filter (fun a => !comp a x && !comp x a)

/-- A sort that meets the contract of `std::sort` and is not stable: insertion
sort of the reversed input. -/
def reversingSort {α : Type} (comp : α → α → Bool) (l : List α) : List α :=
  l.reverse.insertionSort (fun a b => comp b a = false)

/-- `child` is `parent` with every entry moved by a noise draw times `rate`, hence
by at most `rate`; the shape is the parent's. -/
def Matrix.Perturbed {S R : Type} [LinearOrderedField R] (rng : RandomSource S R) (rate : R)
    (parent child : Matrix R) : Prop :=
  child.HasShape parent.rows parent.cols ∧
  ∀ i j, i < parent.rows → j < parent.cols →
    (∃ s, child.get i j = parent.get i j + (rng.uniform s).1 * rate) ∧
    |child.get i j - parent.get i j| ≤ rate

/-- `child` is a mutated clone of `parent`: layer by layer, `W` and `B` are
perturbed by at most `rate` per entry and everything else is copied. -/
def MutatedClone {S R : Type} [LinearOrderedField R] (rng : RandomSource S R) (rate : R)
    (parent child : NeuralNetwork R) : Prop :=
  List.Forall₂
    (fun p c : Layer R =>
      Matrix.Perturbed rng rate p.W c.W ∧ Matrix.Perturbed rng rate p.B c.B ∧
      c.inputSize = p.inputSize ∧ c.neuronCount = p.neuronCount ∧
      c.Z = p.Z ∧ c.A = p.A ∧ c.lastInput = p.lastInput ∧
      c.activate = p.activate ∧ c.activateDerivative = p.activateDerivative)
    parent.layers child.layers

/-- A generator over the integers as state: the state itself is the raw draw and
every noise draw is `1/2`. -/
def counterSource : RandomSource Nat ℚ :=
  { next := fun s => (s, s + 1)
    uniform := fun s => (1 / 2, s + 1) }

/-- The network `trainedNetwork` over the rationals: one 1 x 1 layer, `W = [5]`,
`B = [7]`. -/
def rationalNetwork : NeuralNetwork ℚ :=
  { layers := [{ inputSize := 1, neuronCount := 1, W := ⟨1, 1, [5]⟩, B := ⟨1, 1, [7]⟩,
                 Z := ⟨1, 1, [0]⟩, A := ⟨1, 1, [0]⟩, lastInput := ⟨1, 1, [0]⟩,
                 activate := fun x => x, activateDerivative := fun _ => 1 }] }

/-- Two layers that differ at most in their caches `Z`, `A` and `lastInput`. -/
def Layer.SameModel {R : Type} (a b : Layer R) : Prop :=
  a.inputSize = b.inputSize ∧ a.neuronCount = b.neuronCount ∧ a.W = b.W ∧ a.B = b.B ∧
    a.activate = b.activate ∧ a.activateDerivative = b.activateDerivative

/-- The dimensions `(W.rows, W.cols, B.rows, B.cols)` of every layer. -/
def shapes {R : Type} (ls : List (Layer R)) : List (Nat × Nat × Nat × Nat) :=
  ls.map (fun l => (l.W.rows, l.W.cols, l.B.rows, l.B.cols))

/-- The shape of what `NeuralNetwork::forward` returns on an input of shape
`(xr, xc)`, computed from the dimensions of the layers alone; `none` when one of
the guards of `operator*` or `operator+` throws. -/
def forwardShape : List (Nat × Nat × Nat × Nat) → Nat × Nat → Option (Nat × Nat)
  | [], sh => some sh
  | (wr, wc, br, bc) :: rest, (xr, xc) =>
    if wc = xr ∧ wr = br ∧ xc = bc then forwardShape rest (wr, xc) else none

/-- The sample's squared error: the sum over all positions of the squared
difference between `out` and `y`. -/
def squaredError {R : Type} [Zero R] [Add R] [Sub R] [Mul R] (out y : Matrix R) : R :=
  forLoop (y.rows * y.cols)
    (fun i sum =>
      sum + (out.data.getD i 0 - y.data.getD i 0) * (out.data.getD i 0 - y.data.getD i 0))
    (0 : R)

/-- The backward pass over the layers listed from first to last: the layers
behind the first are processed before it, and the gradient the first layer
returns is kept.  `NeuralNetwork::backward` is this pass with the last gradient
dropped. -/
def backProp {R : Type} [Zero R] [One R] [Add R] [Sub R] [Mul R] (learningRate : R) :
    List (Layer R) → Matrix R → Except Error (Matrix R) × List (Layer R)
  | [], g => (.ok g, [])
  | l :: rest, g =>
    match backProp learningRate rest g with
    | (.error e, rest1) => (.error e, l :: rest1)
    | (.ok g1, rest1) =>
      match l.backward g1 learningRate with
      | (.error e, l1) => (.error e, l1 :: rest1)
      | (.ok g0, l1) => (.ok g0, l1 :: rest1)

/-- The squared length of the last layer's `dC_dZ` for the output gradient `g`:
the sum of `(g(i) * activateDerivative(Z(i)))^2`. -/
def lastDeltaSq {R : Type} [CommRing R] : List (Layer R) → Matrix R → R
  | [], _ => 0
  | [l], g => ∑ i in Finset.range l.neuronCount,
      (g.get i 0 * l.activateDerivative (l.Z.get i 0)) ^ 2
  | _ :: l :: rest, g => lastDeltaSq (l :: rest) g


/-- A network of one 1 x 1 layer over the reals: `W = [2]`, `B = [0]`, identity
activation with derivative `1`. -/
def realNetwork : NeuralNetwork ℝ :=
  { layers := [{ inputSize := 1, neuronCount := 1, W := ⟨1, 1, [2]⟩, B := ⟨1, 1, [0]⟩,
                 Z := ⟨1, 1, [0]⟩, A := ⟨1, 1, [0]⟩, lastInput := ⟨1, 1, [0]⟩,
                 activate := fun x => x, activateDerivative := fun _ => 1 }] }

/-! ### The 5 x 5 game (`Large_Tic_Tac_Toe.cpp`) and its players (`train.cpp`) -/

/-- Modelled from the spec: `Move<char>` of `BoardGame_Classes.h`, which is not among
the sources; the argument `(row, col, symbol)` of the Game Adapter's `applyMove`,
read through `get_x()`, `get_y()` and `get_symbol()`. -/
structure Move where
  x : Int
  y : Int
  symbol : Char
  deriving DecidableEq, Repr

/-- The class `Large_XO_Board`.  Modelled from the spec: the members `board` (the
grid, a `vector<vector<char>>`) and `nMoves` (an `int`) it inherits from
`Board<char>` of `BoardGame_Classes.h`, which is not among the sources.  The
private member `emptyCell` is set to `'.'` by the constructor and never assigned
again. -/
structure Large_XO_Board where
  board : List (List Char)
  nMoves : Int
  deriving DecidableEq, Repr

/-- The member `emptyCell`, initialised to `'.'`. -/
def Large_XO_Board.emptyCell : Char := '.'

/-- `Large_XO_Board::Large_XO_Board`: `board.assign(5, vector<char>(5, emptyCell))`.
Modelled from the spec: the base constructor `Board(5, 5)` starts the move
counter at `0`. -/
def Large_XO_Board.ctor : Large_XO_Board :=
  { board := List.replicate 5 (List.replicate 5 Large_XO_Board.emptyCell), nMoves := 0 }

/-- The read `board[r][c]` with `int` indices: undefined when an index is out of
range. -/
def cellAt (board : List (List Char)) (r c : Int) : Except Fault Char :=
  if r < 0 ∨ c < 0 then .error Fault.outOfRange
  else
    match board[r.toNat]? with
    | none => .error Fault.outOfRange
    | some row =>
      match row[c.toNat]? with
      | none => .error Fault.outOfRange
      | some v => .ok v

/-- The write `board[r][c] = v` with `int` indices: undefined when an index is out
of range. -/
def assignCell (board : List (List Char)) (r c : Int) (v : Char) :
    Except Fault (List (List Char)) :=
  if r < 0 ∨ c < 0 then .error Fault.outOfRange
  else
    match board[r.toNat]? with
    | none => .error Fault.outOfRange
    | some row =>
      if c.toNat < row.length then .ok (board.set r.toNat (row.set c.toNat v))
      else .error Fault.outOfRange

/-- `Large_XO_Board::update_board`.  The clearing branch comes first, before the
range check. -/
def Large_XO_Board.update_board (b : Large_XO_Board) (move : Move) :
    Except Fault (Bool × Large_XO_Board) :=
  let r := move.x
  let c := move.y
  let s := move.symbol
  if s = Char.ofNat 0 ∨ s = Large_XO_Board.emptyCell then
    match assignCell b.board r c Large_XO_Board.emptyCell with
    | .error f => .error f
    | .ok board1 => .ok (true, { board := board1, nMoves := b.nMoves - 1 })
  else if r < 0 ∨ r ≥ (b.board.length : Int) ∨ c < 0 ∨ c ≥ ((b.board.headD []).length : Int) then
    .ok (false, b)
  else
    match cellAt b.board r c with
    | .error f => .error f
    | .ok v =>
      if v ≠ Large_XO_Board.emptyCell then .ok (false, b)
      else
        match assignCell b.board r c s with
        | .error f => .error f
        | .ok board1 => .ok (true, { board := board1, nMoves := b.nMoves + 1 })

/-- Modelled from the spec: `Board<char>::get_cell` of `BoardGame_Classes.h`, which is
not among the sources; the Game Adapter's `cellValue(row, col)`, the symbol at
`board[r][c]`.  The callers pass `0 <= r, c < 5`; out of range the value is the
character `0`. -/
def Large_XO_Board.get_cell (b : Large_XO_Board) (r c : Nat) : Char :=
  (b.board.getD r []).getD c (Char.ofNat 0)

/-- `Large_XO_Board::countWin`: the four scans for three equal symbols in a line.
The cells read are `board[r][c]` with `0 <= r, c < 5`. -/
def Large_XO_Board.countWin (b : Large_XO_Board) (sym : Char) : Int :=
  let score : Int := 0
  -- Horizontal
  let score := forLoop 5 (fun r score => forLoop 3 (fun c score =>
      if b.get_cell r c = sym ∧ b.get_cell r (c + 1) = sym ∧ b.get_cell r (c + 2) = sym
      then score + 1 else score) score) score
  -- Vertical
  let score := forLoop 5 (fun c score => forLoop 3 (fun r score =>
      if b.get_cell r c = sym ∧ b.get_cell (r + 1) c = sym ∧ b.get_cell (r + 2) c = sym
      then score + 1 else score) score) score
  -- Diagonal: top-left to bottom-right
  let score := forLoop 3 (fun r score => forLoop 3 (fun c score =>
      if b.get_cell r c = sym ∧ b.get_cell (r + 1) (c + 1) = sym
        ∧ b.get_cell (r + 2) (c + 2) = sym
      then score + 1 else score) score) score
  -- Diagonal: top-right to bottom-left; the loop `for (c = 2; c < 5; ++c)` runs `c = k + 2`
  let score := forLoop 3 (fun r score => forLoop 3 (fun k score =>
      let c := k + 2
      if b.get_cell r c = sym ∧ b.get_cell (r + 1) (c - 1) = sym
        ∧ b.get_cell (r + 2) (c - 2) = sym
      then score + 1 else score) score) score
  score

/-- `Large_XO_Board::countTotal`. -/
def Large_XO_Board.countTotal (b : Large_XO_Board) : Int :=
  b.countWin 'X' + b.countWin 'O'

/-- `Large_XO_Board::is_win`; `symbol` is `player->get_symbol()`. -/
def Large_XO_Board.is_win (b : Large_XO_Board) (symbol : Char) : Bool :=
  decide (2 * b.countWin symbol > b.countTotal) && decide (b.nMoves = 24)

/-- `Large_XO_Board::is_lose`; `symbol` is `player->get_symbol()`. -/
def Large_XO_Board.is_lose (b : Large_XO_Board) (symbol : Char) : Bool :=
  decide (2 * b.countWin symbol < b.countTotal) && decide (b.nMoves = 24)

/-- `Large_XO_Board::is_draw`; `symbol` is `player->get_symbol()`. -/
def Large_XO_Board.is_draw (b : Large_XO_Board) (symbol : Char) : Bool :=
  decide (2 * b.countWin symbol = b.countTotal) && decide (b.nMoves = 24)

/-- `Large_XO_Board::game_is_over`. -/
def Large_XO_Board.game_is_over (b : Large_XO_Board) : Bool :=
  decide (b.nMoves = 24)

/-- `encodeBoard` of `train.cpp`: a vector of 25 zeros, then
`input[r*5+c] = (cell==ai ? 1.0 : (cell=='.' ? 0.0 : -1.0))`. -/
def encodeBoard {R : Type} [Zero R] [One R] [Neg R] (board : Large_XO_Board) (ai : Char) :
    List R :=
  forLoop 5 (fun r input => forLoop 5 (fun c input =>
      let cell := board.get_cell r c
      input.set (r * 5 + c) (if cell = ai then 1 else (if cell = '.' then 0 else -1)))
    input) (List.replicate 25 0)

/-- The first loop of `Large_XO_UI::bestMove`: a vector of 25 zeros, then per cell one
of the three assignments `input[r*5+c] = 1.0`, `= 0.0`, `= -1.0`. -/
def bestMoveInput {R : Type} [Zero R] [One R] [Neg R] (board : Large_XO_Board) (ai : Char) :
    List R :=
  forLoop 5 (fun r input => forLoop 5 (fun c input =>
      let cell := board.get_cell r c
      if cell = ai then input.set (r * 5 + c) 1
      else if cell = '.' then input.set (r * 5 + c) 0
      else input.set (r * 5 + c) (-1))
    input) (List.replicate 25 0)

/-- The search loop of `pickMoveFromNN` and of `Large_XO_UI::bestMove`: `bestScore`
starts at `-1e9` and `move` at `{-1, -1}`; an empty cell whose score is greater
than `bestScore` replaces both. -/
def bestCell {R : Type} [Zero R] [Neg R] [NatCast R] [LT R]
    [DecidableRel (fun a b : R => a < b)] (board : Large_XO_Board) (output : Matrix R) :
    R × (Int × Int) :=
  forLoop 5 (fun r st => forLoop 5 (fun c st =>
      let index := r * 5 + c
      if board.get_cell r c = '.' ∧ st.1 < output.get index 0 then
        (output.get index 0, ((r : Int), (c : Int)))
      else st)
    st) (-((1000000000 : Nat) : R), ((-1 : Int), (-1 : Int)))

/-- The list `emptyCells` the fallback of `pickMoveFromNN` collects. -/
def emptyCells (board : Large_XO_Board) : List (Int × Int) :=
  forLoop 5 (fun r cells => forLoop 5 (fun c cells =>
      if board.get_cell r c = '.' then cells ++ [((r : Int), (c : Int))] else cells)
    cells) []

/-- How a call can end other than by returning: an exception, or undefined
behaviour. -/
inductive Abort where
  | thrown (e : Error)
  | undefined (f : Fault)
  deriving DecidableEq, Repr

/-- The decoding part of `pickMoveFromNN`, from `double bestScore = -1e9` on.
`dist hi s` is the draw of `uniform_int_distribution<int>(0, hi)` from the
generator in state `s`, with the state it leaves.  With no empty cell the bounds
`(0, -1)` of the distribution are undefined. -/
def decodeMove {S R : Type} [Zero R] [Neg R] [NatCast R] [LT R]
    [DecidableRel (fun a b : R => a < b)] (dist : Nat → S → Nat × S)
    (board : Large_XO_Board) (output : Matrix R) (rng : S) : Except Fault ((Int × Int) × S) :=
  let move := (bestCell board output).2
  if move.1 = -1 then
    let cells := emptyCells board
    if cells.length = 0 then .error Fault.outOfRange
    else
      let d := dist (cells.length - 1) rng
      match cells[d.1]? with
      | none => .error Fault.outOfRange
      | some m => .ok (m, d.2)
  else .ok (move, rng)

/-- `pickMoveFromNN`.  The network is passed by reference: `predict` leaves its caches
in it. -/
def pickMoveFromNN {S R : Type} [Zero R] [One R] [Add R] [Mul R] [Neg R] [NatCast R] [LT R]
    [DecidableRel (fun a b : R => a < b)] (dist : Nat → S → Nat × S)
    (nn : NeuralNetwork R) (board : Large_XO_Board) (ai : Char) (rng : S) :
    Except Abort ((Int × Int) × NeuralNetwork R × S) :=
  let inputVec : List R := encodeBoard board ai
  match Matrix.ofValues inputVec 25 1 with
  | .error e => .error (Abort.thrown e)
  | .ok input =>
    match nn.predict input with
    | (.error e, _) => .error (Abort.thrown e)
    | (.ok output, nn1) =>
      match decodeMove dist board output rng with
      | .error f => .error (Abort.undefined f)
      | .ok (move, rng1) => .ok (move, nn1, rng1)

/-- `Large_XO_UI::bestMove`, with `board` and `ai` read from the player: the same
encoding and search as `pickMoveFromNN`, without the fallback. -/
def bestMove {R : Type} [Zero R] [One R] [Add R] [Mul R] [Neg R] [NatCast R] [LT R]
    [DecidableRel (fun a b : R => a < b)] (nn : NeuralNetwork R) (board : Large_XO_Board)
    (ai : Char) : Except Error (Int × Int) × NeuralNetwork R :=
  let input : List R := bestMoveInput board ai
  match Matrix.ofValues input 25 1 with
  | .error e => (.error e, nn)
  | .ok inputMatrix =>
    match nn.predict inputMatrix with
    | (.error e, nn1) => (.error e, nn1)
    | (.ok output, nn1) => (.ok (bestCell board output).2, nn1)

/-- The variables of `playFullGame`: the board, the player to move, the generator
and the two networks (copies, as they are passed by value). -/
structure PlayState (S R : Type) where
  board : Large_XO_Board
  currentPlayer : Char
  rng : S
  NN1 : NeuralNetwork R
  NN2 : NeuralNetwork R

/-- The state in which `playFullGame` enters its loop: a fresh board, `'X'` to move. -/
def playStart {S R : Type} (NN1 NN2 : NeuralNetwork R) (seed : S) : PlayState S R :=
  { board := Large_XO_Board.ctor, currentPlayer := 'X', rng := seed, NN1 := NN1, NN2 := NN2 }

/-- The body of the `while` loop of `playFullGame`.  The value `update_board` returns
is not looked at. -/
def playStep {S R : Type} [Zero R] [One R] [Add R] [Mul R] [Neg R] [NatCast R] [LT R]
    [DecidableRel (fun a b : R => a < b)] (dist : Nat → S → Nat × S) (st : PlayState S R) :
    Except Abort (PlayState S R) :=
  let picked : Except Abort ((Int × Int) × PlayState S R) :=
    if st.currentPlayer = 'X' then
      match pickMoveFromNN dist st.NN1 st.board 'X' st.rng with
      | .error a => .error a
      | .ok (move, nn1, rng1) => .ok (move, { st with NN1 := nn1, rng := rng1 })
    else
      match pickMoveFromNN dist st.NN2 st.board 'O' st.rng with
      | .error a => .error a
      | .ok (move, nn2, rng1) => .ok (move, { st with NN2 := nn2, rng := rng1 })
  match picked with
  | .error a => .error a
  | .ok (move, st1) =>
    match st1.board.update_board ⟨move.1, move.2, st1.currentPlayer⟩ with
    | .error f => .error (Abort.undefined f)
    | .ok (_, board1) =>
      .ok { st1 with board := board1
                     currentPlayer := if st1.currentPlayer = 'X' then 'O' else 'X' }

/-- The loop `while(!board.game_is_over(nullptr)) body`, run for at most `fuel`
iterations: `none` when the loop is still running after them. -/
def playLoop {S R : Type} [Zero R] [One R] [Add R] [Mul R] [Neg R] [NatCast R] [LT R]
    [DecidableRel (fun a b : R => a < b)] (dist : Nat → S → Nat × S) :
    Nat → PlayState S R → Except Abort (Option (PlayState S R))
  | 0, st => if st.board.game_is_over then .ok (some st) else .ok none
  | fuel + 1, st =>
    if st.board.game_is_over then .ok (some st)
    else
      match playStep dist st with
      | .error a => .error a
      | .ok st1 => playLoop dist fuel st1

/-- The last lines of `playFullGame`: the symbol with more lines of three, `'D'` on
a tie. -/
def winnerOf (board : Large_XO_Board) : Char :=
  let xScore := board.countWin 'X'
  let oScore := board.countWin 'O'
  if xScore > oScore then 'X'
  else if oScore > xScore then 'O'
  else 'D'

/-- `playFullGame`, the loop run for at most `fuel` iterations; `seed` is the state in
which the generator `rng`, seeded from `random_device`, starts. -/
def playFullGame {S R : Type} [Zero R] [One R] [Add R] [Mul R] [Neg R] [NatCast R] [LT R]
    [DecidableRel (fun a b : R => a < b)] (dist : Nat → S → Nat × S) (fuel : Nat)
    (NN1 NN2 : NeuralNetwork R) (seed : S) : Except Abort (Option Char) :=
  match playLoop dist fuel (playStart NN1 NN2 seed) with
  | .error a => .error a
  | .ok none => .ok none
  | .ok (some st) => .ok (some (winnerOf st.board))

/-- The number of cells of the grid that satisfy `p`. -/
def countCells (p : Char → Bool) (board : List (List Char)) : Nat :=
  (board.map (fun row => row.countP p)).sum

/-- The data invariant of the grid: 5 rows of 5 cells. -/
def Grid5 (board : List (List Char)) : Prop :=
  board.length = 5 ∧ ∀ row, row ∈ board → row.length = 5

instance (board : List (List Char)) : Decidable (Grid5 board) :=
  inferInstanceAs (Decidable (_ ∧ _))

/-- The state after `k` iterations of the body of the loop of `playFullGame`, the
loop condition left aside. -/
def playSteps {S R : Type} [Zero R] [One R] [Add R] [Mul R] [Neg R] [NatCast R] [LT R]
    [DecidableRel (fun a b : R => a < b)] (dist : Nat → S → Nat × S) :
    Nat → PlayState S R → Except Abort (PlayState S R)
  | 0, st => .ok st
  | k + 1, st =>
    match playStep dist st with
    | .error a => .error a
    | .ok st1 => playSteps dist k st1

/-- What holds of the variables of `playFullGame` after `k` iterations: the grid is
5 x 5, the move count is `k`, `'X'` has made `ceil(k/2)` moves and `'O'` has
made `floor(k/2)`, `25 - k` cells are empty, `'X'` is to move exactly when `k` is
even, and both networks take 25 inputs and return 25 scores. -/
def PlayInv {S R : Type} (k : Nat) (st : PlayState S R) : Prop :=
  Grid5 st.board.board ∧ st.board.nMoves = (k : Int) ∧
  countCells (fun v => v == 'X') st.board.board = (k + 1) / 2 ∧
  countCells (fun v => v == 'O') st.board.board = k / 2 ∧
  countCells (fun v => v == '.') st.board.board = 25 - k ∧
  st.currentPlayer = (if k % 2 = 0 then 'X' else 'O') ∧
  (Chain st.NN1.layers 25 ∧ outSize st.NN1.layers 25 = 25) ∧
  (Chain st.NN2.layers 25 ∧ outSize st.NN2.layers 25 = 25)

/-- A score vector whose 25 entries are all finite and all below `-1e9`: `-3e9` for
the cell `(0, 0)` and `-2e9` for every other cell. -/
def sentinelScores : Matrix Int :=
  ⟨25, 1, (-3000000000) :: List.replicate 24 (-2000000000)⟩

/-- A network of widths `[25, 1, 25]` over the integers whose output is
`sentinelScores` on every input: both `W` are zero, the last `B` is
`sentinelScores`, the activation is the identity. -/
def sentinelNetwork : NeuralNetwork Int :=
  { layers := [{ inputSize := 25, neuronCount := 1,
                 W := ⟨1, 25, List.replicate 25 0⟩, B := ⟨1, 1, [0]⟩,
                 Z := ⟨1, 1, [0]⟩, A := ⟨1, 1, [0]⟩,
                 lastInput := ⟨25, 1, List.replicate 25 0⟩,
                 activate := fun x => x, activateDerivative := fun _ => 1 },
               { inputSize := 1, neuronCount := 25,
                 W := ⟨25, 1, List.replicate 25 0⟩, B := sentinelScores,
                 Z := ⟨25, 1, List.replicate 25 0⟩, A := ⟨25, 1, List.replicate 25 0⟩,
                 lastInput := ⟨1, 1, [0]⟩,
                 activate := fun x => x, activateDerivative := fun _ => 1 }] }

/-- A finished game: 24 moves made, the cell `(4, 4)` left empty. -/
def finishedBoard : Large_XO_Board :=
  { board := [['X', 'O', 'X', 'O', 'X'], ['O', 'X', 'O', 'X', 'O'], ['X', 'O', 'X', 'O', 'X'],
              ['O', 'X', 'O', 'X', 'O'], ['X', 'X', 'O', 'O', '.']],
    nMoves := 24 }

/-! ### The evaluation phase of the trainers (`train.cpp`) -/

/-- `int perThread = (populationSize + numThreads - 1) / numThreads`. -/
def perThread (populationSize numThreads : Nat) : Nat :=
  (populationSize + numThreads - 1) / numThreads

/-- The bounds of worker `t`: `start = t*perThread` and
`end = min(start + perThread, populationSize)`. -/
def workerRange (populationSize numThreads t : Nat) : Nat × Nat :=
  let start := t * perThread populationSize numThreads
  (start, min (start + perThread populationSize numThreads) populationSize)

/-- The loop `for (int i = start; i < end; i++) s = body(i, s)`. -/
def rangeLoop {σ : Type} (start stop : Nat) (body : Nat → σ → σ) (s : σ) : σ :=
  forLoop (stop - start) (fun k s => body (start + k) s) s

/-- The body of worker `t`: for every `i` of its range, `fitnessScores[i] = (i, score)`
under the lock.  `score t i` is the score the worker computes for network `i`
(the games it plays draw from the worker's own generator). -/
def worker {R : Type} (populationSize numThreads : Nat) (score : Nat → Nat → R) (t : Nat)
    (fitnessScores : List (Nat × R)) : List (Nat × R) :=
  rangeLoop (workerRange populationSize numThreads t).1
    (workerRange populationSize numThreads t).2
    (fun i fs => fs.set i (i, score t i)) fitnessScores

/-- The evaluation phase with the workers run one after the other, in the order
they are started: `fitnessScores(populationSize)` filled by the workers
`t = 0, ..., numThreads - 1`. -/
def evaluationPhase {R : Type} [Zero R] (populationSize numThreads : Nat)
    (score : Nat → Nat → R) : List (Nat × R) :=
  forLoop numThreads (fun t fs => worker populationSize numThreads score t fs)
    (List.replicate populationSize (0, 0))

/-- The writes `fitnessScores[i] = v` of worker `t`, in the order it makes them. -/
def workerWrites {R : Type} (populationSize numThreads : Nat) (score : Nat → Nat → R)
    (t : Nat) : List (Nat × (Nat × R)) :=
  (List.range ((workerRange populationSize numThreads t).2
      - (workerRange populationSize numThreads t).1)).map
    (fun k => ((workerRange populationSize numThreads t).1 + k,
      ((workerRange populationSize numThreads t).1 + k,
        score t ((workerRange populationSize numThreads t).1 + k))))

/-- The writes of all workers, worker after worker. -/
def allWrites {R : Type} (populationSize numThreads : Nat) (score : Nat → Nat → R) :
    List (Nat × (Nat × R)) :=
  forLoop numThreads (fun t ws => ws ++ workerWrites populationSize numThreads score t) []

/-- A sequence of writes `fitnessScores[i] = v` applied in order. -/
def applyWrites {R : Type} (ws : List (Nat × (Nat × R))) (fitnessScores : List (Nat × R)) :
    List (Nat × R) :=
  ws.foldl (fun fs w => fs.set w.1 w.2) fitnessScores

/-! ### The memory game (`Games/Memory_Tic_Tac_Toe/Memory_Tic_Tac_Toe.cpp`) -/

/-- The read `g[r][c]` of a `std::vector<std::vector<T>>`; the callers stay in range. -/
def gridGet {α : Type} (g : List (List α)) (r c : Nat) (d : α) : α :=
  (g.getD r []).getD c d

/-- The write `g[r][c] = v` of a `std::vector<std::vector<T>>`; the callers stay in range. -/
def gridSet {α : Type} (g : List (List α)) (r c : Nat) (v : α) : List (List α) :=
  g.set r ((g.getD r []).set c v)

/-- The class `Memory_Board` of `Memory_Tic_Tac_Toe.h`: the members `revealed_count` and
`revealedMatrix`, with the members `rows`, `columns` and `board` it inherits.
Modelled from the spec: `Board<char>` of `BoardGame_Classes.h` holds `int rows, columns`
and `vector<vector<char>> board`. -/
structure Memory_Board where
  rows : Nat
  columns : Nat
  board : List (List Char)
  revealed_count : Int
  revealedMatrix : List (List Bool)
  deriving DecidableEq, Repr

/-- The member `hidden_symbol = '?'`. -/
def Memory_Board.hidden_symbol : Char := '?'

/-- The constructor `Memory_Board::Memory_Board`: a 3 x 3 board, nothing revealed, every
cell showing the hidden symbol.
Modelled from the spec: the base constructor `Board(3, 3)` sets `rows = columns = 3`
and allocates `board` with `rows` rows of `columns` cells. -/
def Memory_Board.ctor : Memory_Board :=
  let rows := 3
  let columns := 3
  let base : List (List Char) := List.replicate rows (List.replicate columns (Char.ofNat 0))
  { rows := rows, columns := columns
    board := base.map (fun row => row.map (fun _ => Memory_Board.hidden_symbol))
    revealed_count := 0
    revealedMatrix := List.replicate rows (List.replicate columns false) }

/-- The method `Memory_Board::update_board`: rejects a move outside the board; the
action `0` hides a revealed cell (and accepts also when the cell is hidden); any other
action reveals a hidden cell and is rejected on a revealed one.  Returns the `bool`
and the board after the call. -/
def Memory_Board.update_board (b : Memory_Board) (move : Move) : Bool × Memory_Board :=
  let x := move.x
  let y := move.y
  let action := move.symbol
  if x < 0 ∨ x ≥ (b.rows : Int) ∨ y < 0 ∨ y ≥ (b.columns : Int) then (false, b)
  else if action = Char.ofNat 0 then
    if gridGet b.revealedMatrix x.toNat y.toNat false then
      (true, { b with
        revealedMatrix := gridSet b.revealedMatrix x.toNat y.toNat false
        board := gridSet b.board x.toNat y.toNat Memory_Board.hidden_symbol
        revealed_count := b.revealed_count - 1 })
    else (true, b)
  else if !gridGet b.revealedMatrix x.toNat y.toNat false then
    (true, { b with
      revealedMatrix := gridSet b.revealedMatrix x.toNat y.toNat true
      board := gridSet b.board x.toNat y.toNat
        (Char.ofNat ('A'.toNat + (x.toNat * b.columns + y.toNat)))
      revealed_count := b.revealed_count + 1 })
  else (false, b)

/-- The method `Memory_Board::is_win` (the player is not read): the loop over `i` returns
at the first fully revealed row `i` or column `i`, then the two diagonals are tried. -/
def Memory_Board.is_win (b : Memory_Board) : Bool :=
  let revealed := fun (r c : Nat) => gridGet b.revealedMatrix r c false
  let found := forLoop b.rows
    (fun i found =>
      if found then true
      else if revealed i 0 && revealed i 1 && revealed i 2 then true
      else if revealed 0 i && revealed 1 i && revealed 2 i then true
      else false)
    false
  if found then true
  else if revealed 0 0 && revealed 1 1 && revealed 2 2 then true
  else if revealed 0 2 && revealed 1 1 && revealed 2 0 then true
  else false

/-- The method `Memory_Board::is_lose`: always `false`. -/
def Memory_Board.is_lose (_b : Memory_Board) : Bool := false

/-- The method `Memory_Board::is_draw`:
`revealed_count == rows * columns && !is_win(player)`. -/
def Memory_Board.is_draw (b : Memory_Board) : Bool :=
  decide (b.revealed_count = ((b.rows * b.columns : Nat) : Int)) && !b.is_win

/-- The method `Memory_Board::game_is_over`: `is_win(player) || is_draw(player)`. -/
def Memory_Board.game_is_over (b : Memory_Board) : Bool :=
  b.is_win || b.is_draw

/-- The board after a sequence of `update_board` calls, whatever each call returned. -/
def Memory_Board.run (b : Memory_Board) : List Move → Memory_Board
  | [] => b
  | move :: rest => Memory_Board.run (b.update_board move).2 rest

/-- The number of `true` entries of a matrix of flags. -/
def countRevealed (m : List (List Bool)) : Nat :=
  (m.map (fun row => row.countP (fun v => v))).sum

/-- The shape and counter facts kept by every call of `Memory_Board::update_board`: a
3 x 3 board whose `revealedMatrix` has three rows of three flags, and
`revealed_count` equal to the number of `true` flags. -/
def Memory_Board.Inv (b : Memory_Board) : Prop :=
  b.rows = 3 ∧ b.columns = 3 ∧ b.revealedMatrix.length = 3 ∧
  (∀ row, row ∈ b.revealedMatrix → row.length = 3) ∧
  b.revealed_count = (countRevealed b.revealedMatrix : Int)

/-- Nine revealing moves, one for every cell of the 3 x 3 board, row by row. -/
def revealEveryCell : List Move :=
  [⟨0, 0, 'R'⟩, ⟨0, 1, 'R'⟩, ⟨0, 2, 'R'⟩, ⟨1, 0, 'R'⟩, ⟨1, 1, 'R'⟩, ⟨1, 2, 'R'⟩,
   ⟨2, 0, 'R'⟩, ⟨2, 1, 'R'⟩, ⟨2, 2, 'R'⟩]

/-! ### The generator behind `Matrix::random` -/

/-- The C library's generator.  Modelled from the C standard: `std::srand`, `std::rand`
and `RAND_MAX` belong to `<cstdlib>`, not to the sources.  `G` is the generator's
hidden state, `srand seed` the state `std::srand(seed)` leaves, `rand g` the value
`std::rand()` returns in state `g` together with the state it leaves. -/
structure CRand (G : Type) where
  srand : Nat → G
  rand : G → Nat × G
  RAND_MAX : Nat

/-- The generator's state after `n` calls of `std::rand()` from state `g`. -/
def CRand.advance {G : Type} (gen : CRand G) : Nat → G → G
  | 0, g => g
  | n + 1, g => (gen.rand (gen.advance n g)).2

/-- The value of `(double)std::rand() / RAND_MAX` at the `i`-th call after
`std::srand(seed)`. -/
def CRand.unitDraw {G R : Type} [Div R] [NatCast R] (gen : CRand G) (seed i : Nat) : R :=
  (((gen.rand (gen.advance i (gen.srand seed))).1 : Nat) : R) / ((gen.RAND_MAX : Nat) : R)

/-- `Matrix::random` with the generator's state threaded through: `g` is the state
the generator is in when the call is made, `now` the value of `std::time(nullptr)`.
The first statement, `std::srand(static_cast<unsigned int>(std::time(nullptr)))`,
replaces the state; every entry then takes one `std::rand()`.  Returns the matrix
and the state the generator is left in. -/
def Matrix.randomFrom {G R : Type} [Zero R] [One R] [Add R] [Sub R] [Mul R] [Div R] [NatCast R]
    (gen : CRand G) (rows cols : Nat) (min max : R) (now : Nat) (_g : G) : Matrix R × G :=
  let seeded := gen.srand (now % 4294967296)
  forLoop (rows * cols)
    (fun i st =>
      let draw := gen.rand st.2
      ({ st.1 with
          data := st.1.data.set i
            (min + ((draw.1 : R) / ((gen.RAND_MAX : Nat) : R)) * (max - min)) },
        draw.2))
    (Matrix.ctor rows cols true, seeded)

/-- `Layer::Layer` with the generator's state threaded through the two
`Matrix::random` calls, `W` first. -/
def Layer.ctorFrom {G R : Type} [Zero R] [One R] [Add R] [Sub R] [Mul R] [Neg R] [Div R]
    [NatCast R] (gen : CRand G) (inputSize neuronCount : Nat)
    (activation activationDerivative : R → R) (nowW nowB : Nat) (g : G) : Layer R × G :=
  let w := Matrix.randomFrom gen neuronCount inputSize (-1) 1 nowW g
  let b := Matrix.randomFrom gen neuronCount 1 (-1) 1 nowB w.2
  ({ inputSize := inputSize
     neuronCount := neuronCount
     W := w.1
     B := b.1
     Z := Matrix.ctor neuronCount 1 true
     A := Matrix.ctor neuronCount 1 true
     lastInput := Matrix.ctor inputSize 1 true
     activate := activation
     activateDerivative := activationDerivative }, b.2)

/-- `NeuralNetwork::NeuralNetwork` with the generator's state threaded through the
layers; `clock k` is the clock reading at the `k`-th call of `Matrix::random`. -/
def NeuralNetwork.ctorFrom {G R : Type} [Zero R] [One R] [Add R] [Sub R] [Mul R] [Neg R]
    [Div R] [NatCast R] (gen : CRand G) (layerSizes : List Nat)
    (activation activationDerivative : R → R) (clock : Nat → Nat) (g : G) :
    Except Error (NeuralNetwork R) × G :=
  if layerSizes.length < 2 then (.error Error.tooFewLayers, g)
  else
    let built := forLoop (layerSizes.length - 1)
      (fun k st =>
        let i := k + 1
        let l := Layer.ctorFrom gen (layerSizes.getD (i - 1) 0) (layerSizes.getD i 0)
          activation activationDerivative (clock (2 * k)) (clock (2 * k + 1)) st.2
        (st.1 ++ [l.1], l.2))
      (([] : List (Layer R)), g)
    (.ok { layers := built.1 }, built.2)

/-- A generator for the examples: a linear congruential generator on 31 bits whose
state is the last value returned. -/
def lcg : CRand Nat :=
  { srand := fun seed => seed
    rand := fun g => ((g * 1103515245 + 12345) % 2147483648, (g * 1103515245 + 12345) % 2147483648)
    RAND_MAX := 2147483647 }

/-! ### The constructors of `Matrix` on `int` arguments -/

/-- The value of an `int` expression whose exact value is `z`: outside the 32-bit
range the result wraps around.  The language leaves a signed overflow undefined;
wrapping is what the compiled multiplication does. -/
def wrapInt (z : Int) : Int :=
  (z + 2147483648) % 4294967296 - 2147483648

/-- The conversion of an `int` to the 64-bit `size_t`: reduction modulo `2^64`. -/
def toSizeT (z : Int) : Nat :=
  (z % 18446744073709551616).toNat

/-- The value of `std::vector<double>::max_size()`: `PTRDIFF_MAX / sizeof(double)`,
that is `2^60 - 1`. -/
def vectorMaxSize : Nat := 1152921504606846975

/-- What a constructor of `Matrix` throws: a `std::runtime_error` of the sources, or
the `std::length_error` of `std::vector` asked for more than `max_size()` elements. -/
inductive CtorError where
  | runtime (e : Error)
  | lengthError
  deriving DecidableEq, Repr

/-- The members of a `Matrix` object, with `rows` and `cols` the `int`s they are. -/
structure MatrixObject (R : Type) where
  rows : Int
  cols : Int
  data : List R
  deriving DecidableEq, Repr

/-- The object a `Matrix` with natural dimensions stands for. -/
def Matrix.toObject {R : Type} (m : Matrix R) : MatrixObject R :=
  { rows := (m.rows : Int), cols := (m.cols : Int), data := m.data }

/-- `Matrix::Matrix(int rows, int cols, bool zero)` on any two `int`s: the member
initialiser `data(rows * cols, zero ? 0.0 : 1.0)` multiplies in `int`, converts the
product to `size_t` and throws `std::length_error` above `max_size()`.  Running out
of memory is not modelled. -/
def Matrix.ctorInt {R : Type} [Zero R] [One R] (rows cols : Int) (zero : Bool) :
    Except CtorError (MatrixObject R) :=
  let n := toSizeT (wrapInt (rows * cols))
  if n > vectorMaxSize then .error CtorError.lengthError
  else .ok { rows := rows, cols := cols, data := List.replicate n (if zero then 0 else 1) }

/-- `Matrix::Matrix(const std::vector<double>& values, int rows, int cols)` on any two
`int`s: the guard `values.size() != rows * cols` multiplies in `int` and compares
in `size_t`. -/
def Matrix.ofValuesInt {R : Type} (values : List R) (rows cols : Int) :
    Except CtorError (MatrixObject R) :=
  if values.length ≠ toSizeT (wrapInt (rows * cols)) then
    .error (CtorError.runtime Error.vectorSize)
  else .ok { rows := rows, cols := cols, data := values }

/-! ### `double` values that hold integers -/

/-- The number of significant bits of `n`: `0` for `0`, else `floor(log2 n) + 1`,
counted 32 bits at a time while `n` has more than 32.  The first argument bounds
the recursion. -/
def Dbl.bitsAux : Nat → Nat → Nat
  | 0, _ => 0
  | fuel + 1, n =>
    if n = 0 then 0
    else if 4294967296 ≤ n then Dbl.bitsAux fuel (n / 4294967296) + 32
    else Dbl.bitsAux fuel (n / 2) + 1

/-- The number of significant bits of `n`, for `n` below `2^3072`: the exact result
of one operation on two `double`s holding integers is below `2^2048`. -/
def Dbl.bits (n : Nat) : Nat := Dbl.bitsAux 128 n

/-- Rounding of a natural number to 53 significant bits, to nearest and ties to even:
what IEEE 754 binary64 arithmetic does to an exact integer result. -/
def Dbl.roundNat (n : Nat) : Nat :=
  let bits := Dbl.bits n
  if bits ≤ 53 then n
  else
    let s := bits - 53
    let q := n / 2 ^ s
    let r := n % 2 ^ s
    let half := 2 ^ (s - 1)
    let q1 := if r > half ∨ (r = half ∧ q % 2 = 1) then q + 1 else q
    q1 * 2 ^ s

/-- The integers a `double` holds: at most 53 significant bits, magnitude below
`2^1024`. -/
def Dbl.Representable (z : Int) : Prop :=
  Dbl.bits z.natAbs ≤ 1024 ∧ Dbl.roundNat z.natAbs = z.natAbs

instance (z : Int) : Decidable (Dbl.Representable z) :=
  inferInstanceAs (Decidable (_ ∧ _))

/-- The `double` values that hold an integer, the two infinities and NaN, with the
arithmetic of IEEE 754 binary64 in its default rounding mode on them: sums,
differences and products of such values are again such values.  The sign of
zero is not kept (`-0.0 == 0.0` in the sources). -/
inductive Dbl where
  | fin (z : Int) (h : Dbl.Representable z)
  | inf (negative : Bool)
  | nan
  deriving DecidableEq

/-- The `double` an exact integer result rounds to: infinity when the rounded
magnitude reaches `2^1024`. -/
def Dbl.ofInt (z : Int) : Dbl :=
  let r : Int := if z < 0 then -((Dbl.roundNat z.natAbs : Nat) : Int)
    else ((Dbl.roundNat z.natAbs : Nat) : Int)
  if h : Dbl.Representable r then Dbl.fin r h else Dbl.inf (decide (z < 0))

/-- The `double` addition. -/
def Dbl.add : Dbl → Dbl → Dbl
  | .nan, _ => .nan
  | _, .nan => .nan
  | .inf a, .inf b => if a = b then .inf a else .nan
  | .inf a, .fin _ _ => .inf a
  | .fin _ _, .inf b => .inf b
  | .fin x _, .fin y _ => Dbl.ofInt (x + y)

/-- The `double` subtraction. -/
def Dbl.sub : Dbl → Dbl → Dbl
  | .nan, _ => .nan
  | _, .nan => .nan
  | .inf a, .inf b => if a = b then .nan else .inf a
  | .inf a, .fin _ _ => .inf a
  | .fin _ _, .inf b => .inf (!b)
  | .fin x _, .fin y _ => Dbl.ofInt (x - y)

/-- The `double` multiplication: zero times infinity is NaN. -/
def Dbl.mul : Dbl → Dbl → Dbl
  | .nan, _ => .nan
  | _, .nan => .nan
  | .inf a, .inf b => .inf (xor a b)
  | .inf a, .fin y _ => if y = 0 then .nan else .inf (xor a (decide (y < 0)))
  | .fin x _, .inf b => if x = 0 then .nan else .inf (xor (decide (x < 0)) b)
  | .fin x _, .fin y _ => Dbl.ofInt (x * y)

instance : Zero Dbl := ⟨Dbl.ofInt 0⟩
instance : One Dbl := ⟨Dbl.ofInt 1⟩
instance : Add Dbl := ⟨Dbl.add⟩
instance : Sub Dbl := ⟨Dbl.sub⟩
instance : Mul Dbl := ⟨Dbl.mul⟩

/-- The predicate `std::isfinite`. -/
def Dbl.isFinite : Dbl → Bool
  | .fin _ _ => true
  | _ => false

/-- The entries `Layer::backward` multiplies by the learning rate: those of `dC_dW`
and of `dC_dB`, both computed from `dC_dA` before `W` and `B` are updated.  Empty
when the product `dC_dZ * lastInput^T` throws: then nothing is updated. -/
def Layer.scaledEntries {R : Type} [Zero R] [One R] [Add R] [Mul R]
    (l : Layer R) (dC_dA : Matrix R) : List R :=
  let dC_dZ := forLoop dC_dA.rows
    (fun i d => forLoop dC_dA.cols
      (fun j d => d.set i j (d.get i j * l.activateDerivative (l.Z.get i j))) d)
    dC_dA
  match dC_dZ.mul l.lastInput.transpose with
  | .error _ => []
  | .ok dC_dW =>
    let dC_dB := dC_dZ
    dC_dW.data ++ dC_dB.data

/-- The gradient entries the calls `layers[i].backward(dC_dA, 0)` multiply by the
learning rate, over the layers listed from last to first: each layer's, then
those of the layers before it for the gradient this layer returns. -/
def scaledEntriesChain {R : Type} [Zero R] [One R] [Add R] [Sub R] [Mul R] :
    List (Layer R) → Matrix R → List R
  | [], _ => []
  | l :: ls, dC_dA =>
    l.scaledEntries dC_dA ++
      match (l.backward dC_dA 0).1 with
      | .error _ => []
      | .ok dC_dX => scaledEntriesChain ls dC_dX

/-- The gradient entries that `forward(input)` followed by `backward(expected, 0)`
multiplies by the learning rate. -/
def NeuralNetwork.scaledEntries {R : Type} [Zero R] [One R] [Add R] [Sub R] [Mul R]
    (net : NeuralNetwork R) (input expected : Matrix R) : List R :=
  match net.forward input with
  | (.error _, _) => []
  | (.ok out, net1) =>
    match out.sub expected with
    | .error _ => []
    | .ok dC_dA => scaledEntriesChain net1.layers.reverse dC_dA

/-- A network of one 1 x 1 layer over the `double`s: `W = [w]`, `B = [0]`, identity
activation with derivative `1`. -/
def doubleNetwork (w : Dbl) : NeuralNetwork Dbl :=
  { layers := [{ inputSize := 1, neuronCount := 1, W := ⟨1, 1, [w]⟩, B := ⟨1, 1, [0]⟩,
                 Z := ⟨1, 1, [0]⟩, A := ⟨1, 1, [0]⟩, lastInput := ⟨1, 1, [0]⟩,
                 activate := fun x => x, activateDerivative := fun _ => 1 }] }

/-- The `double` that the literal `1e200` denotes: `10^200` rounded to 53 bits. -/
def Dbl.lit1e200 : Dbl := Dbl.ofInt ((10 ^ 200 : Nat) : Int)

/-! ### `std::sort` of the C++ library

Modelled from the library: `std::sort` is not part of the sources.  The definitions
follow libstdc++ (`bits/stl_algo.h`, `bits/stl_heap.h`), function by function.  The
vector is a list, an iterator is an index into it, and every function returns
`none` when it accesses an element outside the vector (undefined in C++).  A `while`
loop takes a bound on its iterations as first argument and yields `none` when the
bound is used up. -/

/-- The assignment `*(begin + i) = x`. -/
def writeAt {α : Type} (v : List α) (i : Nat) (x : α) : Option (List α) :=
  if i < v.length then some (v.set i x) else none

/-- The call `std::iter_swap(begin + i, begin + j)`. -/
def iter_swap {α : Type} (v : List α) (i j : Nat) : Option (List α) :=
  match v[i]?, v[j]? with
  | some a, some b => some ((v.set i b).set j a)
  | _, _ => none

/-- The function `std::__lg`: the floor of the binary logarithm, `0` for `n < 2`. -/
def lgAux : Nat → Nat → Nat
  | 0, _ => 0
  | fuel + 1, n => if n < 2 then 0 else lgAux fuel (n / 2) + 1

/-- The function `std::__lg(n)`. -/
def lg (n : Nat) : Nat := lgAux n n

/-- The function `std::__move_median_to_first(result, a, b, c, comp)`: swaps the median
of `*a`, `*b`, `*c` with `*result`. -/
def move_median_to_first {α : Type} (comp : α → α → Bool) (v : List α)
    (result a b c : Nat) : Option (List α) :=
  match v[a]?, v[b]?, v[c]? with
  | some xa, some xb, some xc =>
    if comp xa xb then
      if comp xb xc then iter_swap v result b
      else if comp xa xc then iter_swap v result c
      else iter_swap v result a
    else if comp xa xc then iter_swap v result a
    else if comp xb xc then iter_swap v result c
    else iter_swap v result b
  | _, _, _ => none

/-- The loop `while (comp(first, pivot)) ++first;` of `std::__unguarded_partition`: the
index at which it stops.  The bound is `v.size() - first`, the number of elements
from `first` on. -/
def scanUp {α : Type} (comp : α → α → Bool) (v : List α) (pivot : Nat) :
    Nat → Nat → Option Nat
  | 0, _ => none
  | fuel + 1, first =>
    match v[first]?, v[pivot]? with
    | some x, some p =>
      if comp x p then scanUp comp v pivot fuel (first + 1) else some first
    | _, _ => none

/-- The loop `while (comp(pivot, last)) --last;` of `std::__unguarded_partition`: the
index at which it stops; `none` when `last` is decremented below the beginning. -/
def scanDown {α : Type} (comp : α → α → Bool) (v : List α) (pivot : Nat) : Nat → Option Nat
  | 0 =>
    match v[0]?, v[pivot]? with
    | some x, some p => if comp p x then none else some 0
    | _, _ => none
  | last + 1 =>
    match v[last + 1]?, v[pivot]? with
    | some x, some p => if comp p x then scanDown comp v pivot last else some (last + 1)
    | _, _ => none

/-- The function `std::__unguarded_partition(first, last, pivot, comp)`: the vector
after the swaps and the returned `first`. -/
def unguarded_partition {α : Type} (comp : α → α → Bool) (pivot : Nat) :
    Nat → List α → Nat → Nat → Option (List α × Nat)
  | 0, _, _, _ => none
  | fuel + 1, v, first, last =>
    match scanUp comp v pivot (v.length - first) first with
    | none => none
    | some first1 =>
      match last with
      | 0 => none
      | last0 + 1 =>
        match scanDown comp v pivot last0 with
        | none => none
        | some last1 =>
          if first1 < last1 then
            match iter_swap v first1 last1 with
            | none => none
            | some v1 => unguarded_partition comp pivot fuel v1 (first1 + 1) last1
          else some (v, first1)

/-- The function `std::__unguarded_partition_pivot(first, last, comp)`. -/
def unguarded_partition_pivot {α : Type} (comp : α → α → Bool) (v : List α)
    (first last : Nat) : Option (List α × Nat) :=
  let mid := first + (last - first) / 2
  match move_median_to_first comp v first (first + 1) mid (last - 1) with
  | none => none
  | some v1 => unguarded_partition comp first (last - first) v1 (first + 1) last

/-- The loop of `std::__push_heap`: while the hole is below `topIndex` and its parent
is less than `value`, the parent moves into the hole; then `value` is written
into the hole. -/
def push_heap {α : Type} (comp : α → α → Bool) (first topIndex : Nat) (value : α) :
    Nat → List α → Nat → Option (List α)
  | 0, _, _ => none
  | fuel + 1, v, holeIndex =>
    let parent := (holeIndex - 1) / 2
    if holeIndex > topIndex then
      match v[first + parent]? with
      | none => none
      | some p =>
        if comp p value then
          match writeAt v (first + holeIndex) p with
          | none => none
          | some v1 => push_heap comp first topIndex value fuel v1 parent
        else writeAt v (first + holeIndex) value
    else writeAt v (first + holeIndex) value

/-- The first loop of `std::__adjust_heap`: while the hole has two children, the larger
child moves into the hole.  Returns the vector, `holeIndex` and `secondChild`. -/
def adjust_heap_descend {α : Type} (comp : α → α → Bool) (first len : Nat) :
    Nat → List α → Nat → Nat → Option (List α × Nat × Nat)
  | 0, _, _, _ => none
  | fuel + 1, v, holeIndex, secondChild =>
    if secondChild < (len - 1) / 2 then
      let secondChild1 := 2 * (secondChild + 1)
      match v[first + secondChild1]?, v[first + (secondChild1 - 1)]? with
      | some x, some y =>
        let secondChild2 := if comp x y then secondChild1 - 1 else secondChild1
        match writeAt v (first + holeIndex) (if comp x y then y else x) with
        | none => none
        | some v1 => adjust_heap_descend comp first len fuel v1 secondChild2 secondChild2
      | _, _ => none
    else some (v, holeIndex, secondChild)

/-- The function `std::__adjust_heap(first, holeIndex, len, value, comp)`.  Its test
`(len & 1) == 0 && secondChild == (len - 2) / 2` is on signed integers and fails for
`len = 0`, where `(len - 2) / 2` is `-1`; hence the `2 ≤ len`. -/
def adjust_heap {α : Type} (comp : α → α → Bool) (v : List α) (first holeIndex len : Nat)
    (value : α) : Option (List α) :=
  let topIndex := holeIndex
  match adjust_heap_descend comp first len len v holeIndex holeIndex with
  | none => none
  | some (v1, holeIndex1, secondChild1) =>
    if len % 2 = 0 ∧ 2 ≤ len ∧ secondChild1 = (len - 2) / 2 then
      let secondChild2 := 2 * (secondChild1 + 1)
      match v1[first + (secondChild2 - 1)]? with
      | none => none
      | some y =>
        match writeAt v1 (first + holeIndex1) y with
        | none => none
        | some v2 =>
          push_heap comp first topIndex value (secondChild2 - 1 + 1) v2 (secondChild2 - 1)
    else push_heap comp first topIndex value (holeIndex1 + 1) v1 holeIndex1

/-- The loop of `std::__make_heap`, entered with `parent = (len - 2) / 2` and counting
down to `0`. -/
def make_heap_loop {α : Type} (comp : α → α → Bool) (first len : Nat) :
    Nat → List α → Option (List α)
  | 0, v =>
    match v[first + 0]? with
    | none => none
    | some value => adjust_heap comp v first 0 len value
  | parent + 1, v =>
    match v[first + (parent + 1)]? with
    | none => none
    | some value =>
      match adjust_heap comp v first (parent + 1) len value with
      | none => none
      | some v1 => make_heap_loop comp first len parent v1

/-- The function `std::__make_heap(first, last, comp)`. -/
def make_heap {α : Type} (comp : α → α → Bool) (v : List α) (first last : Nat) :
    Option (List α) :=
  if last - first < 2 then some v
  else make_heap_loop comp first (last - first) ((last - first - 2) / 2) v

/-- The function `std::__pop_heap(first, last, result, comp)`. -/
def pop_heap {α : Type} (comp : α → α → Bool) (v : List α) (first last result : Nat) :
    Option (List α) :=
  match v[result]?, v[first]? with
  | some value, some top =>
    match writeAt v result top with
    | none => none
    | some v1 => adjust_heap comp v1 first 0 (last - first) value
  | _, _ => none

/-- The function `std::__sort_heap(first, last, comp)`:
`while (last - first > 1) { --last; pop_heap(first, last, last); }`. -/
def sort_heap {α : Type} (comp : α → α → Bool) (first : Nat) : Nat → List α → Option (List α)
  | 0, v => some v
  | last + 1, v =>
    if last + 1 - first > 1 then
      match pop_heap comp v first last last with
      | none => none
      | some v1 => sort_heap comp first last v1
    else some v

/-- The function `std::__heap_select(first, middle, last, comp)`. -/
def heap_select {α : Type} (comp : α → α → Bool) (v : List α) (first middle last : Nat) :
    Option (List α) :=
  match make_heap comp v first middle with
  | none => none
  | some v1 =>
    rangeLoop middle last
      (fun i acc =>
        match acc with
        | none => none
        | some w =>
          match w[i]?, w[first]? with
          | some x, some top => if comp x top then pop_heap comp w first middle i else some w
          | _, _ => none)
      (some v1)

/-- The function `std::__partial_sort(first, middle, last, comp)`. -/
def partial_sort {α : Type} (comp : α → α → Bool) (v : List α) (first middle last : Nat) :
    Option (List α) :=
  match heap_select comp v first middle last with
  | none => none
  | some v1 => sort_heap comp first middle v1

/-- The function `std::__introsort_loop(first, last, depth_limit, comp)`; every
iteration of its loop decrements `depth_limit`, which bounds the recursion. -/
def introsort_loop {α : Type} (comp : α → α → Bool) :
    Nat → List α → Nat → Nat → Option (List α)
  | depth_limit, v, first, last =>
    if last - first > 16 then
      match depth_limit with
      | 0 => partial_sort comp v first last last
      | depth_limit1 + 1 =>
        match unguarded_partition_pivot comp v first last with
        | none => none
        | some (v1, cut) =>
          match introsort_loop comp depth_limit1 v1 cut last with
          | none => none
          | some v2 => introsort_loop comp depth_limit1 v2 first cut
    else some v

/-- The loop of `std::__unguarded_linear_insert`, with `val` the element taken out and
`last` the index of the hole: `none` when `next` is decremented below the beginning. -/
def unguarded_linear_insert_loop {α : Type} (comp : α → α → Bool) (val : α) :
    List α → Nat → Option (List α)
  | _, 0 => none
  | v, next + 1 =>
    match v[next]? with
    | none => none
    | some x =>
      if comp val x then
        unguarded_linear_insert_loop comp val (v.set (next + 1) x) next
      else some (v.set (next + 1) val)

/-- The function `std::__unguarded_linear_insert(last, comp)`. -/
def unguarded_linear_insert {α : Type} (comp : α → α → Bool) (v : List α) (last : Nat) :
    Option (List α) :=
  match v[last]? with
  | none => none
  | some val => unguarded_linear_insert_loop comp val v last

/-- The function `std::__insertion_sort(first, last, comp)`.  In the branch
`comp(i, first)` the elements of `[first, i)` move one place up
(`std::move_backward`) and `*i` goes to `first`. -/
def insertion_sort {α : Type} (comp : α → α → Bool) (v : List α) (first last : Nat) :
    Option (List α) :=
  if first = last then some v
  else
    rangeLoop (first + 1) last
      (fun i acc =>
        match acc with
        | none => none
        | some w =>
          match w[i]?, w[first]? with
          | some val, some x =>
            if comp val x then
              some (w.take first ++ val :: ((w.take i).drop first ++ w.drop (i + 1)))
            else unguarded_linear_insert comp w i
          | _, _ => none)
      (some v)

/-- The function `std::__unguarded_insertion_sort(first, last, comp)`. -/
def unguarded_insertion_sort {α : Type} (comp : α → α → Bool) (v : List α)
    (first last : Nat) : Option (List α) :=
  rangeLoop first last
    (fun i acc =>
      match acc with
      | none => none
      | some w => unguarded_linear_insert comp w i)
    (some v)

/-- The function `std::__final_insertion_sort(first, last, comp)`. -/
def final_insertion_sort {α : Type} (comp : α → α → Bool) (v : List α) (first last : Nat) :
    Option (List α) :=
  if last - first > 16 then
    match insertion_sort comp v first (first + 16) with
    | none => none
    | some v1 => unguarded_insertion_sort comp v1 (first + 16) last
  else insertion_sort comp v first last

/-- The function `std::__sort(first, last, comp)`. -/
def sort_range {α : Type} (comp : α → α → Bool) (v : List α) (first last : Nat) :
    Option (List α) :=
  if first ≠ last then
    match introsort_loop comp (lg (last - first) * 2) v first last with
    | none => none
    | some v1 => final_insertion_sort comp v1 first last
  else some v

/-- The call `std::sort(v.begin(), v.end(), comp)`. -/
def std_sort {α : Type} (comp : α → α → Bool) (v : List α) : Option (List α) :=
  sort_range comp v 0 v.length

/-- A fitness table of twenty networks that all scored `0`. -/
def tiedScores : List (Nat × ℚ) :=
  (List.range 20).map (fun i => (i, 0))

/-- `v'` is `v` with the elements at the indices of `[a, b)` rearranged: the same
length, the same element at every index outside `[a, b)`, and every predicate holds
of as many elements. -/
def Reorder {α : Type} (a b : Nat) (v v' : List α) : Prop :=
  v'.length = v.length ∧ (∀ i, i < a ∨ b ≤ i → v'[i]? = v[i]?) ∧
  ∀ p : α → Bool, v'.countP p = v.countP p

/-- The elements at the indices of `[a, b)` stand in non-descending order of `comp`: no
element is less than one that stands before it. -/
def SortedOn {α : Type} (comp : α → α → Bool) (a b : Nat) (v : List α) : Prop :=
  ∀ i j x y, a ≤ i → i < j → j < b → v[i]? = some x → v[j]? = some y → comp y x = false

/-- Within `[a, b)` no element is less than one that stands 16 or more places before
it: what `std::__introsort_loop` leaves to `std::__final_insertion_sort`. -/
def GapOn {α : Type} (comp : α → α → Bool) (a b : Nat) (v : List α) : Prop :=
  ∀ i j x y, a ≤ i → i + 16 ≤ j → j < b → v[i]? = some x → v[j]? = some y → comp y x = false

/-- In the tree of a binary heap, where the children of `h` are `2h + 1` and `2h + 2`:
`top` is `h` or an ancestor of `h`. -/
inductive Anc (top : Nat) : Nat → Prop where
  | refl : Anc top top
  | left {h : Nat} : Anc top h → Anc top (2 * h + 1)
  | right {h : Nat} : Anc top h → Anc top (2 * h + 2)

/-- The heap property of the `len` elements from `first` on, required of the nodes
whose parent has index `lo` or more: no parent is less than its child. -/
def HeapFrom {α : Type} (comp : α → α → Bool) (v : List α) (first len lo : Nat) : Prop :=
  ∀ k x y, 1 ≤ k → k < len → lo ≤ (k - 1) / 2 →
    v[first + (k - 1) / 2]? = some x → v[first + k]? = some y → comp x y = false

/-! ## Loops writing into a flat buffer -/

theorem forLoop_succ {σ : Type} (n : Nat) (body : Nat → σ → σ) (s : σ) :
    forLoop (n + 1) body s = body n (forLoop n body s) := rfl

theorem getD_set_self {R : Type} (l : List R) (i : Nat) (v d : R) (h : i < l.length) :
    (l.set i v).getD i d = v := by
  simp [List.getD_eq_getElem?_getD, List.getElem?_set, h]

theorem getD_set_ne {R : Type} (l : List R) (i j : Nat) (v d : R) (h : i ≠ j) :
    (l.set i v).getD j d = l.getD j d := by
  simp [List.getD_eq_getElem?_getD, List.getElem?_set, h]

theorem list_ext_getD {R : Type} (d : R) (l₁ l₂ : List R) (hlen : l₁.length = l₂.length)
    (h : ∀ i, i < l₁.length → l₁.getD i d = l₂.getD i d) : l₁ = l₂ := by
  apply List.ext_getElem hlen
  intro n h₁ h₂
  have := h n h₁
  rwa [List.getD_eq_getElem l₁ d h₁, List.getD_eq_getElem l₂ d h₂] at this

/-- One loop of writes `d[ix c] = u c d[ix c]`: length and untouched cells. -/
theorem writeLoop_frame {R : Type} [Zero R] (ix : Nat → Nat) (u : Nat → R → R) (d0 : List R)
    (n : Nat) :
    (forLoop n (fun c d => d.set (ix c) (u c (d.getD (ix c) 0))) d0).length = d0.length ∧
    ∀ j, (∀ c, c < n → ix c ≠ j) →
      (forLoop n (fun c d => d.set (ix c) (u c (d.getD (ix c) 0))) d0).getD j 0 = d0.getD j 0 := by
  induction n with
  | zero => exact ⟨rfl, fun _ _ => rfl⟩
  | succ k ih =>
    rw [forLoop_succ]
    refine ⟨by rw [List.length_set]; exact ih.1, fun j hj => ?_⟩
    rw [getD_set_ne _ _ _ _ _ (hj k (Nat.lt_succ_self k))]
    exact ih.2 j (fun c hc => hj c (Nat.lt_succ_of_lt hc))

/-- One loop of writes `d[ix c] = u c d[ix c]` at pairwise distinct, in-range
indices: every written cell holds `u c` of its initial content. -/
theorem writeLoop_written {R : Type} [Zero R] (ix : Nat → Nat) (u : Nat → R → R) (d0 : List R)
    (n : Nat) (hinj : ∀ c c', c < n → c' < n → ix c = ix c' → c = c')
    (hlt : ∀ c, c < n → ix c < d0.length) :
    ∀ c, c < n →
      (forLoop n (fun c d => d.set (ix c) (u c (d.getD (ix c) 0))) d0).getD (ix c) 0
        = u c (d0.getD (ix c) 0) := by
  induction n with
  | zero => intro c hc; exact absurd hc (Nat.not_lt_zero c)
  | succ k ih =>
    intro c hc
    rw [forLoop_succ]
    have hfr := writeLoop_frame ix u d0 k
    rcases Nat.lt_succ_iff_lt_or_eq.mp hc with hlt' | heq
    · have hne : ix k ≠ ix c := fun h =>
        absurd (hinj k c (Nat.lt_succ_self k) hc h) (Nat.ne_of_gt hlt')
      rw [getD_set_ne _ _ _ _ _ hne]
      exact ih (fun a b ha hb => hinj a b (Nat.lt_succ_of_lt ha) (Nat.lt_succ_of_lt hb))
        (fun a ha => hlt a (Nat.lt_succ_of_lt ha)) c hlt'
    · subst heq
      rw [getD_set_self _ _ _ _ (by rw [hfr.1]; exact hlt c hc)]
      rw [hfr.2 (ix c) (fun a ha h => absurd (hinj a c (Nat.lt_succ_of_lt ha) hc h)
        (Nat.ne_of_lt ha))]

/-- Two nested loops of writes `d[idx r c] = u r c d[idx r c]`: length and
untouched cells. -/
theorem writeLoop2_frame {R : Type} [Zero R] (idx : Nat → Nat → Nat) (u : Nat → Nat → R → R)
    (d0 : List R) (p n : Nat) :
    (forLoop n (fun r d => forLoop p
      (fun c d => d.set (idx r c) (u r c (d.getD (idx r c) 0))) d) d0).length = d0.length ∧
    ∀ j, (∀ r c, r < n → c < p → idx r c ≠ j) →
      (forLoop n (fun r d => forLoop p
        (fun c d => d.set (idx r c) (u r c (d.getD (idx r c) 0))) d) d0).getD j 0
        = d0.getD j 0 := by
  induction n with
  | zero => exact ⟨rfl, fun _ _ => rfl⟩
  | succ k ih =>
    rw [forLoop_succ]
    have hin := writeLoop_frame (idx k) (u k)
      (forLoop k (fun r d => forLoop p
        (fun c d => d.set (idx r c) (u r c (d.getD (idx r c) 0))) d) d0) p
    refine ⟨hin.1.trans ih.1, fun j hj => ?_⟩
    rw [hin.2 j (fun c hc => hj k c (Nat.lt_succ_self k) hc)]
    exact ih.2 j (fun r c hr hc => hj r c (Nat.lt_succ_of_lt hr) hc)

/-- Two nested loops of writes at pairwise distinct, in-range indices: every
written cell holds `u r c` of its initial content. -/
theorem writeLoop2_written {R : Type} [Zero R] (idx : Nat → Nat → Nat) (u : Nat → Nat → R → R)
    (d0 : List R) (p n : Nat)
    (hinj : ∀ r c r' c', r < n → c < p → r' < n → c' < p → idx r c = idx r' c' →
      r = r' ∧ c = c')
    (hlt : ∀ r c, r < n → c < p → idx r c < d0.length) :
    ∀ r c, r < n → c < p →
      (forLoop n (fun r d => forLoop p
        (fun c d => d.set (idx r c) (u r c (d.getD (idx r c) 0))) d) d0).getD (idx r c) 0
        = u r c (d0.getD (idx r c) 0) := by
  induction n with
  | zero => intro r c hr; exact absurd hr (Nat.not_lt_zero r)
  | succ k ih =>
    intro r c hr hc
    rw [forLoop_succ]
    have hfr := writeLoop2_frame idx u d0 p k
    rcases Nat.lt_succ_iff_lt_or_eq.mp hr with hlt' | heq
    · rw [(writeLoop_frame (idx k) (u k) _ p).2 (idx r c) (fun c' hc' h =>
        absurd (hinj k c' r c (Nat.lt_succ_self k) hc' hr hc h).1 (Nat.ne_of_gt hlt'))]
      exact ih (fun a b a' b' ha hb ha' hb' =>
          hinj a b a' b' (Nat.lt_succ_of_lt ha) hb (Nat.lt_succ_of_lt ha') hb')
        (fun a b ha hb => hlt a b (Nat.lt_succ_of_lt ha) hb) r c hlt' hc
    · subst heq
      rw [writeLoop_written (idx r) (u r) _ p
        (fun a b ha hb h => (hinj r a r b hr ha hr hb h).2)
        (fun a ha => by rw [hfr.1]; exact hlt r a hr ha) c hc]
      rw [hfr.2 (idx r c) (fun a b ha hb h =>
        absurd (hinj a b r c (Nat.lt_succ_of_lt ha) hb hr hc h).1 (Nat.ne_of_lt ha))]

/-- Row-major indices of distinct in-range cells are distinct. -/
theorem rowMajor_inj (q : Nat) (r c r' c' : Nat) (hc : c < q) (hc' : c' < q)
    (h : r * q + c = r' * q + c') : r = r' ∧ c = c' := by
  have hq : 0 < q := Nat.lt_of_le_of_lt (Nat.zero_le c) hc
  have h1 : (r * q + c) / q = r := by
    rw [Nat.mul_comm, Nat.mul_add_div hq, Nat.div_eq_of_lt hc, Nat.add_zero]
  have h2 : (r' * q + c') / q = r' := by
    rw [Nat.mul_comm, Nat.mul_add_div hq, Nat.div_eq_of_lt hc', Nat.add_zero]
  have hr : r = r' := by rw [← h1, ← h2, h]
  subst hr
  exact ⟨rfl, Nat.add_left_cancel h⟩

/-- A row-major index of an in-range cell is in range. -/
theorem rowMajor_lt (n q r c : Nat) (hr : r < n) (hc : c < q) : r * q + c < n * q := by
  calc r * q + c < r * q + q := Nat.add_lt_add_left hc _
    _ = (r + 1) * q := by rw [Nat.succ_mul]
    _ ≤ n * q := Nat.mul_le_mul_right q hr

/-! ## The loops of `Matrix.cpp` on the flat buffer -/

/-- A flat loop over a matrix touches only its buffer. -/
theorem flatLoop_eq {R : Type} [Zero R] (u : Nat → R → R) (m : Matrix R) (n : Nat) :
    forLoop n (fun i t => { t with data := t.data.set i (u i (t.data.getD i 0)) }) m
      = { m with data := forLoop n (fun i d => d.set i (u i (d.getD i 0))) m.data } := by
  induction n with
  | zero => rfl
  | succ k ih => rw [forLoop_succ, ih, forLoop_succ]

/-- A nested loop of element writes touches only the buffer. -/
theorem nestedLoop_eq {R : Type} [Zero R] (a b : Nat → Nat → Nat) (u : Nat → Nat → R → R)
    (m : Matrix R) (p n : Nat) :
    forLoop n (fun r t => forLoop p
        (fun c t => t.set (a r c) (b r c) (u r c (t.get (a r c) (b r c)))) t) m
      = { m with data := forLoop n (fun r d => forLoop p
          (fun c d => d.set (a r c * m.cols + b r c)
            (u r c (d.getD (a r c * m.cols + b r c) 0))) d) m.data } := by
  have inner : ∀ (r q : Nat) (t : Matrix R),
      forLoop q (fun c t => t.set (a r c) (b r c) (u r c (t.get (a r c) (b r c)))) t
        = { t with data := forLoop q (fun c d => d.set (a r c * t.cols + b r c)
            (u r c (d.getD (a r c * t.cols + b r c) 0))) t.data } := by
    intro r q t
    induction q with
    | zero => rfl
    | succ k ih => rw [forLoop_succ, ih, forLoop_succ]; rfl
  induction n with
  | zero => rfl
  | succ k ih => rw [forLoop_succ, ih, forLoop_succ, inner]

theorem ctor_getD {R : Type} [Zero R] [One R] (rows cols i : Nat) :
    (Matrix.ctor rows cols true : Matrix R).data.getD i 0 = 0 := by
  simp only [Matrix.ctor, List.getD_eq_getElem?_getD, List.getElem?_replicate]
  split <;> rfl

theorem ctor_wf {R : Type} [Zero R] [One R] (rows cols : Nat) (z : Bool) :
    (Matrix.ctor rows cols z : Matrix R).WF := by
  simp [Matrix.ctor, Matrix.WF]

/-- What a flat loop of writes `res.data[i] = f i` leaves in a fresh matrix. -/
theorem fillLoop_spec {R : Type} [Zero R] [One R] (f : Nat → R) (rows cols : Nat) :
    ∃ C : Matrix R,
      forLoop (rows * cols) (fun i res => { res with data := res.data.set i (f i) })
        (Matrix.ctor rows cols true) = C ∧
      C.rows = rows ∧ C.cols = cols ∧ C.WF ∧ ∀ i, i < rows * cols → C.data.getD i 0 = f i := by
  refine ⟨_, rfl, ?_⟩
  have h := flatLoop_eq (fun i _ => f i) (Matrix.ctor rows cols true : Matrix R) (rows * cols)
  rw [h]
  have hlen : (Matrix.ctor rows cols true : Matrix R).data.length = rows * cols := ctor_wf _ _ _
  have hfr := writeLoop_frame (fun i => i) (fun i _ => f i)
    (Matrix.ctor rows cols true : Matrix R).data (rows * cols)
  refine ⟨rfl, rfl, ?_, fun i hi => ?_⟩
  · exact hfr.1.trans hlen
  · exact writeLoop_written (fun i => i) (fun i _ => f i) _ (rows * cols)
      (fun _ _ _ _ h => h) (fun c hc => by rw [hlen]; exact hc) i hi

/-- `Matrix::operator+` on equal shapes. -/
theorem add_spec {R : Type} [Zero R] [One R] [Add R] (A B : Matrix R)
    (hr : A.rows = B.rows) (hc : A.cols = B.cols) :
    ∃ C : Matrix R, A.add B = .ok C ∧ C.rows = A.rows ∧ C.cols = A.cols ∧ C.WF ∧
      ∀ i, i < A.rows * A.cols → C.data.getD i 0 = A.data.getD i 0 + B.data.getD i 0 := by
  obtain ⟨C, hC, h⟩ := fillLoop_spec (fun i => A.data.getD i 0 + B.data.getD i 0) A.rows A.cols
  refine ⟨C, ?_, h⟩
  unfold Matrix.add
  rw [if_neg (by simp [hr, hc]), hC]

/-- `Matrix::operator-` on equal shapes. -/
theorem sub_spec {R : Type} [Zero R] [One R] [Sub R] (A B : Matrix R)
    (hr : A.rows = B.rows) (hc : A.cols = B.cols) :
    ∃ C : Matrix R, A.sub B = .ok C ∧ C.rows = A.rows ∧ C.cols = A.cols ∧ C.WF ∧
      ∀ i, i < A.rows * A.cols → C.data.getD i 0 = A.data.getD i 0 - B.data.getD i 0 := by
  obtain ⟨C, hC, h⟩ := fillLoop_spec (fun i => A.data.getD i 0 - B.data.getD i 0) A.rows A.cols
  refine ⟨C, ?_, h⟩
  unfold Matrix.sub
  rw [if_neg (by simp [hr, hc]), hC]

/-- `Matrix::apply` on a well-formed matrix. -/
theorem apply_spec {R : Type} [Zero R] (m : Matrix R) (func : R → R) (hm : m.WF) :
    (m.apply func).rows = m.rows ∧ (m.apply func).cols = m.cols ∧ (m.apply func).WF ∧
      ∀ i, i < m.rows * m.cols → (m.apply func).data.getD i 0 = func (m.data.getD i 0) := by
  unfold Matrix.apply
  rw [flatLoop_eq (fun _ x => func x) m (m.rows * m.cols)]
  have hfr := writeLoop_frame (fun i => i) (fun _ x => func x) m.data (m.rows * m.cols)
  refine ⟨rfl, rfl, hfr.1.trans hm, fun i hi => ?_⟩
  exact writeLoop_written (fun i => i) (fun _ x => func x) _ (m.rows * m.cols)
    (fun _ _ _ _ h => h) (fun c hc => by rw [hm]; exact hc) i hi

/-- What a nested loop of writes `res(r, c) = f r c` leaves in a fresh matrix. -/
theorem fillLoop2_spec {R : Type} [Zero R] [One R] (f : Nat → Nat → R) (rows cols : Nat) :
    ∃ C : Matrix R,
      forLoop rows (fun r res => forLoop cols (fun c res => res.set r c (f r c)) res)
        (Matrix.ctor rows cols true) = C ∧
      C.rows = rows ∧ C.cols = cols ∧ C.WF ∧
      ∀ r c, r < rows → c < cols → C.get r c = f r c := by
  refine ⟨_, rfl, ?_⟩
  have h := nestedLoop_eq (fun r _ => r) (fun _ c => c) (fun r c _ => f r c)
    (Matrix.ctor rows cols true : Matrix R) cols rows
  rw [h]
  have hlen : (Matrix.ctor rows cols true : Matrix R).data.length = rows * cols := ctor_wf _ _ _
  have hfr := writeLoop2_frame (fun r c => r * cols + c) (fun r c _ => f r c)
    (Matrix.ctor rows cols true : Matrix R).data cols rows
  refine ⟨rfl, rfl, hfr.1.trans hlen, fun r c hr hc => ?_⟩
  exact writeLoop2_written (fun r c => r * cols + c) (fun r c _ => f r c) _ cols rows
    (fun r c r' c' _ hc _ hc' h => rowMajor_inj cols r c r' c' hc hc' h)
    (fun r c hr hc => by rw [hlen]; exact rowMajor_lt rows cols r c hr hc) r c hr hc

/-- `Matrix::operator*` on matching inner dimensions. -/
theorem mul_spec {R : Type} [Zero R] [One R] [Add R] [Mul R] (A B : Matrix R)
    (h : A.cols = B.rows) :
    ∃ C : Matrix R, A.mul B = .ok C ∧ C.rows = A.rows ∧ C.cols = B.cols ∧ C.WF ∧
      ∀ r c, r < A.rows → c < B.cols →
        C.get r c = forLoop A.cols (fun k sum => sum + A.get r k * B.get k c) 0 := by
  obtain ⟨C, hC, hrest⟩ := fillLoop2_spec
    (fun r c => forLoop A.cols (fun k sum => sum + A.get r k * B.get k c) 0) A.rows B.cols
  refine ⟨C, ?_, hrest⟩
  unfold Matrix.mul
  rw [if_neg (by simp [h]), hC]

/-- `Matrix::transpose`: shape and entries. -/
theorem transpose_spec {R : Type} [Zero R] [One R] (m : Matrix R) :
    m.transpose.rows = m.cols ∧ m.transpose.cols = m.rows ∧ m.transpose.WF ∧
      ∀ r c, r < m.rows → c < m.cols → m.transpose.get c r = m.get r c := by
  unfold Matrix.transpose
  have h := nestedLoop_eq (fun _ c => c) (fun r _ => r) (fun r c _ => m.get r c)
    (Matrix.ctor m.cols m.rows true : Matrix R) m.cols m.rows
  rw [h]
  have hlen : (Matrix.ctor m.cols m.rows true : Matrix R).data.length = m.cols * m.rows :=
    ctor_wf _ _ _
  have hfr := writeLoop2_frame (fun r c => c * m.rows + r) (fun r c _ => m.get r c)
    (Matrix.ctor m.cols m.rows true : Matrix R).data m.cols m.rows
  refine ⟨rfl, rfl, hfr.1.trans hlen, fun r c hr hc => ?_⟩
  exact writeLoop2_written (fun r c => c * m.rows + r) (fun r c _ => m.get r c) _ m.cols m.rows
    (fun r c r' c' hr _ hr' _ h => (rowMajor_inj m.rows c r c' r' hr hr' h).symm)
    (fun r c hr hc => by rw [hlen]; exact rowMajor_lt m.cols m.rows c r hc hr) r c hr hc

theorem forLoop_eq_foldl {σ : Type} (n : Nat) (body : Nat → σ → σ) (s : σ) :
    forLoop n body s = (List.range n).foldl (fun acc i => body i acc) s := by
  induction n with
  | zero => rfl
  | succ k ih => rw [forLoop_succ, ih, List.range_succ, List.foldl_append]; rfl

theorem matrix_ext {R : Type} (a b : Matrix R) (hr : a.rows = b.rows) (hc : a.cols = b.cols)
    (hd : a.data = b.data) : a = b := by
  cases a; cases b; simp_all

/-! ## Layer -/

theorem get_col {R : Type} [Zero R] (m : Matrix R) (h : m.cols = 1) (i : Nat) :
    m.get i 0 = m.data.getD i 0 := by
  rw [Matrix.get, h, Nat.mul_one, Nat.add_zero]

/-- A nested loop `m(i, j) = u i j m(i, j)` over all cells of a well-formed matrix. -/
theorem updLoop_spec {R : Type} [Zero R] (m : Matrix R) (u : Nat → Nat → R → R) (hm : m.WF) :
    ∃ m1 : Matrix R,
      forLoop m.rows (fun i w => forLoop m.cols
        (fun j w => w.set i j (u i j (w.get i j))) w) m = m1 ∧
      m1.rows = m.rows ∧ m1.cols = m.cols ∧ m1.WF ∧
      ∀ i j, i < m.rows → j < m.cols → m1.get i j = u i j (m.get i j) := by
  refine ⟨_, rfl, ?_⟩
  rw [nestedLoop_eq (fun r _ => r) (fun _ c => c) u m m.cols m.rows]
  have hfr := writeLoop2_frame (fun r c => r * m.cols + c) u m.data m.cols m.rows
  refine ⟨rfl, rfl, hfr.1.trans hm, fun i j hi hj => ?_⟩
  exact writeLoop2_written (fun r c => r * m.cols + c) u _ m.cols m.rows
    (fun r c r' c' _ hc _ hc' h => rowMajor_inj m.cols r c r' c' hc hc' h)
    (fun r c hr hc => by rw [hm]; exact rowMajor_lt m.rows m.cols r c hr hc) i j hi hj

/-- `Layer::forward` on a shaped layer and an `inputSize x 1` input. -/
theorem forward_spec {R : Type} [Zero R] [One R] [Add R] [Mul R] (l : Layer R) (input : Matrix R)
    (hl : l.Shaped) (hin : input.HasShape l.inputSize 1) :
    ∃ wx z out : Matrix R,
      l.W.mul input = .ok wx ∧ wx.add l.B = .ok z ∧
      l.forward input = (.ok out, { l with lastInput := input, Z := z, A := out }) ∧
      z.HasShape l.neuronCount 1 ∧ out.HasShape l.neuronCount 1 ∧
      ∀ i, i < l.neuronCount → out.get i 0 = l.activate (z.get i 0) := by
  obtain ⟨⟨hWr, hWc, _⟩, hBr, hBc, _⟩ := hl
  obtain ⟨hir, hic, _⟩ := hin
  obtain ⟨wx, hwx, hwxr, hwxc, _, _⟩ := mul_spec l.W input (hWc.trans hir.symm)
  obtain ⟨z, hz, hzr, hzc, hzwf, _⟩ := add_spec wx l.B (by rw [hwxr, hWr, hBr])
    (by rw [hwxc, hic, hBc])
  have hzr' : z.rows = l.neuronCount := by rw [hzr, hwxr, hWr]
  have hzc' : z.cols = 1 := by rw [hzc, hwxc, hic]
  obtain ⟨har, hac, hawf, hae⟩ := apply_spec z l.activate hzwf
  refine ⟨wx, z, z.apply l.activate, hwx, hz, ?_, ⟨hzr', hzc', hzwf⟩,
    ⟨har.trans hzr', hac.trans hzc', hawf⟩, fun i hi => ?_⟩
  · simp only [Layer.forward, hwx, hz]
  · rw [get_col _ (hac.trans hzc'), get_col _ hzc']
    exact hae i (by rw [hzr', hzc', Nat.mul_one]; exact hi)

/-- `Layer::backward` on a shaped layer with shaped caches and a
`neuronCount x 1` gradient: every intermediate value and the final state. -/
theorem backward_spec {R : Type} [Zero R] [One R] [Add R] [Sub R] [Mul R] (l : Layer R)
    (dC_dA : Matrix R) (lr : R) (hl : l.Shaped) (hc : l.Cached)
    (hg : dC_dA.HasShape l.neuronCount 1) :
    ∃ dZ dW W1 B1 dX : Matrix R,
      (dZ.HasShape l.neuronCount 1 ∧
        ∀ i, i < l.neuronCount →
          dZ.get i 0 = dC_dA.get i 0 * l.activateDerivative (l.Z.get i 0)) ∧
      dZ.mul l.lastInput.transpose = .ok dW ∧
      (W1.HasShape l.neuronCount l.inputSize ∧
        ∀ i j, i < l.neuronCount → j < l.inputSize →
          W1.get i j = l.W.get i j - lr * dW.get i j) ∧
      (B1.HasShape l.neuronCount 1 ∧
        ∀ i, i < l.neuronCount → B1.get i 0 = l.B.get i 0 - lr * dZ.get i 0) ∧
      W1.transpose.mul dZ = .ok dX ∧ dX.HasShape l.inputSize 1 ∧
      l.backward dC_dA lr = (.ok dX, { l with W := W1, B := B1 }) := by
  obtain ⟨⟨hWr, hWc, hWwf⟩, hBr, hBc, hBwf⟩ := hl
  obtain ⟨⟨hIr, hIc, _⟩, _, _⟩ := hc
  obtain ⟨hgr, hgc, hgwf⟩ := hg
  obtain ⟨dZ, hdZ, hdZr, hdZc, hdZwf, hdZe⟩ := updLoop_spec dC_dA
    (fun i j x => x * l.activateDerivative (l.Z.get i j)) hgwf
  obtain ⟨hTr, hTc, _, _⟩ := transpose_spec l.lastInput
  obtain ⟨dW, hdW, _, _, _, _⟩ := mul_spec dZ l.lastInput.transpose
    (by rw [hdZc, hgc, hTr, hIc])
  obtain ⟨W1, hW1, hW1r, hW1c, hW1wf, hW1e⟩ := updLoop_spec l.W
    (fun i j x => x - lr * dW.get i j) hWwf
  obtain ⟨B1, hB1, hB1r, hB1c, hB1wf, hB1e⟩ := updLoop_spec l.B
    (fun i j x => x - lr * dZ.get i j) hBwf
  obtain ⟨hT1r, hT1c, _, _⟩ := transpose_spec W1
  obtain ⟨dX, hdX, hdXr, hdXc, hdXwf, _⟩ := mul_spec W1.transpose dZ
    (by rw [hT1c, hW1r, hWr, hdZr, hgr])
  refine ⟨dZ, dW, W1, B1, dX, ⟨⟨hdZr.trans hgr, hdZc.trans hgc, hdZwf⟩, fun i hi => ?_⟩, hdW,
    ⟨⟨hW1r.trans hWr, hW1c.trans hWc, hW1wf⟩, fun i j hi hj => ?_⟩,
    ⟨⟨hB1r.trans hBr, hB1c.trans hBc, hB1wf⟩, fun i hi => ?_⟩, hdX,
    ⟨by rw [hdXr, hT1r, hW1c, hWc], by rw [hdXc, hdZc, hgc], hdXwf⟩, ?_⟩
  · exact hdZe i 0 (by rw [hgr]; exact hi) (by rw [hgc]; exact Nat.one_pos)
  · exact hW1e i j (by rw [hWr]; exact hi) (by rw [hWc]; exact hj)
  · exact hB1e i 0 (by rw [hBr]; exact hi) (by rw [hBc]; exact Nat.one_pos)
  · simp only [Layer.backward, hdZ, hdW, hW1, hB1, hdX]

/-! ## Network: construction and forward pass -/

theorem outSize_concat {R : Type} (init : List (Layer R)) (l : Layer R) (n : Nat) :
    outSize (init ++ [l]) n = l.neuronCount := by
  induction init generalizing n with
  | nil => rfl
  | cons a as ih => exact ih a.neuronCount

theorem chain_concat {R : Type} (init : List (Layer R)) (l : Layer R) (n : Nat) :
    Chain (init ++ [l]) n ↔ Chain init n ∧ l.Shaped ∧ l.inputSize = outSize init n := by
  induction init generalizing n with
  | nil => simp [Chain, outSize]
  | cons a as ih =>
    show (a.Shaped ∧ a.inputSize = n ∧ Chain (as ++ [l]) a.neuronCount) ↔ _
    rw [ih a.neuronCount]
    show _ ↔ ((a.Shaped ∧ a.inputSize = n ∧ Chain as a.neuronCount) ∧ l.Shaped ∧
      l.inputSize = outSize as a.neuronCount)
    tauto

/-- `Matrix::random` returns a well-formed matrix of the requested shape. -/
theorem random_shape {R : Type} [Zero R] [One R] [Add R] [Sub R] [Mul R]
    (rows cols : Nat) (min max : R) (rand : Nat → Nat → R) (now : Nat) :
    (Matrix.random rows cols min max rand now).HasShape rows cols := by
  obtain ⟨C, hC, hr, hc, hwf, _⟩ :=
    fillLoop_spec (fun i => min + rand now i * (max - min)) rows cols
  unfold Matrix.random
  rw [hC]
  exact ⟨hr, hc, hwf⟩

theorem layer_ctor_shaped {R : Type} [Zero R] [One R] [Add R] [Sub R] [Mul R] [Neg R]
    (inputSize neuronCount : Nat) (act dact : R → R) (rand : Nat → Nat → R) (nowW nowB : Nat) :
    (Layer.ctor inputSize neuronCount act dact rand nowW nowB).Shaped :=
  ⟨random_shape _ _ _ _ _ _, random_shape _ _ _ _ _ _⟩

/-- A loop of `emplace_back` builds the list of the values pushed. -/
theorem pushLoop_eq_map {α : Type} (f : Nat → α) (m : Nat) :
    forLoop m (fun k acc => acc ++ [f k]) [] = (List.range m).map f := by
  induction m with
  | zero => rfl
  | succ k ih => rw [forLoop_succ, ih, List.range_succ, List.map_append]; rfl

/-- The loop of `NeuralNetwork::forward` on a chain: it does not throw, the
result is the pipeline value of the right shape, the parameters are kept and
every layer ends with shaped caches, the last one holding the result in `A`. -/
theorem forwardLayers_spec {R : Type} [Zero R] [One R] [Add R] [Mul R] (ls : List (Layer R))
    (n : Nat) (input : Matrix R) (hch : Chain ls n) (hin : input.HasShape n 1) :
    ∃ (out : Matrix R) (ls1 : List (Layer R)),
      forwardLayers ls input = (.ok out, ls1) ∧ out.HasShape (outSize ls n) 1 ∧
      Chain ls1 n ∧ outSize ls1 n = outSize ls n ∧ (∀ l, l ∈ ls1 → l.Cached) ∧
      parameters ls1 = parameters ls ∧ List.Forall₂ Layer.SameArch ls1 ls ∧
      (∀ last, ls1.getLast? = some last → last.A = out) := by
  induction ls generalizing n input with
  | nil => exact ⟨input, [], rfl, hin, trivial, rfl, by simp, rfl, List.Forall₂.nil, by simp⟩
  | cons l ls ih =>
    obtain ⟨hl, hn, hrest⟩ := hch
    obtain ⟨wx, z, out, _, _, hf, hz, hout, _⟩ := forward_spec l input hl (hn ▸ hin)
    obtain ⟨res, ls1, hfl, hres, hch1, hos1, hcached, hpar, harch, hlast⟩ :=
      ih l.neuronCount out hrest hout
    refine ⟨res, { l with lastInput := input, Z := z, A := out } :: ls1, ?_, hres,
      ⟨hl, hn, hch1⟩, hos1, ?_, ?_, List.Forall₂.cons ⟨rfl, rfl, rfl⟩ harch, ?_⟩
    · simp only [forwardLayers, hf, hfl]
    · intro x hx
      rcases List.mem_cons.mp hx with h | h
      · subst h; exact ⟨hn ▸ hin, hz, hout⟩
      · exact hcached x h
    · simp only [parameters, List.map_cons] at hpar ⊢
      rw [hpar]
    · intro last hlast1
      cases ls1 with
      | nil =>
        cases ls with
        | nil =>
          simp only [forwardLayers, Prod.mk.injEq, Except.ok.injEq] at hfl
          simp only [List.getLast?_singleton, Option.some.injEq] at hlast1
          rw [← hlast1, ← hfl.1]
        | cons a as => cases harch
      | cons b bs =>
        rw [List.getLast?_cons_cons] at hlast1
        exact hlast last hlast1

/-- The value `NeuralNetwork::forward` returns is the pipeline value, whatever the
layers and the input. -/
theorem forwardLayers_eq_pipeline {R : Type} [Zero R] [One R] [Add R] [Mul R]
    (ls : List (Layer R)) (input : Matrix R) :
    (forwardLayers ls input).1 = forwardPipeline ls input := by
  induction ls generalizing input with
  | nil => rfl
  | cons l ls ih =>
    unfold forwardLayers forwardPipeline
    rcases h : l.forward input with ⟨r, l1⟩
    cases r with
    | error e => rfl
    | ok y => exact ih y

/-- The layers `NeuralNetwork::NeuralNetwork` builds. -/
theorem ctor_layers {R : Type} [Zero R] [One R] [Add R] [Sub R] [Mul R] [Neg R]
    (sizes : List Nat) (act dact : R → R) (rand : Nat → Nat → R) (clock : Nat → Nat)
    (h : 2 ≤ sizes.length) :
    NeuralNetwork.ctor sizes act dact rand clock = .ok (NeuralNetwork.mk
      ((List.range (sizes.length - 1)).map (fun k =>
        Layer.ctor (sizes.getD k 0) (sizes.getD (k + 1) 0) act dact rand
          (clock (2 * k)) (clock (2 * k + 1))))) := by
  unfold NeuralNetwork.ctor
  rw [if_neg (by omega)]
  simp only [Nat.add_sub_cancel]
  rw [pushLoop_eq_map (fun k => Layer.ctor (sizes.getD k 0) (sizes.getD (k + 1) 0) act dact rand
    (clock (2 * k)) (clock (2 * k + 1)))]

/-- The counting-down loop of `NeuralNetwork::backward` over the first
`pre.length` layers is the chain of `backward` calls over those layers taken
from last to first; the layers behind them are not touched. -/
theorem backwardLoop_append {R : Type} [Zero R] [One R] [Add R] [Sub R] [Mul R] (lr : R)
    (pre suf : List (Layer R)) (g : Matrix R) :
    backwardLoop lr pre.length (pre ++ suf) g
      = ((backwardChain lr pre.reverse g).1, (backwardChain lr pre.reverse g).2.reverse ++ suf) := by
  induction pre using List.reverseRecOn generalizing suf g with
  | nil => rfl
  | append_singleton init l ih =>
    have hget : (init ++ ([l] ++ suf))[init.length]? = some l := by
      rw [List.getElem?_append_right (Nat.le_refl _)]
      simp
    have hset : ∀ l1 : Layer R,
        (init ++ ([l] ++ suf)).set init.length l1 = init ++ ([l1] ++ suf) := by
      intro l1
      rw [List.set_append_right _ _ (Nat.le_refl _)]
      simp
    rw [List.length_append, List.length_singleton, List.reverse_append, List.reverse_singleton,
      List.singleton_append, List.append_assoc]
    unfold backwardLoop backwardChain
    rw [hget]
    rcases hb : l.backward g lr with ⟨r, l1⟩
    cases r with
    | error e => simp only [hb, hset, List.reverse_cons, List.reverse_reverse, List.append_assoc]
    | ok g1 =>
      simp only [hb, hset, ih, List.reverse_cons, List.append_assoc]

theorem matrix_eq_of_get {R : Type} [Zero R] (A B : Matrix R) (n q : Nat)
    (hA : A.HasShape n q) (hB : B.HasShape n q)
    (h : ∀ i j, i < n → j < q → A.get i j = B.get i j) : A = B := by
  obtain ⟨hAr, hAc, hAwf⟩ := hA
  obtain ⟨hBr, hBc, hBwf⟩ := hB
  have hlenA : A.data.length = n * q := by rw [hAwf, hAr, hAc]
  have hlenB : B.data.length = n * q := by rw [hBwf, hBr, hBc]
  apply matrix_ext _ _ (hAr.trans hBr.symm) (hAc.trans hBc.symm)
  apply list_ext_getD 0 _ _ (hlenA.trans hlenB.symm)
  intro i hi
  rw [hlenA] at hi
  have hq : 0 < q := by
    rcases Nat.eq_zero_or_pos q with h0 | hpos
    · rw [h0, Nat.mul_zero] at hi; exact absurd hi (Nat.not_lt_zero i)
    · exact hpos
  have hdiv : i / q < n := by rw [Nat.div_lt_iff_lt_mul hq]; exact hi
  have hi' : i / q * q + i % q = i := by rw [Nat.mul_comm]; exact Nat.div_add_mod i q
  have := h (i / q) (i % q) hdiv (Nat.mod_lt i hq)
  unfold Matrix.get at this
  rw [hAc, hBc, hi'] at this
  exact this

theorem chain_reverse {R : Type} (ls : List (Layer R)) (n : Nat) (hch : Chain ls n)
    (hc : ∀ l, l ∈ ls → l.Cached) : BackChain ls.reverse (outSize ls n) := by
  induction ls using List.reverseRecOn with
  | nil => exact trivial
  | append_singleton init l ih =>
    obtain ⟨hinit, hl, hsz⟩ := (chain_concat init l n).mp hch
    rw [List.reverse_append, List.reverse_singleton, List.singleton_append, outSize_concat]
    refine ⟨hl, hc l (by simp), rfl, ?_⟩
    rw [hsz]
    exact ih hinit (fun x hx => hc x (List.mem_append_left _ hx))

/-- The chain of `backward` calls on layers ready for it does not throw. -/
theorem backwardChain_ok {R : Type} [Zero R] [One R] [Add R] [Sub R] [Mul R] (lr : R)
    (rs : List (Layer R)) (m : Nat) (g : Matrix R) (hrs : BackChain rs m)
    (hg : g.HasShape m 1) :
    ∃ rs1, backwardChain lr rs g = (.ok (), rs1) ∧ rs1.length = rs.length := by
  induction rs generalizing m g with
  | nil => exact ⟨[], rfl, rfl⟩
  | cons l rs ih =>
    obtain ⟨hl, hc, hm, hrest⟩ := hrs
    obtain ⟨dZ, dW, W1, B1, dX, _, _, _, _, _, hdX, hb⟩ := backward_spec l g lr hl hc (hm ▸ hg)
    obtain ⟨rs1, hrs1, hlen⟩ := ih l.inputSize dX hrest hdX
    refine ⟨{ l with W := W1, B := B1 } :: rs1, ?_,
      by rw [List.length_cons, List.length_cons, hlen]⟩
    simp only [backwardChain, hb, hrs1]

theorem forall₂_length_ne_nil {R : Type} {r : Layer R → Layer R → Prop}
    (ls1 ls : List (Layer R)) (h : List.Forall₂ r ls1 ls) (hne : ls ≠ []) : ls1 ≠ [] := by
  cases h with
  | nil => exact absurd rfl hne
  | cons _ _ => exact List.cons_ne_nil _ _

/-! ## Persistence -/

theorem read_exact {R : Type} (rest buf : List R) (n : Nat) (hn : n ≤ rest.length)
    (hbuf : buf.length = n) :
    IStream.read { rest := rest, good := true } buf n
      = (rest.take n, { rest := rest.drop n, good := true }) := by
  unfold IStream.read
  simp only [if_true, if_pos hn]
  rw [List.drop_of_length_le (Nat.le_of_eq hbuf), List.append_nil]

theorem layer_save_eq {R : Type} (l : Layer R) (out : File R) (hl : l.Shaped) :
    l.save out = out ++ (l.W.data ++ l.B.data) := by
  obtain ⟨⟨_, _, hW⟩, _, _, hB⟩ := hl
  unfold Layer.save
  rw [List.take_of_length_le (Nat.le_of_eq hW), List.take_of_length_le (Nat.le_of_eq hB),
    List.append_assoc]

theorem save_loop_eq {R : Type} (ls : List (Layer R)) (out : File R)
    (hls : ∀ l, l ∈ ls → l.Shaped) :
    ls.foldl (fun out layer => layer.save out) out = out ++ payload ls := by
  induction ls generalizing out with
  | nil => simp [payload]
  | cons l ls ih =>
    rw [List.foldl_cons, layer_save_eq l out (hls l (List.mem_cons_self _ _)),
      ih _ (fun x hx => hls x (List.mem_cons_of_mem _ hx))]
    simp only [payload, List.append_assoc]

/-- `Layer::load` from a stream that starts with the image of a layer of the same
sizes: the layer takes over that layer's `W` and `B`. -/
theorem layer_load_eq {R : Type} (m n : Layer R) (rest : List R) (hm : m.Shaped)
    (hn : n.Shaped) (hi : n.inputSize = m.inputSize) (hc : n.neuronCount = m.neuronCount) :
    m.load { rest := n.W.data ++ n.B.data ++ rest, good := true }
      = ({ m with W := n.W, B := n.B }, { rest := rest, good := true }) := by
  obtain ⟨⟨hmWr, hmWc, hmW⟩, hmBr, hmBc, hmB⟩ := hm
  obtain ⟨⟨hnWr, hnWc, hnW⟩, hnBr, hnBc, hnB⟩ := hn
  have hWr : m.W.rows = n.W.rows := by rw [hmWr, hnWr, hc]
  have hWc : m.W.cols = n.W.cols := by rw [hmWc, hnWc, hi]
  have hBr : m.B.rows = n.B.rows := by rw [hmBr, hnBr, hc]
  have hBc : m.B.cols = n.B.cols := by rw [hmBc, hnBc]
  have hlenW : n.W.data.length = m.W.rows * m.W.cols := by rw [hnW, hWr, hWc]
  have hlenB : n.B.data.length = m.B.rows * m.B.cols := by rw [hnB, hBr, hBc]
  have h1 := read_exact (n.W.data ++ n.B.data ++ rest) m.W.data (m.W.rows * m.W.cols)
    (by rw [List.length_append, List.length_append, hlenW]; omega) hmW
  rw [List.append_assoc, ← hlenW, List.take_left, List.drop_left] at h1
  have h2 := read_exact (n.B.data ++ rest) m.B.data (m.B.rows * m.B.cols)
    (by rw [List.length_append, hlenB]; omega) hmB
  rw [← hlenB, List.take_left, List.drop_left] at h2
  unfold Layer.load
  rw [List.append_assoc, ← hlenW, h1]
  simp only
  rw [← hlenB, h2]
  simp only [Prod.mk.injEq, and_true]
  have eW : ({ m.W with data := n.W.data } : Matrix R) = n.W := matrix_ext _ _ hWr hWc rfl
  have eB : ({ m.B with data := n.B.data } : Matrix R) = n.B := matrix_ext _ _ hBr hBc rfl
  rw [eW, eB]

/-- The loop of `NeuralNetwork::load` on the payload of a network of the same
architecture: every layer takes over the saved `W` and `B`. -/
theorem loadLayers_payload {R : Type} (ns ms : List (Layer R)) (rest : List R)
    (hsame : List.Forall₂ Layer.SameArch ns ms) (hns : ∀ l, l ∈ ns → l.Shaped)
    (hms : ∀ l, l ∈ ms → l.Shaped) :
    ∃ ms1, loadLayers ms { rest := payload ns ++ rest, good := true }
        = (ms1, { rest := rest, good := true }) ∧
      List.Forall₂ (fun n m => m.W = n.W ∧ m.B = n.B ∧ m.activate = n.activate) ns ms1 := by
  induction hsame generalizing rest with
  | nil => exact ⟨[], rfl, List.Forall₂.nil⟩
  | @cons n m ns ms hnm _ ih =>
    obtain ⟨ms1, hload, hrel⟩ := ih rest (fun x hx => hns x (List.mem_cons_of_mem _ hx))
      (fun x hx => hms x (List.mem_cons_of_mem _ hx))
    have h1 := layer_load_eq m n (payload ns ++ rest) (hms m (List.mem_cons_self _ _))
      (hns n (List.mem_cons_self _ _)) hnm.1 hnm.2.1
    refine ⟨{ m with W := n.W, B := n.B } :: ms1, ?_,
      List.Forall₂.cons ⟨rfl, rfl, hnm.2.2.symm⟩ hrel⟩
    simp only [loadLayers, payload, List.append_assoc] at h1 ⊢
    rw [h1]
    simp only [hload]

theorem layer_forward_congr {R : Type} [Zero R] [One R] [Add R] [Mul R] (a b : Layer R)
    (x : Matrix R) (hW : b.W = a.W) (hB : b.B = a.B) (hact : b.activate = a.activate) :
    (b.forward x).1 = (a.forward x).1 := by
  unfold Layer.forward
  simp only [hW, hB, hact]
  cases a.W.mul x with
  | error e => rfl
  | ok wx =>
    dsimp only
    cases wx.add a.B with
    | error e => rfl
    | ok z => rfl

theorem forwardPipeline_congr {R : Type} [Zero R] [One R] [Add R] [Mul R]
    (ns ms : List (Layer R)) (x : Matrix R)
    (h : List.Forall₂ (fun n m => m.W = n.W ∧ m.B = n.B ∧ m.activate = n.activate) ns ms) :
    forwardPipeline ms x = forwardPipeline ns x := by
  induction h generalizing x with
  | nil => rfl
  | @cons n m ns ms hnm _ ih =>
    unfold forwardPipeline
    rw [layer_forward_congr n m x hnm.1 hnm.2.1 hnm.2.2]
    cases (n.forward x).1 with
    | error e => rfl
    | ok y => exact ih y

/-- Saving `N` and loading the file into a network `M` of the same architecture
whose layers are shaped. -/
theorem roundtrip_shaped {R : Type} [Zero R] [One R] [Add R] [Mul R] (N M : NeuralNetwork R)
    (hsame : List.Forall₂ Layer.SameArch N.layers M.layers)
    (hN : ∀ l, l ∈ N.layers → l.Shaped) (hM : ∀ l, l ∈ M.layers → l.Shaped) :
    ∃ (bytes : File R) (M1 : NeuralNetwork R),
      N.save true = .ok bytes ∧ bytes = payload N.layers ∧
      M.load (some bytes) = (.ok (), M1) ∧
      List.Forall₂ (fun n m => m.W = n.W ∧ m.B = n.B) N.layers M1.layers ∧
      ∀ x, (M1.predict x).1 = (N.predict x).1 := by
  obtain ⟨ms1, hload, hrel⟩ := loadLayers_payload N.layers M.layers [] hsame hN hM
  rw [List.append_nil] at hload
  refine ⟨payload N.layers, { layers := ms1 }, ?_, rfl, ?_, ?_, fun x => ?_⟩
  · unfold NeuralNetwork.save
    simp only [Bool.not_true, Bool.false_eq_true, if_false]
    rw [save_loop_eq N.layers [] hN, List.nil_append]
  · simp only [NeuralNetwork.load, hload]
  · exact hrel.imp (fun _ _ h => ⟨h.1, h.2.1⟩)
  · have e1 : (NeuralNetwork.predict { layers := ms1 } x).1 = forwardPipeline ms1 x :=
      forwardLayers_eq_pipeline ms1 x
    have e2 : (N.predict x).1 = forwardPipeline N.layers x :=
      forwardLayers_eq_pipeline N.layers x
    rw [e1, e2]
    exact forwardPipeline_congr N.layers ms1 x hrel

/-! ## Matrix claims -/

/-- C1. `A*B` throws exactly when `A.cols != B.rows`, and then the
multiplication error; `A+B` and `A-B` throw exactly when the shapes differ, and
then the addition, respectively subtraction, error. -/
theorem matrix_ops_fail_iff {R : Type} [Zero R] [One R] [Add R] [Sub R] [Mul R]
    (A B : Matrix R) :
    ((A.mul B = .error Error.multiplicationSize ↔ A.cols ≠ B.rows) ∧
      ((∃ e, A.mul B = .error e) ↔ A.cols ≠ B.rows)) ∧
    ((A.add B = .error Error.additionDim ↔ (A.rows ≠ B.rows ∨ A.cols ≠ B.cols)) ∧
      ((∃ e, A.add B = .error e) ↔ (A.rows ≠ B.rows ∨ A.cols ≠ B.cols))) ∧
    ((A.sub B = .error Error.subtractionDim ↔ (A.rows ≠ B.rows ∨ A.cols ≠ B.cols)) ∧
      ((∃ e, A.sub B = .error e) ↔ (A.rows ≠ B.rows ∨ A.cols ≠ B.cols))) := by
  refine ⟨⟨?_, ?_⟩, ⟨?_, ?_⟩, ⟨?_, ?_⟩⟩
  · unfold Matrix.mul; split <;> simp_all
  · unfold Matrix.mul; split <;> simp_all
  · unfold Matrix.add; split <;> simp_all
  · unfold Matrix.add; split <;> simp_all
  · unfold Matrix.sub; split <;> simp_all
  · unfold Matrix.sub; split <;> simp_all

/-- Over a semiring the entry of the product is the usual finite sum. -/
theorem mul_entry_eq_sum {R : Type} [Semiring R] (A B : Matrix R) (h : A.cols = B.rows) :
    ∃ C : Matrix R, A.mul B = .ok C ∧
      ∀ r c, r < A.rows → c < B.cols →
        C.get r c = ∑ k in Finset.range A.cols, A.get r k * B.get k c := by
  obtain ⟨C, hC, _, _, _, hent⟩ := mul_spec A B h
  refine ⟨C, hC, fun r c hr hc => ?_⟩
  rw [hent r c hr hc]
  generalize A.cols = n
  induction n with
  | zero => rfl
  | succ k ih => rw [forLoop_succ, ih, Finset.sum_range_succ]

/-- C3. Transposing a well-formed matrix twice gives the matrix back: same
`rows`, same `cols`, same buffer, hence the same element at every position. -/
theorem transpose_transpose {R : Type} [Zero R] [One R] (m : Matrix R) (hm : m.WF) :
    m.transpose.transpose = m ∧
    m.transpose.transpose.rows = m.rows ∧ m.transpose.transpose.cols = m.cols ∧
    ∀ r c, m.transpose.transpose.get r c = m.get r c := by
  obtain ⟨hr1, hc1, _, he1⟩ := transpose_spec m
  obtain ⟨hr2, hc2, hwf2, he2⟩ := transpose_spec m.transpose
  have hrows : m.transpose.transpose.rows = m.rows := hr2.trans hc1
  have hcols : m.transpose.transpose.cols = m.cols := hc2.trans hr1
  have hlen : m.transpose.transpose.data.length = m.data.length := by
    rw [hwf2, hr2, hc2, hc1, hr1, hm]
  have heq : m.transpose.transpose = m := by
    apply matrix_ext _ _ hrows hcols
    apply list_ext_getD 0 _ _ hlen
    intro i hi
    rw [hlen, hm] at hi
    have hq : 0 < m.cols := by
      rcases Nat.eq_zero_or_pos m.cols with h0 | hpos
      · rw [h0, Nat.mul_zero] at hi; exact absurd hi (Nat.not_lt_zero i)
      · exact hpos
    have hdiv : i / m.cols < m.rows := by
      rw [Nat.div_lt_iff_lt_mul hq]; exact hi
    have hmod : i % m.cols < m.cols := Nat.mod_lt i hq
    have hi' : i / m.cols * m.cols + i % m.cols = i := by
      rw [Nat.mul_comm]; exact Nat.div_add_mod i m.cols
    have h1 := he2 (i % m.cols) (i / m.cols) (by rw [hr1]; exact hmod) (by rw [hc1]; exact hdiv)
    have h2 := he1 (i / m.cols) (i % m.cols) hdiv hmod
    have h3 := h1.trans h2
    unfold Matrix.get at h3
    rw [hcols, hi'] at h3
    exact h3
  exact ⟨heq, hrows, hcols, fun r c => by rw [heq]⟩

/-- The hypothesis of `transpose_transpose` holds for a 2 x 3 matrix of integers. -/
theorem transpose_transpose_witness :
    (⟨2, 3, [1, 2, 3, 4, 5, 6]⟩ : Matrix Int).WF ∧
    (⟨2, 3, [1, 2, 3, 4, 5, 6]⟩ : Matrix Int).transpose.transpose = ⟨2, 3, [1, 2, 3, 4, 5, 6]⟩ :=
  ⟨by decide, (transpose_transpose ⟨2, 3, [1, 2, 3, 4, 5, 6]⟩ (by decide)).1⟩

/-! ## Layer claims -/

/-- C4. On a layer with `W` of shape neuronCount x inputSize and `B` of shape
neuronCount x 1, `forward` applied to an inputSize x 1 input does not throw; it
returns the neuronCount x 1 matrix whose entry `i` is `activate(Z(i))` with
`Z = W*input + B`, and leaves `lastInput == input`, `Z == W*input + B`,
`A ==` the returned matrix, `W` and `B` as they were. -/
theorem layer_forward_correct {R : Type} [Zero R] [One R] [Add R] [Mul R] (l : Layer R)
    (input : Matrix R) (hl : l.Shaped) (hin : input.HasShape l.inputSize 1) :
    ∃ (wx z out : Matrix R) (l1 : Layer R),
      l.W.mul input = .ok wx ∧ wx.add l.B = .ok z ∧
      l.forward input = (.ok out, l1) ∧
      out.HasShape l.neuronCount 1 ∧
      (∀ i, i < l.neuronCount → out.get i 0 = l.activate (z.get i 0)) ∧
      l1.lastInput = input ∧ l1.Z = z ∧ l1.A = out ∧ l1.W = l.W ∧ l1.B = l.B := by
  obtain ⟨wx, z, out, hwx, hz, hf, _, hout, hent⟩ := forward_spec l input hl hin
  exact ⟨wx, z, out, _, hwx, hz, hf, hout, hent, rfl, rfl, rfl, rfl, rfl⟩

/-- The hypotheses of `layer_forward_correct` hold for the 2 x 2 identity layer and the
input `[3, 4]`. -/
theorem layer_forward_correct_witness :
    (identityLayer2.Shaped ∧ (⟨2, 1, [3, 4]⟩ : Matrix Int).HasShape identityLayer2.inputSize 1) ∧
    ∃ (wx z out : Matrix Int) (l1 : Layer Int),
      identityLayer2.W.mul ⟨2, 1, [3, 4]⟩ = .ok wx ∧ wx.add identityLayer2.B = .ok z ∧
      identityLayer2.forward ⟨2, 1, [3, 4]⟩ = (.ok out, l1) ∧
      out.HasShape identityLayer2.neuronCount 1 ∧
      (∀ i, i < identityLayer2.neuronCount →
        out.get i 0 = identityLayer2.activate (z.get i 0)) ∧
      l1.lastInput = ⟨2, 1, [3, 4]⟩ ∧ l1.Z = z ∧ l1.A = out ∧
      l1.W = identityLayer2.W ∧ l1.B = identityLayer2.B :=
  ⟨⟨by decide, by decide⟩,
    layer_forward_correct identityLayer2 ⟨2, 1, [3, 4]⟩ (by decide) (by decide)⟩

/-- C5. On a shaped layer whose caches come from a forward pass, `backward`
applied to a neuronCount x 1 gradient `dC_dA` does not throw; with
`dC_dZ(i) = dC_dA(i) * activateDerivative(Z(i))` taken from the cached `Z` and
`dC_dW = dC_dZ * lastInput^T`, it leaves `W(i,j) = W_old(i,j) - lr * dC_dW(i,j)`
and `B(i) = B_old(i) - lr * dC_dZ(i)`, keeps the shapes of `W` and `B`, and
keeps `lastInput`, `Z` and `A`. -/
theorem layer_backward_update {R : Type} [Zero R] [One R] [Add R] [Sub R] [Mul R]
    (l : Layer R) (dC_dA : Matrix R) (lr : R) (hl : l.Shaped) (hc : l.Cached)
    (hg : dC_dA.HasShape l.neuronCount 1) :
    ∃ (dC_dZ dC_dW g : Matrix R) (l1 : Layer R),
      (dC_dZ.HasShape l.neuronCount 1 ∧
        ∀ i, i < l.neuronCount →
          dC_dZ.get i 0 = dC_dA.get i 0 * l.activateDerivative (l.Z.get i 0)) ∧
      dC_dZ.mul l.lastInput.transpose = .ok dC_dW ∧
      l.backward dC_dA lr = (.ok g, l1) ∧
      (l1.W.HasShape l.neuronCount l.inputSize ∧
        ∀ i j, i < l.neuronCount → j < l.inputSize →
          l1.W.get i j = l.W.get i j - lr * dC_dW.get i j) ∧
      (l1.B.HasShape l.neuronCount 1 ∧
        ∀ i, i < l.neuronCount → l1.B.get i 0 = l.B.get i 0 - lr * dC_dZ.get i 0) ∧
      l1.lastInput = l.lastInput ∧ l1.Z = l.Z ∧ l1.A = l.A := by
  obtain ⟨dZ, dW, W1, B1, dX, hdZ, hdW, hW1, hB1, _, _, hb⟩ := backward_spec l dC_dA lr hl hc hg
  exact ⟨dZ, dW, dX, _, hdZ, hdW, hb, hW1, hB1, rfl, rfl, rfl⟩

/-- The hypotheses of `layer_backward_update` hold for the 1 x 1 layer `unitLayer`, the
gradient `[1]` and the learning rate `1`. -/
theorem layer_backward_update_witness :
    (unitLayer.Shaped ∧ unitLayer.Cached ∧
      (⟨1, 1, [1]⟩ : Matrix Int).HasShape unitLayer.neuronCount 1) ∧
    ∃ (dC_dZ dC_dW g : Matrix Int) (l1 : Layer Int),
      (dC_dZ.HasShape unitLayer.neuronCount 1 ∧
        ∀ i, i < unitLayer.neuronCount →
          dC_dZ.get i 0
            = (⟨1, 1, [1]⟩ : Matrix Int).get i 0
              * unitLayer.activateDerivative (unitLayer.Z.get i 0)) ∧
      dC_dZ.mul unitLayer.lastInput.transpose = .ok dC_dW ∧
      unitLayer.backward ⟨1, 1, [1]⟩ 1 = (.ok g, l1) ∧
      (l1.W.HasShape unitLayer.neuronCount unitLayer.inputSize ∧
        ∀ i j, i < unitLayer.neuronCount → j < unitLayer.inputSize →
          l1.W.get i j = unitLayer.W.get i j - 1 * dC_dW.get i j) ∧
      (l1.B.HasShape unitLayer.neuronCount 1 ∧
        ∀ i, i < unitLayer.neuronCount →
          l1.B.get i 0 = unitLayer.B.get i 0 - 1 * dC_dZ.get i 0) ∧
      l1.lastInput = unitLayer.lastInput ∧ l1.Z = unitLayer.Z ∧ l1.A = unitLayer.A :=
  ⟨⟨by decide, by decide, by decide⟩,
    layer_backward_update unitLayer ⟨1, 1, [1]⟩ 1 (by decide) (by decide) (by decide)⟩

/-- C6. `Layer::backward` returns `W^T * dC_dZ` with the weights as they are after
this call's update, not before it.  On `unitLayer` (`W = [2]`, with the caches
`Z = [2]`, `lastInput = [1]` of a forward pass on `[1]`) with `dC_dA = [1]` and learning rate `1`: `dC_dZ = [1]`, the
update leaves `W = [1]`, the call returns `[1] = W_post^T * dC_dZ`, whereas
`W_pre^T * dC_dZ = [2]`. -/
theorem layer_backward_returns_post_update_gradient :
    ((unitLayer.forward ⟨1, 1, [1]⟩).2.lastInput = unitLayer.lastInput ∧
      (unitLayer.forward ⟨1, 1, [1]⟩).2.Z = unitLayer.Z ∧
      (unitLayer.forward ⟨1, 1, [1]⟩).2.A = unitLayer.A) ∧
    (unitLayer.backward ⟨1, 1, [1]⟩ 1).1 = .ok ⟨1, 1, [1]⟩ ∧
    (unitLayer.backward ⟨1, 1, [1]⟩ 1).2.W = ⟨1, 1, [1]⟩ ∧
    (unitLayer.backward ⟨1, 1, [1]⟩ 1).2.W.transpose.mul ⟨1, 1, [1]⟩ = .ok ⟨1, 1, [1]⟩ ∧
    unitLayer.W.transpose.mul ⟨1, 1, [1]⟩ = .ok ⟨1, 1, [2]⟩ ∧
    (unitLayer.backward ⟨1, 1, [1]⟩ 1).1 ≠ unitLayer.W.transpose.mul ⟨1, 1, [1]⟩ := by
  refine ⟨⟨rfl, rfl, rfl⟩, rfl, rfl, rfl, rfl, ?_⟩
  intro h
  have h1 : (unitLayer.backward ⟨1, 1, [1]⟩ 1).1 = .ok ⟨1, 1, [1]⟩ := rfl
  have h2 : unitLayer.W.transpose.mul ⟨1, 1, [1]⟩ = .ok ⟨1, 1, [2]⟩ := rfl
  rw [h1, h2] at h
  exact absurd (Except.ok.inj h) (by decide)

/-- For every shaped layer with shaped caches the value `backward` returns is the
product of the transposed updated weights with `dC_dZ`. -/
theorem layer_backward_gradient_eq {R : Type} [Zero R] [One R] [Add R] [Sub R] [Mul R]
    (l : Layer R) (dC_dA : Matrix R) (lr : R) (hl : l.Shaped) (hc : l.Cached)
    (hg : dC_dA.HasShape l.neuronCount 1) :
    ∃ dC_dZ : Matrix R,
      (dC_dZ.HasShape l.neuronCount 1 ∧
        ∀ i, i < l.neuronCount →
          dC_dZ.get i 0 = dC_dA.get i 0 * l.activateDerivative (l.Z.get i 0)) ∧
      (l.backward dC_dA lr).1 = (l.backward dC_dA lr).2.W.transpose.mul dC_dZ := by
  obtain ⟨dZ, dW, W1, B1, dX, hdZ, _, _, _, hdX, _, hb⟩ := backward_spec l dC_dA lr hl hc hg
  exact ⟨dZ, hdZ, by rw [hb]; exact hdX.symm⟩

/-! ## Network claims -/

/-- An entry read with `operator()` inside the shape is one of `data`. -/
theorem get_mem_data {R : Type} [Zero R] (m : Matrix R) (i j : Nat) (hwf : m.WF)
    (hi : i < m.rows) (hj : j < m.cols) : m.get i j ∈ m.data := by
  have hidx : i * m.cols + j < m.data.length := by
    rw [hwf]
    exact rowMajor_lt _ _ _ _ hi hj
  unfold Matrix.get
  rw [List.getD_eq_getElem?_getD, List.getElem?_eq_getElem hidx]
  exact List.getElem_mem _

/-- `Layer::backward` on a shaped layer, as `backward_spec`, together with the entries
it multiplies by the learning rate. -/
theorem backward_scaled {R : Type} [Zero R] [One R] [Add R] [Sub R] [Mul R] (l : Layer R)
    (dC_dA : Matrix R) (lr : R) (hl : l.Shaped) (hc : l.Cached)
    (hg : dC_dA.HasShape l.neuronCount 1) :
    ∃ dZ dW W1 B1 dX : Matrix R,
      dZ.HasShape l.neuronCount 1 ∧ dW.HasShape l.neuronCount l.inputSize ∧
      l.scaledEntries dC_dA = dW.data ++ dZ.data ∧
      (W1.HasShape l.neuronCount l.inputSize ∧
        ∀ i j, i < l.neuronCount → j < l.inputSize →
          W1.get i j = l.W.get i j - lr * dW.get i j) ∧
      (B1.HasShape l.neuronCount 1 ∧
        ∀ i, i < l.neuronCount → B1.get i 0 = l.B.get i 0 - lr * dZ.get i 0) ∧
      dX.HasShape l.inputSize 1 ∧
      l.backward dC_dA lr = (.ok dX, { l with W := W1, B := B1 }) := by
  obtain ⟨⟨hWr, hWc, hWwf⟩, hBr, hBc, hBwf⟩ := hl
  obtain ⟨⟨hIr, hIc, _⟩, _, _⟩ := hc
  obtain ⟨hgr, hgc, hgwf⟩ := hg
  obtain ⟨dZ, hdZ, hdZr, hdZc, hdZwf, hdZe⟩ := updLoop_spec dC_dA
    (fun i j x => x * l.activateDerivative (l.Z.get i j)) hgwf
  obtain ⟨hTr, hTc, _, _⟩ := transpose_spec l.lastInput
  obtain ⟨dW, hdW, hdWr, hdWc, hdWwf, _⟩ := mul_spec dZ l.lastInput.transpose
    (by rw [hdZc, hgc, hTr, hIc])
  obtain ⟨W1, hW1, hW1r, hW1c, hW1wf, hW1e⟩ := updLoop_spec l.W
    (fun i j x => x - lr * dW.get i j) hWwf
  obtain ⟨B1, hB1, hB1r, hB1c, hB1wf, hB1e⟩ := updLoop_spec l.B
    (fun i j x => x - lr * dZ.get i j) hBwf
  obtain ⟨hT1r, hT1c, _, _⟩ := transpose_spec W1
  obtain ⟨dX, hdX, hdXr, hdXc, hdXwf, _⟩ := mul_spec W1.transpose dZ
    (by rw [hT1c, hW1r, hWr, hdZr, hgr])
  refine ⟨dZ, dW, W1, B1, dX, ⟨hdZr.trans hgr, hdZc.trans hgc, hdZwf⟩,
    ⟨by rw [hdWr, hdZr, hgr], by rw [hdWc, hTc, hIr], hdWwf⟩, ?_,
    ⟨⟨hW1r.trans hWr, hW1c.trans hWc, hW1wf⟩, fun i j hi hj => ?_⟩,
    ⟨⟨hB1r.trans hBr, hB1c.trans hBc, hB1wf⟩, fun i hi => ?_⟩,
    ⟨by rw [hdXr, hT1r, hW1c, hWc], by rw [hdXc, hdZc, hgc], hdXwf⟩, ?_⟩
  · simp only [Layer.scaledEntries, hdZ, hdW]
  · exact hW1e i j (by rw [hWr]; exact hi) (by rw [hWc]; exact hj)
  · exact hB1e i 0 (by rw [hBr]; exact hi) (by rw [hBc]; exact Nat.one_pos)
  · simp only [Layer.backward, hdZ, hdW, hW1, hB1, hdX]

/-- `Layer::backward` with learning rate `0` when every gradient entry `g` it scales
is absorbed, `w - 0 * g = w`: no throw, a gradient of the input's shape, the layer
unchanged. -/
theorem backward_zero_of {R : Type} [Zero R] [One R] [Add R] [Sub R] [Mul R]
    (l : Layer R) (g : Matrix R) (hl : l.Shaped) (hc : l.Cached)
    (hg : g.HasShape l.neuronCount 1)
    (h0 : ∀ x, x ∈ l.scaledEntries g → ∀ w : R, w - 0 * x = w) :
    ∃ dX : Matrix R, l.backward g 0 = (.ok dX, l) ∧ dX.HasShape l.inputSize 1 := by
  obtain ⟨dZ, dW, W1, B1, dX, hdZs, hdWs, hent, ⟨hW1s, hW1e⟩, ⟨hB1s, hB1e⟩, hdX, hb⟩ :=
    backward_scaled l g 0 hl hc hg
  have hW : W1 = l.W := matrix_eq_of_get W1 l.W _ _ hW1s hl.1
    (fun i j hi hj => by
      rw [hW1e i j hi hj]
      apply h0
      rw [hent]
      exact List.mem_append_left _
        (get_mem_data dW i j hdWs.2.2 (by rw [hdWs.1]; exact hi) (by rw [hdWs.2.1]; exact hj)))
  have hB : B1 = l.B := matrix_eq_of_get B1 l.B _ _ hB1s hl.2
    (fun i j hi hj => by
      have hj0 : j = 0 := by omega
      subst hj0
      rw [hB1e i hi]
      apply h0
      rw [hent]
      exact List.mem_append_right _
        (get_mem_data dZ i 0 hdZs.2.2 (by rw [hdZs.1]; exact hi)
          (by rw [hdZs.2.1]; exact Nat.one_pos)))
  refine ⟨dX, ?_, hdX⟩
  rw [hb, hW, hB]

/-- With learning rate `0` and every scaled gradient entry absorbed, the chain of
`backward` calls does not throw and leaves every layer as it was. -/
theorem backwardChain_zero_of {R : Type} [Zero R] [One R] [Add R] [Sub R] [Mul R]
    (rs : List (Layer R)) (m : Nat) (g : Matrix R)
    (hrs : BackChain rs m) (hg : g.HasShape m 1)
    (h0 : ∀ x, x ∈ scaledEntriesChain rs g → ∀ w : R, w - 0 * x = w) :
    backwardChain 0 rs g = (.ok (), rs) := by
  induction rs generalizing m g with
  | nil => rfl
  | cons l rs ih =>
    obtain ⟨hl, hc, hm, hrest⟩ := hrs
    obtain ⟨dX, hb, hdX⟩ := backward_zero_of l g hl hc (hm ▸ hg)
      (fun x hx => h0 x (by
        simp only [scaledEntriesChain]
        exact List.mem_append_left _ hx))
    have hrec := ih l.inputSize dX hrest hdX
      (fun x hx => h0 x (by
        simp only [scaledEntriesChain, hb]
        exact List.mem_append_right _ hx))
    simp only [backwardChain, hb, hrec]

/-- A `double` that holds a representable integer is that integer's rounding. -/
theorem ofInt_of_representable (x : Int) (h : Dbl.Representable x) :
    Dbl.ofInt x = Dbl.fin x h := by
  have hr : (if x < 0 then -((Dbl.roundNat x.natAbs : Nat) : Int)
      else ((Dbl.roundNat x.natAbs : Nat) : Int)) = x := by
    rw [h.2]
    split <;> omega
  unfold Dbl.ofInt
  simp only [hr]
  rw [dif_pos h]

/-- In `double` arithmetic a finite `g` is absorbed: `w - 0 * g = w` for every `w`. -/
theorem dbl_sub_zero_mul (w g : Dbl) (hg : g.isFinite = true) : w - 0 * g = w := by
  cases g with
  | inf b => cases hg
  | nan => cases hg
  | fin y hy =>
    have hz : (0 : Dbl) = Dbl.fin 0 (by decide) := by decide
    have hmul : (0 : Dbl) * Dbl.fin y hy = Dbl.fin 0 (by decide) := by
      rw [hz]
      show Dbl.ofInt (0 * y) = _
      rw [Int.zero_mul]
      decide
    rw [hmul]
    cases w with
    | nan => rfl
    | inf a => rfl
    | fin x hx =>
      show Dbl.ofInt (x - 0) = _
      rw [Int.sub_zero]
      exact ofInt_of_representable x hx

/-- C7, as the code has it.  For every network satisfying the data-model invariant,
after `forward` on an input of matching shape, `backward(expected, 0)` with
`expected` of the output shape does not throw, and it leaves the `W` and `B` of
every layer as they were provided every gradient entry `g` that the pass
multiplies by the learning rate is absorbed by it, `w - 0 * g = w` (in `double`
arithmetic: every entry of `dC_dW` and `dC_dB` is finite). -/
theorem backward_zero_rate_keeps_parameters {R : Type} [Zero R] [One R] [Add R] [Sub R]
    [Mul R] (net : NeuralNetwork R) (n : Nat)
    (input expected : Matrix R) (hne : net.layers ≠ []) (hch : Chain net.layers n)
    (hin : input.HasShape n 1) (hexp : expected.HasShape (outSize net.layers n) 1)
    (h0 : ∀ g, g ∈ net.scaledEntries input expected → ∀ w : R, w - 0 * g = w) :
    ∃ (out : Matrix R) (net1 net2 : NeuralNetwork R),
      net.forward input = (.ok out, net1) ∧
      net1.backward expected 0 = (.ok (), net2) ∧
      parameters net1.layers = parameters net.layers ∧
      parameters net2.layers = parameters net.layers := by
  obtain ⟨out, ls1, hfl, hout, hch1, hos1, hcached, hpar, harch, hlast⟩ :=
    forwardLayers_spec net.layers n input hch hin
  have hne1 : ls1 ≠ [] := forall₂_length_ne_nil ls1 net.layers harch hne
  obtain ⟨last, hlast1⟩ : ∃ last, ls1.getLast? = some last := by
    cases h : ls1.getLast? with
    | none => exact absurd (List.getLast?_eq_none_iff.mp h) hne1
    | some x => exact ⟨x, rfl⟩
  have hA : last.A = out := hlast last hlast1
  obtain ⟨g, hsub, hgr, hgc, hgwf, _⟩ := sub_spec out expected
    (hout.1.trans hexp.1.symm) (hout.2.1.trans hexp.2.1.symm)
  have hgs : g.HasShape (outSize ls1 n) 1 :=
    ⟨by rw [hgr, hout.1, hos1], by rw [hgc, hout.2.1], hgwf⟩
  have hentries : net.scaledEntries input expected = scaledEntriesChain ls1.reverse g := by
    simp only [NeuralNetwork.scaledEntries, NeuralNetwork.forward, hfl, hsub]
  have hback := backwardChain_zero_of ls1.reverse (outSize ls1 n) g
    (chain_reverse ls1 n hch1 hcached) hgs (fun x hx => h0 x (by rw [hentries]; exact hx))
  have hloop := backwardLoop_append (0 : R) ls1 [] g
  rw [List.append_nil, hback] at hloop
  refine ⟨out, { layers := ls1 }, { layers := ls1 }, ?_, ?_, hpar, hpar⟩
  · simp only [NeuralNetwork.forward, hfl]
  · simp only [NeuralNetwork.backward, hlast1, Layer.getOutput, hA, hsub, hloop,
      List.reverse_reverse, List.append_nil]

/-- The hypotheses of `backward_zero_rate_keeps_parameters` hold in `double` arithmetic for
the one-layer network with `W = [2]` on the input `[3]` with the target `[5]`: the
gradient entries `dC_dW = 3` and `dC_dB = 1` are finite, hence absorbed. -/
theorem backward_zero_rate_keeps_parameters_witness :
    ((doubleNetwork (Dbl.ofInt 2)).layers ≠ [] ∧ Chain (doubleNetwork (Dbl.ofInt 2)).layers 1 ∧
      (⟨1, 1, [Dbl.ofInt 3]⟩ : Matrix Dbl).HasShape 1 1 ∧
      (⟨1, 1, [Dbl.ofInt 5]⟩ : Matrix Dbl).HasShape
        (outSize (doubleNetwork (Dbl.ofInt 2)).layers 1) 1 ∧
      (doubleNetwork (Dbl.ofInt 2)).scaledEntries ⟨1, 1, [Dbl.ofInt 3]⟩ ⟨1, 1, [Dbl.ofInt 5]⟩
        = [Dbl.ofInt 3, Dbl.ofInt 1] ∧
      ∀ g, g ∈ (doubleNetwork (Dbl.ofInt 2)).scaledEntries ⟨1, 1, [Dbl.ofInt 3]⟩
          ⟨1, 1, [Dbl.ofInt 5]⟩ → ∀ w : Dbl, w - 0 * g = w) ∧
    ∃ (out : Matrix Dbl) (net1 net2 : NeuralNetwork Dbl),
      (doubleNetwork (Dbl.ofInt 2)).forward ⟨1, 1, [Dbl.ofInt 3]⟩ = (.ok out, net1) ∧
      net1.backward ⟨1, 1, [Dbl.ofInt 5]⟩ 0 = (.ok (), net2) ∧
      parameters net1.layers = parameters (doubleNetwork (Dbl.ofInt 2)).layers ∧
      parameters net2.layers = parameters (doubleNetwork (Dbl.ofInt 2)).layers :=
  ⟨⟨List.cons_ne_nil _ _, ⟨⟨by decide, by decide⟩, rfl, trivial⟩, by decide, by decide,
      by decide,
      fun g hg w => dbl_sub_zero_mul w g
        ((by decide : ∀ x, x ∈ (doubleNetwork (Dbl.ofInt 2)).scaledEntries
            ⟨1, 1, [Dbl.ofInt 3]⟩ ⟨1, 1, [Dbl.ofInt 5]⟩ → x.isFinite = true) g hg)⟩,
    backward_zero_rate_keeps_parameters (doubleNetwork (Dbl.ofInt 2)) 1
      ⟨1, 1, [Dbl.ofInt 3]⟩ ⟨1, 1, [Dbl.ofInt 5]⟩ (List.cons_ne_nil _ _)
      ⟨⟨by decide, by decide⟩, rfl, trivial⟩ (by decide) (by decide)
      (fun g hg w => dbl_sub_zero_mul w g
        ((by decide : ∀ x, x ∈ (doubleNetwork (Dbl.ofInt 2)).scaledEntries
            ⟨1, 1, [Dbl.ofInt 3]⟩ ⟨1, 1, [Dbl.ofInt 5]⟩ → x.isFinite = true) g hg))⟩

/-- C7, refuted as stated.  In `double` arithmetic take the one-layer network with
`W = [1e200]`, `B = [0]` and the identity activation, the input `[1e200]` and the
target `[0]`, all finite.  The forward pass overflows, `Z = A = +inf`; in
`backward(expected, 0)` the gradients `dC_dB` and `dC_dW` are `+inf`, the updates
are `W - 0 * inf` and `B - 0 * inf`, and `0 * inf` is NaN: the call returns
normally with `W = [NaN]` and `B = [NaN]`. -/
theorem backward_zero_rate_overflow :
    (Dbl.lit1e200.isFinite = true ∧ (0 : Dbl).isFinite = true) ∧
    (doubleNetwork Dbl.lit1e200).forward ⟨1, 1, [Dbl.lit1e200]⟩
      = (.ok ⟨1, 1, [Dbl.inf false]⟩,
          (doubleNetwork Dbl.lit1e200).forward ⟨1, 1, [Dbl.lit1e200]⟩ |>.2) ∧
    (((doubleNetwork Dbl.lit1e200).forward ⟨1, 1, [Dbl.lit1e200]⟩).2.backward
        ⟨1, 1, [0]⟩ 0).1 = .ok () ∧
    (doubleNetwork Dbl.lit1e200).scaledEntries ⟨1, 1, [Dbl.lit1e200]⟩ ⟨1, 1, [0]⟩
      = [Dbl.inf false, Dbl.inf false] ∧
    parameters (((doubleNetwork Dbl.lit1e200).forward ⟨1, 1, [Dbl.lit1e200]⟩).2.backward
        ⟨1, 1, [0]⟩ 0).2.layers = [(⟨1, 1, [Dbl.nan]⟩, ⟨1, 1, [Dbl.nan]⟩)] ∧
    parameters (doubleNetwork Dbl.lit1e200).layers
      = [(⟨1, 1, [Dbl.lit1e200]⟩, ⟨1, 1, [0]⟩)] ∧
    parameters (((doubleNetwork Dbl.lit1e200).forward ⟨1, 1, [Dbl.lit1e200]⟩).2.backward
        ⟨1, 1, [0]⟩ 0).2.layers ≠ parameters (doubleNetwork Dbl.lit1e200).layers := by
  set_option exponentiation.threshold 2048 in
  refine ⟨by decide, rfl, rfl, by decide, by decide, rfl, by decide⟩

/-- The rounding of `Dbl.ofInt` at the edges of the format: `2^53 + 1` is a tie and goes
to the even neighbour `2^53`, `2^53 + 3` goes to `2^53 + 4`; the largest finite
`double` is `2^1024 - 2^971`, and from `2^1024 - 2^970` on the result is infinity. -/
theorem dbl_rounding_examples :
    Dbl.ofInt ((2 ^ 53 + 1 : Nat) : Int) = Dbl.ofInt ((2 ^ 53 : Nat) : Int) ∧
    Dbl.ofInt ((2 ^ 53 + 3 : Nat) : Int) = Dbl.ofInt ((2 ^ 53 + 4 : Nat) : Int) ∧
    Dbl.Representable ((2 ^ 1024 - 2 ^ 971 : Nat) : Int) ∧
    Dbl.ofInt ((2 ^ 1024 - 2 ^ 970 - 1 : Nat) : Int)
      = Dbl.ofInt ((2 ^ 1024 - 2 ^ 971 : Nat) : Int) ∧
    Dbl.ofInt ((2 ^ 1024 - 2 ^ 970 : Nat) : Int) = Dbl.inf false ∧
    Dbl.ofInt (-((2 ^ 1024 - 2 ^ 970 : Nat) : Int)) = Dbl.inf true ∧
    Dbl.lit1e200.isFinite = true ∧ Dbl.lit1e200 * Dbl.lit1e200 = Dbl.inf false ∧
    (0 : Dbl) * Dbl.inf false = Dbl.nan ∧ Dbl.lit1e200 - Dbl.nan = Dbl.nan := by
  set_option exponentiation.threshold 2048 in
  decide

/-- C9. `backward(expected, lr)` throws the subtraction error, touching nothing,
when `A_last - expected` does; otherwise it is the chain of `Layer::backward`
calls over the layers from last to first, started with `A_last - expected`, each
call receiving the gradient the call before it returned (and stopping at the
first call that throws).  `train(input, expected, lr)` is `forward(input)`
followed, unless that throws, by `backward(expected, lr)` on the resulting
state. -/
theorem network_backward_structure {R : Type} [Zero R] [One R] [Add R] [Sub R] [Mul R]
    (net : NeuralNetwork R) (input expected : Matrix R) (lr : R) :
    (∀ last : Layer R, net.layers.getLast? = some last →
      (∀ e, last.A.sub expected = .error e → net.backward expected lr = (.error e, net)) ∧
      (∀ g, last.A.sub expected = .ok g →
        net.backward expected lr
          = ((backwardChain lr net.layers.reverse g).1,
              { layers := (backwardChain lr net.layers.reverse g).2.reverse }))) ∧
    (∀ e net1, net.forward input = (.error e, net1) →
      net.train input expected lr = (.error e, net1)) ∧
    (∀ out net1, net.forward input = (.ok out, net1) →
      net.train input expected lr = net1.backward expected lr) := by
  refine ⟨fun last hlast => ⟨fun e he => ?_, fun g hg => ?_⟩, fun e net1 h => ?_,
    fun out net1 h => ?_⟩
  · simp only [NeuralNetwork.backward, hlast, Layer.getOutput, he]
  · have hloop := backwardLoop_append lr net.layers [] g
    rw [List.append_nil] at hloop
    simp only [NeuralNetwork.backward, hlast, Layer.getOutput, hg, hloop, List.append_nil]
  · simp only [NeuralNetwork.train, h]
  · simp only [NeuralNetwork.train, h]

/-- The cases of `network_backward_structure` on `unitNetwork`: with the target `[5]`
the subtraction succeeds, and `forward` on `[1]` succeeds. -/
theorem network_backward_structure_witness :
    unitNetwork.backward ⟨1, 1, [5]⟩ 1
      = ((backwardChain 1 unitNetwork.layers.reverse ⟨1, 1, [-3]⟩).1,
          { layers := (backwardChain 1 unitNetwork.layers.reverse ⟨1, 1, [-3]⟩).2.reverse }) ∧
    unitNetwork.train ⟨1, 1, [1]⟩ ⟨1, 1, [5]⟩ 1
      = (unitNetwork.forward ⟨1, 1, [1]⟩).2.backward ⟨1, 1, [5]⟩ 1 :=
  ⟨((network_backward_structure unitNetwork ⟨1, 1, [1]⟩ ⟨1, 1, [5]⟩ 1).1 unitLayer rfl).2
      ⟨1, 1, [-3]⟩ rfl,
    (network_backward_structure unitNetwork ⟨1, 1, [1]⟩ ⟨1, 1, [5]⟩ 1).2.2
      ⟨1, 1, [2]⟩ (unitNetwork.forward ⟨1, 1, [1]⟩).2 rfl⟩

/-- C10. Let `M` be freshly constructed from a list of widths and `N` be any
network satisfying the data-model invariant with, layer by layer, the sizes and
the activation of `M`.  Then `N.save` writes, per layer in order, `W` row-major
then `B`, with no header; loading that file into `M` does not throw and makes
every layer's `W` and `B` in `M` equal to those of `N`; and afterwards
`M.predict(x)` returns what `N.predict(x)` returns, for every `x`. -/
theorem save_load_roundtrip {R : Type} [Zero R] [One R] [Add R] [Sub R] [Mul R] [Neg R]
    (sizes : List Nat) (act dact : R → R) (rand : Nat → Nat → R) (clock : Nat → Nat)
    (N M : NeuralNetwork R)
    (hM : NeuralNetwork.ctor sizes act dact rand clock = .ok M)
    (hN : ∀ l, l ∈ N.layers → l.Shaped)
    (hsame : List.Forall₂ Layer.SameArch N.layers M.layers) :
    ∃ (bytes : File R) (M1 : NeuralNetwork R),
      N.save true = .ok bytes ∧ bytes = payload N.layers ∧
      M.load (some bytes) = (.ok (), M1) ∧
      List.Forall₂ (fun n m => m.W = n.W ∧ m.B = n.B) N.layers M1.layers ∧
      ∀ x, (M1.predict x).1 = (N.predict x).1 := by
  have h2 : 2 ≤ sizes.length := by
    rcases Nat.lt_or_ge sizes.length 2 with h | h
    · unfold NeuralNetwork.ctor at hM
      rw [if_pos h] at hM
      cases hM
    · exact h
  have hM1 := ctor_layers sizes act dact rand clock h2
  rw [hM] at hM1
  have hMl := congrArg NeuralNetwork.layers (Except.ok.inj hM1)
  simp only at hMl
  apply roundtrip_shaped N M hsame hN
  intro l hl
  rw [hMl] at hl
  obtain ⟨k, _, hk⟩ := List.mem_map.mp hl
  rw [← hk]
  exact layer_ctor_shaped _ _ _ _ _ _ _

/-- The hypotheses of `save_load_roundtrip` hold for `trainedNetwork` and the network
`freshNetwork` built from the widths `[1, 1]`; the file is `[5, 7]`. -/
theorem save_load_roundtrip_witness :
    (NeuralNetwork.ctor [1, 1] (fun x : Int => x) (fun _ => 1) (fun _ _ => 0) (fun _ => 0)
        = .ok freshNetwork ∧
      (∀ l, l ∈ trainedNetwork.layers → l.Shaped) ∧
      List.Forall₂ Layer.SameArch trainedNetwork.layers freshNetwork.layers) ∧
    trainedNetwork.save true = .ok [5, 7] ∧
    ∃ (bytes : File Int) (M1 : NeuralNetwork Int),
      trainedNetwork.save true = .ok bytes ∧ bytes = payload trainedNetwork.layers ∧
      freshNetwork.load (some bytes) = (.ok (), M1) ∧
      List.Forall₂ (fun n m => m.W = n.W ∧ m.B = n.B) trainedNetwork.layers M1.layers ∧
      ∀ x, (M1.predict x).1 = (trainedNetwork.predict x).1 :=
  ⟨⟨rfl, fun l hl => by
        rw [List.mem_singleton.mp hl]
        decide,
      List.Forall₂.cons ⟨rfl, rfl, rfl⟩ List.Forall₂.nil⟩,
    rfl,
    save_load_roundtrip [1, 1] (fun x : Int => x) (fun _ => 1) (fun _ _ => 0) (fun _ => 0)
      trainedNetwork freshNetwork rfl
      (fun l hl => by
        rw [List.mem_singleton.mp hl]
        decide)
      (List.Forall₂.cons ⟨rfl, rfl, rfl⟩ List.Forall₂.nil)⟩

/-! ## Loading from an empty file -/

/-- Reading from a stream with nothing left copies nothing. -/
theorem read_empty {R : Type} (good : Bool) (buf : List R) (n : Nat) :
    ∃ good1, IStream.read { rest := [], good := good } buf n
      = (buf, { rest := [], good := good1 }) := by
  unfold IStream.read
  cases good with
  | false => exact ⟨false, rfl⟩
  | true =>
    rcases Nat.eq_zero_or_pos n with h | h
    · subst h
      exact ⟨true, by simp⟩
    · exact ⟨false, by simp [Nat.not_le.mpr h]⟩

theorem layer_load_empty {R : Type} (l : Layer R) (good : Bool) :
    ∃ good1, l.load { rest := [], good := good } = (l, { rest := [], good := good1 }) := by
  obtain ⟨g1, h1⟩ := read_empty good l.W.data (l.W.rows * l.W.cols)
  obtain ⟨g2, h2⟩ := read_empty g1 l.B.data (l.B.rows * l.B.cols)
  refine ⟨g2, ?_⟩
  unfold Layer.load
  rw [h1]
  simp only
  rw [h2]

theorem loadLayers_empty {R : Type} (ls : List (Layer R)) (good : Bool) :
    ∃ good1, loadLayers ls { rest := [], good := good } = (ls, { rest := [], good := good1 }) := by
  induction ls generalizing good with
  | nil => exact ⟨good, rfl⟩
  | cons l ls ih =>
    obtain ⟨g1, h1⟩ := layer_load_empty l good
    obtain ⟨g2, h2⟩ := ih g1
    refine ⟨g2, ?_⟩
    simp only [loadLayers, h1, h2]

/-- C11, as the code has it.  `NeuralNetwork::load` throws the I/O error exactly when
the file cannot be opened.  From a file that exists and has zero length it
returns normally, and the network is what it was before the call: no `W` or `B`
was read from the file. -/
theorem load_throws_iff_not_opened {R : Type} (net : NeuralNetwork R) :
    (∀ file, (∃ e, (net.load file).1 = .error e) ↔ file = none) ∧
    net.load none = (.error Error.loadOpen, net) ∧
    net.load (some []) = (.ok (), net) := by
  refine ⟨fun file => ?_, rfl, ?_⟩
  · cases file with
    | none => exact ⟨fun _ => rfl, fun _ => ⟨Error.loadOpen, rfl⟩⟩
    | some content =>
      refine ⟨fun h => ?_, fun h => absurd h (by simp)⟩
      obtain ⟨e, he⟩ := h
      simp [NeuralNetwork.load] at he
  · obtain ⟨g, hg⟩ := loadLayers_empty net.layers true
    simp only [NeuralNetwork.load, hg]

/-- C11, refuted as stated.  Loading the zero-length file into the network freshly
built from the widths `[1, 1]` returns normally, and the weight and the bias
keep the value `-1` the constructor drew. -/
theorem load_zero_length_returns_normally :
    (freshNetwork.load (some [])).1 = .ok () ∧
    (∀ e, (freshNetwork.load (some [])).1 ≠ .error e) ∧
    parameters (freshNetwork.load (some [])).2.layers = [(⟨1, 1, [-1]⟩, ⟨1, 1, [-1]⟩)] ∧
    parameters freshNetwork.layers = [(⟨1, 1, [-1]⟩, ⟨1, 1, [-1]⟩)] := by
  refine ⟨rfl, fun e h => ?_, rfl, rfl⟩
  have h1 : (freshNetwork.load (some [])).1 = .ok () := rfl
  rw [h1] at h
  cases h

/-! ## Fitness of one pairing -/

/-- What `evaluateNetworkSafe` adds per game depends on the symbol returned only:
`1.0` for `'X'` and `0.5` for `'D'`, whichever side `nn` played. -/
theorem evaluateNetworkSafe_succ {N R : Type} [Zero R] [Add R] [OfScientific R]
    (playFullGame : Nat → N → N → Char) (coin : Nat → Nat) (nn opponent : N) (games : Nat) :
    (evaluateNetworkSafe playFullGame coin nn opponent (games + 1) : R)
      = (if (if coin games = 0 then playFullGame games nn opponent
              else playFullGame games opponent nn) = 'X'
          then evaluateNetworkSafe playFullGame coin nn opponent games + 1.0
        else if (if coin games = 0 then playFullGame games nn opponent
              else playFullGame games opponent nn) = 'D'
          then evaluateNetworkSafe playFullGame coin nn opponent games + 0.5
        else evaluateNetworkSafe playFullGame coin nn opponent games) := rfl

/-- C12.  One game, the coin shows `1`, so `nn` moves second as `'O'`.  When `'O'`
wins, `nn` has won and its fitness is `1`, but `evaluateNetworkSafe` returns `0`;
when `'X'` wins, `nn` has lost and its fitness is `0`, but `evaluateNetworkSafe`
returns `1`.  When the coin shows `0` the two agree. -/
theorem evaluateNetworkSafe_scores_first_mover :
    ((evaluateNetworkSafe (fun _ (_ _ : Bool) => 'O') (fun _ => 1) true false 1 : ℚ) = 0 ∧
      (fitnessOf (fun _ (_ _ : Bool) => 'O') (fun _ => 1) true false 1 : ℚ) = 1) ∧
    ((evaluateNetworkSafe (fun _ (_ _ : Bool) => 'X') (fun _ => 1) true false 1 : ℚ) = 1 ∧
      (fitnessOf (fun _ (_ _ : Bool) => 'X') (fun _ => 1) true false 1 : ℚ) = 0) ∧
    ((evaluateNetworkSafe (fun _ (_ _ : Bool) => 'X') (fun _ => 0) true false 1 : ℚ) = 1 ∧
      (fitnessOf (fun _ (_ _ : Bool) => 'X') (fun _ => 0) true false 1 : ℚ) = 1) := by
  refine ⟨⟨?_, ?_⟩, ⟨?_, ?_⟩, ⟨?_, ?_⟩⟩ <;>
    simp [evaluateNetworkSafe, fitnessOf, forLoop] <;> norm_num

/-- When `nn` moves first in every game, `evaluateNetworkSafe` is the fitness of
the specification. -/
theorem evaluateNetworkSafe_eq_fitness_of_first {N R : Type} [Zero R] [Add R] [OfScientific R]
    (playFullGame : Nat → N → N → Char) (coin : Nat → Nat) (nn opponent : N) (games : Nat)
    (hcoin : ∀ i, i < games → coin i = 0) :
    (evaluateNetworkSafe playFullGame coin nn opponent games : R)
      = fitnessOf playFullGame coin nn opponent games := by
  induction games with
  | zero => rfl
  | succ k ih =>
    have hk := hcoin k (Nat.lt_succ_self k)
    have ih1 := ih (fun i hi => hcoin i (Nat.lt_succ_of_lt hi))
    unfold evaluateNetworkSafe fitnessOf at ih1 ⊢
    rw [forLoop_succ, forLoop_succ, ih1]
    simp only [hk, if_true]
/-! ## The mutation schedule -/

theorem mutationRate_eq {R : Type} [LinearOrderedField R] (g generations : Nat) :
    (mutationRate g generations : R)
      = 1 / 5 - 19 / 100 * ((g : R) / (generations : R)) := by
  unfold mutationRate
  norm_num

theorem ratio_mono {R : Type} [LinearOrderedField R] (g1 g2 generations : Nat)
    (h : g1 ≤ g2) : (g1 : R) / (generations : R) ≤ (g2 : R) / (generations : R) := by
  apply div_le_div_of_nonneg_right
  · exact_mod_cast h
  · exact Nat.cast_nonneg generations

theorem ratio_le_one {R : Type} [LinearOrderedField R] (g generations : Nat)
    (hgen : 0 < generations) (hg : g ≤ generations) :
    (g : R) / (generations : R) ≤ 1 := by
  have hpos : (0 : R) < (generations : R) := by exact_mod_cast hgen
  rw [div_le_one hpos]
  exact_mod_cast hg

/-- C17.  With `generations > 0` and `0 <= g < generations`, in exact arithmetic:
the rate of generation `g` is `start - (start - floor) * (g / generations)` with
`start = 0.2` and `floor = 0.01`; it is `start` at `g = 0`, it does not increase
with `g`, and it lies in `[floor, start]`. -/
theorem mutationRate_schedule {R : Type} [LinearOrderedField R] (g generations : Nat)
    (hgen : 0 < generations) (hg : g < generations) :
    (mutationRate g generations : R)
      = 0.2 - (0.2 - 0.01) * ((g : R) / (generations : R)) ∧
    (mutationRate 0 generations : R) = 0.2 ∧
    (∀ g1 g2 : Nat, g1 ≤ g2 →
      (mutationRate g2 generations : R) ≤ mutationRate g1 generations) ∧
    (0.01 : R) ≤ mutationRate g generations ∧
    (mutationRate g generations : R) ≤ 0.2 := by
  refine ⟨rfl, ?_, fun g1 g2 h => ?_, ?_, ?_⟩
  · rw [mutationRate_eq]
    norm_num
  · rw [mutationRate_eq, mutationRate_eq]
    have := ratio_mono (R := R) g1 g2 generations h
    linarith
  · rw [mutationRate_eq]
    have h1 := ratio_le_one (R := R) g generations hgen (Nat.le_of_lt hg)
    norm_num
    linarith
  · rw [mutationRate_eq]
    have h0 : (0 : R) ≤ (g : R) / (generations : R) :=
      div_nonneg (Nat.cast_nonneg g) (Nat.cast_nonneg generations)
    norm_num
    linarith

/-- The hypotheses of `mutationRate_schedule` hold for generation 3 of 10 over the
rationals, where the rate is `0.143`. -/
theorem mutationRate_schedule_witness :
    (0 < 10 ∧ 3 < 10) ∧
    (mutationRate 3 10 : ℚ) = 0.2 - (0.2 - 0.01) * (((3 : Nat) : ℚ) / ((10 : Nat) : ℚ)) ∧
    (mutationRate 0 10 : ℚ) = 0.2 ∧
    (∀ g1 g2 : Nat, g1 ≤ g2 → (mutationRate g2 10 : ℚ) ≤ mutationRate g1 10) ∧
    (0.01 : ℚ) ≤ mutationRate 3 10 ∧
    (mutationRate 3 10 : ℚ) ≤ 0.2 :=
  ⟨⟨by decide, by decide⟩, mutationRate_schedule 3 10 (by decide) (by decide)⟩
/-! ## The supervised epoch -/

theorem mul_error {R : Type} [Zero R] [One R] [Add R] [Mul R] (A B : Matrix R) (e : Error)
    (h : A.mul B = .error e) : e = Error.multiplicationSize := by
  unfold Matrix.mul at h
  split at h
  · exact (Except.error.inj h).symm
  · cases h

theorem add_error {R : Type} [Zero R] [One R] [Add R] (A B : Matrix R) (e : Error)
    (h : A.add B = .error e) : e = Error.additionDim := by
  unfold Matrix.add at h
  split at h
  · exact (Except.error.inj h).symm
  · cases h

theorem sub_error {R : Type} [Zero R] [One R] [Sub R] (A B : Matrix R) (e : Error)
    (h : A.sub B = .error e) : e = Error.subtractionDim := by
  unfold Matrix.sub at h
  split at h
  · exact (Except.error.inj h).symm
  · cases h

theorem layer_forward_error {R : Type} [Zero R] [One R] [Add R] [Mul R] (l : Layer R)
    (x : Matrix R) (e : Error) (h : (l.forward x).1 = .error e) :
    e ≠ Error.sizeMismatch := by
  unfold Layer.forward at h
  cases hm : l.W.mul x with
  | error e1 =>
    simp only [hm] at h
    rw [← Except.error.inj h, mul_error _ _ _ hm]
    decide
  | ok wx =>
    simp only [hm] at h
    cases ha : wx.add l.B with
    | error e1 =>
      simp only [ha] at h
      rw [← Except.error.inj h, add_error _ _ _ ha]
      decide
    | ok z =>
      simp only [ha] at h
      cases h

theorem forwardLayers_error {R : Type} [Zero R] [One R] [Add R] [Mul R] (ls : List (Layer R))
    (x : Matrix R) (e : Error) (h : (forwardLayers ls x).1 = .error e) :
    e ≠ Error.sizeMismatch := by
  induction ls generalizing x with
  | nil => cases h
  | cons l ls ih =>
    unfold forwardLayers at h
    rcases hf : l.forward x with ⟨r, l1⟩
    cases r with
    | error e1 =>
      simp only [hf] at h
      have := layer_forward_error l x e1 (by rw [hf])
      rw [← Except.error.inj h]
      exact this
    | ok y =>
      simp only [hf] at h
      exact ih y h

theorem layer_backward_error {R : Type} [Zero R] [One R] [Add R] [Sub R] [Mul R] (l : Layer R)
    (g : Matrix R) (lr : R) (e : Error) (h : (l.backward g lr).1 = .error e) :
    e ≠ Error.sizeMismatch := by
  unfold Layer.backward at h
  simp only at h
  split at h
  · next e1 hm =>
    rw [← Except.error.inj h, mul_error _ _ _ hm]
    decide
  · next dW hm =>
    split at h
    · next e1 hm2 =>
      rw [← Except.error.inj h, mul_error _ _ _ hm2]
      decide
    · cases h

theorem backwardChain_error {R : Type} [Zero R] [One R] [Add R] [Sub R] [Mul R] (lr : R)
    (rs : List (Layer R)) (g : Matrix R) (e : Error)
    (h : (backwardChain lr rs g).1 = .error e) : e ≠ Error.sizeMismatch := by
  induction rs generalizing g with
  | nil => cases h
  | cons l rs ih =>
    unfold backwardChain at h
    rcases hb : l.backward g lr with ⟨r, l1⟩
    cases r with
    | error e1 =>
      simp only [hb] at h
      rw [← Except.error.inj h]
      exact layer_backward_error l g lr e1 (by rw [hb])
    | ok g1 =>
      simp only [hb] at h
      exact ih g1 h

theorem network_forward_error {R : Type} [Zero R] [One R] [Add R] [Mul R]
    (net : NeuralNetwork R) (x : Matrix R) (e : Error) (h : (net.forward x).1 = .error e) :
    e ≠ Error.sizeMismatch :=
  forwardLayers_error net.layers x e h

theorem network_backward_error {R : Type} [Zero R] [One R] [Add R] [Sub R] [Mul R]
    (net : NeuralNetwork R) (y : Matrix R) (lr : R) (e : Error)
    (h : (net.backward y lr).1 = .error e) : e ≠ Error.sizeMismatch := by
  unfold NeuralNetwork.backward at h
  cases hl : net.layers.getLast? with
  | none =>
    simp only [hl] at h
    rw [← Except.error.inj h]
    decide
  | some last =>
    simp only [hl] at h
    cases hs : last.getOutput.sub y with
    | error e1 =>
      simp only [hs] at h
      rw [← Except.error.inj h, sub_error _ _ _ hs]
      decide
    | ok g =>
      simp only [hs] at h
      have hloop := backwardLoop_append lr net.layers [] g
      rw [List.append_nil] at hloop
      rw [hloop] at h
      exact backwardChain_error lr _ g e h

/-- One more sample at the end of the list of pairs. -/
theorem trainPairs_concat {R : Type} [Zero R] [One R] [Add R] [Sub R] [Mul R] (lr : R)
    (ps : List (Matrix R × Matrix R)) (p : Matrix R × Matrix R) (net : NeuralNetwork R) :
    trainPairs lr (ps ++ [p]) net
      = match trainPairs lr ps net with
        | (.error e, net1) => (.error e, net1)
        | (.ok (), net1) =>
          match net1.forward p.1 with
          | (.error e, net2) => (.error e, net2)
          | (.ok _, net2) => net2.backward p.2 lr := by
  induction ps generalizing net with
  | nil =>
    obtain ⟨x, y⟩ := p
    simp only [List.nil_append, trainPairs]
    rcases net.forward x with ⟨r, n1⟩
    cases r with
    | error e => rfl
    | ok out =>
      simp only
      rcases n1.backward y lr with ⟨r2, n2⟩
      cases r2 with
      | error e => rfl
      | ok u => rfl
  | cons q qs ih =>
    obtain ⟨x, y⟩ := q
    simp only [List.cons_append, trainPairs]
    rcases net.forward x with ⟨r, n1⟩
    cases r with
    | error e => rfl
    | ok out =>
      simp only
      rcases n1.backward y lr with ⟨r2, n2⟩
      cases r2 with
      | error e => rfl
      | ok u => exact ih n2

theorem trainPairs_error {R : Type} [Zero R] [One R] [Add R] [Sub R] [Mul R] (lr : R)
    (ps : List (Matrix R × Matrix R)) (net : NeuralNetwork R) (e : Error)
    (h : (trainPairs lr ps net).1 = .error e) : e ≠ Error.sizeMismatch := by
  induction ps generalizing net with
  | nil => cases h
  | cons q qs ih =>
    obtain ⟨x, y⟩ := q
    unfold trainPairs at h
    rcases hf : net.forward x with ⟨r, n1⟩
    cases r with
    | error e1 =>
      simp only [hf] at h
      rw [← Except.error.inj h]
      exact network_forward_error net x e1 (by rw [hf])
    | ok out =>
      simp only [hf] at h
      rcases hb : n1.backward y lr with ⟨r2, n2⟩
      cases r2 with
      | error e1 =>
        simp only [hb] at h
        rw [← Except.error.inj h]
        exact network_backward_error n1 y lr e1 (by rw [hb])
      | ok u =>
        simp only [hb] at h
        exact ih n2 h

/-- The counting loop of `Training::trainEpoch` over the first `k` samples is the
epoch of the specification over the first `k` pairs. -/
theorem trainEpoch_loop {R : Type} [Zero R] [One R] [Add R] [Sub R] [Mul R]
    (net : NeuralNetwork R) (inputs targets : List (Matrix R)) (lr : R) (k : Nat)
    (hk : k ≤ inputs.length) (hlen : inputs.length = targets.length) :
    forLoop k
      (fun i st =>
        match st with
        | (.error e, net) => (.error e, net)
        | (.ok (), net) =>
          match inputs[i]?, targets[i]? with
          | some input, some target =>
            match net.forward input with
            | (.error e, net1) => (.error e, net1)
            | (.ok _, net1) => net1.backward target lr
          | _, _ => (.ok (), net))
      ((.ok (), net) : Except Error Unit × NeuralNetwork R)
      = trainPairs lr ((inputs.zip targets).take k) net := by
  induction k with
  | zero => rfl
  | succ j ih =>
    have hj : j < inputs.length := hk
    have hj2 : j < targets.length := hlen ▸ hj
    have hz : j < (inputs.zip targets).length := by
      rw [List.length_zip]; omega
    rw [forLoop_succ, ih (Nat.le_of_lt hj), List.take_succ, List.getElem?_eq_getElem hz,
      Option.toList_some, trainPairs_concat, List.getElem_zip]
    rcases trainPairs lr ((inputs.zip targets).take j) net with ⟨r, n1⟩
    cases r with
    | error e => rfl
    | ok u =>
      simp only [List.getElem?_eq_getElem hj, List.getElem?_eq_getElem hj2]

theorem trainEpoch_of_ne {R : Type} [Zero R] [One R] [Add R] [Sub R] [Mul R]
    (network : NeuralNetwork R) (inputs targets : List (Matrix R)) (lr : R)
    (h : inputs.length ≠ targets.length) :
    Training.trainEpoch network inputs targets lr = (.error Error.sizeMismatch, network) := by
  unfold Training.trainEpoch
  rw [if_pos h]

theorem trainEpoch_of_eq {R : Type} [Zero R] [One R] [Add R] [Sub R] [Mul R]
    (network : NeuralNetwork R) (inputs targets : List (Matrix R)) (lr : R)
    (h : inputs.length = targets.length) :
    Training.trainEpoch network inputs targets lr
      = trainPairs lr (inputs.zip targets) network := by
  unfold Training.trainEpoch
  rw [if_neg (by simp [h]), trainEpoch_loop network inputs targets lr inputs.length
    (Nat.le_refl _) h, List.take_of_length_le]
  rw [List.length_zip]
  omega

/-- C18.  `trainEpoch` throws the size-mismatch error exactly when
`inputs.length != targets.length`, and then the network, caches included, is
what it was; otherwise it is `forward(inputs[i])` then `backward(targets[i], lr)`
for `i = 0, 1, ...` in index order, up to the first call that throws. -/
theorem trainEpoch_spec {R : Type} [Zero R] [One R] [Add R] [Sub R] [Mul R]
    (network : NeuralNetwork R) (inputs targets : List (Matrix R)) (lr : R) :
    ((Training.trainEpoch network inputs targets lr).1 = .error Error.sizeMismatch
      ↔ inputs.length ≠ targets.length) ∧
    (inputs.length ≠ targets.length →
      Training.trainEpoch network inputs targets lr = (.error Error.sizeMismatch, network)) ∧
    (inputs.length = targets.length →
      Training.trainEpoch network inputs targets lr
        = trainPairs lr (inputs.zip targets) network) := by
  have hne := trainEpoch_of_ne network inputs targets lr
  have heq := trainEpoch_of_eq network inputs targets lr
  refine ⟨⟨fun h => ?_, fun h => by rw [hne h]⟩, hne, heq⟩
  intro hlen
  rw [heq hlen] at h
  exact trainPairs_error lr _ network _ h rfl

/-- Both cases of `trainEpoch_spec` on `unitNetwork`: one input against no target, and
one input against one target. -/
theorem trainEpoch_spec_witness :
    ([(⟨1, 1, [1]⟩ : Matrix Int)].length ≠ ([] : List (Matrix Int)).length ∧
      [(⟨1, 1, [1]⟩ : Matrix Int)].length = [(⟨1, 1, [5]⟩ : Matrix Int)].length) ∧
    Training.trainEpoch unitNetwork [⟨1, 1, [1]⟩] [] 1 = (.error Error.sizeMismatch, unitNetwork) ∧
    Training.trainEpoch unitNetwork [⟨1, 1, [1]⟩] [⟨1, 1, [5]⟩] 1
      = trainPairs 1 ([(⟨1, 1, [1]⟩ : Matrix Int)].zip [⟨1, 1, [5]⟩]) unitNetwork :=
  ⟨⟨by decide, by decide⟩,
    (trainEpoch_spec unitNetwork [⟨1, 1, [1]⟩] [] 1).2.1 (by decide),
    (trainEpoch_spec unitNetwork [⟨1, 1, [1]⟩] [⟨1, 1, [5]⟩] 1).2.2 (by decide)⟩
/-! ## Mutation -/

/-- A loop that threads a second state which evolves on its own is a loop over
the first state alone, reading the second from its iterates. -/
theorem threadLoop_eq {α S : Type} (F : Nat → α → S → α) (T : S → S) (n : Nat) (a : α) (s : S) :
    forLoop n (fun k (st : α × S) => (F k st.1 st.2, T st.2)) (a, s)
      = (forLoop n (fun k a => F k a (T^[k] s)) a, T^[n] s) := by
  induction n with
  | zero => rfl
  | succ k ih =>
    rw [forLoop_succ, ih, forLoop_succ, Function.iterate_succ_apply']

/-- The noise loop of `mutateNetwork` as a loop over the matrix alone: the draw
for cell `(i, j)` is taken at the state reached after `i * cols + j` draws. -/
theorem noiseLoop_eq {S R : Type} [Zero R] [Add R] [Mul R] (rng : RandomSource S R) (rate : R)
    (m : Matrix R) (s : S) :
    noiseLoop rng rate m s
      = (forLoop m.rows (fun i w => forLoop m.cols
          (fun j w => w.set i j (w.get i j
            + (rng.uniform ((fun t => (rng.uniform t).2)^[j]
                (((fun t => (rng.uniform t).2)^[m.cols])^[i] s))).1 * rate)) w) m,
        ((fun t => (rng.uniform t).2)^[m.cols])^[m.rows] s) := by
  unfold noiseLoop
  have inner : ∀ (i : Nat) (st : Matrix R × S),
      forLoop m.cols (fun j (st : Matrix R × S) =>
        ((st.1.set i j (st.1.get i j + (rng.uniform st.2).1 * rate)), (rng.uniform st.2).2)) st
      = (forLoop m.cols (fun j w => w.set i j (w.get i j
            + (rng.uniform ((fun t => (rng.uniform t).2)^[j] st.2)).1 * rate)) st.1,
          (fun t => (rng.uniform t).2)^[m.cols] st.2) := by
    intro i st
    exact threadLoop_eq (fun j w t => w.set i j (w.get i j + (rng.uniform t).1 * rate))
      (fun t => (rng.uniform t).2) m.cols st.1 st.2
  have hbody : (fun i (st : Matrix R × S) => forLoop m.cols (fun j (st : Matrix R × S) =>
        ((st.1.set i j (st.1.get i j + (rng.uniform st.2).1 * rate)), (rng.uniform st.2).2)) st)
      = (fun i (st : Matrix R × S) =>
          ((fun i w t => forLoop m.cols (fun j w => w.set i j (w.get i j
            + (rng.uniform ((fun t => (rng.uniform t).2)^[j] t)).1 * rate)) w) i st.1 st.2,
           ((fun t => (rng.uniform t).2)^[m.cols]) st.2)) := by
    funext i st
    exact inner i st
  rw [hbody]
  exact threadLoop_eq
    (fun i w t => forLoop m.cols (fun j w => w.set i j (w.get i j
      + (rng.uniform ((fun t => (rng.uniform t).2)^[j] t)).1 * rate)) w)
    ((fun t => (rng.uniform t).2)^[m.cols]) m.rows m s

/-- The noise loop on a well-formed matrix: shape kept, every entry moved by one
draw times the rate. -/
theorem noiseLoop_spec {S R : Type} [LinearOrderedField R] (rng : RandomSource S R) (rate : R)
    (m : Matrix R) (s : S) (hm : m.WF) (hrate : 0 ≤ rate)
    (hnoise : ∀ t, |(rng.uniform t).1| ≤ 1) :
    Matrix.Perturbed rng rate m (noiseLoop rng rate m s).1 := by
  rw [noiseLoop_eq]
  obtain ⟨m1, hm1, hr, hc, hwf, hent⟩ := updLoop_spec m
    (fun i j x => x + (rng.uniform ((fun t => (rng.uniform t).2)^[j]
                (((fun t => (rng.uniform t).2)^[m.cols])^[i] s))).1 * rate) hm
  simp only
  rw [hm1]
  refine ⟨⟨hr, hc, hwf⟩, fun i j hi hj => ?_⟩
  rw [hent i j hi hj]
  refine ⟨⟨_, rfl⟩, ?_⟩
  rw [add_sub_cancel_left, abs_mul, abs_of_nonneg hrate]
  calc |(rng.uniform _).1| * rate ≤ 1 * rate :=
        mul_le_mul_of_nonneg_right (hnoise _) hrate
    _ = rate := one_mul rate

theorem mutateLayers_spec {S R : Type} [LinearOrderedField R] (rng : RandomSource S R) (rate : R)
    (ls : List (Layer R)) (s : S) (hls : ∀ l, l ∈ ls → l.W.WF ∧ l.B.WF) (hrate : 0 ≤ rate)
    (hnoise : ∀ t, |(rng.uniform t).1| ≤ 1) :
    MutatedClone rng rate { layers := ls } { layers := (mutateLayers rng rate ls s).1 } := by
  induction ls generalizing s with
  | nil => exact List.Forall₂.nil
  | cons l ls ih =>
    have hl := hls l (List.mem_cons_self _ _)
    unfold MutatedClone at ih ⊢
    simp only [mutateLayers]
    refine List.Forall₂.cons ⟨noiseLoop_spec rng rate l.W s hl.1 hrate hnoise,
      noiseLoop_spec rng rate l.B _ hl.2 hrate hnoise, rfl, rfl, rfl, rfl, rfl, rfl, rfl⟩ ?_
    exact ih _ (fun x hx => hls x (List.mem_cons_of_mem _ hx))
/-- C16.  In exact arithmetic, for a network whose matrices satisfy the data
invariant, a rate `>= 0` and noise draws in `[-1, 1]`, `mutateNetwork` leaves
every `W` and `B` with its shape and with every entry equal to
`old + noise * mutationRate` for one of the draws, hence within `mutationRate`
of the old entry; nothing else in the network changes. -/
theorem mutateNetwork_bounded {S R : Type} [LinearOrderedField R] (rng : RandomSource S R)
    (nn : NeuralNetwork R) (rate : R) (s : S) (hnn : ∀ l, l ∈ nn.layers → l.W.WF ∧ l.B.WF)
    (hrate : 0 ≤ rate) (hnoise : ∀ t, |(rng.uniform t).1| ≤ 1) :
    List.Forall₂
      (fun p c : Layer R =>
        (c.W.HasShape p.W.rows p.W.cols ∧
          ∀ i j, i < p.W.rows → j < p.W.cols →
            (∃ t, c.W.get i j = p.W.get i j + (rng.uniform t).1 * rate) ∧
            |c.W.get i j - p.W.get i j| ≤ rate) ∧
        (c.B.HasShape p.B.rows p.B.cols ∧
          ∀ i j, i < p.B.rows → j < p.B.cols →
            (∃ t, c.B.get i j = p.B.get i j + (rng.uniform t).1 * rate) ∧
            |c.B.get i j - p.B.get i j| ≤ rate) ∧
        c.inputSize = p.inputSize ∧ c.neuronCount = p.neuronCount ∧
        c.Z = p.Z ∧ c.A = p.A ∧ c.lastInput = p.lastInput ∧
        c.activate = p.activate ∧ c.activateDerivative = p.activateDerivative)
      nn.layers (mutateNetwork rng nn rate s).1.layers :=
  mutateLayers_spec rng rate nn.layers s hnn hrate hnoise

/-- The hypotheses of `mutateNetwork_bounded` hold for `rationalNetwork`, the rate `1/5`
and the generator whose every noise draw is `1/2`. -/
theorem mutateNetwork_bounded_witness :
    ((∀ l, l ∈ rationalNetwork.layers → l.W.WF ∧ l.B.WF) ∧ (0 : ℚ) ≤ 1 / 5 ∧
      ∀ t, |(counterSource.uniform t).1| ≤ 1) ∧
    List.Forall₂
      (fun p c : Layer ℚ =>
        (c.W.HasShape p.W.rows p.W.cols ∧
          ∀ i j, i < p.W.rows → j < p.W.cols →
            (∃ t, c.W.get i j = p.W.get i j + (counterSource.uniform t).1 * (1 / 5)) ∧
            |c.W.get i j - p.W.get i j| ≤ 1 / 5) ∧
        (c.B.HasShape p.B.rows p.B.cols ∧
          ∀ i j, i < p.B.rows → j < p.B.cols →
            (∃ t, c.B.get i j = p.B.get i j + (counterSource.uniform t).1 * (1 / 5)) ∧
            |c.B.get i j - p.B.get i j| ≤ 1 / 5) ∧
        c.inputSize = p.inputSize ∧ c.neuronCount = p.neuronCount ∧
        c.Z = p.Z ∧ c.A = p.A ∧ c.lastInput = p.lastInput ∧
        c.activate = p.activate ∧ c.activateDerivative = p.activateDerivative)
      rationalNetwork.layers (mutateNetwork counterSource rationalNetwork (1 / 5) 0).1.layers :=
  ⟨⟨fun l hl => by
        rw [List.mem_singleton.mp hl]
        exact ⟨by decide, by decide⟩,
      by norm_num,
      fun t => by
        show |(1 / 2 : ℚ)| ≤ 1
        rw [abs_of_nonneg (by norm_num)]
        norm_num⟩,
    mutateNetwork_bounded counterSource rationalNetwork (1 / 5) 0
      (fun l hl => by
        rw [List.mem_singleton.mp hl]
        exact ⟨by decide, by decide⟩)
      (by norm_num)
      (fun t => by
        show |(1 / 2 : ℚ)| ≤ 1
        rw [abs_of_nonneg (by norm_num)]
        norm_num)⟩
/-! ## Ranking -/

/-- The comparator `a.second > b.second` is a strict weak ordering. -/
theorem byFitness_strictWeak {R : Type} [LinearOrder R] :
    StrictWeak (byFitness : Nat × R → Nat × R → Bool) := by
  refine ⟨fun a => ?_, fun a b c hab hbc => ?_, fun a b c h1 h2 h3 h4 => ?_⟩
  · simp [byFitness]
  · simp only [byFitness, gt_iff_lt, decide_eq_true_eq] at hab hbc ⊢
    exact lt_trans hbc hab
  · simp only [byFitness, gt_iff_lt, decide_eq_false_iff_not, not_lt] at h1 h2 h3 h4 ⊢
    exact ⟨le_trans h1 h3, le_trans h4 h2⟩

theorem byFitness_false_iff {R : Type} [LinearOrder R] (a b : Nat × R) :
    byFitness b a = false ↔ b.2 ≤ a.2 := by
  simp [byFitness]

/-- Insertion sort of the reversed input meets the contract of `std::sort`. -/
theorem reversingSort_contract {α : Type} :
    StdSortContract (reversingSort : (α → α → Bool) → List α → List α) := by
  intro comp l hsw
  obtain ⟨hirr, htrans, heqv⟩ := hsw
  have hasym : ∀ a b, comp a b = true → comp b a = false := by
    intro a b hab
    cases hba : comp b a with
    | false => rfl
    | true =>
      have := htrans a b a hab hba
      rw [hirr a] at this
      cases this
  haveI : IsTotal α (fun a b => comp b a = false) := ⟨fun a b => by
    cases hba : comp b a with
    | false => exact Or.inl rfl
    | true => exact Or.inr (hasym b a hba)⟩
  haveI : IsTrans α (fun a b => comp b a = false) := ⟨fun a b c hab hbc => by
    show comp c a = false
    cases hca : comp c a with
    | false => rfl
    | true =>
      have h1 : comp a b = false := by
        cases h : comp a b with
        | false => rfl
        | true =>
          have := htrans c a b hca h
          rw [hbc] at this
          cases this
      have h2 : comp b c = false := by
        cases h : comp b c with
        | false => rfl
        | true =>
          have := htrans b c a h hca
          rw [hab] at this
          cases this
      have := (heqv a b c h1 hab h2 hbc).2
      rw [hca] at this
      cases this⟩
  refine ⟨?_, ?_⟩
  · exact (List.perm_insertionSort _ _).trans (List.reverse_perm l)
  · exact List.sorted_insertionSort (fun a b => comp b a = false) l.reverse

/-- What the ranking step guarantees with any `std::sort`: a rearrangement of the
table in non-increasing order of fitness. -/
theorem ranking_sorted {R : Type} [LinearOrder R]
    (stdSort : (Nat × R → Nat × R → Bool) → List (Nat × R) → List (Nat × R))
    (hsort : StdSortContract stdSort) (fitnessScores : List (Nat × R)) :
    (stdSort byFitness fitnessScores).Perm fitnessScores ∧
    (stdSort byFitness fitnessScores).Pairwise (fun a b => b.2 ≤ a.2) := by
  obtain ⟨hp, hs⟩ := hsort byFitness fitnessScores byFitness_strictWeak
  exact ⟨hp, hs.imp (fun {a b} h => (byFitness_false_iff a b).mp h)⟩

/-! ## Selection and breeding -/

/-- Elite selection with valid indices: no fault, one copy per rank, in rank
order. -/
theorem selectElites_spec {N R : Type} (population : List N) (ranked : List (Nat × R))
    (eliteCount : Nat) (hle : eliteCount ≤ ranked.length)
    (hidx : ∀ p, p ∈ ranked → p.1 < population.length) :
    ∃ elites : List N, selectElites population ranked eliteCount = .ok elites ∧
      elites.length = eliteCount ∧
      ∀ i, i < eliteCount → ∃ (entry : Nat × R) (nn : N),
        ranked[i]? = some entry ∧ population[entry.1]? = some nn ∧ elites[i]? = some nn := by
  induction eliteCount with
  | zero => exact ⟨[], rfl, rfl, fun i hi => absurd hi (Nat.not_lt_zero i)⟩
  | succ k ih =>
    obtain ⟨elites, hsel, hlen, hent⟩ := ih (Nat.le_of_succ_le hle)
    have hk : k < ranked.length := hle
    have hp : ranked[k].1 < population.length := hidx _ (List.getElem_mem _)
    refine ⟨elites ++ [population[ranked[k].1]], ?_, ?_, fun i hi => ?_⟩
    · unfold selectElites at hsel ⊢
      rw [forLoop_succ, hsel]
      simp only [List.getElem?_eq_getElem hk, List.getElem?_eq_getElem hp]
    · rw [List.length_append, hlen, List.length_singleton]
    · rcases Nat.lt_succ_iff_lt_or_eq.mp hi with h | h
      · obtain ⟨entry, nn, h1, h2, h3⟩ := hent i h
        refine ⟨entry, nn, h1, h2, ?_⟩
        rw [List.getElem?_append_left (by rw [hlen]; exact h)]
        exact h3
      · subst h
        refine ⟨ranked[i], population[ranked[i].1], List.getElem?_eq_getElem hk,
          List.getElem?_eq_getElem hp, ?_⟩
        rw [List.getElem?_append_right (by rw [hlen]), hlen, Nat.sub_self]
        rfl

/-- The breeding loop started with at least `eliteCount` networks: no fault, the
population is filled up to `populationSize`, what was there stays in place, and
every network added is `mutateNetwork` applied to a copy of one of the first
`eliteCount`.  `Q` is any property of the elites and `P` any relation that
`mutateNetwork` establishes from it. -/
theorem breedLoop_spec {S R : Type} [Zero R] [Add R] [Mul R] (rng : RandomSource S R)
    (populationSize eliteCount : Nat) (rate : R)
    (Q : NeuralNetwork R → Prop) (P : NeuralNetwork R → NeuralNetwork R → Prop)
    (hP : ∀ parent s, Q parent → P parent (mutateNetwork rng parent rate s).1)
    (d : Nat) (newPopulation : List (NeuralNetwork R)) (s : S)
    (hd : populationSize - newPopulation.length = d)
    (hcount : newPopulation.length < populationSize → 0 < eliteCount)
    (hel : eliteCount ≤ newPopulation.length)
    (hsz : newPopulation.length ≤ populationSize)
    (hQ : ∀ e nn, e < eliteCount → newPopulation[e]? = some nn → Q nn) :
    ∃ (result : List (NeuralNetwork R)) (s1 : S),
      breedLoop rng populationSize eliteCount rate newPopulation s = .ok (result, s1) ∧
      result.length = populationSize ∧
      (∀ i, i < newPopulation.length → result[i]? = newPopulation[i]?) ∧
      ∀ k, newPopulation.length ≤ k → k < populationSize →
        ∃ (e : Nat) (parent child : NeuralNetwork R), e < eliteCount ∧
          result[e]? = some parent ∧ result[k]? = some child ∧ P parent child := by
  induction d generalizing newPopulation s with
  | zero =>
    have hfull : newPopulation.length = populationSize := by omega
    refine ⟨newPopulation, s, ?_, hfull, fun i _ => rfl, fun k h1 h2 => ?_⟩
    · rw [breedLoop, if_neg (by omega)]
    · omega
  | succ d ih =>
    have hlt : newPopulation.length < populationSize := by omega
    have hpos : 0 < eliteCount := hcount hlt
    have hpi : (rng.next s).1 % eliteCount < newPopulation.length :=
      Nat.lt_of_lt_of_le (Nat.mod_lt _ hpos) hel
    obtain ⟨result, s1, hres, hlen, hkeep, hnew⟩ := ih
      (newPopulation ++ [(mutateNetwork rng (newPopulation[(rng.next s).1 % eliteCount])
        rate (rng.next s).2).1])
      (mutateNetwork rng (newPopulation[(rng.next s).1 % eliteCount]) rate (rng.next s).2).2
      (by rw [List.length_append, List.length_singleton]; omega)
      (fun _ => hpos)
      (by rw [List.length_append]; omega)
      (by rw [List.length_append, List.length_singleton]; omega)
      (fun e nn he hnn => hQ e nn he (by
        rw [List.getElem?_append_left (by omega)] at hnn
        exact hnn))
    refine ⟨result, s1, ?_, hlen, fun i hi => ?_, fun k hk1 hk2 => ?_⟩
    · rw [breedLoop, if_pos hlt, if_neg (by omega)]
      simp only [List.getElem?_eq_getElem hpi]
      exact hres
    · rw [hkeep i (by rw [List.length_append]; omega), List.getElem?_append_left hi]
    · rcases Nat.eq_or_lt_of_le hk1 with h | h
      · subst h
        have hpar : result[(rng.next s).1 % eliteCount]?
            = some (newPopulation[(rng.next s).1 % eliteCount]) := by
          rw [hkeep _ (by rw [List.length_append]; omega), List.getElem?_append_left hpi,
            List.getElem?_eq_getElem hpi]
        have hchild : result[newPopulation.length]?
            = some (mutateNetwork rng (newPopulation[(rng.next s).1 % eliteCount])
                rate (rng.next s).2).1 := by
          rw [hkeep _ (by rw [List.length_append, List.length_singleton]; omega),
            List.getElem?_append_right (Nat.le_refl _), Nat.sub_self]
          rfl
        exact ⟨_, _, _, Nat.mod_lt _ hpos, hpar, hchild,
          hP _ _ (hQ _ _ (Nat.mod_lt _ hpos) (List.getElem?_eq_getElem hpi))⟩
      · exact hnew k (by rw [List.length_append, List.length_singleton]; omega) hk2

/-- With `eliteCount = 0` and room left in the population the breeding loop
computes `next % 0`. -/
theorem breedLoop_zero_elites {S R : Type} [Zero R] [Add R] [Mul R] (rng : RandomSource S R)
    (populationSize : Nat) (rate : R) (newPopulation : List (NeuralNetwork R)) (s : S)
    (h : newPopulation.length < populationSize) :
    breedLoop rng populationSize 0 rate newPopulation s = .error Fault.divisionByZero := by
  rw [breedLoop, if_pos h, if_pos rfl]

/-- The rank, select and breed steps under the configuration constraint: no
fault, `populationSize` networks, the elites first in rank order, then mutated
copies of elites. -/
theorem rankSelectBreed_spec {S R : Type} [LinearOrderedField R]
    (stdSort : (Nat × R → Nat × R → Bool) → List (Nat × R) → List (Nat × R))
    (hsort : StdSortContract stdSort) (rng : RandomSource S R)
    (population : List (NeuralNetwork R)) (fitnessScores : List (Nat × R))
    (populationSize eliteCount g generations : Nat) (s : S)
    (Q : NeuralNetwork R → Prop) (P : NeuralNetwork R → NeuralNetwork R → Prop)
    (hP : ∀ parent s, Q parent →
      P parent (mutateNetwork rng parent (mutationRate g generations) s).1)
    (hQ : ∀ nn, nn ∈ population → Q nn)
    (hcount : 0 < eliteCount ∨ populationSize = 0) (hle : eliteCount ≤ populationSize)
    (hpop : population.length = populationSize)
    (hfs : fitnessScores.length = populationSize)
    (hidx : ∀ p, p ∈ fitnessScores → p.1 < populationSize) :
    ∃ (newPopulation : List (NeuralNetwork R)) (s1 : S),
      rankSelectBreed stdSort rng population fitnessScores populationSize eliteCount g
        generations s = .ok (newPopulation, s1) ∧
      newPopulation.length = populationSize ∧
      (∀ i, i < eliteCount → ∃ (entry : Nat × R) (nn : NeuralNetwork R),
        (stdSort byFitness fitnessScores)[i]? = some entry ∧
        population[entry.1]? = some nn ∧ newPopulation[i]? = some nn) ∧
      ∀ k, eliteCount ≤ k → k < populationSize →
        ∃ (e : Nat) (parent child : NeuralNetwork R), e < eliteCount ∧
          newPopulation[e]? = some parent ∧ newPopulation[k]? = some child ∧
          P parent child := by
  obtain ⟨hperm, _⟩ := ranking_sorted stdSort hsort fitnessScores
  obtain ⟨elites, hsel, hlen, hent⟩ := selectElites_spec population
    (stdSort byFitness fitnessScores) eliteCount
    (by rw [hperm.length_eq, hfs]; exact hle)
    (fun p hp => by rw [hpop]; exact hidx p (hperm.mem_iff.mp hp))
  obtain ⟨result, s1, hres, hrlen, hkeep, hnew⟩ := breedLoop_spec rng populationSize eliteCount
    (mutationRate g generations) Q P hP (populationSize - elites.length) elites s rfl
    (fun h => by
      rcases hcount with h0 | h0
      · exact h0
      · omega)
    (by rw [hlen]) (by rw [hlen]; exact hle)
    (fun e nn he hnn => by
      obtain ⟨entry, nn1, _, h2, h3⟩ := hent e he
      rw [h3] at hnn
      rw [← Option.some.inj hnn]
      exact hQ nn1 (List.getElem?_mem h2))
  refine ⟨result, s1, ?_, hrlen, fun i hi => ?_, fun k hk1 hk2 => ?_⟩
  · simp only [rankSelectBreed, hsel]
    exact hres
  · obtain ⟨entry, nn, h1, h2, h3⟩ := hent i hi
    exact ⟨entry, nn, h1, h2, by rw [hkeep i (by rw [hlen]; exact hi)]; exact h3⟩
  · exact hnew k (by rw [hlen]; exact hk1) hk2
theorem mutationRate_nonneg {R : Type} [LinearOrderedField R] (g generations : Nat)
    (hg : g < generations) : (0 : R) ≤ mutationRate g generations := by
  rw [mutationRate_eq]
  have h1 := ratio_le_one (R := R) g generations (Nat.lt_of_le_of_lt (Nat.zero_le g) hg)
    (Nat.le_of_lt hg)
  linarith

/-- A sorted rearrangement of two pairs, the first of strictly higher fitness, is
those two pairs in that order. -/
theorem ranked_pair {R : Type} [LinearOrder R] (ranked : List (Nat × R)) (s0 s1 : R)
    (hlt : s1 < s0) (hperm : ranked.Perm [(0, s0), (1, s1)])
    (hsorted : ranked.Pairwise (fun a b => b.2 ≤ a.2)) :
    ranked = [(0, s0), (1, s1)] := by
  obtain ⟨x, y, hxy⟩ := List.length_eq_two.mp hperm.length_eq
  subst hxy
  have hx : x = (0, s0) ∨ x = (1, s1) := by
    have := hperm.mem_iff.mp (List.mem_cons_self x [y])
    simpa using this
  have hy : y = (0, s0) ∨ y = (1, s1) := by
    have := hperm.mem_iff.mp (List.mem_cons_of_mem x (List.mem_singleton_self y))
    simpa using this
  have ha : ((0 : Nat), s0) = x ∨ ((0 : Nat), s0) = y := by
    have := hperm.mem_iff.mpr (List.mem_cons_self _ _)
    simpa using this
  have hb : ((1 : Nat), s1) = x ∨ ((1 : Nat), s1) = y := by
    have := hperm.mem_iff.mpr (List.mem_cons_of_mem _ (List.mem_singleton_self _))
    simpa using this
  have hyx : y.2 ≤ x.2 := by
    have := List.pairwise_cons.mp hsorted
    exact this.1 y (List.mem_singleton_self y)
  rcases hx with hx | hx
  · rcases hy with hy | hy
    · subst hx hy
      rcases hb with h | h <;> simp at h
    · rw [hx, hy]
  · rcases hy with hy | hy
    · subst hx hy
      exact absurd hyx (not_le.mpr hlt)
    · subst hx hy
      rcases ha with h | h <;> simp at h

/-- C13, as the code has it.  In both trainers the select-and-breed step, run
with at least one elite (or on an empty population) and
`eliteCount <= populationSize`, on a population and a fitness table of
`populationSize` entries with valid indices, indexes nothing out of range,
divides by nothing that is zero and yields exactly `populationSize` networks. -/
theorem selectBreed_completes {S R : Type} [LinearOrderedField R]
    (stdSort : (Nat × R → Nat × R → Bool) → List (Nat × R) → List (Nat × R))
    (hsort : StdSortContract stdSort) (rng : RandomSource S R)
    (population : List (NeuralNetwork R)) (fitnessScores : List (Nat × R))
    (populationSize eliteCount g generations : Nat) (s : S)
    (hcount : 0 < eliteCount ∨ populationSize = 0) (hle : eliteCount ≤ populationSize)
    (hpop : population.length = populationSize)
    (hfs : fitnessScores.length = populationSize)
    (hidx : ∀ p, p ∈ fitnessScores → p.1 < populationSize) :
    ∃ (newPopulation : List (NeuralNetwork R)) (s1 : S),
      rankSelectBreed stdSort rng population fitnessScores populationSize eliteCount g
        generations s = .ok (newPopulation, s1) ∧
      newPopulation.length = populationSize := by
  obtain ⟨newPopulation, s1, h, hlen, _, _⟩ := rankSelectBreed_spec stdSort hsort rng population
    fitnessScores populationSize eliteCount g generations s (fun _ => True) (fun _ _ => True)
    (fun _ _ _ => trivial) (fun _ _ => trivial) hcount hle hpop hfs hidx
  exact ⟨newPopulation, s1, h, hlen⟩

/-- The hypotheses of `selectBreed_completes` hold for a population of one network
with one elite. -/
theorem selectBreed_completes_witness :
    (StdSortContract (reversingSort : (Nat × ℚ → Nat × ℚ → Bool) → _ → _) ∧
      ((0 < 1 ∨ 1 = 0) ∧ 1 ≤ 1) ∧ [rationalNetwork].length = 1 ∧
      [((0 : Nat), (0 : ℚ))].length = 1 ∧
      ∀ p, p ∈ [((0 : Nat), (0 : ℚ))] → p.1 < 1) ∧
    ∃ (newPopulation : List (NeuralNetwork ℚ)) (s1 : Nat),
      rankSelectBreed reversingSort counterSource [rationalNetwork] [(0, 0)] 1 1 0 1 0
        = .ok (newPopulation, s1) ∧
      newPopulation.length = 1 :=
  ⟨⟨reversingSort_contract, ⟨Or.inl (by decide), by decide⟩, rfl, rfl,
      fun p hp => by rw [List.mem_singleton.mp hp]; decide⟩,
    selectBreed_completes reversingSort reversingSort_contract counterSource [rationalNetwork]
      [(0, 0)] 1 1 0 1 0 (Or.inl (by decide)) (by decide) rfl rfl
      (fun p hp => by rw [List.mem_singleton.mp hp]; decide)⟩

/-- C13, refuted as stated.  `eliteCount = 0 <= 1 = populationSize`: no elite is
copied, the population has room for one network, and the breeding loop computes
`next % eliteCount` with `eliteCount = 0`, whatever `std::sort` did before. -/
theorem selectBreed_zero_elites_divides_by_zero :
    (0 ≤ 1 ∧ [rationalNetwork].length = 1 ∧ [((0 : Nat), (0 : ℚ))].length = 1) ∧
    rankSelectBreed reversingSort counterSource [rationalNetwork] [(0, 0)] 1 0 0 1 0
      = .error Fault.divisionByZero ∧
    ∀ stdSort, rankSelectBreed stdSort counterSource [rationalNetwork] [(0, 0)] 1 0 0 1 0
      = .error Fault.divisionByZero := by
  have h : ∀ stdSort,
      rankSelectBreed stdSort counterSource [rationalNetwork] [(0, 0)] 1 0 0 1 0
        = .error Fault.divisionByZero := by
    intro stdSort
    simp only [rankSelectBreed, selectElites, forLoop]
    exact breedLoop_zero_elites counterSource 1 _ [] 0 (by decide)
  exact ⟨⟨by decide, rfl, rfl⟩, h reversingSort, h⟩

/-- C14.  With a conforming `std::sort`, noise draws in `[-1, 1]`, a generation
index `g < generations` and exact arithmetic.  (1) Under the configuration
constraint `0 < eliteCount <= populationSize`, one generation does not fault; the
first `eliteCount` networks of the next population are, in rank order, the
current networks at the top-ranked indices, unchanged; every remaining slot is
a mutated clone of one of them, each `W` and `B` entry within the generation's
`mutationRate` of the elite's.  (2) With two networks, `eliteCount = 1` and
network 0 scoring strictly higher, the next population is network 0 followed by
a mutated clone of network 0. -/
theorem generation_elites_and_clones {S R : Type} [LinearOrderedField R]
    (stdSort : (Nat × R → Nat × R → Bool) → List (Nat × R) → List (Nat × R))
    (hsort : StdSortContract stdSort) (rng : RandomSource S R)
    (hnoise : ∀ t, |(rng.uniform t).1| ≤ 1) (g generations : Nat) (hg : g < generations) :
    (∀ (population : List (NeuralNetwork R)) (fitnessScores : List (Nat × R))
        (populationSize eliteCount : Nat) (s : S),
      0 < eliteCount → eliteCount ≤ populationSize →
      population.length = populationSize → fitnessScores.length = populationSize →
      (∀ p, p ∈ fitnessScores → p.1 < populationSize) →
      (∀ nn, nn ∈ population → ∀ l, l ∈ nn.layers → l.W.WF ∧ l.B.WF) →
      ∃ (newPopulation : List (NeuralNetwork R)) (s1 : S),
        rankSelectBreed stdSort rng population fitnessScores populationSize eliteCount g
          generations s = .ok (newPopulation, s1) ∧
        newPopulation.length = populationSize ∧
        (∀ i, i < eliteCount → ∃ (entry : Nat × R) (nn : NeuralNetwork R),
          (stdSort byFitness fitnessScores)[i]? = some entry ∧
          population[entry.1]? = some nn ∧ newPopulation[i]? = some nn) ∧
        ∀ k, eliteCount ≤ k → k < populationSize →
          ∃ (e : Nat) (parent child : NeuralNetwork R), e < eliteCount ∧
            newPopulation[e]? = some parent ∧ newPopulation[k]? = some child ∧
            MutatedClone rng (mutationRate g generations) parent child) ∧
    (∀ (n0 n1 : NeuralNetwork R) (s0 s1 : R) (s : S),
      (∀ l, l ∈ n0.layers → l.W.WF ∧ l.B.WF) → (∀ l, l ∈ n1.layers → l.W.WF ∧ l.B.WF) →
      s1 < s0 →
      ∃ (child : NeuralNetwork R) (t : S),
        rankSelectBreed stdSort rng [n0, n1] [(0, s0), (1, s1)] 2 1 g generations s
          = .ok ([n0, child], t) ∧
        MutatedClone rng (mutationRate g generations) n0 child) := by
  have hrate : (0 : R) ≤ mutationRate g generations := mutationRate_nonneg g generations hg
  have gen : ∀ (population : List (NeuralNetwork R)) (fitnessScores : List (Nat × R))
        (populationSize eliteCount : Nat) (s : S),
      0 < eliteCount → eliteCount ≤ populationSize →
      population.length = populationSize → fitnessScores.length = populationSize →
      (∀ p, p ∈ fitnessScores → p.1 < populationSize) →
      (∀ nn, nn ∈ population → ∀ l, l ∈ nn.layers → l.W.WF ∧ l.B.WF) →
      ∃ (newPopulation : List (NeuralNetwork R)) (s1 : S),
        rankSelectBreed stdSort rng population fitnessScores populationSize eliteCount g
          generations s = .ok (newPopulation, s1) ∧
        newPopulation.length = populationSize ∧
        (∀ i, i < eliteCount → ∃ (entry : Nat × R) (nn : NeuralNetwork R),
          (stdSort byFitness fitnessScores)[i]? = some entry ∧
          population[entry.1]? = some nn ∧ newPopulation[i]? = some nn) ∧
        ∀ k, eliteCount ≤ k → k < populationSize →
          ∃ (e : Nat) (parent child : NeuralNetwork R), e < eliteCount ∧
            newPopulation[e]? = some parent ∧ newPopulation[k]? = some child ∧
            MutatedClone rng (mutationRate g generations) parent child := by
    intro population fitnessScores populationSize eliteCount s hpos hle hpop hfs hidx hwf
    exact rankSelectBreed_spec stdSort hsort rng population fitnessScores populationSize
      eliteCount g generations s (fun nn => ∀ l, l ∈ nn.layers → l.W.WF ∧ l.B.WF)
      (MutatedClone rng (mutationRate g generations))
      (fun parent t hparent => mutateLayers_spec rng _ parent.layers t hparent hrate hnoise)
      hwf (Or.inl hpos) hle hpop hfs hidx
  refine ⟨gen, fun n0 n1 s0 s1 s h0 h1 hlt => ?_⟩
  obtain ⟨newPopulation, t, hres, hlen, hel, hcl⟩ := gen [n0, n1] [(0, s0), (1, s1)] 2 1 s
    (by decide) (by decide) rfl rfl
    (fun p hp => by
      rcases List.mem_cons.mp hp with h | h
      · rw [h]; exact Nat.zero_lt_two
      · rw [List.mem_singleton.mp h]; exact Nat.one_lt_two)
    (fun nn hnn => by
      rcases List.mem_cons.mp hnn with h | h
      · rw [h]; exact h0
      · rw [List.mem_singleton.mp h]; exact h1)
  obtain ⟨hperm, hsorted⟩ := ranking_sorted stdSort hsort [((0 : Nat), s0), (1, s1)]
  have hranked := ranked_pair _ s0 s1 hlt hperm hsorted
  obtain ⟨x, y, hxy⟩ := List.length_eq_two.mp hlen
  subst hxy
  obtain ⟨entry, nn, he1, he2, he3⟩ := hel 0 (by decide)
  rw [hranked] at he1
  simp only [List.getElem?_cons_zero, Option.some.injEq] at he1 he3
  subst he1
  simp only [List.getElem?_cons_zero, Option.some.injEq] at he2
  obtain ⟨e, parent, child, he, hp, hc, hmc⟩ := hcl 1 (Nat.le_refl 1) (by decide)
  have he0 : e = 0 := by omega
  subst he0
  simp only [List.getElem?_cons_zero, List.getElem?_cons_succ, Option.some.injEq] at hp hc
  subst hp hc
  have hx : x = n0 := he3.trans he2.symm
  subst hx
  exact ⟨y, t, hres, hmc⟩

/-- The hypotheses of `generation_elites_and_clones` hold for insertion sort of the
reversed table, the generator whose every noise draw is `1/2`, and generation 0
of 1. -/
theorem generation_elites_and_clones_witness :
    (StdSortContract (reversingSort : (Nat × ℚ → Nat × ℚ → Bool) → _ → _) ∧
      (∀ t, |(counterSource.uniform t).1| ≤ 1) ∧ 0 < 1) ∧
    ∃ (child : NeuralNetwork ℚ) (t : Nat),
      rankSelectBreed reversingSort counterSource [rationalNetwork, rationalNetwork]
        [(0, 3), (1, 2)] 2 1 0 1 0 = .ok ([rationalNetwork, child], t) ∧
      MutatedClone counterSource (mutationRate 0 1) rationalNetwork child :=
  ⟨⟨reversingSort_contract,
      fun t => by
        show |(1 / 2 : ℚ)| ≤ 1
        rw [abs_of_nonneg (by norm_num)]
        norm_num,
      by decide⟩,
    (generation_elites_and_clones reversingSort reversingSort_contract counterSource
      (fun t => by
        show |(1 / 2 : ℚ)| ≤ 1
        rw [abs_of_nonneg (by norm_num)]
        norm_num) 0 1 (by decide)).2 rationalNetwork rationalNetwork 3 2 0
      (fun l hl => by
        rw [List.mem_singleton.mp hl]
        exact ⟨by decide, by decide⟩)
      (fun l hl => by
        rw [List.mem_singleton.mp hl]
        exact ⟨by decide, by decide⟩)
      (by norm_num)⟩
/-! ## The verbose branch of `Training::train` -/

theorem sameModel_refl {R : Type} (ls : List (Layer R)) :
    List.Forall₂ Layer.SameModel ls ls := by
  induction ls with
  | nil => exact List.Forall₂.nil
  | cons l ls ih => exact List.Forall₂.cons ⟨rfl, rfl, rfl, rfl, rfl, rfl⟩ ih

theorem sameModel_trans {R : Type} {as bs cs : List (Layer R)}
    (h1 : List.Forall₂ Layer.SameModel as bs) (h2 : List.Forall₂ Layer.SameModel bs cs) :
    List.Forall₂ Layer.SameModel as cs := by
  induction h1 generalizing cs with
  | nil => cases h2; exact List.Forall₂.nil
  | cons hab _ ih =>
    cases h2 with
    | cons hbc hrest =>
      exact List.Forall₂.cons ⟨hab.1.trans hbc.1, hab.2.1.trans hbc.2.1,
        hab.2.2.1.trans hbc.2.2.1, hab.2.2.2.1.trans hbc.2.2.2.1,
        hab.2.2.2.2.1.trans hbc.2.2.2.2.1, hab.2.2.2.2.2.trans hbc.2.2.2.2.2⟩ (ih hrest)

theorem sameModel_symm {R : Type} {as bs : List (Layer R)}
    (h : List.Forall₂ Layer.SameModel as bs) : List.Forall₂ Layer.SameModel bs as := by
  induction h with
  | nil => exact List.Forall₂.nil
  | cons hab _ ih =>
    exact List.Forall₂.cons ⟨hab.1.symm, hab.2.1.symm, hab.2.2.1.symm, hab.2.2.2.1.symm,
      hab.2.2.2.2.1.symm, hab.2.2.2.2.2.symm⟩ ih

theorem sameModel_parameters {R : Type} {as bs : List (Layer R)}
    (h : List.Forall₂ Layer.SameModel as bs) : parameters as = parameters bs := by
  induction h with
  | nil => rfl
  | cons hab _ ih =>
    simp only [parameters, List.map_cons] at ih ⊢
    rw [hab.2.2.1, hab.2.2.2.1, ih]

theorem sameModel_shapes {R : Type} {as bs : List (Layer R)}
    (h : List.Forall₂ Layer.SameModel as bs) : shapes as = shapes bs := by
  induction h with
  | nil => rfl
  | cons hab _ ih =>
    simp only [shapes, List.map_cons] at ih ⊢
    rw [hab.2.2.1, hab.2.2.2.1, ih]

theorem apply_shape {R : Type} [Zero R] (m : Matrix R) (func : R → R) :
    (m.apply func).rows = m.rows ∧ (m.apply func).cols = m.cols := by
  unfold Matrix.apply
  rw [flatLoop_eq (fun _ x => func x) m (m.rows * m.cols)]
  exact ⟨rfl, rfl⟩

/-- `Layer::forward` whatever the shapes: it succeeds exactly when the three
dimension guards pass, it then returns a `W.rows x input.cols` matrix, and in
either case it touches the caches only. -/
theorem layer_forward_cases {R : Type} [Zero R] [One R] [Add R] [Mul R] (l : Layer R)
    (x : Matrix R) :
    (∃ z out : Matrix R,
      l.forward x = (.ok out, { l with lastInput := x, Z := z, A := out }) ∧
      out.rows = l.W.rows ∧ out.cols = x.cols ∧
      (l.W.cols = x.rows ∧ l.W.rows = l.B.rows ∧ x.cols = l.B.cols)) ∨
    (∃ e, l.forward x = (.error e, { l with lastInput := x }) ∧
      ¬ (l.W.cols = x.rows ∧ l.W.rows = l.B.rows ∧ x.cols = l.B.cols)) := by
  by_cases h1 : l.W.cols = x.rows
  · obtain ⟨wx, hwx, hwxr, hwxc, _, _⟩ := mul_spec l.W x h1
    by_cases h2 : l.W.rows = l.B.rows ∧ x.cols = l.B.cols
    · obtain ⟨z, hz, hzr, hzc, _, _⟩ := add_spec wx l.B (hwxr.trans h2.1) (hwxc.trans h2.2)
      obtain ⟨har, hac⟩ := apply_shape z l.activate
      refine Or.inl ⟨z, z.apply l.activate, ?_, ?_, ?_, h1, h2.1, h2.2⟩
      · simp only [Layer.forward, hwx, hz]
      · rw [har, hzr, hwxr]
      · rw [hac, hzc, hwxc]
    · have hadd : wx.add l.B = .error Error.additionDim := by
        unfold Matrix.add
        rw [if_pos]
        rw [hwxr, hwxc]
        by_contra hcon
        push_neg at hcon
        exact h2 hcon
      refine Or.inr ⟨Error.additionDim, ?_, fun hc => h2 ⟨hc.2.1, hc.2.2⟩⟩
      simp only [Layer.forward, hwx, hadd]
  · have hmul : l.W.mul x = .error Error.multiplicationSize := by
      unfold Matrix.mul
      rw [if_pos h1]
    refine Or.inr ⟨Error.multiplicationSize, ?_, fun hc => h1 hc.1⟩
    simp only [Layer.forward, hmul]

/-- `NeuralNetwork::forward` whatever the shapes: whether it succeeds, and the
shape of what it returns, are read off the dimensions of the layers; it touches
the caches only; on success the last layer's `A` is the value returned. -/
theorem forwardLayers_cases {R : Type} [Zero R] [One R] [Add R] [Mul R] (ls : List (Layer R))
    (x : Matrix R) :
    (∃ (out : Matrix R) (ls1 : List (Layer R)), forwardLayers ls x = (.ok out, ls1) ∧
      forwardShape (shapes ls) (x.rows, x.cols) = some (out.rows, out.cols) ∧
      List.Forall₂ Layer.SameModel ls1 ls ∧
      (∀ last, ls1.getLast? = some last → last.A = out)) ∨
    (∃ (e : Error) (ls1 : List (Layer R)), forwardLayers ls x = (.error e, ls1) ∧
      forwardShape (shapes ls) (x.rows, x.cols) = none ∧
      List.Forall₂ Layer.SameModel ls1 ls) := by
  induction ls generalizing x with
  | nil =>
    exact Or.inl ⟨x, [], rfl, rfl, List.Forall₂.nil, fun last h => by simp at h⟩
  | cons l ls ih =>
    rcases layer_forward_cases l x with ⟨z, out, hf, hr, hc, hcond⟩ | ⟨e, hf, hcond⟩
    · rcases ih out with ⟨res, ls1, hfl, hsh, hsame, hlast⟩ | ⟨e, ls1, hfl, hsh, hsame⟩
      · refine Or.inl ⟨res, { l with lastInput := x, Z := z, A := out } :: ls1, ?_, ?_,
          List.Forall₂.cons ⟨rfl, rfl, rfl, rfl, rfl, rfl⟩ hsame, fun last hl => ?_⟩
        · simp only [forwardLayers, hf, hfl]
        · simp only [shapes, List.map_cons, forwardShape, if_pos hcond]
          rw [← hr, ← hc]
          exact hsh
        · cases ls1 with
          | nil =>
            cases hsame
            simp only [forwardLayers, Prod.mk.injEq, Except.ok.injEq] at hfl
            simp only [List.getLast?_singleton, Option.some.injEq] at hl
            rw [← hl, ← hfl.1]
          | cons b bs =>
            rw [List.getLast?_cons_cons] at hl
            exact hlast last hl
      · refine Or.inr ⟨e, { l with lastInput := x, Z := z, A := out } :: ls1, ?_, ?_,
          List.Forall₂.cons ⟨rfl, rfl, rfl, rfl, rfl, rfl⟩ hsame⟩
        · simp only [forwardLayers, hf, hfl]
        · simp only [shapes, List.map_cons, forwardShape, if_pos hcond]
          rw [← hr, ← hc]
          exact hsh
    · refine Or.inr ⟨e, { l with lastInput := x } :: ls, ?_, ?_,
        List.Forall₂.cons ⟨rfl, rfl, rfl, rfl, rfl, rfl⟩ (sameModel_refl ls)⟩
      · simp only [forwardLayers, hf]
      · simp only [shapes, List.map_cons, forwardShape, if_neg hcond]

/-- Layers that differ in their caches only behave alike in `forward`: same
result, and on success the same state. -/
theorem layer_forward_sameModel {R : Type} [Zero R] [One R] [Add R] [Mul R] (a b : Layer R)
    (x : Matrix R) (h : a.SameModel b) :
    (a.forward x).1 = (b.forward x).1 ∧
    (∀ out, (a.forward x).1 = .ok out → (a.forward x).2 = (b.forward x).2) := by
  obtain ⟨h1, h2, h3, h4, h5, h6⟩ := h
  cases a
  cases b
  simp only at h1 h2 h3 h4 h5 h6
  subst h1 h2 h3 h4 h5 h6
  unfold Layer.forward
  simp only
  split
  · exact ⟨rfl, fun out h => by cases h⟩
  · split
    · exact ⟨rfl, fun out h => by cases h⟩
    · exact ⟨rfl, fun _ _ => rfl⟩

theorem forwardLayers_sameModel {R : Type} [Zero R] [One R] [Add R] [Mul R]
    (as bs : List (Layer R)) (x : Matrix R) (h : List.Forall₂ Layer.SameModel as bs) :
    (forwardLayers as x).1 = (forwardLayers bs x).1 ∧
    (∀ out, (forwardLayers as x).1 = .ok out →
      (forwardLayers as x).2 = (forwardLayers bs x).2) := by
  induction h generalizing x with
  | nil => exact ⟨rfl, fun _ _ => rfl⟩
  | @cons a b as bs hab _ ih =>
    obtain ⟨h1, h2⟩ := layer_forward_sameModel a b x hab
    unfold forwardLayers
    rcases ha : a.forward x with ⟨ra, a1⟩
    rcases hb : b.forward x with ⟨rb, b1⟩
    rw [ha, hb] at h1
    simp only at h1
    subst h1
    cases ra with
    | error e => exact ⟨rfl, fun out h => by cases h⟩
    | ok y =>
      have hst : a1 = b1 := by
        have := h2 y (by rw [ha])
        rw [ha, hb] at this
        exact this
      subst hst
      obtain ⟨i1, i2⟩ := ih y
      simp only
      refine ⟨i1, fun out hout => ?_⟩
      rw [i2 out hout]
theorem layer_backward_shape {R : Type} [Zero R] [One R] [Add R] [Sub R] [Mul R] (l : Layer R)
    (g : Matrix R) (lr : R) :
    (l.backward g lr).2.W.rows = l.W.rows ∧ (l.backward g lr).2.W.cols = l.W.cols ∧
    (l.backward g lr).2.B.rows = l.B.rows ∧ (l.backward g lr).2.B.cols = l.B.cols := by
  unfold Layer.backward
  simp only
  split
  · exact ⟨rfl, rfl, rfl, rfl⟩
  · next dW _ =>
    have hW := nestedLoop_eq (fun r _ => r) (fun _ c => c)
      (fun i j x => x - lr * dW.get i j) l.W l.W.cols l.W.rows
    have hB := nestedLoop_eq (fun r _ => r) (fun _ c => c)
      (fun i j x => x - lr * (forLoop g.rows (fun i d => forLoop g.cols
        (fun j d => d.set i j (d.get i j * l.activateDerivative (l.Z.get i j))) d) g).get i j)
      l.B l.B.cols l.B.rows
    simp only at hW hB
    split <;> (simp only; rw [hW, hB]; exact ⟨rfl, rfl, rfl, rfl⟩)

theorem backwardChain_shapes {R : Type} [Zero R] [One R] [Add R] [Sub R] [Mul R] (lr : R)
    (rs : List (Layer R)) (g : Matrix R) :
    shapes (backwardChain lr rs g).2 = shapes rs := by
  induction rs generalizing g with
  | nil => rfl
  | cons l rs ih =>
    obtain ⟨h1, h2, h3, h4⟩ := layer_backward_shape l g lr
    unfold backwardChain
    rcases hb : l.backward g lr with ⟨r, l1⟩
    rw [hb] at h1 h2 h3 h4
    simp only at h1 h2 h3 h4
    cases r with
    | error e => simp only [shapes, List.map_cons, h1, h2, h3, h4]
    | ok g1 =>
      have := ih g1
      simp only [shapes, List.map_cons, h1, h2, h3, h4] at this ⊢
      rw [this]

theorem network_backward_shapes {R : Type} [Zero R] [One R] [Add R] [Sub R] [Mul R]
    (net : NeuralNetwork R) (y : Matrix R) (lr : R) :
    shapes (net.backward y lr).2.layers = shapes net.layers := by
  unfold NeuralNetwork.backward
  cases net.layers.getLast? with
  | none => rfl
  | some last =>
    simp only
    cases last.getOutput.sub y with
    | error e => rfl
    | ok g =>
      have hloop := backwardLoop_append lr net.layers [] g
      rw [List.append_nil] at hloop
      simp only [hloop, List.append_nil]
      have := backwardChain_shapes lr net.layers.reverse g
      simp only [shapes, List.map_reverse] at this ⊢
      rw [this, List.reverse_reverse]

/-- A `backward` that does not throw has found the last layer's `A` of the shape
of the target. -/
theorem network_backward_ok {R : Type} [Zero R] [One R] [Add R] [Sub R] [Mul R]
    (net : NeuralNetwork R) (y : Matrix R) (lr : R)
    (h : (net.backward y lr).1 = .ok ()) :
    ∃ last, net.layers.getLast? = some last ∧ last.A.rows = y.rows ∧ last.A.cols = y.cols := by
  unfold NeuralNetwork.backward at h
  cases hl : net.layers.getLast? with
  | none =>
    simp only [hl] at h
    cases h
  | some last =>
    refine ⟨last, rfl, ?_⟩
    simp only [hl] at h
    by_cases hs : last.A.rows = y.rows ∧ last.A.cols = y.cols
    · exact hs
    · have herr : last.getOutput.sub y = .error Error.subtractionDim := by
        unfold Matrix.sub Layer.getOutput
        rw [if_pos]
        by_contra hcon
        push_neg at hcon
        exact hs hcon
      simp only [herr] at h
      cases h

theorem trainPairs_shapes {R : Type} [Zero R] [One R] [Add R] [Sub R] [Mul R] (lr : R)
    (ps : List (Matrix R × Matrix R)) (net : NeuralNetwork R) :
    shapes (trainPairs lr ps net).2.layers = shapes net.layers := by
  induction ps generalizing net with
  | nil => rfl
  | cons p ps ih =>
    obtain ⟨x, y⟩ := p
    have hfwd : shapes (net.forward x).2.layers = shapes net.layers := by
      unfold NeuralNetwork.forward
      rcases forwardLayers_cases net.layers x with ⟨out, ls1, hf, _, hsame, _⟩ |
        ⟨e, ls1, hf, _, hsame⟩
      · simp only [hf]; exact sameModel_shapes hsame
      · simp only [hf]; exact sameModel_shapes hsame
    unfold trainPairs
    rcases hf : net.forward x with ⟨r, n1⟩
    rw [hf] at hfwd
    cases r with
    | error e => exact hfwd
    | ok out =>
      simp only
      have hb := network_backward_shapes n1 y lr
      rcases hbk : n1.backward y lr with ⟨r2, n2⟩
      rw [hbk] at hb
      cases r2 with
      | error e => exact hb.trans hfwd
      | ok u => exact (ih n2).trans (hb.trans hfwd)

/-- After an epoch that did not throw, every sample's input is accepted by the
dimensions of the layers and produces an output of the shape of its target. -/
theorem trainPairs_ok_shapes {R : Type} [Zero R] [One R] [Add R] [Sub R] [Mul R] (lr : R)
    (ps : List (Matrix R × Matrix R)) (net : NeuralNetwork R)
    (h : (trainPairs lr ps net).1 = .ok ()) :
    ∀ p, p ∈ ps →
      forwardShape (shapes net.layers) (p.1.rows, p.1.cols) = some (p.2.rows, p.2.cols) := by
  induction ps generalizing net with
  | nil => intro p hp; cases hp
  | cons q qs ih =>
    obtain ⟨x, y⟩ := q
    unfold trainPairs at h
    rcases forwardLayers_cases net.layers x with ⟨out, ls1, hf, hsh, hsame, hlast⟩ |
      ⟨e, ls1, hf, _, _⟩
    · have hfwd : net.forward x = (.ok out, { layers := ls1 }) := by
        simp only [NeuralNetwork.forward, hf]
      rw [hfwd] at h
      simp only at h
      rcases hbk : NeuralNetwork.backward { layers := ls1 } y lr with ⟨r2, n2⟩
      rw [hbk] at h
      cases r2 with
      | error e => cases h
      | ok u =>
        simp only at h
        obtain ⟨last, hl, hr, hc⟩ := network_backward_ok { layers := ls1 } y lr (by rw [hbk])
        have hA := hlast last hl
        rw [hA] at hr hc
        have hsh2 : shapes n2.layers = shapes net.layers := by
          have h1 := network_backward_shapes { layers := ls1 } y lr
          rw [hbk] at h1
          exact h1.trans (sameModel_shapes hsame)
        intro p hp
        rcases List.mem_cons.mp hp with hp1 | hp1
        · subst hp1
          rw [hsh, hr, hc]
        · have := ih n2 h p hp1
          rw [hsh2] at this
          exact this
    · have hfwd : net.forward x = (.error e, { layers := ls1 }) := by
        simp only [NeuralNetwork.forward, hf]
      rw [hfwd] at h
      cases h

/-- Networks that differ in their caches only go through an epoch alike: same
outcome, and states that again differ in their caches only. -/
theorem trainPairs_sameModel {R : Type} [Zero R] [One R] [Add R] [Sub R] [Mul R] (lr : R)
    (ps : List (Matrix R × Matrix R)) (a b : NeuralNetwork R)
    (h : List.Forall₂ Layer.SameModel a.layers b.layers) :
    (trainPairs lr ps a).1 = (trainPairs lr ps b).1 ∧
    List.Forall₂ Layer.SameModel (trainPairs lr ps a).2.layers (trainPairs lr ps b).2.layers := by
  cases ps with
  | nil => exact ⟨rfl, h⟩
  | cons p ps =>
    obtain ⟨x, y⟩ := p
    obtain ⟨h1, h2⟩ := forwardLayers_sameModel a.layers b.layers x h
    unfold trainPairs
    rcases forwardLayers_cases a.layers x with ⟨out, ls1, hf, _, _, _⟩ | ⟨e, ls1, hf, _, hsa⟩
    · have hfb : forwardLayers b.layers x = (.ok out, ls1) := by
        have e1 := h1
        have e2 := h2 out (by rw [hf])
        rw [hf] at e1 e2
        simp only at e1 e2
        rw [Prod.ext_iff]
        exact ⟨e1.symm, e2.symm⟩
      have hfa' : a.forward x = (.ok out, { layers := ls1 }) := by
        simp only [NeuralNetwork.forward, hf]
      have hfb' : b.forward x = (.ok out, { layers := ls1 }) := by
        simp only [NeuralNetwork.forward, hfb]
      rw [hfa', hfb']
      exact ⟨rfl, sameModel_refl _⟩
    · rcases forwardLayers_cases b.layers x with ⟨out, ls2, hfb, _, _, _⟩ | ⟨e2, ls2, hfb, _, hsb⟩
      · rw [hf, hfb] at h1
        cases h1
      · rw [hf, hfb] at h1
        simp only [Except.error.injEq] at h1
        subst h1
        have hfa' : a.forward x = (.error e, { layers := ls1 }) := by
          simp only [NeuralNetwork.forward, hf]
        have hfb' : b.forward x = (.error e, { layers := ls2 }) := by
          simp only [NeuralNetwork.forward, hfb]
        rw [hfa', hfb']
        exact ⟨rfl, sameModel_trans hsa (sameModel_trans h (sameModel_symm hsb))⟩

/-- The verbose loop on a network whose dimensions accept every sample: it does
not throw and touches the caches only. -/
theorem totalError_spec {R : Type} [Zero R] [One R] [Add R] [Sub R] [Mul R] [Div R] [NatCast R]
    (net : NeuralNetwork R) (inputs targets : List (Matrix R))
    (hlen : inputs.length = targets.length)
    (hsh : ∀ p, p ∈ inputs.zip targets →
      forwardShape (shapes net.layers) (p.1.rows, p.1.cols) = some (p.2.rows, p.2.cols)) :
    ∃ (v : R) (net1 : NeuralNetwork R),
      Training.totalError net inputs targets = (.ok v, net1) ∧
      List.Forall₂ Layer.SameModel net1.layers net.layers := by
  unfold Training.totalError
  have key : ∀ k, k ≤ inputs.length → ∃ (v : R) (net1 : NeuralNetwork R),
      forLoop k
        (fun i st =>
          match st with
          | (.error e, net) => (.error e, net)
          | (.ok totalError, net) =>
            match inputs[i]?, targets[i]? with
            | some input, some target =>
              match net.forward input with
              | (.error e, net1) => (.error e, net1)
              | (.ok pred, net1) =>
                match Training.meanSquaredError pred target with
                | .error e => (.error e, net1)
                | .ok mse => (.ok (totalError + mse), net1)
            | _, _ => (.ok totalError, net))
        ((.ok 0, net) : Except Error R × NeuralNetwork R) = (.ok v, net1) ∧
      List.Forall₂ Layer.SameModel net1.layers net.layers := by
    intro k
    induction k with
    | zero => intro _; exact ⟨0, net, rfl, sameModel_refl _⟩
    | succ j ih =>
      intro hj
      have hj1 : j < inputs.length := hj
      have hj2 : j < targets.length := hlen ▸ hj1
      obtain ⟨v, net1, hloop, hsame⟩ := ih (Nat.le_of_lt hj1)
      have hmem : (inputs[j], targets[j]) ∈ inputs.zip targets := by
        have hz : j < (inputs.zip targets).length := by rw [List.length_zip]; omega
        have := List.getElem_mem hz
        rw [List.getElem_zip] at this
        exact this
      have hs := hsh _ hmem
      rw [← sameModel_shapes hsame] at hs
      simp only at hs
      rcases forwardLayers_cases net1.layers inputs[j] with ⟨out, ls1, hf, hsh1, hsame1, _⟩ |
        ⟨e, ls1, hf, hnone, _⟩
      · rw [hs] at hsh1
        simp only [Option.some.injEq, Prod.mk.injEq] at hsh1
        have hmse : ∃ mse, Training.meanSquaredError out targets[j] = .ok mse := by
          unfold Training.meanSquaredError
          rw [if_neg (by rw [← hsh1.1, ← hsh1.2]; simp)]
          exact ⟨_, rfl⟩
        obtain ⟨mse, hmse⟩ := hmse
        refine ⟨v + mse, { layers := ls1 }, ?_, sameModel_trans hsame1 hsame⟩
        rw [forLoop_succ, hloop]
        simp only [List.getElem?_eq_getElem hj1, List.getElem?_eq_getElem hj2,
          NeuralNetwork.forward, hf, hmse]
      · rw [hs] at hnone
        cases hnone
  exact key inputs.length (Nat.le_refl _)
/-- The two runs of `Training::train`, verbose and not, stay in step: after any
number of epochs they have thrown or not alike, and their networks differ in
the caches only. -/
theorem train_in_step {R : Type} [Zero R] [One R] [Add R] [Sub R] [Mul R] [Div R] [NatCast R]
    (network : NeuralNetwork R) (inputs targets : List (Matrix R)) (lr : R) (epochs : Nat) :
    (Training.train network inputs targets lr epochs true).1
      = (Training.train network inputs targets lr epochs false).1 ∧
    List.Forall₂ Layer.SameModel
      (Training.train network inputs targets lr epochs true).2.1.layers
      (Training.train network inputs targets lr epochs false).2.1.layers := by
  induction epochs with
  | zero => exact ⟨rfl, sameModel_refl _⟩
  | succ k ih =>
    unfold Training.train at ih ⊢
    rw [forLoop_succ, forLoop_succ]
    generalize forLoop k _ ((.ok (), network, []) :
      Except Error Unit × NeuralNetwork R × List R) = stv at ih ⊢
    generalize forLoop k _ ((.ok (), network, []) :
      Except Error Unit × NeuralNetwork R × List R) = stn at ih ⊢
    obtain ⟨rv, netv, logv⟩ := stv
    obtain ⟨rn, netn, logn⟩ := stn
    obtain ⟨hr, hsame⟩ := ih
    simp only at hr hsame
    subst hr
    cases rv with
    | error e => exact ⟨rfl, hsame⟩
    | ok u =>
      cases u
      simp only
      by_cases hlen : inputs.length = targets.length
      · rw [trainEpoch_of_eq netv inputs targets lr hlen,
          trainEpoch_of_eq netn inputs targets lr hlen]
        obtain ⟨h1, h2⟩ := trainPairs_sameModel lr (inputs.zip targets) netv netn hsame
        have hok := trainPairs_ok_shapes lr (inputs.zip targets) netv
        have hshp := trainPairs_shapes lr (inputs.zip targets) netv
        rcases hv : trainPairs lr (inputs.zip targets) netv with ⟨r1, net1v⟩
        rcases hn : trainPairs lr (inputs.zip targets) netn with ⟨r2, net1n⟩
        rw [hv, hn] at h1 h2
        rw [hv] at hok hshp
        simp only at h1 h2 hok hshp
        subst h1
        cases r1 with
        | error e => exact ⟨rfl, h2⟩
        | ok u =>
          cases u
          obtain ⟨v, net2, htot, hs2⟩ := totalError_spec net1v inputs targets hlen
            (fun p hp => by rw [hshp]; exact hok rfl p hp)
          simp only [htot, if_true, if_false, Bool.false_eq_true]
          exact ⟨trivial, sameModel_trans hs2 h2⟩
      · rw [trainEpoch_of_ne netv inputs targets lr hlen,
          trainEpoch_of_ne netn inputs targets lr hlen]
        exact ⟨rfl, hsame⟩

/-- C20.  For every network, dataset, learning rate and epoch count, `train` with
`verbose = true` and with `verbose = false` end alike (both return or both
throw the same error) and with the same `W` and `B` in every layer: the error
recomputation of the verbose branch does not throw where the epoch did not, and
it writes caches only. -/
theorem train_verbose_keeps_parameters {R : Type} [Zero R] [One R] [Add R] [Sub R] [Mul R]
    [Div R] [NatCast R] (network : NeuralNetwork R) (inputs targets : List (Matrix R))
    (lr : R) (epochs : Nat) :
    (Training.train network inputs targets lr epochs true).1
      = (Training.train network inputs targets lr epochs false).1 ∧
    parameters (Training.train network inputs targets lr epochs true).2.1.layers
      = parameters (Training.train network inputs targets lr epochs false).2.1.layers := by
  obtain ⟨h1, h2⟩ := train_in_step network inputs targets lr epochs
  exact ⟨h1, sameModel_parameters h2⟩
/-! ## One epoch on one sample: the squared error -/

theorem forLoop_add_eq_sum {R : Type} [AddCommMonoid R] (f : Nat → R) (n : Nat) :
    forLoop n (fun k sum => sum + f k) 0 = ∑ k in Finset.range n, f k := by
  induction n with
  | zero => rfl
  | succ k ih => rw [forLoop_succ, ih, Finset.sum_range_succ]

/-- The entries of a matrix-vector product over a commutative ring. -/
theorem mul_vec_entries {R : Type} [CommRing R] (A x : Matrix R) (h : A.cols = x.rows)
    (hx : x.cols = 1) :
    ∃ C : Matrix R, A.mul x = .ok C ∧ C.HasShape A.rows 1 ∧
      ∀ i, i < A.rows → C.get i 0 = ∑ k in Finset.range A.cols, A.get i k * x.get k 0 := by
  obtain ⟨C, hC, hr, hc, hwf, hent⟩ := mul_spec A x h
  refine ⟨C, hC, ⟨hr, hc.trans hx, hwf⟩, fun i hi => ?_⟩
  rw [hent i 0 hi (by rw [hx]; exact Nat.one_pos)]
  exact forLoop_add_eq_sum (fun k => A.get i k * x.get k 0) A.cols

/-- `Layer::forward` entry by entry, over a commutative ring. -/
theorem forward_entries {R : Type} [CommRing R] (l : Layer R) (x : Matrix R)
    (hl : l.Shaped) (hx : x.HasShape l.inputSize 1) :
    ∃ z out : Matrix R,
      l.forward x = (.ok out, { l with lastInput := x, Z := z, A := out }) ∧
      z.HasShape l.neuronCount 1 ∧ out.HasShape l.neuronCount 1 ∧
      (∀ i, i < l.neuronCount →
        z.get i 0 = ∑ k in Finset.range l.inputSize, l.W.get i k * x.get k 0 + l.B.get i 0) ∧
      (∀ i, i < l.neuronCount → out.get i 0 = l.activate (z.get i 0)) := by
  obtain ⟨wx, z, out, hwx, hz, hf, hzs, hos, hoe⟩ := forward_spec l x hl hx
  obtain ⟨⟨hWr, hWc, _⟩, hBr, hBc, _⟩ := hl
  obtain ⟨C, hC, hCs, hCe⟩ := mul_vec_entries l.W x (hWc.trans hx.1.symm) hx.2.1
  have hCw : C = wx := Except.ok.inj (hC.symm.trans hwx)
  subst hCw
  obtain ⟨D, hD, _, _, _, hDe⟩ := add_spec C l.B (hCs.1.trans (hWr.trans hBr.symm))
    (hCs.2.1.trans hBc.symm)
  have hDz : D = z := Except.ok.inj (hD.symm.trans hz)
  subst hDz
  refine ⟨D, out, hf, hzs, hos, fun i hi => ?_, hoe⟩
  rw [get_col D hzs.2.1, hDe i (by rw [hCs.1, hCs.2.1, hWr, Nat.mul_one]; exact hi),
    ← get_col C hCs.2.1, ← get_col l.B hBc, hCe i (by rw [hWr]; exact hi), hWc]

/-- `Layer::backward` entry by entry, over a commutative ring. -/
theorem backward_entries {R : Type} [CommRing R] (l : Layer R) (g : Matrix R) (lr : R)
    (hl : l.Shaped) (hc : l.Cached) (hg : g.HasShape l.neuronCount 1) :
    ∃ W1 B1 dX : Matrix R,
      l.backward g lr = (.ok dX, { l with W := W1, B := B1 }) ∧
      W1.HasShape l.neuronCount l.inputSize ∧ B1.HasShape l.neuronCount 1 ∧
      dX.HasShape l.inputSize 1 ∧
      (∀ i j, i < l.neuronCount → j < l.inputSize →
        W1.get i j = l.W.get i j
          - lr * (g.get i 0 * l.activateDerivative (l.Z.get i 0) * l.lastInput.get j 0)) ∧
      (∀ i, i < l.neuronCount →
        B1.get i 0 = l.B.get i 0 - lr * (g.get i 0 * l.activateDerivative (l.Z.get i 0))) ∧
      (∀ j, j < l.inputSize →
        dX.get j 0 = ∑ i in Finset.range l.neuronCount,
          W1.get i j * (g.get i 0 * l.activateDerivative (l.Z.get i 0))) := by
  obtain ⟨dZ, dW, W1, B1, dX, ⟨hdZs, hdZe⟩, hdW, ⟨hW1s, hW1e⟩, ⟨hB1s, hB1e⟩, hdX, hdXs, hb⟩ :=
    backward_spec l g lr hl hc hg
  obtain ⟨⟨hIr, hIc, _⟩, _, _⟩ := hc
  obtain ⟨hTr, hTc, _, hTe⟩ := transpose_spec l.lastInput
  obtain ⟨C, hC, _, _, _, hCe⟩ := mul_spec dZ l.lastInput.transpose
    (by rw [hdZs.2.1, hTr, hIc])
  have hCW : C = dW := Except.ok.inj (hC.symm.trans hdW)
  subst hCW
  obtain ⟨hT1r, hT1c, _, hT1e⟩ := transpose_spec W1
  obtain ⟨D, hD, _, hDe⟩ := mul_vec_entries W1.transpose dZ
    (by rw [hT1c, hW1s.1, hdZs.1]) hdZs.2.1
  have hDX : D = dX := Except.ok.inj (hD.symm.trans hdX)
  subst hDX
  refine ⟨W1, B1, D, hb, hW1s, hB1s, hdXs, fun i j hi hj => ?_, fun i hi => ?_,
    fun j hj => ?_⟩
  · rw [hW1e i j hi hj, hCe i j (by rw [hdZs.1]; exact hi) (by rw [hTc, hIr]; exact hj),
      hdZs.2.1, forLoop_succ]
    simp only [forLoop]
    rw [hTe j 0 (by rw [hIr]; exact hj) (by rw [hIc]; exact Nat.one_pos), hdZe i hi, zero_add]
  · rw [hB1e i hi, hdZe i hi]
  · rw [hDe j (by rw [hT1r, hW1s.2.1]; exact hj), hT1c, hW1s.1]
    apply Finset.sum_congr rfl
    intro i hi
    have hi1 : i < l.neuronCount := Finset.mem_range.mp hi
    rw [hT1e i j (by rw [hW1s.1]; exact hi1) (by rw [hW1s.2.1]; exact hj), hdZe i hi1]
/-- A function with negative derivative at `0` is smaller just right of `0`. -/
theorem decrease_of_deriv_neg (F : ℝ → ℝ) (d : ℝ) (h : HasDerivAt F d 0) (hd : d < 0) :
    ∃ ε : ℝ, 0 < ε ∧ ∀ t, 0 < t → t < ε → F t < F 0 := by
  have hs := hasDerivAt_iff_tendsto_slope.mp h
  have hev : ∀ᶠ t in nhdsWithin (0 : ℝ) {0}ᶜ, slope F 0 t < 0 :=
    hs.eventually (gt_mem_nhds hd)
  rw [eventually_nhdsWithin_iff, Metric.eventually_nhds_iff] at hev
  obtain ⟨ε, hε, hball⟩ := hev
  refine ⟨ε, hε, fun t ht0 hte => ?_⟩
  have hdist : dist t 0 < ε := by
    rw [Real.dist_eq, sub_zero, abs_of_pos ht0]
    exact hte
  have hsl := hball hdist (by
    show t ∈ ({0} : Set ℝ)ᶜ
    simp only [Set.mem_compl_iff, Set.mem_singleton_iff]
    exact ne_of_gt ht0)
  rw [slope_def_field, sub_zero] at hsl
  have := (div_neg_iff.mp hsl)
  rcases this with ⟨_, h2⟩ | ⟨h1, _⟩
  · exact absurd ht0 (not_lt.mpr (le_of_lt h2))
  · linarith

/-- The algebra behind one layer of back-propagation: pairing the incoming
gradient with the change of the layer's output gives the pairing of the
outgoing gradient with the change of the input, minus the squared length of the
update. -/
theorem descent_identity (nc n : Nat) (W : Nat → Nat → ℝ) (a xd d : Nat → ℝ) :
    ∑ i in Finset.range nc,
        d i * (∑ k in Finset.range n, (-(d i * a k) * a k + W i k * xd k) + -d i)
      = ∑ k in Finset.range n, (∑ i in Finset.range nc, W i k * d i) * xd k
        - (∑ i in Finset.range nc, (d i) ^ 2) * (∑ k in Finset.range n, (a k) ^ 2 + 1) := by
  have hrow : ∀ i, d i * (∑ k in Finset.range n, (-(d i * a k) * a k + W i k * xd k) + -d i)
      = ∑ k in Finset.range n, W i k * d i * xd k
        - (d i) ^ 2 * (∑ k in Finset.range n, (a k) ^ 2 + 1) := by
    intro i
    have h1 : ∑ k in Finset.range n, (-(d i * a k) * a k + W i k * xd k)
        = -(d i) * ∑ k in Finset.range n, (a k) ^ 2 + ∑ k in Finset.range n, W i k * xd k := by
      rw [Finset.sum_add_distrib, Finset.mul_sum]
      congr 1
      apply Finset.sum_congr rfl
      intro k _
      ring
    have h2 : ∑ k in Finset.range n, W i k * d i * xd k
        = d i * ∑ k in Finset.range n, W i k * xd k := by
      rw [Finset.mul_sum]
      apply Finset.sum_congr rfl
      intro k _
      ring
    rw [h1, h2]
    ring
  rw [Finset.sum_congr rfl (fun i _ => hrow i), Finset.sum_sub_distrib, Finset.sum_comm,
    ← Finset.sum_mul]
  congr 1
  apply Finset.sum_congr rfl
  intro k _
  rw [Finset.sum_mul]
/-- The caches of a layer on which `forward(a)` changes nothing. -/
theorem fixed_point_facts {R : Type} [CommRing R] (l : Layer R) (a : Matrix R)
    (hl : l.Shaped) (ha : a.HasShape l.inputSize 1) (hfix : l.forward a = (.ok l.A, l)) :
    l.lastInput = a ∧ l.Z.HasShape l.neuronCount 1 ∧ l.A.HasShape l.neuronCount 1 ∧
    (∀ i, i < l.neuronCount →
      l.Z.get i 0 = ∑ k in Finset.range l.inputSize, l.W.get i k * a.get k 0 + l.B.get i 0) ∧
    (∀ i, i < l.neuronCount → l.A.get i 0 = l.activate (l.Z.get i 0)) := by
  obtain ⟨z, out, hf, hzs, hos, hze, hoe⟩ := forward_entries l a hl ha
  rw [hfix] at hf
  have h1 : l.A = out := Except.ok.inj (congrArg Prod.fst hf)
  have h2 : l = { l with lastInput := a, Z := z, A := out } := congrArg Prod.snd hf
  have h3 : l.lastInput = a := by
    have := congrArg Layer.lastInput h2
    simpa using this
  have h4 : l.Z = z := by
    have := congrArg Layer.Z h2
    simpa using this
  rw [h1, h4]
  exact ⟨h3, hzs, hos, hze, hoe⟩

/-- One layer of the epoch as a function of the learning rate.  `G lr` is the
gradient entering `backward`, `X lr` the input of the `forward` that follows
the update; the layer's caches are those of `forward(a)` with `a = X 0`. -/
theorem layer_descent (l : Layer ℝ) (a : Matrix ℝ) (G X : ℝ → Matrix ℝ) (xd : Nat → ℝ)
    (hl : l.Shaped) (ha : a.HasShape l.inputSize 1) (hfix : l.forward a = (.ok l.A, l))
    (hsm : ∀ z, HasDerivAt l.activate (l.activateDerivative z) z)
    (hG : ∀ lr, (G lr).HasShape l.neuronCount 1)
    (hGd : ∀ i, i < l.neuronCount → DifferentiableAt ℝ (fun lr => (G lr).get i 0) 0)
    (hX : ∀ lr, (X lr).HasShape l.inputSize 1) (hX0 : X 0 = a)
    (hXd : ∀ k, k < l.inputSize → HasDerivAt (fun lr => (X lr).get k 0) (xd k) 0) :
    ∃ (G0 X1 : ℝ → Matrix ℝ) (L1 : ℝ → Layer ℝ) (xd1 : Nat → ℝ),
      (∀ lr, l.backward (G lr) lr = (.ok (G0 lr), L1 lr)) ∧
      (∀ lr, (G0 lr).HasShape l.inputSize 1) ∧
      (∀ k, k < l.inputSize → DifferentiableAt ℝ (fun lr => (G0 lr).get k 0) 0) ∧
      (∀ lr, ((L1 lr).forward (X lr)).1 = .ok (X1 lr)) ∧
      (∀ lr, (X1 lr).HasShape l.neuronCount 1) ∧
      X1 0 = l.A ∧
      (∀ i, i < l.neuronCount → HasDerivAt (fun lr => (X1 lr).get i 0) (xd1 i) 0) ∧
      ∑ i in Finset.range l.neuronCount, (G 0).get i 0 * xd1 i
        = ∑ k in Finset.range l.inputSize, (G0 0).get k 0 * xd k
          - (∑ i in Finset.range l.neuronCount,
              ((G 0).get i 0 * l.activateDerivative (l.Z.get i 0)) ^ 2)
            * (∑ k in Finset.range l.inputSize, (a.get k 0) ^ 2 + 1) := by
  obtain ⟨hli, hZs, hAs, hZe, hAe⟩ := fixed_point_facts l a hl ha hfix
  have hcached : l.Cached := ⟨hli ▸ ha, hZs, hAs⟩
  choose W1 B1 dX hb hW1s hB1s hdXs hW1e hB1e hdXe using
    fun lr => backward_entries l (G lr) lr hl hcached (hG lr)
  have hL1 : ∀ lr, Layer.Shaped { l with W := W1 lr, B := B1 lr } :=
    fun lr => ⟨hW1s lr, hB1s lr⟩
  choose z1 X1 hf hz1s hX1s hz1e hX1e using
    fun lr => forward_entries { l with W := W1 lr, B := B1 lr } (X lr) (hL1 lr) (hX lr)
  simp only at hz1e hX1e
  -- the entries as functions of the learning rate
  have hdZd : ∀ i, i < l.neuronCount → DifferentiableAt ℝ
      (fun lr => (G lr).get i 0 * l.activateDerivative (l.Z.get i 0)) 0 :=
    fun i hi => (hGd i hi).mul_const _
  have hW1d : ∀ i j, i < l.neuronCount → j < l.inputSize →
      HasDerivAt (fun lr => (W1 lr).get i j)
        (-((G 0).get i 0 * l.activateDerivative (l.Z.get i 0) * a.get j 0)) 0 := by
    intro i j hi hj
    have hfun : (fun lr => (W1 lr).get i j) = fun lr => l.W.get i j
        - lr * ((G lr).get i 0 * l.activateDerivative (l.Z.get i 0) * l.lastInput.get j 0) :=
      funext (fun lr => hW1e lr i j hi hj)
    rw [hfun, hli]
    have h1 := (hasDerivAt_id' (0 : ℝ)).mul (((hdZd i hi).mul_const (a.get j 0)).hasDerivAt)
    have h2 := (hasDerivAt_const (0 : ℝ) (l.W.get i j)).sub h1
    refine h2.congr_deriv ?_
    simp
  have hB1d : ∀ i, i < l.neuronCount →
      HasDerivAt (fun lr => (B1 lr).get i 0)
        (-((G 0).get i 0 * l.activateDerivative (l.Z.get i 0))) 0 := by
    intro i hi
    have hfun : (fun lr => (B1 lr).get i 0) = fun lr => l.B.get i 0
        - lr * ((G lr).get i 0 * l.activateDerivative (l.Z.get i 0)) :=
      funext (fun lr => hB1e lr i hi)
    rw [hfun]
    have h1 := (hasDerivAt_id' (0 : ℝ)).mul ((hdZd i hi).hasDerivAt)
    have h2 := (hasDerivAt_const (0 : ℝ) (l.B.get i 0)).sub h1
    refine h2.congr_deriv ?_
    simp
  have hW10 : ∀ i j, i < l.neuronCount → j < l.inputSize → (W1 0).get i j = l.W.get i j := by
    intro i j hi hj
    rw [hW1e 0 i j hi hj]
    ring
  have hB10 : ∀ i, i < l.neuronCount → (B1 0).get i 0 = l.B.get i 0 := by
    intro i hi
    rw [hB1e 0 i hi]
    ring
  have hz10 : ∀ i, i < l.neuronCount → (z1 0).get i 0 = l.Z.get i 0 := by
    intro i hi
    rw [hz1e 0 i hi, hZe i hi, hB10 i hi, hX0]
    congr 1
    apply Finset.sum_congr rfl
    intro k hk
    rw [hW10 i k hi (Finset.mem_range.mp hk)]
  have hz1d : ∀ i, i < l.neuronCount →
      HasDerivAt (fun lr => (z1 lr).get i 0)
        (∑ k in Finset.range l.inputSize,
            (-((G 0).get i 0 * l.activateDerivative (l.Z.get i 0) * a.get k 0) * a.get k 0
              + l.W.get i k * xd k)
          + -((G 0).get i 0 * l.activateDerivative (l.Z.get i 0))) 0 := by
    intro i hi
    have hfun : (fun lr => (z1 lr).get i 0) = fun lr =>
        ∑ k in Finset.range l.inputSize, (W1 lr).get i k * (X lr).get k 0 + (B1 lr).get i 0 :=
      funext (fun lr => hz1e lr i hi)
    rw [hfun]
    have hsum := HasDerivAt.sum (u := Finset.range l.inputSize)
      (A := fun k lr => (W1 lr).get i k * (X lr).get k 0)
      (fun k hk => (hW1d i k hi (Finset.mem_range.mp hk)).mul (hXd k (Finset.mem_range.mp hk)))
    have h2 := hsum.add (hB1d i hi)
    refine h2.congr_deriv ?_
    congr 1
    apply Finset.sum_congr rfl
    intro k hk
    rw [hX0, hW10 i k hi (Finset.mem_range.mp hk)]
  have hX1d : ∀ i, i < l.neuronCount →
      HasDerivAt (fun lr => (X1 lr).get i 0)
        (l.activateDerivative (l.Z.get i 0)
          * (∑ k in Finset.range l.inputSize,
              (-((G 0).get i 0 * l.activateDerivative (l.Z.get i 0) * a.get k 0) * a.get k 0
                + l.W.get i k * xd k)
            + -((G 0).get i 0 * l.activateDerivative (l.Z.get i 0)))) 0 := by
    intro i hi
    have hfun : (fun lr => (X1 lr).get i 0) = fun lr => l.activate ((z1 lr).get i 0) :=
      funext (fun lr => hX1e lr i hi)
    rw [hfun]
    have hact : HasDerivAt l.activate (l.activateDerivative ((z1 0).get i 0))
        ((fun lr => (z1 lr).get i 0) 0) := hsm ((z1 0).get i 0)
    have hcomp : HasDerivAt (l.activate ∘ fun lr => (z1 lr).get i 0) _ 0 :=
      HasDerivAt.comp (0 : ℝ) hact (hz1d i hi)
    refine hcomp.congr_deriv ?_
    rw [hz10 i hi]
  have hdXd : ∀ k, k < l.inputSize → DifferentiableAt ℝ (fun lr => (dX lr).get k 0) 0 := by
    intro k hk
    have hfun : (fun lr => (dX lr).get k 0) = fun lr =>
        ∑ i in Finset.range l.neuronCount,
          (W1 lr).get i k * ((G lr).get i 0 * l.activateDerivative (l.Z.get i 0)) :=
      funext (fun lr => hdXe lr k hk)
    rw [hfun]
    apply DifferentiableAt.sum
    intro i hi
    exact ((hW1d i k (Finset.mem_range.mp hi) hk).differentiableAt).mul
      (hdZd i (Finset.mem_range.mp hi))
  have hX10 : X1 0 = l.A := by
    apply matrix_eq_of_get (X1 0) l.A l.neuronCount 1 (hX1s 0) hAs
    intro i j hi hj
    have hj0 : j = 0 := by omega
    subst hj0
    rw [hX1e 0 i hi, hz10 i hi, hAe i hi]
  refine ⟨dX, X1, fun lr => { l with W := W1 lr, B := B1 lr }, _, hb, hdXs, hdXd,
    fun lr => by rw [hf lr], hX1s, hX10, hX1d, ?_⟩
  have hdX0 : ∀ k, k < l.inputSize → (dX 0).get k 0
      = ∑ i in Finset.range l.neuronCount,
          l.W.get i k * ((G 0).get i 0 * l.activateDerivative (l.Z.get i 0)) := by
    intro k hk
    rw [hdXe 0 k hk]
    apply Finset.sum_congr rfl
    intro i hi
    rw [hW10 i k (Finset.mem_range.mp hi) hk]
  have hR : ∑ k in Finset.range l.inputSize, (dX 0).get k 0 * xd k
      = ∑ k in Finset.range l.inputSize,
          (∑ i in Finset.range l.neuronCount,
            l.W.get i k * ((G 0).get i 0 * l.activateDerivative (l.Z.get i 0))) * xd k :=
    Finset.sum_congr rfl (fun k hk => by rw [hdX0 k (Finset.mem_range.mp hk)])
  have hL : ∑ i in Finset.range l.neuronCount, (G 0).get i 0
        * (l.activateDerivative (l.Z.get i 0)
          * (∑ k in Finset.range l.inputSize,
              (-((G 0).get i 0 * l.activateDerivative (l.Z.get i 0) * a.get k 0) * a.get k 0
                + l.W.get i k * xd k)
            + -((G 0).get i 0 * l.activateDerivative (l.Z.get i 0))))
      = ∑ i in Finset.range l.neuronCount,
          ((G 0).get i 0 * l.activateDerivative (l.Z.get i 0))
            * (∑ k in Finset.range l.inputSize,
                (-((G 0).get i 0 * l.activateDerivative (l.Z.get i 0) * a.get k 0) * a.get k 0
                  + l.W.get i k * xd k)
              + -((G 0).get i 0 * l.activateDerivative (l.Z.get i 0))) :=
    Finset.sum_congr rfl (fun i _ => by ring)
  rw [hR, hL]
  exact descent_identity l.neuronCount l.inputSize (fun i k => l.W.get i k)
    (fun k => a.get k 0) xd (fun i => (G 0).get i 0 * l.activateDerivative (l.Z.get i 0))
/-- A successful forward pass leaves a state on which the same forward pass
changes nothing. -/
theorem forwardLayers_fixed {R : Type} [Zero R] [One R] [Add R] [Mul R]
    (ls ls1 : List (Layer R)) (x out : Matrix R) (h : forwardLayers ls x = (.ok out, ls1)) :
    forwardLayers ls1 x = (.ok out, ls1) ∧ List.Forall₂ Layer.SameModel ls1 ls := by
  rcases forwardLayers_cases ls x with ⟨out1, ls2, hfl, _, hsame, _⟩ | ⟨e, ls2, hfl, _, _⟩
  · rw [h] at hfl
    have ho : out = out1 := Except.ok.inj (congrArg Prod.fst hfl)
    have hl : ls1 = ls2 := congrArg Prod.snd hfl
    subst ho hl
    obtain ⟨h1, h2⟩ := forwardLayers_sameModel ls1 ls x hsame
    rw [h] at h1
    have h3 := h2 out h1
    rw [h] at h3
    exact ⟨Prod.ext h1 h3, hsame⟩
  · rw [h] at hfl
    cases congrArg Prod.fst hfl

/-- A state the forward pass on `a` leaves unchanged, layer by layer. -/
theorem forwardLayers_fix_cons {R : Type} [Zero R] [One R] [Add R] [Mul R] (l : Layer R)
    (rest : List (Layer R)) (a out : Matrix R)
    (h : forwardLayers (l :: rest) a = (.ok out, l :: rest)) :
    l.forward a = (.ok l.A, l) ∧ forwardLayers rest l.A = (.ok out, rest) := by
  rcases layer_forward_cases l a with ⟨z, o, hf, _, _, _⟩ | ⟨e, hf, _⟩
  · unfold forwardLayers at h
    rw [hf] at h
    simp only at h
    rcases hr : forwardLayers rest o with ⟨r, rest1⟩
    rw [hr] at h
    simp only [Prod.mk.injEq, List.cons.injEq] at h
    obtain ⟨h1, h2, h3⟩ := h
    have hA : o = l.A := by
      have := congrArg Layer.A h2
      simpa using this
    subst h1 h3
    rw [← hA]
    refine ⟨?_, hr⟩
    rw [hf, h2]
  · unfold forwardLayers at h
    rw [hf] at h
    cases congrArg Prod.fst h

/-- The chain of `backward` calls over the layers from last to first is the
backward pass `backProp`, followed by the chain over what is listed behind. -/
theorem backProp_chain {R : Type} [Zero R] [One R] [Add R] [Sub R] [Mul R] (lr : R)
    (ls suf : List (Layer R)) (g g0 : Matrix R) (ls1 : List (Layer R))
    (h : backProp lr ls g = (.ok g0, ls1)) :
    backwardChain lr (ls.reverse ++ suf) g
      = ((backwardChain lr suf g0).1, ls1.reverse ++ (backwardChain lr suf g0).2) := by
  induction ls generalizing suf g0 ls1 with
  | nil =>
    simp only [backProp, Prod.mk.injEq, Except.ok.injEq] at h
    obtain ⟨h1, h2⟩ := h
    subst h1 h2
    rfl
  | cons l rest ih =>
    unfold backProp at h
    rcases hr : backProp lr rest g with ⟨r, rest1⟩
    rw [hr] at h
    cases r with
    | error e => cases congrArg Prod.fst h
    | ok g1 =>
      simp only at h
      rcases hb : l.backward g1 lr with ⟨rb, l1⟩
      rw [hb] at h
      cases rb with
      | error e => cases congrArg Prod.fst h
      | ok gb =>
        simp only [Prod.mk.injEq, Except.ok.injEq] at h
        obtain ⟨h1, h2⟩ := h
        subst h1 h2
        rw [List.reverse_cons, List.append_assoc, List.singleton_append,
          ih (l :: suf) g1 rest1 hr]
        simp only [backwardChain, hb, List.reverse_cons, List.append_assoc,
          List.singleton_append]

theorem lastDeltaSq_last {R : Type} [CommRing R] (ls : List (Layer R)) (last : Layer R)
    (g : Matrix R) (h : ls.getLast? = some last) :
    lastDeltaSq ls g = ∑ i in Finset.range last.neuronCount,
      (g.get i 0 * last.activateDerivative (last.Z.get i 0)) ^ 2 := by
  induction ls with
  | nil => simp at h
  | cons l rest ih =>
    cases rest with
    | nil =>
      simp only [List.getLast?_singleton, Option.some.injEq] at h
      subst h
      rfl
    | cons l2 rest2 =>
      rw [List.getLast?_cons_cons] at h
      exact ih h

theorem outSize_last {R : Type} (ls : List (Layer R)) (n : Nat) (last : Layer R)
    (h : ls.getLast? = some last) : outSize ls n = last.neuronCount := by
  induction ls generalizing n with
  | nil => simp at h
  | cons l rest ih =>
    cases rest with
    | nil =>
      simp only [List.getLast?_singleton, Option.some.injEq] at h
      subst h
      rfl
    | cons l2 rest2 =>
      rw [List.getLast?_cons_cons] at h
      exact ih l.neuronCount h

theorem sameModel_mem {R : Type} (as bs : List (Layer R))
    (h : List.Forall₂ Layer.SameModel as bs) (a : Layer R) (ha : a ∈ as) :
    ∃ b, b ∈ bs ∧ a.SameModel b := by
  induction h with
  | nil => simp at ha
  | @cons a1 b1 as1 bs1 hab _ ih =>
    rcases List.mem_cons.mp ha with h1 | h1
    · subst h1
      exact ⟨b1, List.mem_cons_self _ _, hab⟩
    · obtain ⟨b, hb, hs⟩ := ih h1
      exact ⟨b, List.mem_cons_of_mem _ hb, hs⟩

/-- The squared error of column vectors as a sum over the rows. -/
theorem squaredError_eq_sum {R : Type} [CommRing R] (out y : Matrix R) (m : Nat)
    (ho : out.HasShape m 1) (hy : y.HasShape m 1) :
    squaredError out y = ∑ i in Finset.range m,
      (out.get i 0 - y.get i 0) * (out.get i 0 - y.get i 0) := by
  unfold squaredError
  rw [hy.1, hy.2.1, Nat.mul_one, forLoop_add_eq_sum
    (fun i => (out.data.getD i 0 - y.data.getD i 0) * (out.data.getD i 0 - y.data.getD i 0))]
  apply Finset.sum_congr rfl
  intro i _
  rw [get_col out ho.2.1, get_col y hy.2.1]

/-- One epoch on one sample as a function of the learning rate, for layers in
the state a forward pass on `a` leaves.  `g` is the gradient at the output, `X lr`
the input of the forward pass run after the update.  Pairing `g` with the change
of the output gives the pairing of the returned gradient with the change of the
input, minus `S`, and `S` is at least the squared length of the last layer's
`dC_dZ`. -/
theorem net_descent (ls : List (Layer ℝ)) :
    ∀ (n : Nat) (a out g : Matrix ℝ) (X : ℝ → Matrix ℝ) (xd : Nat → ℝ),
    Chain ls n → a.HasShape n 1 → forwardLayers ls a = (.ok out, ls) →
    (∀ l, l ∈ ls → ∀ z, HasDerivAt l.activate (l.activateDerivative z) z) →
    g.HasShape (outSize ls n) 1 →
    (∀ lr, (X lr).HasShape n 1) → X 0 = a →
    (∀ k, k < n → HasDerivAt (fun lr => (X lr).get k 0) (xd k) 0) →
    ∃ (G0 : ℝ → Matrix ℝ) (L1 : ℝ → List (Layer ℝ)) (O1 : ℝ → Matrix ℝ) (od : Nat → ℝ)
      (S : ℝ),
      (∀ lr, backProp lr ls g = (.ok (G0 lr), L1 lr)) ∧
      (∀ lr, (G0 lr).HasShape n 1) ∧
      (∀ k, k < n → DifferentiableAt ℝ (fun lr => (G0 lr).get k 0) 0) ∧
      (∀ lr, (forwardLayers (L1 lr) (X lr)).1 = .ok (O1 lr)) ∧
      (∀ lr, (O1 lr).HasShape (outSize ls n) 1) ∧
      O1 0 = out ∧
      (∀ i, i < outSize ls n → HasDerivAt (fun lr => (O1 lr).get i 0) (od i) 0) ∧
      ∑ i in Finset.range (outSize ls n), g.get i 0 * od i
        = ∑ k in Finset.range n, (G0 0).get k 0 * xd k - S ∧
      lastDeltaSq ls g ≤ S ∧ 0 ≤ S := by
  induction ls with
  | nil =>
    intro n a out g X xd _ _ hfix _ hg hX hX0 hXd
    have hout : a = out := by
      simp only [forwardLayers, Prod.mk.injEq, Except.ok.injEq] at hfix
      exact hfix.1
    refine ⟨fun _ => g, fun _ => [], X, xd, 0, fun _ => rfl, fun _ => hg,
      fun k _ => differentiableAt_const _, fun _ => rfl, hX, hX0.trans hout, hXd, ?_,
      le_refl _, le_refl _⟩
    rw [sub_zero]
    rfl
  | cons l rest ih =>
    intro n a out g X xd hch ha hfix hsm hg hX hX0 hXd
    obtain ⟨hl, hn, hrest⟩ := hch
    subst hn
    obtain ⟨hfl, hfr⟩ := forwardLayers_fix_cons l rest a out hfix
    obtain ⟨_, _, hAs, _, _⟩ := fixed_point_facts l a hl ha hfl
    have hsmr : ∀ l2, l2 ∈ rest → ∀ z, HasDerivAt l2.activate (l2.activateDerivative z) z :=
      fun l2 h => hsm l2 (List.mem_cons_of_mem _ h)
    obtain ⟨G1, R1, _, _, _, hbp, hG1s, hG1d, _⟩ :=
      ih l.neuronCount l.A out g (fun _ => l.A) (fun _ => 0) hrest hAs hfr hsmr hg
        (fun _ => hAs) rfl (fun k _ => hasDerivAt_const _ _)
    obtain ⟨G0, X1, L1, xd1, hb, hG0s, hG0d, hf1, hX1s, hX10, hX1d, hid⟩ :=
      layer_descent l a G1 X xd hl ha hfl (hsm l (List.mem_cons_self _ _)) hG1s hG1d hX hX0 hXd
    obtain ⟨G2, R2, O1, od, S1, hbp2, _, _, hfo, hO1s, hO10, hO1d, hid1, hS1, hS10⟩ :=
      ih l.neuronCount l.A out g X1 xd1 hrest hAs hfr hsmr hg hX1s hX10 hX1d
    have hG : G2 = G1 :=
      funext fun lr => Except.ok.inj (congrArg Prod.fst ((hbp2 lr).symm.trans (hbp lr)))
    have hR : R2 = R1 :=
      funext fun lr => congrArg Prod.snd ((hbp2 lr).symm.trans (hbp lr))
    rw [hG] at hid1
    rw [hR] at hfo
    have hD : 0 ≤ ∑ i in Finset.range l.neuronCount,
        ((G1 0).get i 0 * l.activateDerivative (l.Z.get i 0)) ^ 2 :=
      Finset.sum_nonneg (fun i _ => sq_nonneg _)
    have hA : 0 ≤ ∑ k in Finset.range l.inputSize, (a.get k 0) ^ 2 :=
      Finset.sum_nonneg (fun i _ => sq_nonneg _)
    refine ⟨G0, fun lr => L1 lr :: R1 lr, O1, od,
      (∑ i in Finset.range l.neuronCount,
          ((G1 0).get i 0 * l.activateDerivative (l.Z.get i 0)) ^ 2)
        * (∑ k in Finset.range l.inputSize, (a.get k 0) ^ 2 + 1) + S1,
      ?_, hG0s, hG0d, ?_, hO1s, hO10, hO1d, ?_, ?_, ?_⟩
    · intro lr
      simp only [backProp, hbp lr, hb lr]
    · intro lr
      unfold forwardLayers
      rcases hfw : (L1 lr).forward (X lr) with ⟨r, l2⟩
      have hr := hf1 lr
      rw [hfw] at hr
      simp only at hr
      subst hr
      simp only
      exact hfo lr
    · show ∑ i in Finset.range (outSize rest l.neuronCount), g.get i 0 * od i = _
      rw [hid1, hid]
      ring
    · cases rest with
      | nil =>
        have hg1 : G1 0 = g := by
          have := hbp 0
          simp only [backProp, Prod.mk.injEq, Except.ok.injEq] at this
          exact this.1.symm
        rw [hg1] at hD ⊢
        show ∑ i in Finset.range l.neuronCount,
            (g.get i 0 * l.activateDerivative (l.Z.get i 0)) ^ 2 ≤ _
        nlinarith [mul_nonneg hD hA]
      | cons l2 rest2 =>
        show lastDeltaSq (l2 :: rest2) g ≤ _
        nlinarith [mul_nonneg hD hA]
    · nlinarith [mul_nonneg hD hA]
theorem forLoop_one {σ : Type} (body : Nat → σ → σ) (s : σ) : forLoop 1 body s = body 0 s := rfl

/-- C19, as the code has it.  In exact real arithmetic, for a network that is
a chain of shaped layers taking `x`, every layer's `activateDerivative` being the
derivative of its `activate`: if after `forward(x)` some output `i` differs from
`y(i)` and the last layer's `activateDerivative` is not zero at `Z(i)`, then
there is `ε > 0` such that for every learning rate `0 < lr < ε` the epoch on the
single sample `(x, y)` returns normally and the squared error of `forward(x)`
after it is strictly smaller than before it. -/
theorem trainEpoch_descent (net net1 : NeuralNetwork ℝ) (x y out0 : Matrix ℝ) (n i : Nat)
    (last : Layer ℝ)
    (hch : Chain net.layers n) (hx : x.HasShape n 1) (hy : y.HasShape (outSize net.layers n) 1)
    (hsm : ∀ l, l ∈ net.layers → ∀ z, HasDerivAt l.activate (l.activateDerivative z) z)
    (h0 : net.forward x = (.ok out0, net1)) (hlast : net1.layers.getLast? = some last)
    (hi : i < last.neuronCount) (herr : out0.get i 0 ≠ y.get i 0)
    (hder : last.activateDerivative (last.Z.get i 0) ≠ 0) :
    ∃ ε : ℝ, 0 < ε ∧ ∀ lr, 0 < lr → lr < ε →
      ∃ (net2 : NeuralNetwork ℝ) (out1 : Matrix ℝ),
        Training.trainEpoch net [x] [y] lr = (.ok (), net2) ∧
        (net2.forward x).1 = .ok out1 ∧ squaredError out1 y < squaredError out0 y := by
  obtain ⟨out, ls1, hfl, hos, hch1, hos1, _, _, _, hlastA⟩ :=
    forwardLayers_spec net.layers n x hch hx
  have h0a : net.forward x = (.ok out, { layers := ls1 }) := by
    simp only [NeuralNetwork.forward, hfl]
  rw [h0a] at h0
  have ho : out = out0 := Except.ok.inj (congrArg Prod.fst h0)
  have hn1 : net1 = { layers := ls1 } := (congrArg Prod.snd h0).symm
  subst ho hn1
  simp only at hlast
  obtain ⟨hfix, hsame⟩ := forwardLayers_fixed net.layers ls1 x out hfl
  have hsm1 : ∀ l, l ∈ ls1 → ∀ z, HasDerivAt l.activate (l.activateDerivative z) z := by
    intro l hl z
    obtain ⟨b, hb, _, _, _, _, hact, hder1⟩ := sameModel_mem ls1 net.layers hsame l hl
    rw [hact, hder1]
    exact hsm b hb z
  have hm : outSize ls1 n = last.neuronCount := outSize_last ls1 n last hlast
  rw [← hos1] at hos hy
  obtain ⟨g, hg, hgr, hgc, hgwf, hge⟩ := sub_spec out y (hos.1.trans hy.1.symm)
    (hos.2.1.trans hy.2.1.symm)
  have hgs : g.HasShape (outSize ls1 n) 1 := ⟨hgr.trans hos.1, hgc.trans hos.2.1, hgwf⟩
  have hgi : ∀ j, j < outSize ls1 n → g.get j 0 = out.get j 0 - y.get j 0 := by
    intro j hj
    rw [get_col g hgs.2.1, get_col out hos.2.1, get_col y hy.2.1,
      hge j (by rw [hos.1, hos.2.1, Nat.mul_one]; exact hj)]
  obtain ⟨G0, L1, O1, od, S, hbp, _, _, hfo, hO1s, hO10, hO1d, hid, hS, _⟩ :=
    net_descent ls1 n x out g (fun _ => x) (fun _ => 0) hch1 hx hfix hsm1 hgs (fun _ => hx) rfl
      (fun k _ => hasDerivAt_const _ _)
  -- the epoch
  have hep : ∀ lr, Training.trainEpoch net [x] [y] lr = (.ok (), { layers := L1 lr }) := by
    intro lr
    have hchain := backProp_chain lr ls1 [] g (G0 lr) (L1 lr) (hbp lr)
    rw [List.append_nil] at hchain
    have hloop := backwardLoop_append lr ls1 [] g
    rw [List.append_nil, hchain] at hloop
    rw [trainEpoch_of_eq net [x] [y] lr rfl]
    simp only [List.zip_cons_cons, List.zip_nil_right, trainPairs, h0a, NeuralNetwork.backward,
      hlast, Layer.getOutput, hlastA last hlast, hg, hloop, backwardChain, List.append_nil,
      List.reverse_reverse]
  -- the squared error as a function of the learning rate
  have hF : ∀ lr, squaredError (O1 lr) y = ∑ j in Finset.range (outSize ls1 n),
      ((O1 lr).get j 0 - y.get j 0) * ((O1 lr).get j 0 - y.get j 0) :=
    fun lr => squaredError_eq_sum (O1 lr) y _ (hO1s lr) hy
  have hFd : HasDerivAt (fun lr => squaredError (O1 lr) y)
      (∑ j in Finset.range (outSize ls1 n),
        (od j * ((O1 0).get j 0 - y.get j 0) + ((O1 0).get j 0 - y.get j 0) * od j)) 0 := by
    rw [funext hF]
    exact HasDerivAt.sum (u := Finset.range (outSize ls1 n))
      (A := fun j lr => ((O1 lr).get j 0 - y.get j 0) * ((O1 lr).get j 0 - y.get j 0))
      (fun j hj => ((hO1d j (Finset.mem_range.mp hj)).sub_const (y.get j 0)).mul
        ((hO1d j (Finset.mem_range.mp hj)).sub_const (y.get j 0)))
  have hval : ∑ j in Finset.range (outSize ls1 n),
        (od j * ((O1 0).get j 0 - y.get j 0) + ((O1 0).get j 0 - y.get j 0) * od j)
      = -(2 * S) := by
    have h1 : ∑ j in Finset.range (outSize ls1 n),
          (od j * ((O1 0).get j 0 - y.get j 0) + ((O1 0).get j 0 - y.get j 0) * od j)
        = 2 * ∑ j in Finset.range (outSize ls1 n), g.get j 0 * od j := by
      rw [Finset.mul_sum]
      apply Finset.sum_congr rfl
      intro j hj
      rw [hO10, hgi j (Finset.mem_range.mp hj)]
      ring
    rw [h1, hid]
    simp only [mul_zero, Finset.sum_const_zero, zero_sub]
    ring
  have hpos : 0 < S := by
    have hgne : g.get i 0 * last.activateDerivative (last.Z.get i 0) ≠ 0 := by
      apply mul_ne_zero _ hder
      rw [hgi i (by rw [hm]; exact hi)]
      exact sub_ne_zero.mpr herr
    have hterm : 0 < (g.get i 0 * last.activateDerivative (last.Z.get i 0)) ^ 2 :=
      lt_of_le_of_ne (sq_nonneg _) (Ne.symm (pow_ne_zero 2 hgne))
    have hle := Finset.single_le_sum
      (f := fun j => (g.get j 0 * last.activateDerivative (last.Z.get j 0)) ^ 2)
      (fun j _ => sq_nonneg _) (Finset.mem_range.mpr hi)
    rw [← lastDeltaSq_last ls1 last g hlast] at hle
    exact lt_of_lt_of_le hterm (le_trans hle hS)
  rw [hval] at hFd
  obtain ⟨ε, hε, hdec⟩ := decrease_of_deriv_neg (fun lr => squaredError (O1 lr) y) (-(2 * S))
    hFd (by linarith)
  refine ⟨ε, hε, fun lr h1 h2 => ⟨{ layers := L1 lr }, O1 lr, hep lr, ?_, ?_⟩⟩
  · simp only [NeuralNetwork.forward]
    exact hfo lr
  · have := hdec lr h1 h2
    simp only [hO10] at this
    exact this

/-- The hypotheses of `trainEpoch_descent` hold for `realNetwork`, the sample
`x = [1]`, `y = [5]`: the forward pass returns `[2]`, which differs from `[5]`,
and the derivative of the identity is `1`. -/
theorem trainEpoch_descent_witness :
    (realNetwork.forward ⟨1, 1, [1]⟩).1 = .ok ⟨1, 1, [2]⟩ ∧
    ∃ ε : ℝ, 0 < ε ∧ ∀ lr, 0 < lr → lr < ε →
      ∃ (net2 : NeuralNetwork ℝ) (out1 : Matrix ℝ),
        Training.trainEpoch realNetwork [⟨1, 1, [1]⟩] [⟨1, 1, [5]⟩] lr = (.ok (), net2) ∧
        (net2.forward ⟨1, 1, [1]⟩).1 = .ok out1 ∧
        squaredError out1 ⟨1, 1, [5]⟩ < squaredError ⟨1, 1, [2]⟩ ⟨1, 1, [5]⟩ :=
  ⟨by simp [realNetwork, NeuralNetwork.forward, forwardLayers, Layer.forward, Matrix.mul,
      Matrix.add, Matrix.apply, Matrix.ctor, Matrix.get, Matrix.set, forLoop_one],
    trainEpoch_descent realNetwork
      { layers := [{ inputSize := 1, neuronCount := 1, W := ⟨1, 1, [2]⟩, B := ⟨1, 1, [0]⟩,
                     Z := ⟨1, 1, [2]⟩, A := ⟨1, 1, [2]⟩, lastInput := ⟨1, 1, [1]⟩,
                     activate := fun x => x, activateDerivative := fun _ => 1 }] }
      ⟨1, 1, [1]⟩ ⟨1, 1, [5]⟩ ⟨1, 1, [2]⟩ 1 0
      { inputSize := 1, neuronCount := 1, W := ⟨1, 1, [2]⟩, B := ⟨1, 1, [0]⟩,
        Z := ⟨1, 1, [2]⟩, A := ⟨1, 1, [2]⟩, lastInput := ⟨1, 1, [1]⟩,
        activate := fun x => x, activateDerivative := fun _ => 1 }
      ⟨⟨⟨rfl, rfl, rfl⟩, ⟨rfl, rfl, rfl⟩⟩, rfl, trivial⟩ ⟨rfl, rfl, rfl⟩ ⟨rfl, rfl, rfl⟩
      (fun l hl z => by
        simp only [realNetwork, List.mem_singleton] at hl
        subst hl
        exact hasDerivAt_id z)
      (by simp [realNetwork, NeuralNetwork.forward, forwardLayers, Layer.forward, Matrix.mul,
        Matrix.add, Matrix.apply, Matrix.ctor, Matrix.get, Matrix.set, forLoop_one])
      rfl Nat.zero_lt_one
      (by simp [Matrix.get])
      (by simp)⟩

/-- C19, refuted as stated.  The one-layer network `rationalNetwork` returns `[12]`
on the input `[1]`.  For the sample `([1], [12])` the squared error is already
`0`, and whatever the learning rate, the epoch returns normally and the squared
error after it is not smaller. -/
theorem trainEpoch_zero_error_no_decrease :
    (rationalNetwork.forward ⟨1, 1, [1]⟩).1 = .ok ⟨1, 1, [12]⟩ ∧
    ∀ lr : ℚ, ∃ (net2 : NeuralNetwork ℚ) (out1 : Matrix ℚ),
      Training.trainEpoch rationalNetwork [⟨1, 1, [1]⟩] [⟨1, 1, [12]⟩] lr = (.ok (), net2) ∧
      (net2.forward ⟨1, 1, [1]⟩).1 = .ok out1 ∧
      ¬ squaredError out1 ⟨1, 1, [12]⟩
          < squaredError (⟨1, 1, [12]⟩ : Matrix ℚ) ⟨1, 1, [12]⟩ := by
  refine ⟨?_, fun lr => ⟨
    { layers := [{ inputSize := 1, neuronCount := 1, W := ⟨1, 1, [5]⟩, B := ⟨1, 1, [7]⟩,
                   Z := ⟨1, 1, [12]⟩, A := ⟨1, 1, [12]⟩, lastInput := ⟨1, 1, [1]⟩,
                   activate := fun x => x, activateDerivative := fun _ => 1 }] },
    ⟨1, 1, [12]⟩, ?_, ?_, ?_⟩⟩
  · simp [rationalNetwork, NeuralNetwork.forward, forwardLayers, Layer.forward, Matrix.mul,
      Matrix.add, Matrix.apply, Matrix.ctor, Matrix.get, Matrix.set, forLoop_one]
    norm_num
  · rw [trainEpoch_of_eq rationalNetwork [⟨1, 1, [1]⟩] [⟨1, 1, [12]⟩] lr rfl]
    simp [rationalNetwork, trainPairs, NeuralNetwork.forward, forwardLayers, Layer.forward,
      NeuralNetwork.backward, backwardLoop, Layer.backward, Layer.getOutput, Matrix.transpose,
      Matrix.mul, Matrix.add, Matrix.sub, Matrix.apply, Matrix.ctor, Matrix.get, Matrix.set,
      forLoop_one]
    norm_num
  · simp [NeuralNetwork.forward, forwardLayers, Layer.forward, Matrix.mul,
      Matrix.add, Matrix.apply, Matrix.ctor, Matrix.get, Matrix.set, forLoop_one]
    norm_num
  · simp [squaredError, forLoop_one]

/-! ## Mean squared error -/

theorem forLoop_add_init {R : Type} [AddCommMonoid R] (f : Nat → R) (n : Nat) (a : R) :
    forLoop n (fun k sum => sum + f k) a = a + ∑ k in Finset.range n, f k := by
  induction n with
  | zero => simp [forLoop]
  | succ k ih => rw [forLoop_succ, ih, Finset.sum_range_succ, add_assoc]

/-- The nested accumulation loop `for r, c: sum += f(r, c)` started at `0`. -/
theorem nestedSum_eq {R : Type} [AddCommMonoid R] (f : Nat → Nat → R) (n m : Nat) :
    forLoop n (fun r sum => forLoop m (fun c sum => sum + f r c) sum) 0
      = ∑ r in Finset.range n, ∑ c in Finset.range m, f r c := by
  induction n with
  | zero => rfl
  | succ k ih =>
    rw [forLoop_succ, ih, Finset.sum_range_succ]
    exact forLoop_add_init (fun c => f k c) m _

/-- C21, as the code has it.  `meanSquaredError` throws, and then the size-mismatch
error, exactly when the two shapes differ.  On equal shapes it returns the sum
over all positions of `(predicted(r,c) - target(r,c))^2` divided by `rows*cols`;
when the matrices have at least one position the divisor is not zero and the
value is a non-negative average (exact arithmetic). -/
theorem meanSquaredError_spec {R : Type} [LinearOrderedField R] (predicted target : Matrix R) :
    ((∃ e, Training.meanSquaredError predicted target = .error e) ↔
      (predicted.rows ≠ target.rows ∨ predicted.cols ≠ target.cols)) ∧
    (∀ e, Training.meanSquaredError predicted target = .error e → e = Error.predictedSize) ∧
    (predicted.rows = target.rows → predicted.cols = target.cols →
      Training.meanSquaredError predicted target
        = .ok ((∑ r in Finset.range predicted.rows, ∑ c in Finset.range predicted.cols,
                (predicted.get r c - target.get r c) ^ 2)
              / ((predicted.rows * predicted.cols : Nat) : R)) ∧
      (0 < predicted.rows * predicted.cols →
        ((predicted.rows * predicted.cols : Nat) : R) ≠ 0 ∧
        (0 : R) ≤ (∑ r in Finset.range predicted.rows, ∑ c in Finset.range predicted.cols,
                (predicted.get r c - target.get r c) ^ 2)
              / ((predicted.rows * predicted.cols : Nat) : R))) := by
  refine ⟨⟨fun ⟨e, he⟩ => ?_, fun h => ⟨Error.predictedSize, ?_⟩⟩, fun e he => ?_,
    fun hr hc => ⟨?_, fun hpos => ⟨?_, ?_⟩⟩⟩
  · by_contra hcon
    unfold Training.meanSquaredError at he
    rw [if_neg hcon] at he
    cases he
  · unfold Training.meanSquaredError
    rw [if_pos h]
  · unfold Training.meanSquaredError at he
    split at he
    · exact (Except.error.inj he).symm
    · cases he
  · unfold Training.meanSquaredError
    rw [if_neg (by simp [hr, hc])]
    simp only
    rw [nestedSum_eq (fun r c =>
      (predicted.get r c - target.get r c) * (predicted.get r c - target.get r c))]
    congr 2
    apply Finset.sum_congr rfl
    intro r _
    apply Finset.sum_congr rfl
    intro c _
    ring
  · exact Nat.cast_ne_zero.mpr (Nat.pos_iff_ne_zero.mp hpos)
  · exact div_nonneg
      (Finset.sum_nonneg (fun r _ => Finset.sum_nonneg (fun c _ => sq_nonneg _)))
      (Nat.cast_nonneg _)

/-- The hypotheses of `meanSquaredError_spec` hold for the 2 x 1 matrices `[1, 2]` and
`[3, 5]` over the rationals: the mean squared error is `(4 + 9) / 2`. -/
theorem meanSquaredError_spec_witness :
    ((⟨2, 1, [1, 2]⟩ : Matrix ℚ).rows = (⟨2, 1, [3, 5]⟩ : Matrix ℚ).rows ∧
      (⟨2, 1, [1, 2]⟩ : Matrix ℚ).cols = (⟨2, 1, [3, 5]⟩ : Matrix ℚ).cols ∧
      0 < (⟨2, 1, [1, 2]⟩ : Matrix ℚ).rows * (⟨2, 1, [1, 2]⟩ : Matrix ℚ).cols) ∧
    Training.meanSquaredError (⟨2, 1, [1, 2]⟩ : Matrix ℚ) ⟨2, 1, [3, 5]⟩ = .ok (13 / 2) ∧
    (0 : ℚ) ≤ (∑ r in Finset.range 2, ∑ c in Finset.range 1,
        ((⟨2, 1, [1, 2]⟩ : Matrix ℚ).get r c - (⟨2, 1, [3, 5]⟩ : Matrix ℚ).get r c) ^ 2)
      / ((2 * 1 : Nat) : ℚ) :=
  ⟨⟨rfl, rfl, by decide⟩,
    by
      rw [((meanSquaredError_spec (⟨2, 1, [1, 2]⟩ : Matrix ℚ) ⟨2, 1, [3, 5]⟩).2.2 rfl rfl).1]
      simp [Finset.sum_range_succ, Matrix.get]
      norm_num,
    (((meanSquaredError_spec (⟨2, 1, [1, 2]⟩ : Matrix ℚ) ⟨2, 1, [3, 5]⟩).2.2 rfl rfl).2
      (by decide)).2⟩

/-- C21, refuted as stated.  The two 0 x 0 matrices have equal shapes, so
`meanSquaredError` does not throw; the sum over no position is `0` and it is
divided by `rows * cols = 0`: the value returned is the quotient `0 / 0`, not
an average. -/
theorem meanSquaredError_empty_divides_by_zero :
    ((⟨0, 0, []⟩ : Matrix ℚ).rows = (⟨0, 0, []⟩ : Matrix ℚ).rows ∧
      (⟨0, 0, []⟩ : Matrix ℚ).cols = (⟨0, 0, []⟩ : Matrix ℚ).cols) ∧
    (⟨0, 0, []⟩ : Matrix ℚ).rows * (⟨0, 0, []⟩ : Matrix ℚ).cols = 0 ∧
    Training.meanSquaredError (⟨0, 0, []⟩ : Matrix ℚ) ⟨0, 0, []⟩
      = .ok ((0 : ℚ) / (((⟨0, 0, []⟩ : Matrix ℚ).rows * (⟨0, 0, []⟩ : Matrix ℚ).cols : Nat) : ℚ)) :=
  ⟨⟨rfl, rfl⟩, rfl, rfl⟩

/-! ## Construction from a flat sequence -/

/-- An `int` product inside the 32-bit range is the exact product. -/
theorem wrapInt_of_range (z : Int) (hlo : -2147483648 ≤ z) (hhi : z < 2147483648) :
    wrapInt z = z := by
  unfold wrapInt
  omega

/-- A non-negative `int` converts to the same `size_t`. -/
theorem toSizeT_of_nonneg (z : Int) (hlo : 0 ≤ z) (hhi : z < 2147483648) :
    (toSizeT z : Int) = z := by
  unfold toSizeT
  omega

/-- On natural dimensions whose product fits an `int`, the constructor on `int`s builds
the object of `Matrix.ctor`. -/
theorem ctorInt_of_nat {R : Type} [Zero R] [One R] (rows cols : Nat) (zero : Bool)
    (h : rows * cols < 2147483648) :
    Matrix.ctorInt (rows : Int) (cols : Int) zero
      = .ok (Matrix.ctor rows cols zero : Matrix R).toObject := by
  have hp : ((rows : Int) * (cols : Int)) = ((rows * cols : Nat) : Int) := by push_cast; rfl
  have hw : wrapInt ((rows : Int) * (cols : Int)) = ((rows * cols : Nat) : Int) := by
    rw [hp]
    exact wrapInt_of_range _ (by omega) (by omega)
  have hs : toSizeT (wrapInt ((rows : Int) * (cols : Int))) = rows * cols := by
    have := toSizeT_of_nonneg ((rows * cols : Nat) : Int) (by omega) (by omega)
    rw [hw]
    exact_mod_cast this
  unfold Matrix.ctorInt
  simp only [hs]
  rw [if_neg (by unfold vectorMaxSize; omega)]
  rfl

/-- On natural dimensions whose product fits an `int`, the constructor from values on
`int`s throws and builds what `Matrix.ofValues` throws and builds. -/
theorem ofValuesInt_of_nat {R : Type} (values : List R) (rows cols : Nat)
    (h : rows * cols < 2147483648) :
    Matrix.ofValuesInt values (rows : Int) (cols : Int)
      = match Matrix.ofValues values rows cols with
        | .error e => .error (CtorError.runtime e)
        | .ok m => .ok m.toObject := by
  have hp : ((rows : Int) * (cols : Int)) = ((rows * cols : Nat) : Int) := by push_cast; rfl
  have hw : wrapInt ((rows : Int) * (cols : Int)) = ((rows * cols : Nat) : Int) := by
    rw [hp]
    exact wrapInt_of_range _ (by omega) (by omega)
  have hs : toSizeT (wrapInt ((rows : Int) * (cols : Int))) = rows * cols := by
    have := toSizeT_of_nonneg ((rows * cols : Nat) : Int) (by omega) (by omega)
    rw [hw]
    exact_mod_cast this
  unfold Matrix.ofValuesInt Matrix.ofValues
  rw [hs]
  by_cases hlen : values.length ≠ rows * cols
  · rw [if_pos hlen, if_pos hlen]
  · rw [if_neg hlen, if_neg hlen]
    rfl

/-- C25, as the code has it.  `Matrix(values, rows, cols)` throws, and then the
dimension error, exactly when `values.length` differs from the `int` product
`rows * cols` converted to `size_t`; on success the object has the given `rows`
and `cols` and `data` equal to `values`.  For non-negative dimensions whose
product is below `2^31` the `int` product is the exact one: the constructor throws
exactly when `values.length != rows * cols`, on success
`data.length == rows * cols` and element `(r, c)` is `values[r*cols + c]`, and
`Matrix(rows, cols, zero)` returns an object with the given dimensions and
`data.length == rows * cols`.  No constructor rejects `rows = 0` or `cols = 0`,
and whenever `Matrix(rows, cols, zero)` returns, `data.length` is the converted
`int` product. -/
theorem ofValues_spec {R : Type} [Zero R] [One R] (values : List R) (rows cols : Int)
    (zero : Bool) :
    ((∃ e, Matrix.ofValuesInt values rows cols = .error e)
      ↔ values.length ≠ toSizeT (wrapInt (rows * cols))) ∧
    (∀ e, Matrix.ofValuesInt values rows cols = .error e
      → e = CtorError.runtime Error.vectorSize) ∧
    (∀ m, Matrix.ofValuesInt values rows cols = .ok m →
      m.rows = rows ∧ m.cols = cols ∧ m.data = values) ∧
    (0 ≤ rows → 0 ≤ cols → rows * cols < 2147483648 →
      ((∃ e, Matrix.ofValuesInt values rows cols = .error e)
        ↔ (values.length : Int) ≠ rows * cols) ∧
      (∀ m, Matrix.ofValuesInt values rows cols = .ok m →
        (m.data.length : Int) = rows * cols ∧
        ∀ r c : Nat, (r : Int) < rows → (c : Int) < cols →
          values[r * cols.toNat + c]?
            = some ((⟨rows.toNat, cols.toNat, m.data⟩ : Matrix R).get r c)) ∧
      ∃ m : MatrixObject R, Matrix.ctorInt rows cols zero = .ok m ∧
        m.rows = rows ∧ m.cols = cols ∧ (m.data.length : Int) = rows * cols) ∧
    (∀ m : MatrixObject R, Matrix.ctorInt rows cols zero = .ok m →
      m.rows = rows ∧ m.cols = cols ∧ m.data.length = toSizeT (wrapInt (rows * cols))) := by
  have hfail : (∃ e, Matrix.ofValuesInt values rows cols = .error e)
      ↔ values.length ≠ toSizeT (wrapInt (rows * cols)) := by
    constructor
    · rintro ⟨e, he⟩
      by_contra hcon
      unfold Matrix.ofValuesInt at he
      rw [if_neg (not_not.mpr hcon)] at he
      cases he
    · intro h
      exact ⟨CtorError.runtime Error.vectorSize, by unfold Matrix.ofValuesInt; rw [if_pos h]⟩
  have hok : ∀ m, Matrix.ofValuesInt values rows cols = .ok m →
      m.rows = rows ∧ m.cols = cols ∧ m.data = values ∧
      values.length = toSizeT (wrapInt (rows * cols)) := by
    intro m hm
    unfold Matrix.ofValuesInt at hm
    split at hm
    · cases hm
    · rename_i hlen
      have hm1 := Except.ok.inj hm
      subst hm1
      exact ⟨rfl, rfl, rfl, not_not.mp hlen⟩
  refine ⟨hfail, fun e he => ?_, fun m hm => ⟨(hok m hm).1, (hok m hm).2.1, (hok m hm).2.2.1⟩,
    fun hr hc hp => ?_, fun m hm => ?_⟩
  · unfold Matrix.ofValuesInt at he
    split at he
    · exact (Except.error.inj he).symm
    · cases he
  · have hnn : 0 ≤ rows * cols := Int.mul_nonneg hr hc
    have hw : wrapInt (rows * cols) = rows * cols :=
      wrapInt_of_range _ (by omega) hp
    have hs : (toSizeT (wrapInt (rows * cols)) : Int) = rows * cols := by
      rw [hw]
      exact toSizeT_of_nonneg _ hnn hp
    refine ⟨?_, fun m hm => ?_, ?_⟩
    · rw [hfail]
      constructor
      · intro h hcon
        exact h (by exact_mod_cast hcon.trans hs.symm)
      · intro h hcon
        exact h (by rw [hcon]; exact hs)
    · obtain ⟨_, _, hd, hlen⟩ := hok m hm
      have hlenI : (values.length : Int) = rows * cols := by rw [hlen]; exact hs
      refine ⟨by rw [hd]; exact hlenI, fun r c hrr hcc => ?_⟩
      have hrn : r < rows.toNat := by omega
      have hcn : c < cols.toNat := by omega
      have hprod : (values.length : Int) = ((rows.toNat * cols.toNat : Nat) : Int) := by
        rw [hlenI]
        push_cast
        rw [Int.toNat_of_nonneg hr, Int.toNat_of_nonneg hc]
      have hidx : r * cols.toNat + c < values.length := by
        have := rowMajor_lt rows.toNat cols.toNat r c hrn hcn
        omega
      simp only [Matrix.get, hd]
      rw [List.getD_eq_getElem?_getD, List.getElem?_eq_getElem hidx]
      rfl
    · have hsn : toSizeT (wrapInt (rows * cols)) ≤ vectorMaxSize := by
        unfold vectorMaxSize
        omega
      refine ⟨⟨rows, cols, List.replicate (toSizeT (wrapInt (rows * cols)))
        (if zero then 0 else 1)⟩, ?_, rfl, rfl, ?_⟩
      · unfold Matrix.ctorInt
        simp only
        rw [if_neg (by omega)]
      · rw [List.length_replicate]
        exact hs
  · unfold Matrix.ctorInt at hm
    simp only at hm
    split at hm
    · cases hm
    · have hm1 := Except.ok.inj hm
      subst hm1
      exact ⟨rfl, rfl, List.length_replicate _ _⟩

/-- The hypotheses of `ofValues_spec` hold for the six values `1..6` as a 2 x 3 matrix:
the construction succeeds, `data` has `2 * 3` entries and element `(1, 2)` is
`values[1*3 + 2] = 6`. -/
theorem ofValues_spec_witness :
    ((0 : Int) ≤ 2 ∧ (0 : Int) ≤ 3 ∧ (2 : Int) * 3 < 2147483648) ∧
    Matrix.ofValuesInt ([1, 2, 3, 4, 5, 6] : List Int) 2 3 = .ok ⟨2, 3, [1, 2, 3, 4, 5, 6]⟩ ∧
    ((([1, 2, 3, 4, 5, 6] : List Int).length : Int) = 2 * 3 ∧
      ([1, 2, 3, 4, 5, 6] : List Int)[1 * (3 : Int).toNat + 2]?
        = some ((⟨(2 : Int).toNat, (3 : Int).toNat, [1, 2, 3, 4, 5, 6]⟩ : Matrix Int).get 1 2)) ∧
    ∃ m : MatrixObject Int, Matrix.ctorInt 2 3 true = .ok m ∧
      m.rows = 2 ∧ m.cols = 3 ∧ (m.data.length : Int) = 2 * 3 :=
  ⟨⟨by decide, by decide, by decide⟩, rfl,
    ⟨(((ofValues_spec ([1, 2, 3, 4, 5, 6] : List Int) 2 3 true).2.2.2.1
        (by decide) (by decide) (by decide)).2.1 ⟨2, 3, [1, 2, 3, 4, 5, 6]⟩ rfl).1,
     (((ofValues_spec ([1, 2, 3, 4, 5, 6] : List Int) 2 3 true).2.2.2.1
        (by decide) (by decide) (by decide)).2.1 ⟨2, 3, [1, 2, 3, 4, 5, 6]⟩ rfl).2 1 2
        (by decide) (by decide)⟩,
    ((ofValues_spec ([1, 2, 3, 4, 5, 6] : List Int) 2 3 true).2.2.2.1
      (by decide) (by decide) (by decide)).2.2⟩

/-- C25, refuted as stated.  Both constructors accept the dimensions `0 x 0`, and
`Matrix({1.0}, -1, -1)` is accepted with `rows = -1`: no constructor requires
positive dimensions.  When the `int` product overflows, neither the guard nor the
invariant is about `rows * cols`: `Matrix({}, 65536, 65536)` is accepted although
`values.length = 0` differs from `65536 * 65536`, and `Matrix(65536, 65536)` is
built with empty `data`. -/
theorem constructors_accept_zero_dimensions :
    Matrix.ofValuesInt ([] : List Int) 0 0 = .ok ⟨0, 0, []⟩ ∧
    (Matrix.ctorInt 0 0 true : Except CtorError (MatrixObject Int)) = .ok ⟨0, 0, []⟩ ∧
    Matrix.ofValuesInt ([1] : List Int) (-1) (-1) = .ok ⟨-1, -1, [1]⟩ ∧
    (Matrix.ofValuesInt ([] : List Int) 65536 65536 = .ok ⟨65536, 65536, []⟩ ∧
      (([] : List Int).length : Int) ≠ 65536 * 65536) ∧
    (Matrix.ctorInt 65536 65536 true : Except CtorError (MatrixObject Int))
      = .ok ⟨65536, 65536, []⟩ ∧
    (Matrix.ctorInt (-1) 5 true : Except CtorError (MatrixObject Int))
      = .error CtorError.lengthError := by
  refine ⟨rfl, rfl, rfl, ⟨rfl, by decide⟩, rfl, rfl⟩

/-! ## The identity layer -/

/-- C26.  A layer whose `W` is the `n x n` identity matrix, whose `B` is the
`n x 1` zero matrix and whose activation is the identity returns every `n x 1`
input unchanged (exact arithmetic). -/
theorem identity_layer_forward {R : Type} [CommRing R] (l : Layer R) (n : Nat) (x : Matrix R)
    (hin : l.inputSize = n) (hnc : l.neuronCount = n)
    (hW : l.W.HasShape n n) (hWid : ∀ i j, i < n → j < n → l.W.get i j = if i = j then 1 else 0)
    (hB : l.B.HasShape n 1) (hB0 : ∀ i, i < n → l.B.get i 0 = 0)
    (hact : ∀ v, l.activate v = v) (hx : x.HasShape n 1) :
    (l.forward x).1 = .ok x := by
  subst hin
  have hl : l.Shaped := ⟨hnc ▸ hW, hnc ▸ hB⟩
  obtain ⟨z, out, hf, hzs, hos, hze, hoe⟩ := forward_entries l x hl hx
  rw [hf]
  simp only
  congr 1
  apply matrix_eq_of_get out x l.neuronCount 1 hos (hnc ▸ hx)
  intro i j hi hj
  have hj0 : j = 0 := by omega
  subst hj0
  rw [hoe i hi, hact, hze i hi, hB0 i (hnc ▸ hi), add_zero]
  rw [Finset.sum_congr rfl (fun k hk => by
    rw [hWid i k (hnc ▸ hi) (Finset.mem_range.mp hk)])]
  simp only [ite_mul, one_mul, zero_mul, Finset.sum_ite_eq, Finset.mem_range]
  rw [if_pos (hnc ▸ hi)]

/-- The hypotheses of `identity_layer_forward` hold for `identityLayer2`
(`W = [[1,0],[0,1]]`, `B = [0,0]`) and the input `[3, 4]`, which it returns. -/
theorem identity_layer_forward_witness :
    (identityLayer2.W = ⟨2, 2, [1, 0, 0, 1]⟩ ∧ identityLayer2.B = ⟨2, 1, [0, 0]⟩) ∧
    (identityLayer2.forward ⟨2, 1, [3, 4]⟩).1 = .ok ⟨2, 1, [3, 4]⟩ :=
  ⟨⟨rfl, rfl⟩,
    identity_layer_forward identityLayer2 2 ⟨2, 1, [3, 4]⟩ rfl rfl (by decide)
      (fun i j hi hj => by interval_cases i <;> interval_cases j <;> rfl) (by decide)
      (fun i hi => by interval_cases i <;> rfl) (fun _ => rfl) (by decide)⟩

/-! ## Loop invariants -/

theorem forLoop_invariant {σ : Type} (P : Nat → σ → Prop) (n : Nat) (body : Nat → σ → σ)
    (s : σ) (h0 : P 0 s) (hstep : ∀ k, k < n → ∀ t, P k t → P (k + 1) (body k t)) :
    P n (forLoop n body s) := by
  induction n with
  | zero => exact h0
  | succ k ih =>
    rw [forLoop_succ]
    exact hstep k (Nat.lt_succ_self k) _
      (ih (fun j hj t ht => hstep j (Nat.lt_succ_of_lt hj) t ht))

/-- An invariant of two nested loops, indexed by the number of iterations of the
inner body already run. -/
theorem nestedLoop_invariant {σ : Type} (P : Nat → σ → Prop) (n m : Nat)
    (body : Nat → Nat → σ → σ) (s : σ) (h0 : P 0 s)
    (hstep : ∀ r c, r < n → c < m → ∀ t, P (r * m + c) t → P (r * m + c + 1) (body r c t)) :
    P (n * m) (forLoop n (fun r t => forLoop m (fun c t => body r c t) t) s) := by
  apply forLoop_invariant (fun r t => P (r * m) t) n
  · rw [Nat.zero_mul]; exact h0
  · intro r hr t ht
    have := forLoop_invariant (fun c t => P (r * m + c) t) m (fun c t => body r c t) t ht
      (fun c hc t ht => hstep r c hr hc t ht)
    rw [Nat.succ_mul]
    exact this

/-! ## The 5 x 5 board: outcome predicates -/

/-- When the loop of `playFullGame` ends, the game is over. -/
theorem playLoop_over {S R : Type} [Zero R] [One R] [Add R] [Mul R] [Neg R] [NatCast R] [LT R]
    [DecidableRel (fun a b : R => a < b)] (dist : Nat → S → Nat × S) (fuel : Nat)
    (st st1 : PlayState S R) (h : playLoop dist fuel st = .ok (some st1)) :
    st1.board.game_is_over = true := by
  induction fuel generalizing st with
  | zero =>
    unfold playLoop at h
    split at h
    · rename_i hover
      have := Option.some.inj (Except.ok.inj h)
      rw [← this]; exact hover
    · cases Except.ok.inj h
  | succ k ih =>
    unfold playLoop at h
    split at h
    · rename_i hover
      have := Option.some.inj (Except.ok.inj h)
      rw [← this]; exact hover
    · split at h
      · cases h
      · exact ih _ h

/-- C28.  On a board whose move count is 24: for `'X'` and for `'O'` exactly one of
`is_win`, `is_lose`, `is_draw` holds; `is_win` for one player holds exactly when
`is_lose` holds for the other; `is_draw` holds exactly when
`countWin('X') == countWin('O')`.  The symbol `playFullGame` returns is `'D'` exactly
on that tie, `'X'` exactly when `countWin('X') > countWin('O')` and `'O'` exactly
when `countWin('O') > countWin('X')`, and it is computed on a board whose move
count is 24.  When the move count is not 24, none of the three predicates
holds. -/
theorem outcome_trichotomy (b : Large_XO_Board) :
    (b.nMoves = 24 →
      (∀ sym, sym = 'X' ∨ sym = 'O' →
        (b.is_win sym = true ∧ b.is_lose sym = false ∧ b.is_draw sym = false) ∨
        (b.is_win sym = false ∧ b.is_lose sym = true ∧ b.is_draw sym = false) ∨
        (b.is_win sym = false ∧ b.is_lose sym = false ∧ b.is_draw sym = true)) ∧
      (b.is_win 'X' = true ↔ b.is_lose 'O' = true) ∧
      (b.is_win 'O' = true ↔ b.is_lose 'X' = true) ∧
      (∀ sym, sym = 'X' ∨ sym = 'O' →
        (b.is_draw sym = true ↔ b.countWin 'X' = b.countWin 'O'))) ∧
    ((winnerOf b = 'D' ↔ b.countWin 'X' = b.countWin 'O') ∧
      (winnerOf b = 'X' ↔ b.countWin 'X' > b.countWin 'O') ∧
      (winnerOf b = 'O' ↔ b.countWin 'O' > b.countWin 'X')) ∧
    (∀ (S R : Type) [Zero R] [One R] [Add R] [Mul R] [Neg R] [NatCast R] [LT R]
      [DecidableRel (fun a b : R => a < b)] (dist : Nat → S → Nat × S) (fuel : Nat)
      (NN1 NN2 : NeuralNetwork R) (seed : S) (ch : Char),
      playFullGame dist fuel NN1 NN2 seed = .ok (some ch) →
      ∃ final : Large_XO_Board, final.nMoves = 24 ∧ ch = winnerOf final) ∧
    (b.nMoves ≠ 24 →
      ∀ sym, b.is_win sym = false ∧ b.is_lose sym = false ∧ b.is_draw sym = false) := by
  refine ⟨fun h24 => ⟨fun sym hsym => ?_, ?_, ?_, fun sym hsym => ?_⟩, ⟨?_, ?_, ?_⟩, ?_,
    fun hne sym => ?_⟩
  · simp only [Large_XO_Board.is_win, Large_XO_Board.is_lose, Large_XO_Board.is_draw,
      Large_XO_Board.countTotal, h24, decide_True, Bool.and_true, decide_eq_true_eq,
      decide_eq_false_iff_not]
    rcases hsym with h | h <;> subst h <;> omega
  · simp only [Large_XO_Board.is_win, Large_XO_Board.is_lose,
      Large_XO_Board.countTotal, h24, decide_True, Bool.and_true, decide_eq_true_eq]
    omega
  · simp only [Large_XO_Board.is_win, Large_XO_Board.is_lose,
      Large_XO_Board.countTotal, h24, decide_True, Bool.and_true, decide_eq_true_eq]
    omega
  · simp only [Large_XO_Board.is_draw,
      Large_XO_Board.countTotal, h24, decide_True, Bool.and_true, decide_eq_true_eq]
    rcases hsym with h | h <;> subst h <;> omega
  · unfold winnerOf
    simp only
    split
    · constructor
      · intro h; exact absurd h (by decide)
      · intro h; omega
    · split
      · constructor
        · intro h; exact absurd h (by decide)
        · intro h; omega
      · constructor
        · intro _; omega
        · intro _; rfl
  · unfold winnerOf
    simp only
    split
    · rename_i h; exact ⟨fun _ => h, fun _ => rfl⟩
    · split
      · rename_i h1 h2
        exact ⟨fun h => absurd h (by decide), fun h => absurd h h1⟩
      · rename_i h1 h2
        exact ⟨fun h => absurd h (by decide), fun h => absurd h h1⟩
  · unfold winnerOf
    simp only
    split
    · rename_i h
      exact ⟨fun h1 => absurd h1 (by decide), fun h1 => by omega⟩
    · split
      · rename_i h1 h2; exact ⟨fun _ => h2, fun _ => rfl⟩
      · rename_i h1 h2
        exact ⟨fun h => absurd h (by decide), fun h => absurd h h2⟩
  · intro S R _ _ _ _ _ _ _ _ dist fuel NN1 NN2 seed ch h
    unfold playFullGame at h
    split at h
    · cases h
    · cases Except.ok.inj h
    · rename_i st hst
      have hover := playLoop_over dist fuel _ st hst
      refine ⟨st.board, ?_, (Option.some.inj (Except.ok.inj h)).symm⟩
      simpa [Large_XO_Board.game_is_over] using hover
  · simp only [Large_XO_Board.is_win, Large_XO_Board.is_lose, Large_XO_Board.is_draw, hne,
      decide_False, Bool.and_false, and_self]

/-! ## The 5 x 5 board: moves -/

theorem cellAt_eq (board : List (List Char)) (r c : Nat) (row : List Char)
    (hrow : board[r]? = some row) (hc : c < row.length) :
    cellAt board (r : Int) (c : Int) = .ok (row.getD c (Char.ofNat 0)) := by
  unfold cellAt
  rw [if_neg (by omega)]
  simp only [Int.toNat_ofNat, hrow, List.getElem?_eq_getElem hc,
    List.getD_eq_getElem?_getD, Option.getD_some]

theorem assignCell_eq (board : List (List Char)) (r c : Nat) (v : Char) (row : List Char)
    (hrow : board[r]? = some row) (hc : c < row.length) :
    assignCell board (r : Int) (c : Int) v = .ok (board.set r (row.set c v)) := by
  unfold assignCell
  rw [if_neg (by omega)]
  simp only [Int.toNat_ofNat, hrow, if_pos hc]

theorem assignCell_out_of_range (board : List (List Char)) (r c : Int) (v : Char)
    (h : r < 0 ∨ (board.length : Int) ≤ r ∨ c < 0) :
    assignCell board r c v = .error Fault.outOfRange := by
  unfold assignCell
  by_cases h1 : r < 0 ∨ c < 0
  · rw [if_pos h1]
  · rw [if_neg h1]
    have hr : board.length ≤ r.toNat := by omega
    rw [List.getElem?_eq_none hr]

theorem grid5_row (board : List (List Char)) (hg : Grid5 board) (r : Nat) (hr : r < 5) :
    ∃ row, board[r]? = some row ∧ row.length = 5 ∧ board.getD r [] = row := by
  have hlt : r < board.length := by rw [hg.1]; exact hr
  refine ⟨board[r], List.getElem?_eq_getElem hlt, hg.2 _ (List.getElem_mem _), ?_⟩
  rw [List.getD_eq_getElem?_getD, List.getElem?_eq_getElem hlt]
  rfl

theorem countP_set {α : Type} (p : α → Bool) (l : List α) (i : Nat) (v u : α)
    (h : l[i]? = some u) :
    (l.set i v).countP p + (if p u then 1 else 0) = l.countP p + (if p v then 1 else 0) := by
  induction l generalizing i with
  | nil => simp at h
  | cons a as ih =>
    cases i with
    | zero =>
      simp only [List.getElem?_cons_zero, Option.some.injEq] at h
      subst h
      simp only [List.set_cons_zero, List.countP_cons]
      omega
    | succ j =>
      simp only [List.getElem?_cons_succ] at h
      have := ih j h
      simp only [List.set_cons_succ, List.countP_cons]
      omega

theorem sum_map_set {α : Type} (f : α → Nat) (l : List α) (i : Nat) (v u : α)
    (h : l[i]? = some u) :
    ((l.set i v).map f).sum + f u = (l.map f).sum + f v := by
  induction l generalizing i with
  | nil => simp at h
  | cons a as ih =>
    cases i with
    | zero =>
      simp only [List.getElem?_cons_zero, Option.some.injEq] at h
      subst h
      simp only [List.set_cons_zero, List.map_cons, List.sum_cons]
      omega
    | succ j =>
      simp only [List.getElem?_cons_succ] at h
      have := ih j h
      simp only [List.set_cons_succ, List.map_cons, List.sum_cons]
      omega

/-- Writing `v` over a cell that held `u` moves the count of a kind of cell by what
`u` and `v` contribute. -/
theorem countCells_set (p : Char → Bool) (board : List (List Char)) (r c : Nat) (v u : Char)
    (row : List Char) (hrow : board[r]? = some row) (hu : row[c]? = some u) :
    countCells p (board.set r (row.set c v)) + (if p u then 1 else 0)
      = countCells p board + (if p v then 1 else 0) := by
  unfold countCells
  have h1 := sum_map_set (fun row => row.countP p) board r (row.set c v) row hrow
  have h2 := countP_set p row c v u hu
  simp only at h1
  omega

theorem grid5_set (board : List (List Char)) (hg : Grid5 board) (r c : Nat) (v : Char)
    (row : List Char) (hrow : row.length = 5) : Grid5 (board.set r (row.set c v)) := by
  refine ⟨by rw [List.length_set]; exact hg.1, fun x hx => ?_⟩
  rcases List.mem_or_eq_of_mem_set hx with h | h
  · exact hg.2 x h
  · rw [h, List.length_set]; exact hrow

theorem countP_add_not {α : Type} (p : α → Bool) (l : List α) :
    l.countP p + l.countP (fun v => !p v) = l.length := by
  induction l with
  | nil => rfl
  | cons a as ih =>
    simp only [List.countP_cons, List.length_cons]
    cases p a <;> simp <;> omega

theorem countCells_total (p : Char → Bool) (board : List (List Char))
    (h : ∀ row, row ∈ board → row.length = 5) :
    countCells p board + countCells (fun v => !p v) board = 5 * board.length := by
  induction board with
  | nil => rfl
  | cons row rest ih =>
    have h1 := ih (fun x hx => h x (List.mem_cons_of_mem _ hx))
    have h2 : row.countP p + row.countP (fun v => !p v) = 5 := by
      rw [← h row (List.mem_cons_self _ _)]
      exact countP_add_not p row
    unfold countCells at h1 ⊢
    simp only [List.map_cons, List.sum_cons, List.length_cons]
    omega

/-- A kind of cell that occurs on the grid occurs at some position. -/
theorem countCells_pos (p : Char → Bool) (b : Large_XO_Board) (hg : Grid5 b.board)
    (h : 0 < countCells p b.board) :
    ∃ r c, r < 5 ∧ c < 5 ∧ p (b.get_cell r c) = true := by
  have key : ∀ board : List (List Char), 0 < countCells p board →
      ∃ (r : Nat) (row : List Char), board[r]? = some row ∧ 0 < row.countP p := by
    intro board
    induction board with
    | nil => intro h; simp [countCells] at h
    | cons row rest ih =>
      intro h
      by_cases hrow : 0 < row.countP p
      · exact ⟨0, row, List.getElem?_cons_zero, hrow⟩
      · have : 0 < countCells p rest := by
          unfold countCells at h ⊢
          simp only [List.map_cons, List.sum_cons] at h
          omega
        obtain ⟨r, row1, h1, h2⟩ := ih this
        exact ⟨r + 1, row1, by simpa using h1, h2⟩
  obtain ⟨r, row, hrow, hpos⟩ := key b.board h
  have hr : r < b.board.length := by
    by_contra hcon
    rw [List.getElem?_eq_none (by omega)] at hrow
    cases hrow
  obtain ⟨v, hv, hpv⟩ := List.countP_pos_iff.mp hpos
  obtain ⟨c, hc, hcv⟩ := List.getElem_of_mem hv
  have hlen : row.length = 5 := hg.2 row (List.getElem?_mem hrow)
  refine ⟨r, c, by rw [← hg.1]; exact hr, by rw [← hlen]; exact hc, ?_⟩
  unfold Large_XO_Board.get_cell
  have h1 : b.board.getD r [] = row := by
    rw [List.getD_eq_getElem?_getD, hrow, Option.getD_some]
  rw [h1, List.getD_eq_getElem?_getD, List.getElem?_eq_getElem hc, Option.getD_some, hcv]
  exact hpv

/-- `update_board` with a player symbol on an in-range empty cell of a 5 x 5 grid:
it returns `true`, writes the symbol, increments the move count and touches no
other cell. -/
theorem update_board_place (b : Large_XO_Board) (r c : Nat) (s : Char)
    (hs0 : s ≠ Char.ofNat 0) (hs : s ≠ '.') (hg : Grid5 b.board) (hr : r < 5) (hc : c < 5)
    (he : b.get_cell r c = '.') :
    ∃ b1 : Large_XO_Board, b.update_board ⟨(r : Int), (c : Int), s⟩ = .ok (true, b1) ∧
      b1.nMoves = b.nMoves + 1 ∧ Grid5 b1.board ∧ b1.get_cell r c = s ∧
      (∀ r1 c1, (r1 ≠ r ∨ c1 ≠ c) → b1.get_cell r1 c1 = b.get_cell r1 c1) ∧
      ∀ p : Char → Bool, countCells p b1.board + (if p '.' then 1 else 0)
        = countCells p b.board + (if p s then 1 else 0) := by
  obtain ⟨row, hrow, hlen, hgetD⟩ := grid5_row b.board hg r hr
  have hcl : c < row.length := by rw [hlen]; exact hc
  have hcell : row.getD c (Char.ofNat 0) = '.' := by
    have := he
    unfold Large_XO_Board.get_cell at this
    rw [hgetD] at this
    exact this
  have hhead : (b.board.headD []).length = 5 := by
    obtain ⟨row0, hrow0, hlen0, _⟩ := grid5_row b.board hg 0 (by decide)
    cases hb : b.board with
    | nil => rw [hb] at hrow0; cases hrow0
    | cons x xs =>
      rw [hb] at hrow0
      simp only [List.getElem?_cons_zero, Option.some.injEq] at hrow0
      rw [List.headD_cons, hrow0, hlen0]
  refine ⟨{ board := b.board.set r (row.set c s), nMoves := b.nMoves + 1 }, ?_, rfl,
    grid5_set b.board hg r c s row hlen, ?_, fun r1 c1 hne => ?_, fun p => ?_⟩
  · unfold Large_XO_Board.update_board
    simp only
    rw [if_neg (by
      rintro (h | h)
      · exact hs0 h
      · exact hs h)]
    rw [if_neg (by rw [hg.1, hhead]; omega)]
    rw [cellAt_eq b.board r c row hrow hcl, hcell]
    simp only [Large_XO_Board.emptyCell, ne_eq, not_true_eq_false, if_false]
    rw [assignCell_eq b.board r c s row hrow hcl]
  · unfold Large_XO_Board.get_cell
    simp only
    rw [getD_set_self _ _ _ _ (by rw [hg.1]; exact hr), getD_set_self _ _ _ _ hcl]
  · unfold Large_XO_Board.get_cell
    simp only
    by_cases hr1 : r1 = r
    · subst hr1
      rw [getD_set_self _ _ _ _ (by rw [hg.1]; exact hr), hgetD]
      rcases hne with h | h
      · exact absurd rfl h
      · rw [getD_set_ne _ _ _ _ _ (Ne.symm h)]
    · rw [getD_set_ne _ _ _ _ _ (Ne.symm hr1)]
  · have hu : row[c]? = some '.' := by
      rw [List.getElem?_eq_getElem hcl]
      rw [List.getD_eq_getElem?_getD, List.getElem?_eq_getElem hcl, Option.getD_some] at hcell
      rw [hcell]
    exact countCells_set p b.board r c s '.' row hrow hu

/-! ## Encoding a board -/

theorem encodeBoard_entries {R : Type} [Zero R] [One R] [Neg R] (board : Large_XO_Board)
    (ai : Char) :
    (encodeBoard board ai : List R).length = 25 ∧
    ∀ j, j < 25 → (encodeBoard board ai : List R)[j]?
      = some (if board.get_cell (j / 5) (j % 5) = ai then 1
              else (if board.get_cell (j / 5) (j % 5) = '.' then 0 else -1)) := by
  unfold encodeBoard
  apply nestedLoop_invariant
    (fun k (input : List R) => input.length = 25 ∧ ∀ j, j < k → input[j]?
      = some (if board.get_cell (j / 5) (j % 5) = ai then 1
              else (if board.get_cell (j / 5) (j % 5) = '.' then 0 else -1))) 5 5
    (fun r c input => input.set (r * 5 + c)
      (if board.get_cell r c = ai then 1 else (if board.get_cell r c = '.' then 0 else -1)))
  · exact ⟨List.length_replicate _ _, fun j hj => absurd hj (Nat.not_lt_zero j)⟩
  · intro r c hr hc input ⟨hlen, hent⟩
    refine ⟨by rw [List.length_set]; exact hlen, fun j hj => ?_⟩
    by_cases hjeq : j = r * 5 + c
    · subst hjeq
      have h1 : (r * 5 + c) / 5 = r := by omega
      have h2 : (r * 5 + c) % 5 = c := by omega
      rw [h1, h2, List.getElem?_set_self (by rw [hlen]; omega)]
    · rw [List.getElem?_set_ne (Ne.symm hjeq)]
      exact hent j (by omega)

theorem bestMoveInput_eq {R : Type} [Zero R] [One R] [Neg R] (board : Large_XO_Board)
    (ai : Char) : (bestMoveInput board ai : List R) = encodeBoard board ai := by
  unfold bestMoveInput encodeBoard
  congr 1
  funext r input
  congr 1
  funext c input
  simp only
  split_ifs <;> rfl

/-- C23.  For every 5 x 5 board and every symbol `ai`, the encoded input has length
25 and its entry at index `r*5+c` is `1` when the cell `(r, c)` holds `ai`,
otherwise `0` when the cell is empty (`'.'`), otherwise `-1`; the first loop of
`Large_XO_UI::bestMove` computes the same vector as `encodeBoard`. -/
theorem encodeBoard_spec {R : Type} [Zero R] [One R] [Neg R] (board : Large_XO_Board)
    (ai : Char) (_hg : Grid5 board.board) :
    (encodeBoard board ai : List R).length = 25 ∧
    (∀ r c, r < 5 → c < 5 →
      (board.get_cell r c = ai → (encodeBoard board ai : List R)[r * 5 + c]? = some 1) ∧
      (board.get_cell r c ≠ ai → board.get_cell r c = '.' →
        (encodeBoard board ai : List R)[r * 5 + c]? = some 0) ∧
      (board.get_cell r c ≠ ai → board.get_cell r c ≠ '.' →
        (encodeBoard board ai : List R)[r * 5 + c]? = some (-1))) ∧
    (bestMoveInput board ai : List R) = encodeBoard board ai := by
  obtain ⟨hlen, hent⟩ := encodeBoard_entries (R := R) board ai
  refine ⟨hlen, fun r c hr hc => ?_, bestMoveInput_eq board ai⟩
  have h := hent (r * 5 + c) (by omega)
  have h1 : (r * 5 + c) / 5 = r := by omega
  have h2 : (r * 5 + c) % 5 = c := by omega
  rw [h1, h2] at h
  refine ⟨fun hai => ?_, fun hai he => ?_, fun hai he => ?_⟩
  · rw [h, if_pos hai]
  · rw [h, if_neg hai, if_pos he]
  · rw [h, if_neg hai, if_neg he]

/-! ## Decoding the output of the network -/

/-- The search loop of `pickMoveFromNN`, in an ordered arithmetic: either no empty cell
scores above `-1e9` and the loop leaves `move = (-1, -1)`, or `move` is the first
empty cell in row-major order that attains the highest score of the empty
cells, and that score is above `-1e9`. -/
theorem bestCell_spec {R : Type} [LinearOrderedRing R] (board : Large_XO_Board)
    (output : Matrix R) :
    ((bestCell board output).2 = (-1, -1) ∧
      ∀ j, j < 25 → board.get_cell (j / 5) (j % 5) = '.' →
        ¬ (-((1000000000 : Nat) : R) < output.get j 0)) ∨
    (∃ j0, j0 < 25 ∧ (bestCell board output).2 = (((j0 / 5 : Nat) : Int), ((j0 % 5 : Nat) : Int)) ∧
      board.get_cell (j0 / 5) (j0 % 5) = '.' ∧
      -((1000000000 : Nat) : R) < output.get j0 0 ∧
      (∀ j, j < 25 → board.get_cell (j / 5) (j % 5) = '.' → output.get j 0 ≤ output.get j0 0) ∧
      (∀ j, j < j0 → board.get_cell (j / 5) (j % 5) = '.' →
        output.get j 0 < output.get j0 0)) := by
  have key := nestedLoop_invariant
    (fun k (st : R × (Int × Int)) =>
      (st.2 = (-1, -1) ∧ st.1 = -((1000000000 : Nat) : R) ∧
        ∀ j, j < k → board.get_cell (j / 5) (j % 5) = '.' →
          ¬ (-((1000000000 : Nat) : R) < output.get j 0)) ∨
      (∃ j0, j0 < k ∧ st.2 = (((j0 / 5 : Nat) : Int), ((j0 % 5 : Nat) : Int)) ∧
        st.1 = output.get j0 0 ∧
        board.get_cell (j0 / 5) (j0 % 5) = '.' ∧
        -((1000000000 : Nat) : R) < output.get j0 0 ∧
        (∀ j, j < k → board.get_cell (j / 5) (j % 5) = '.' →
          output.get j 0 ≤ output.get j0 0) ∧
        (∀ j, j < j0 → board.get_cell (j / 5) (j % 5) = '.' →
          output.get j 0 < output.get j0 0))) 5 5
    (fun r c (st : R × (Int × Int)) =>
      if board.get_cell r c = '.' ∧ st.1 < output.get (r * 5 + c) 0 then
        (output.get (r * 5 + c) 0, ((r : Int), (c : Int)))
      else st)
    (-((1000000000 : Nat) : R), ((-1 : Int), (-1 : Int)))
    (Or.inl ⟨rfl, rfl, fun j hj => absurd hj (Nat.not_lt_zero j)⟩)
    (by
      intro r c hr hc st hst
      have h1 : (r * 5 + c) / 5 = r := by omega
      have h2 : (r * 5 + c) % 5 = c := by omega
      by_cases hcond : board.get_cell r c = '.' ∧ st.1 < output.get (r * 5 + c) 0
      · simp only [if_pos hcond]
        refine Or.inr ⟨r * 5 + c, Nat.lt_succ_self _, by rw [h1, h2], rfl, by rw [h1, h2]; exact hcond.1,
          ?_, ?_, ?_⟩
        · rcases hst with ⟨_, hT, _⟩ | ⟨j0, _, _, hbest, _, hgt, _, _⟩
          · rw [← hT]; exact hcond.2
          · rw [hbest] at hcond; exact lt_trans hgt hcond.2
        · intro j hj he
          rcases Nat.lt_succ_iff_lt_or_eq.mp hj with hlt | heq
          · rcases hst with ⟨_, hT, hno⟩ | ⟨j0, _, _, hbest, _, _, hmax, _⟩
            · have := not_lt.mp (hno j hlt he)
              rw [hT] at hcond
              exact le_of_lt (lt_of_le_of_lt this hcond.2)
            · rw [hbest] at hcond
              exact le_of_lt (lt_of_le_of_lt (hmax j hlt he) hcond.2)
          · rw [heq]
        · intro j hj he
          rcases hst with ⟨_, hT, hno⟩ | ⟨j0, _, _, hbest, _, _, hmax, _⟩
          · have := not_lt.mp (hno j hj he)
            rw [hT] at hcond
            exact lt_of_le_of_lt this hcond.2
          · rw [hbest] at hcond
            exact lt_of_le_of_lt (hmax j hj he) hcond.2
      · simp only [if_neg hcond]
        rcases hst with ⟨hm, hT, hno⟩ | ⟨j0, hj0, hm, hbest, he0, hgt, hmax, hfirst⟩
        · refine Or.inl ⟨hm, hT, fun j hj he => ?_⟩
          rcases Nat.lt_succ_iff_lt_or_eq.mp hj with hlt | heq
          · exact hno j hlt he
          · subst heq
            rw [h1, h2] at he
            intro hcon
            exact hcond ⟨he, by rw [hT]; exact hcon⟩
        · refine Or.inr ⟨j0, Nat.lt_succ_of_lt hj0, hm, hbest, he0, hgt, fun j hj he => ?_, hfirst⟩
          rcases Nat.lt_succ_iff_lt_or_eq.mp hj with hlt | heq
          · exact hmax j hlt he
          · subst heq
            rw [h1, h2] at he
            rw [← hbest]
            exact not_lt.mp (fun hcon => hcond ⟨he, hcon⟩))
  unfold bestCell
  rcases key with ⟨hm, _, hno⟩ | ⟨j0, hj0, hm, _, he0, hgt, hmax, hfirst⟩
  · exact Or.inl ⟨hm, hno⟩
  · exact Or.inr ⟨j0, hj0, hm, he0, hgt, hmax, hfirst⟩

/-- The list `emptyCells` holds exactly the empty cells of the grid. -/
theorem emptyCells_spec (board : Large_XO_Board) (p : Int × Int) :
    p ∈ emptyCells board ↔
      ∃ j, j < 25 ∧ board.get_cell (j / 5) (j % 5) = '.' ∧
        p = (((j / 5 : Nat) : Int), ((j % 5 : Nat) : Int)) := by
  have key := nestedLoop_invariant
    (fun k (cells : List (Int × Int)) => ∀ p, p ∈ cells ↔
      ∃ j, j < k ∧ board.get_cell (j / 5) (j % 5) = '.' ∧
        p = (((j / 5 : Nat) : Int), ((j % 5 : Nat) : Int))) 5 5
    (fun r c (cells : List (Int × Int)) =>
      if board.get_cell r c = '.' then cells ++ [((r : Int), (c : Int))] else cells)
    []
    (fun p => ⟨fun h => by simp at h, fun ⟨j, hj, _⟩ => absurd hj (Nat.not_lt_zero j)⟩)
    (by
      intro r c hr hc cells hcells p
      have h1 : (r * 5 + c) / 5 = r := by omega
      have h2 : (r * 5 + c) % 5 = c := by omega
      by_cases he : board.get_cell r c = '.'
      · simp only [if_pos he]
        rw [List.mem_append, List.mem_singleton, hcells p]
        constructor
        · rintro (⟨j, hj, hej, hp⟩ | hp)
          · exact ⟨j, Nat.lt_succ_of_lt hj, hej, hp⟩
          · exact ⟨r * 5 + c, Nat.lt_succ_self _, by rw [h1, h2]; exact he,
              by rw [h1, h2]; exact hp⟩
        · rintro ⟨j, hj, hej, hp⟩
          rcases Nat.lt_succ_iff_lt_or_eq.mp hj with hlt | heq
          · exact Or.inl ⟨j, hlt, hej, hp⟩
          · subst heq
            rw [h1, h2] at hp
            exact Or.inr hp
      · simp only [if_neg he]
        rw [hcells p]
        constructor
        · rintro ⟨j, hj, hej, hp⟩
          exact ⟨j, Nat.lt_succ_of_lt hj, hej, hp⟩
        · rintro ⟨j, hj, hej, hp⟩
          rcases Nat.lt_succ_iff_lt_or_eq.mp hj with hlt | heq
          · exact ⟨j, hlt, hej, hp⟩
          · subst heq
            rw [h1, h2] at hej
            exact absurd hej he)
  exact key p

/-- The decoding part of `pickMoveFromNN` on a board with an empty cell, in an
ordered arithmetic, with a distribution that keeps to its bounds: the move is an
in-range empty cell.  If some empty cell scores above `-1e9`, the move is the
first empty cell in row-major order that attains the highest score of the empty
cells and the generator is not used; otherwise the move is the entry of
`emptyCells` the generator draws. -/
theorem decodeMove_spec {S R : Type} [LinearOrderedRing R] (dist : Nat → S → Nat × S)
    (hdist : ∀ hi s, (dist hi s).1 ≤ hi) (board : Large_XO_Board) (output : Matrix R) (rng : S)
    (hempty : ∃ r c, r < 5 ∧ c < 5 ∧ board.get_cell r c = '.') :
    ∃ (r c : Nat) (rng1 : S),
      decodeMove dist board output rng = .ok (((r : Int), (c : Int)), rng1) ∧
      r < 5 ∧ c < 5 ∧ board.get_cell r c = '.' ∧
      ((∃ r1 c1, r1 < 5 ∧ c1 < 5 ∧ board.get_cell r1 c1 = '.' ∧
          -((1000000000 : Nat) : R) < output.get (r1 * 5 + c1) 0) →
        rng1 = rng ∧
        (∀ r1 c1, r1 < 5 → c1 < 5 → board.get_cell r1 c1 = '.' →
          output.get (r1 * 5 + c1) 0 ≤ output.get (r * 5 + c) 0) ∧
        (∀ r1 c1, r1 < 5 → c1 < 5 → r1 * 5 + c1 < r * 5 + c → board.get_cell r1 c1 = '.' →
          output.get (r1 * 5 + c1) 0 < output.get (r * 5 + c) 0)) ∧
      ((¬ ∃ r1 c1, r1 < 5 ∧ c1 < 5 ∧ board.get_cell r1 c1 = '.' ∧
          -((1000000000 : Nat) : R) < output.get (r1 * 5 + c1) 0) →
        (emptyCells board)[(dist ((emptyCells board).length - 1) rng).1]?
          = some ((r : Int), (c : Int)) ∧
        rng1 = (dist ((emptyCells board).length - 1) rng).2) := by
  have hflat : ∀ r1 c1 : Nat, r1 < 5 → c1 < 5 →
      (r1 * 5 + c1) / 5 = r1 ∧ (r1 * 5 + c1) % 5 = c1 ∧ r1 * 5 + c1 < 25 := by
    intro r1 c1 h1 h2
    omega
  rcases bestCell_spec board output with ⟨hm, hno⟩ | ⟨j0, hj0, hm, he0, hgt, hmax, hfirst⟩
  · -- the fallback
    obtain ⟨re, ce, hre, hce, hee⟩ := hempty
    obtain ⟨f1, f2, f3⟩ := hflat re ce hre hce
    have hmem : (((re : Nat) : Int), ((ce : Nat) : Int)) ∈ emptyCells board :=
      (emptyCells_spec board _).mpr ⟨re * 5 + ce, f3, by rw [f1, f2]; exact hee,
        by rw [f1, f2]⟩
    have hlen : 0 < (emptyCells board).length := List.length_pos_of_mem hmem
    have hd : (dist ((emptyCells board).length - 1) rng).1 < (emptyCells board).length :=
      Nat.lt_of_le_of_lt (hdist _ _) (by omega)
    have hget := List.getElem?_eq_getElem hd
    obtain ⟨j, hj, hej, hp⟩ := (emptyCells_spec board _).mp (List.getElem_mem hd)
    rw [hp] at hget
    refine ⟨j / 5, j % 5, (dist ((emptyCells board).length - 1) rng).2, ?_, by omega,
      Nat.mod_lt _ (by decide), hej, fun ⟨r1, c1, h1, h2, h3, h4⟩ => ?_,
      fun _ => ⟨hget, rfl⟩⟩
    · unfold decodeMove
      simp only [hm, if_true]
      rw [if_neg (by omega), hget]
    · obtain ⟨g1, g2, g3⟩ := hflat r1 c1 h1 h2
      exact absurd h4 (hno (r1 * 5 + c1) g3 (by rw [g1, g2]; exact h3))
  · -- the search found a cell
    have hj5 : j0 / 5 * 5 + j0 % 5 = j0 := by omega
    refine ⟨j0 / 5, j0 % 5, rng, ?_, by omega, Nat.mod_lt _ (by decide), he0,
      fun _ => ⟨rfl, fun r1 c1 h1 h2 h3 => ?_, fun r1 c1 h1 h2 hlt h3 => ?_⟩,
      fun hnone => ?_⟩
    · unfold decodeMove
      simp only [hm]
      rw [if_neg (by omega)]
    · obtain ⟨g1, g2, g3⟩ := hflat r1 c1 h1 h2
      rw [hj5]
      exact hmax (r1 * 5 + c1) g3 (by rw [g1, g2]; exact h3)
    · obtain ⟨g1, g2, g3⟩ := hflat r1 c1 h1 h2
      rw [hj5] at hlt ⊢
      exact hfirst (r1 * 5 + c1) hlt (by rw [g1, g2]; exact h3)
    · exact absurd ⟨j0 / 5, j0 % 5, by omega, Nat.mod_lt _ (by decide), he0,
        by rw [hj5]; exact hgt⟩ hnone

/-- `pickMoveFromNN` is the decoding of what `predict` returns on the encoded board. -/
theorem pickMoveFromNN_of_predict {S R : Type} [Zero R] [One R] [Add R] [Mul R] [Neg R]
    [NatCast R] [LT R] [DecidableRel (fun a b : R => a < b)] (dist : Nat → S → Nat × S)
    (nn nn1 : NeuralNetwork R) (board : Large_XO_Board) (ai : Char) (rng : S)
    (output : Matrix R)
    (hpred : nn.predict ⟨25, 1, encodeBoard board ai⟩ = (.ok output, nn1)) :
    pickMoveFromNN dist nn board ai rng =
      match decodeMove dist board output rng with
      | .error f => .error (Abort.undefined f)
      | .ok (move, rng1) => .ok (move, nn1, rng1) := by
  have hof : Matrix.ofValues (encodeBoard board ai : List R) 25 1
      = .ok ⟨25, 1, encodeBoard board ai⟩ := by
    unfold Matrix.ofValues
    rw [if_neg (by rw [(encodeBoard_entries board ai).1]; decide)]
  unfold pickMoveFromNN
  simp only [hof, hpred]

/-- C22, as the code has it.  For every board with at least one empty cell and every
output vector of 25 scores, in an ordered arithmetic and with a distribution that
keeps to its bounds, `pickMoveFromNN` returns the coordinates of an empty cell.  If
some empty cell scores above the sentinel `-1e9`, that cell has the highest score
among the empty cells and is the first such cell in row-major order, and the
generator is not used.  The random fallback is taken exactly when no empty cell
scores above `-1e9`: the cell is then the entry of `emptyCells` the generator
draws. -/
theorem pickMoveFromNN_spec {S R : Type} [LinearOrderedRing R] (dist : Nat → S → Nat × S)
    (hdist : ∀ hi s, (dist hi s).1 ≤ hi) (nn nn1 : NeuralNetwork R) (board : Large_XO_Board)
    (ai : Char) (rng : S) (output : Matrix R) (_hg : Grid5 board.board)
    (hempty : ∃ r c, r < 5 ∧ c < 5 ∧ board.get_cell r c = '.')
    (hpred : nn.predict ⟨25, 1, encodeBoard board ai⟩ = (.ok output, nn1))
    (_hout : output.HasShape 25 1) :
    ∃ (r c : Nat) (rng1 : S),
      pickMoveFromNN dist nn board ai rng = .ok (((r : Int), (c : Int)), nn1, rng1) ∧
      r < 5 ∧ c < 5 ∧ board.get_cell r c = '.' ∧
      ((∃ r1 c1, r1 < 5 ∧ c1 < 5 ∧ board.get_cell r1 c1 = '.' ∧
          -((1000000000 : Nat) : R) < output.get (r1 * 5 + c1) 0) →
        rng1 = rng ∧
        (∀ r1 c1, r1 < 5 → c1 < 5 → board.get_cell r1 c1 = '.' →
          output.get (r1 * 5 + c1) 0 ≤ output.get (r * 5 + c) 0) ∧
        (∀ r1 c1, r1 < 5 → c1 < 5 → r1 * 5 + c1 < r * 5 + c → board.get_cell r1 c1 = '.' →
          output.get (r1 * 5 + c1) 0 < output.get (r * 5 + c) 0)) ∧
      ((¬ ∃ r1 c1, r1 < 5 ∧ c1 < 5 ∧ board.get_cell r1 c1 = '.' ∧
          -((1000000000 : Nat) : R) < output.get (r1 * 5 + c1) 0) →
        (emptyCells board)[(dist ((emptyCells board).length - 1) rng).1]?
          = some ((r : Int), (c : Int)) ∧
        rng1 = (dist ((emptyCells board).length - 1) rng).2) := by
  obtain ⟨r, c, rng1, hdec, hr, hc, he, hbest, hfall⟩ :=
    decodeMove_spec dist hdist board output rng hempty
  refine ⟨r, c, rng1, ?_, hr, hc, he, hbest, hfall⟩
  rw [pickMoveFromNN_of_predict dist nn nn1 board ai rng output hpred, hdec]

/-- The hypotheses of `pickMoveFromNN_spec` hold for the empty board, the network
`sentinelNetwork` (whose output is `sentinelScores`) and the distribution that
always draws `0`. -/
theorem pickMoveFromNN_spec_witness :
    ((∀ (hi : Nat) (s : Nat), ((fun (_ : Nat) (s : Nat) => ((0 : Nat), s)) hi s).1 ≤ hi) ∧
      Grid5 Large_XO_Board.ctor.board ∧ Large_XO_Board.ctor.get_cell 0 0 = '.' ∧
      (sentinelNetwork.predict ⟨25, 1, encodeBoard Large_XO_Board.ctor 'X'⟩).1
        = .ok sentinelScores ∧
      sentinelScores.HasShape 25 1) ∧
    ∃ (r c : Nat) (rng1 : Nat),
      pickMoveFromNN (fun _ s => (0, s)) sentinelNetwork Large_XO_Board.ctor 'X' 0
        = .ok (((r : Int), (c : Int)),
            (sentinelNetwork.predict ⟨25, 1, encodeBoard Large_XO_Board.ctor 'X'⟩).2, rng1) ∧
      r < 5 ∧ c < 5 ∧ Large_XO_Board.ctor.get_cell r c = '.' := by
  have hpred : (sentinelNetwork.predict ⟨25, 1, encodeBoard Large_XO_Board.ctor 'X'⟩).1
      = .ok sentinelScores := by
    set_option maxRecDepth 4000 in rfl
  refine ⟨⟨fun hi _ => Nat.zero_le hi, by decide, by decide, hpred, by decide⟩, ?_⟩
  obtain ⟨r, c, rng1, h, hr, hc, he, _⟩ :=
    pickMoveFromNN_spec (fun (_ : Nat) (s : Nat) => ((0 : Nat), s))
      (fun hi _ => Nat.zero_le hi) sentinelNetwork
      (sentinelNetwork.predict ⟨25, 1, encodeBoard Large_XO_Board.ctor 'X'⟩).2
      Large_XO_Board.ctor 'X' 0 sentinelScores
      (by decide) ⟨0, 0, by decide, by decide, by decide⟩ (Prod.ext hpred rfl) (by decide)
  exact ⟨r, c, rng1, h, hr, hc, he⟩

/-- C22, refuted as stated.  On the empty board the network `sentinelNetwork` returns
`sentinelScores`: every score is finite, `-3e9` for the cell `(0, 0)` and `-2e9` for
the other cells.  No score is above `-1e9`, so the fallback is taken, and with
the draw `0` the move is `(0, 0)`, although the empty cell `(0, 1)` scores
higher. -/
theorem pickMoveFromNN_fallback_on_finite_scores :
    (sentinelNetwork.predict ⟨25, 1, encodeBoard Large_XO_Board.ctor 'X'⟩).1
      = .ok sentinelScores ∧
    (pickMoveFromNN (fun _ (s : Nat) => (0, s)) sentinelNetwork Large_XO_Board.ctor 'X' 0).map
      (fun x => (x.1, x.2.2)) = .ok ((0, 0), 0) ∧
    (bestCell Large_XO_Board.ctor sentinelScores).2 = (-1, -1) ∧
    (emptyCells Large_XO_Board.ctor)[0]? = some (0, 0) ∧
    Large_XO_Board.ctor.get_cell 0 1 = '.' ∧
    sentinelScores.get (0 * 5 + 0) 0 < sentinelScores.get (0 * 5 + 1) 0 := by
  refine ⟨?_, ?_, ?_, ?_, by decide, by decide⟩
  · set_option maxRecDepth 4000 in rfl
  · set_option maxRecDepth 4000 in rfl
  · set_option maxRecDepth 4000 in decide
  · set_option maxRecDepth 4000 in decide

/-! ## A full game -/

/-- The search loop of `pickMoveFromNN`, whatever the arithmetic: `move` is left at
`(-1, -1)` or is an in-range empty cell. -/
theorem bestCell_cell {R : Type} [Zero R] [Neg R] [NatCast R] [LT R]
    [DecidableRel (fun a b : R => a < b)] (board : Large_XO_Board) (output : Matrix R) :
    (bestCell board output).2 = (-1, -1) ∨
    ∃ j0, j0 < 25 ∧ (bestCell board output).2 = (((j0 / 5 : Nat) : Int), ((j0 % 5 : Nat) : Int)) ∧
      board.get_cell (j0 / 5) (j0 % 5) = '.' := by
  have key := nestedLoop_invariant
    (fun k (st : R × (Int × Int)) =>
      st.2 = (-1, -1) ∨
      ∃ j0, j0 < k ∧ st.2 = (((j0 / 5 : Nat) : Int), ((j0 % 5 : Nat) : Int)) ∧
        board.get_cell (j0 / 5) (j0 % 5) = '.') 5 5
    (fun r c (st : R × (Int × Int)) =>
      if board.get_cell r c = '.' ∧ st.1 < output.get (r * 5 + c) 0 then
        (output.get (r * 5 + c) 0, ((r : Int), (c : Int)))
      else st)
    (-((1000000000 : Nat) : R), ((-1 : Int), (-1 : Int)))
    (Or.inl rfl)
    (by
      intro r c hr hc st hst
      have h1 : (r * 5 + c) / 5 = r := by omega
      have h2 : (r * 5 + c) % 5 = c := by omega
      by_cases hcond : board.get_cell r c = '.' ∧ st.1 < output.get (r * 5 + c) 0
      · simp only [if_pos hcond]
        exact Or.inr ⟨r * 5 + c, Nat.lt_succ_self _, by rw [h1, h2],
          by rw [h1, h2]; exact hcond.1⟩
      · simp only [if_neg hcond]
        rcases hst with hm | ⟨j0, hj0, hm, he0⟩
        · exact Or.inl hm
        · exact Or.inr ⟨j0, Nat.lt_succ_of_lt hj0, hm, he0⟩)
  unfold bestCell
  exact key

/-- The decoding part of `pickMoveFromNN` on a board with an empty cell, whatever the
arithmetic: it returns an in-range empty cell. -/
theorem decodeMove_cell {S R : Type} [Zero R] [Neg R] [NatCast R] [LT R]
    [DecidableRel (fun a b : R => a < b)] (dist : Nat → S → Nat × S)
    (hdist : ∀ hi s, (dist hi s).1 ≤ hi) (board : Large_XO_Board) (output : Matrix R) (rng : S)
    (hempty : ∃ r c, r < 5 ∧ c < 5 ∧ board.get_cell r c = '.') :
    ∃ (r c : Nat) (rng1 : S),
      decodeMove dist board output rng = .ok (((r : Int), (c : Int)), rng1) ∧
      r < 5 ∧ c < 5 ∧ board.get_cell r c = '.' := by
  rcases bestCell_cell board output with hm | ⟨j0, hj0, hm, he0⟩
  · obtain ⟨re, ce, hre, hce, hee⟩ := hempty
    have f1 : (re * 5 + ce) / 5 = re := by omega
    have f2 : (re * 5 + ce) % 5 = ce := by omega
    have hmem : (((re : Nat) : Int), ((ce : Nat) : Int)) ∈ emptyCells board :=
      (emptyCells_spec board _).mpr ⟨re * 5 + ce, by omega, by rw [f1, f2]; exact hee,
        by rw [f1, f2]⟩
    have hlen : 0 < (emptyCells board).length := List.length_pos_of_mem hmem
    have hd : (dist ((emptyCells board).length - 1) rng).1 < (emptyCells board).length :=
      Nat.lt_of_le_of_lt (hdist _ _) (by omega)
    have hget := List.getElem?_eq_getElem hd
    obtain ⟨j, hj, hej, hp⟩ := (emptyCells_spec board _).mp (List.getElem_mem hd)
    rw [hp] at hget
    refine ⟨j / 5, j % 5, (dist ((emptyCells board).length - 1) rng).2, ?_, by omega,
      Nat.mod_lt _ (by decide), hej⟩
    unfold decodeMove
    simp only [hm, if_true]
    rw [if_neg (by omega), hget]
  · refine ⟨j0 / 5, j0 % 5, rng, ?_, by omega, Nat.mod_lt _ (by decide), he0⟩
    unfold decodeMove
    simp only [hm]
    rw [if_neg (by omega)]

theorem hasShape_mk {R : Type} (d : List R) (r c : Nat) (h : d.length = r * c) :
    (⟨r, c, d⟩ : Matrix R).HasShape r c := ⟨rfl, rfl, h⟩

/-- `predict` on a network that takes 25 inputs and returns 25 scores. -/
theorem predict_chain {R : Type} [Zero R] [One R] [Add R] [Mul R] (nn : NeuralNetwork R)
    (input : Matrix R) (hch : Chain nn.layers 25) (ho : outSize nn.layers 25 = 25)
    (hin : input.HasShape 25 1) :
    ∃ (out : Matrix R) (nn1 : NeuralNetwork R), nn.predict input = (.ok out, nn1) ∧
      out.HasShape 25 1 ∧ Chain nn1.layers 25 ∧ outSize nn1.layers 25 = 25 := by
  obtain ⟨out, ls1, hfl, hos, hch1, hos1, _⟩ := forwardLayers_spec nn.layers 25 input hch hin
  refine ⟨out, { layers := ls1 }, ?_, ho ▸ hos, hch1, hos1.trans ho⟩
  simp only [NeuralNetwork.predict, NeuralNetwork.forward, hfl]

/-- `pickMoveFromNN` with a 25-to-25 network on a board with an empty cell returns an
in-range empty cell and does not throw. -/
theorem pickMoveFromNN_cell {S R : Type} [Zero R] [One R] [Add R] [Mul R] [Neg R] [NatCast R]
    [LT R] [DecidableRel (fun a b : R => a < b)] (dist : Nat → S → Nat × S)
    (hdist : ∀ hi s, (dist hi s).1 ≤ hi) (nn : NeuralNetwork R) (board : Large_XO_Board)
    (ai : Char) (rng : S) (hch : Chain nn.layers 25) (ho : outSize nn.layers 25 = 25)
    (hempty : ∃ r c, r < 5 ∧ c < 5 ∧ board.get_cell r c = '.') :
    ∃ (r c : Nat) (nn1 : NeuralNetwork R) (rng1 : S),
      pickMoveFromNN dist nn board ai rng = .ok (((r : Int), (c : Int)), nn1, rng1) ∧
      r < 5 ∧ c < 5 ∧ board.get_cell r c = '.' ∧
      Chain nn1.layers 25 ∧ outSize nn1.layers 25 = 25 := by
  have hin : (⟨25, 1, encodeBoard board ai⟩ : Matrix R).HasShape 25 1 :=
    hasShape_mk (encodeBoard board ai) 25 1 (encodeBoard_entries board ai).1
  obtain ⟨out, nn1, hpred, _, hch1, ho1⟩ := predict_chain nn _ hch ho hin
  obtain ⟨r, c, rng1, hdec, hr, hc, he⟩ := decodeMove_cell dist hdist board out rng hempty
  refine ⟨r, c, nn1, rng1, ?_, hr, hc, he, hch1, ho1⟩
  rw [pickMoveFromNN_of_predict dist nn nn1 board ai rng out hpred, hdec]

/-- One iteration of the loop of `playFullGame` before the 24th move: the move picked
targets an empty cell, `update_board` accepts it, and the invariant moves on. -/
theorem playStep_spec {S R : Type} [Zero R] [One R] [Add R] [Mul R] [Neg R] [NatCast R]
    [LT R] [DecidableRel (fun a b : R => a < b)] (dist : Nat → S → Nat × S)
    (hdist : ∀ hi s, (dist hi s).1 ≤ hi) (k : Nat) (st : PlayState S R) (hk : k < 24)
    (hinv : PlayInv k st) :
    ∃ (r c : Nat) (nn1 : NeuralNetwork R) (rng1 : S) (b1 : Large_XO_Board)
      (st1 : PlayState S R),
      pickMoveFromNN dist (if st.currentPlayer = 'X' then st.NN1 else st.NN2) st.board
        st.currentPlayer st.rng = .ok (((r : Int), (c : Int)), nn1, rng1) ∧
      st.board.get_cell r c = '.' ∧
      st.board.update_board ⟨(r : Int), (c : Int), st.currentPlayer⟩ = .ok (true, b1) ∧
      playStep dist st = .ok st1 ∧ st1.board = b1 ∧ PlayInv (k + 1) st1 := by
  obtain ⟨hg, hn, hx, ho, he, hcur, ⟨hc1, ho1⟩, ⟨hc2, ho2⟩⟩ := hinv
  have hempty : ∃ r c, r < 5 ∧ c < 5 ∧ st.board.get_cell r c = '.' := by
    obtain ⟨r, c, hr, hc, hp⟩ := countCells_pos (fun v => v == '.') st.board hg
      (by rw [he]; omega)
    exact ⟨r, c, hr, hc, by simpa using hp⟩
  by_cases hpar : k % 2 = 0
  · rw [if_pos hpar] at hcur
    obtain ⟨r, c, nn1, rng1, hpick, hr, hc, hcell, hch1, hout1⟩ :=
      pickMoveFromNN_cell dist hdist st.NN1 st.board 'X' st.rng hc1 ho1 hempty
    obtain ⟨b1, hupd, hn1, hg1, _, _, hcount⟩ :=
      update_board_place st.board r c 'X' (by decide) (by decide) hg hr hc hcell
    have hx1 := hcount (fun v => v == 'X')
    have hoo1 := hcount (fun v => v == 'O')
    have he1 := hcount (fun v => v == '.')
    simp only [show (('.' : Char) == 'X') = false from by decide,
      show (('X' : Char) == 'X') = true from by decide,
      show (('.' : Char) == 'O') = false from by decide,
      show (('X' : Char) == 'O') = false from by decide,
      show (('.' : Char) == '.') = true from by decide,
      show (('X' : Char) == '.') = false from by decide, if_true, if_false,
      Bool.false_eq_true] at hx1 hoo1 he1
    refine ⟨r, c, nn1, rng1, b1,
      { st with NN1 := nn1, rng := rng1, board := b1, currentPlayer := 'O' },
      by rw [hcur, if_pos rfl]; exact hpick, hcell, by rw [hcur]; exact hupd, ?_, rfl,
      hg1, ?_, ?_, ?_, ?_, ?_, ⟨hch1, hout1⟩, ⟨hc2, ho2⟩⟩
    · unfold playStep
      simp only [hcur, if_true, hpick, hupd]
    · simp only; rw [hn1, hn]; push_cast; ring
    · simp only; omega
    · simp only; omega
    · simp only; omega
    · simp only; rw [if_neg (by omega)]
  · rw [if_neg hpar] at hcur
    obtain ⟨r, c, nn1, rng1, hpick, hr, hc, hcell, hch1, hout1⟩ :=
      pickMoveFromNN_cell dist hdist st.NN2 st.board 'O' st.rng hc2 ho2 hempty
    obtain ⟨b1, hupd, hn1, hg1, _, _, hcount⟩ :=
      update_board_place st.board r c 'O' (by decide) (by decide) hg hr hc hcell
    have hx1 := hcount (fun v => v == 'X')
    have hoo1 := hcount (fun v => v == 'O')
    have he1 := hcount (fun v => v == '.')
    simp only [show (('.' : Char) == 'X') = false from by decide,
      show (('O' : Char) == 'X') = false from by decide,
      show (('.' : Char) == 'O') = false from by decide,
      show (('O' : Char) == 'O') = true from by decide,
      show (('.' : Char) == '.') = true from by decide,
      show (('O' : Char) == '.') = false from by decide, if_true, if_false,
      Bool.false_eq_true] at hx1 hoo1 he1
    refine ⟨r, c, nn1, rng1, b1,
      { st with NN2 := nn1, rng := rng1, board := b1, currentPlayer := 'X' },
      by rw [hcur, if_neg (by decide)]; exact hpick, hcell, by rw [hcur]; exact hupd, ?_, rfl,
      hg1, ?_, ?_, ?_, ?_, ?_, ⟨hc1, ho1⟩, ⟨hch1, hout1⟩⟩
    · unfold playStep
      simp only [hcur, show ¬ (('O' : Char) = 'X') from by decide, if_false, hpick, hupd]
    · simp only; rw [hn1, hn]; push_cast; ring
    · simp only; omega
    · simp only; omega
    · simp only; omega
    · simp only; rw [if_pos (by omega)]

theorem playStart_inv {S R : Type} (NN1 NN2 : NeuralNetwork R) (seed : S)
    (h1 : Chain NN1.layers 25 ∧ outSize NN1.layers 25 = 25)
    (h2 : Chain NN2.layers 25 ∧ outSize NN2.layers 25 = 25) :
    PlayInv 0 (playStart NN1 NN2 seed) :=
  ⟨(by decide : Grid5 Large_XO_Board.ctor.board), rfl,
    (by decide : countCells (fun v => v == 'X') Large_XO_Board.ctor.board = (0 + 1) / 2),
    (by decide : countCells (fun v => v == 'O') Large_XO_Board.ctor.board = 0 / 2),
    (by decide : countCells (fun v => v == '.') Large_XO_Board.ctor.board = 25 - 0),
    rfl, h1, h2⟩

theorem playInv_over {S R : Type} (k : Nat) (st : PlayState S R) (hinv : PlayInv k st) :
    st.board.game_is_over = decide (k = 24) := by
  unfold Large_XO_Board.game_is_over
  rw [hinv.2.1]
  by_cases h : k = 24
  · subst h; rfl
  · rw [decide_eq_false h, decide_eq_false (by omega)]

/-- From a state after `j` iterations, `k` more iterations can be run as long as
`j + k <= 24`, and the invariant holds after them. -/
theorem playSteps_spec {S R : Type} [Zero R] [One R] [Add R] [Mul R] [Neg R] [NatCast R]
    [LT R] [DecidableRel (fun a b : R => a < b)] (dist : Nat → S → Nat × S)
    (hdist : ∀ hi s, (dist hi s).1 ≤ hi) (k j : Nat) (st : PlayState S R)
    (hinv : PlayInv j st) (hjk : j + k ≤ 24) :
    ∃ st1, playSteps dist k st = .ok st1 ∧ PlayInv (j + k) st1 := by
  induction k generalizing j st with
  | zero => exact ⟨st, rfl, hinv⟩
  | succ n ih =>
    obtain ⟨_, _, _, _, _, st1, _, _, _, hstep, _, hinv1⟩ :=
      playStep_spec dist hdist j st (by omega) hinv
    obtain ⟨st2, hsteps, hinv2⟩ := ih (j + 1) st1 hinv1 (by omega)
    refine ⟨st2, ?_, by rw [← Nat.add_assoc, Nat.add_right_comm]; exact hinv2⟩
    unfold playSteps
    rw [hstep]
    exact hsteps

/-- The loop of `playFullGame` from a state after `j` iterations: it needs exactly
`24 - j` more iterations. -/
theorem playLoop_spec {S R : Type} [Zero R] [One R] [Add R] [Mul R] [Neg R] [NatCast R]
    [LT R] [DecidableRel (fun a b : R => a < b)] (dist : Nat → S → Nat × S)
    (hdist : ∀ hi s, (dist hi s).1 ≤ hi) (fuel j : Nat) (st : PlayState S R)
    (hinv : PlayInv j st) (hj : j ≤ 24) :
    (24 - j ≤ fuel → playLoop dist fuel st = (playSteps dist (24 - j) st).map some) ∧
    (fuel < 24 - j → playLoop dist fuel st = .ok none) := by
  induction fuel generalizing j st with
  | zero =>
    have hover := playInv_over j st hinv
    refine ⟨fun h => ?_, fun h => ?_⟩
    · have hj24 : j = 24 := by omega
      subst hj24
      unfold playLoop
      rw [hover]
      rfl
    · unfold playLoop
      rw [hover, decide_eq_false (by omega)]
      rfl
  | succ n ih =>
    have hover := playInv_over j st hinv
    by_cases hj24 : j = 24
    · subst hj24
      refine ⟨fun _ => ?_, fun h => absurd h (by omega)⟩
      unfold playLoop
      rw [hover]
      rfl
    · obtain ⟨_, _, _, _, _, st1, _, _, _, hstep, _, hinv1⟩ :=
        playStep_spec dist hdist j st (by omega) hinv
      obtain ⟨ih1, ih2⟩ := ih (j + 1) st1 hinv1 (by omega)
      have h24 : 24 - j = (24 - (j + 1)) + 1 := by omega
      refine ⟨fun h => ?_, fun h => ?_⟩
      · unfold playLoop
        rw [hover, decide_eq_false hj24]
        simp only [Bool.false_eq_true, if_false, hstep]
        rw [ih1 (by omega), h24]
        conv_rhs => unfold playSteps
        rw [hstep]
      · unfold playLoop
        rw [hover, decide_eq_false hj24]
        simp only [Bool.false_eq_true, if_false, hstep]
        exact ih2 (by omega)

/-- C29.  For every pair of networks that take the 25 encoded cells and return 25
scores, and a distribution that keeps to its bounds, `playFullGame` terminates.
Before each of the first 24 iterations the game is not over, `'X'` is to move
in the even iterations and `'O'` in the odd ones, the move `pickMoveFromNN` picks
targets an empty cell and `update_board` accepts it.  The loop ends after
exactly 24 iterations: with at least 24 iterations allowed it returns, with
fewer it is still running.  The final board has move count 24, twelve `'X'`,
twelve `'O'` and exactly one empty cell. -/
theorem playFullGame_terminates {S R : Type} [Zero R] [One R] [Add R] [Mul R] [Neg R]
    [NatCast R] [LT R] [DecidableRel (fun a b : R => a < b)] (dist : Nat → S → Nat × S)
    (hdist : ∀ hi s, (dist hi s).1 ≤ hi) (NN1 NN2 : NeuralNetwork R) (seed : S)
    (h1 : Chain NN1.layers 25 ∧ outSize NN1.layers 25 = 25)
    (h2 : Chain NN2.layers 25 ∧ outSize NN2.layers 25 = 25) :
    (∀ k, k < 24 →
      ∃ (st : PlayState S R) (r c : Nat) (nn1 : NeuralNetwork R) (rng1 : S)
        (b1 : Large_XO_Board),
        playSteps dist k (playStart NN1 NN2 seed) = .ok st ∧
        st.board.game_is_over = false ∧
        st.currentPlayer = (if k % 2 = 0 then 'X' else 'O') ∧
        pickMoveFromNN dist (if st.currentPlayer = 'X' then st.NN1 else st.NN2) st.board
          st.currentPlayer st.rng = .ok (((r : Int), (c : Int)), nn1, rng1) ∧
        st.board.get_cell r c = '.' ∧
        st.board.update_board ⟨(r : Int), (c : Int), st.currentPlayer⟩ = .ok (true, b1)) ∧
    (∃ final : PlayState S R,
      playSteps dist 24 (playStart NN1 NN2 seed) = .ok final ∧
      (∀ fuel, 24 ≤ fuel →
        playLoop dist fuel (playStart NN1 NN2 seed) = .ok (some final) ∧
        playFullGame dist fuel NN1 NN2 seed = .ok (some (winnerOf final.board))) ∧
      final.board.nMoves = 24 ∧ Grid5 final.board.board ∧
      countCells (fun v => v == 'X') final.board.board = 12 ∧
      countCells (fun v => v == 'O') final.board.board = 12 ∧
      countCells (fun v => v == '.') final.board.board = 1) ∧
    (∀ fuel, fuel < 24 →
      playLoop dist fuel (playStart NN1 NN2 seed) = .ok none ∧
      playFullGame dist fuel NN1 NN2 seed = .ok none) := by
  have h0 := playStart_inv (S := S) NN1 NN2 seed h1 h2
  refine ⟨fun k hk => ?_, ?_, fun fuel hf => ?_⟩
  · obtain ⟨st, hst, hinv⟩ := playSteps_spec dist hdist k 0 _ h0 (by omega)
    rw [Nat.zero_add] at hinv
    obtain ⟨r, c, nn1, rng1, b1, _, hpick, hcell, hupd, _⟩ :=
      playStep_spec dist hdist k st hk hinv
    refine ⟨st, r, c, nn1, rng1, b1, hst, ?_, hinv.2.2.2.2.2.1, hpick, hcell, hupd⟩
    rw [playInv_over k st hinv, decide_eq_false (by omega)]
  · obtain ⟨final, hst, hinv⟩ := playSteps_spec dist hdist 24 0 _ h0 (by omega)
    obtain ⟨hg, hn, hx, ho, he, _⟩ := hinv
    refine ⟨final, hst, fun fuel hf => ?_, hn, hg, hx, ho, he⟩
    have hloop : playLoop dist fuel (playStart NN1 NN2 seed) = .ok (some final) := by
      rw [(playLoop_spec dist hdist fuel 0 _ h0 (by omega)).1 (by omega), Nat.sub_zero, hst]
      rfl
    refine ⟨hloop, ?_⟩
    unfold playFullGame
    rw [hloop]
  · have hloop := (playLoop_spec dist hdist fuel 0 _ h0 (by omega)).2 (by omega)
    refine ⟨hloop, ?_⟩
    unfold playFullGame
    rw [hloop]

/-- The hypotheses of `playFullGame_terminates` hold for two copies of
`sentinelNetwork` and the distribution that always draws `0`. -/
theorem playFullGame_terminates_witness :
    ((∀ (hi : Nat) (s : Nat), ((fun (_ : Nat) (s : Nat) => ((0 : Nat), s)) hi s).1 ≤ hi) ∧
      Chain sentinelNetwork.layers 25 ∧ outSize sentinelNetwork.layers 25 = 25) ∧
    (∃ final : PlayState Nat Int,
      playLoop (fun _ s => (0, s)) 24 (playStart sentinelNetwork sentinelNetwork 0)
        = .ok (some final) ∧
      final.board.nMoves = 24 ∧
      countCells (fun v => v == '.') final.board.board = 1) ∧
    playLoop (fun _ s => (0, s)) 23 (playStart sentinelNetwork sentinelNetwork (0 : Nat))
      = .ok none := by
  have hch : Chain sentinelNetwork.layers 25 ∧ outSize sentinelNetwork.layers 25 = 25 :=
    ⟨⟨by decide, rfl, by decide, rfl, trivial⟩, rfl⟩
  have hd : ∀ (hi : Nat) (s : Nat), ((fun (_ : Nat) (s : Nat) => ((0 : Nat), s)) hi s).1 ≤ hi :=
    fun hi _ => Nat.zero_le hi
  obtain ⟨_, ⟨final, _, hloop, hn, _, _, _, he⟩, hshort⟩ :=
    playFullGame_terminates (fun (_ : Nat) (s : Nat) => ((0 : Nat), s)) hd
      sentinelNetwork sentinelNetwork 0 hch hch
  exact ⟨⟨hd, hch⟩, ⟨final, (hloop 24 (Nat.le_refl _)).1, hn, he⟩,
    (hshort 23 (by decide)).1⟩

/-! ## The 5 x 5 board: what `update_board` does -/

/-- `update_board` with a player symbol on a 5 x 5 grid returns `false` and changes
nothing when the coordinates are out of range or the cell is occupied. -/
theorem update_board_reject (b : Large_XO_Board) (r c : Int) (s : Char)
    (hs0 : s ≠ Char.ofNat 0) (hs : s ≠ '.') (hg : Grid5 b.board)
    (h : (r < 0 ∨ 5 ≤ r ∨ c < 0 ∨ 5 ≤ c) ∨
      (0 ≤ r ∧ 0 ≤ c ∧ r < 5 ∧ c < 5 ∧ b.get_cell r.toNat c.toNat ≠ '.')) :
    b.update_board ⟨r, c, s⟩ = .ok (false, b) := by
  have hhead : (b.board.headD []).length = 5 := by
    obtain ⟨row0, hrow0, hlen0, _⟩ := grid5_row b.board hg 0 (by decide)
    cases hb : b.board with
    | nil => rw [hb] at hrow0; cases hrow0
    | cons x xs =>
      rw [hb] at hrow0
      simp only [List.getElem?_cons_zero, Option.some.injEq] at hrow0
      rw [List.headD_cons, hrow0, hlen0]
  unfold Large_XO_Board.update_board
  simp only
  rw [if_neg (by
    rintro (h1 | h1)
    · exact hs0 h1
    · exact hs h1)]
  rcases h with h | ⟨h1, h2, h3, h4, h5⟩
  · rw [if_pos (by rw [hg.1, hhead]; omega)]
  · rw [if_neg (by rw [hg.1, hhead]; omega)]
    obtain ⟨row, hrow, hlen, hgetD⟩ := grid5_row b.board hg r.toNat (by omega)
    have hr : ((r.toNat : Nat) : Int) = r := Int.toNat_of_nonneg h1
    have hc : ((c.toNat : Nat) : Int) = c := Int.toNat_of_nonneg h2
    have hcl : c.toNat < row.length := by rw [hlen]; omega
    have hcell := cellAt_eq b.board r.toNat c.toNat row hrow hcl
    rw [hr, hc] at hcell
    rw [hcell]
    have hne : row.getD c.toNat (Char.ofNat 0) ≠ Large_XO_Board.emptyCell := by
      unfold Large_XO_Board.get_cell at h5
      rw [hgetD] at h5
      exact h5
    simp only [if_pos hne]

/-- `update_board` with the clearing symbol `0` or `'.'` on an in-range cell of a
5 x 5 grid clears the cell (whatever it held), decrements the move count and
returns `true`. -/
theorem update_board_clear (b : Large_XO_Board) (r c : Nat) (s : Char)
    (hs : s = Char.ofNat 0 ∨ s = '.') (hg : Grid5 b.board) (hr : r < 5) (hc : c < 5) :
    ∃ b1 : Large_XO_Board, b.update_board ⟨(r : Int), (c : Int), s⟩ = .ok (true, b1) ∧
      b1.nMoves = b.nMoves - 1 ∧ Grid5 b1.board ∧ b1.get_cell r c = '.' ∧
      (∀ r1 c1, (r1 ≠ r ∨ c1 ≠ c) → b1.get_cell r1 c1 = b.get_cell r1 c1) ∧
      ∀ p : Char → Bool, countCells p b1.board + (if p (b.get_cell r c) then 1 else 0)
        = countCells p b.board + (if p '.' then 1 else 0) := by
  obtain ⟨row, hrow, hlen, hgetD⟩ := grid5_row b.board hg r hr
  have hcl : c < row.length := by rw [hlen]; exact hc
  refine ⟨{ board := b.board.set r (row.set c '.'), nMoves := b.nMoves - 1 }, ?_, rfl,
    grid5_set b.board hg r c '.' row hlen, ?_, fun r1 c1 hne => ?_, fun p => ?_⟩
  · unfold Large_XO_Board.update_board
    simp only
    rw [if_pos (show s = Char.ofNat 0 ∨ s = Large_XO_Board.emptyCell from hs),
      assignCell_eq b.board r c _ row hrow hcl]
    rfl
  · unfold Large_XO_Board.get_cell
    simp only
    rw [getD_set_self _ _ _ _ (by rw [hg.1]; exact hr), getD_set_self _ _ _ _ hcl]
  · unfold Large_XO_Board.get_cell
    simp only
    by_cases hr1 : r1 = r
    · subst hr1
      rw [getD_set_self _ _ _ _ (by rw [hg.1]; exact hr), hgetD]
      rcases hne with h | h
      · exact absurd rfl h
      · rw [getD_set_ne _ _ _ _ _ (Ne.symm h)]
    · rw [getD_set_ne _ _ _ _ _ (Ne.symm hr1)]
  · have hu : row[c]? = some (b.get_cell r c) := by
      unfold Large_XO_Board.get_cell
      rw [hgetD, List.getElem?_eq_getElem hcl, List.getD_eq_getElem?_getD,
        List.getElem?_eq_getElem hcl, Option.getD_some]
    exact countCells_set p b.board r c '.' (b.get_cell r c) row hrow hu

/-- `update_board` with the clearing symbol and out-of-range coordinates on a 5 x 5
grid: the assignment `board[r][c] = emptyCell` is out of range. -/
theorem update_board_clear_out_of_range (b : Large_XO_Board) (r c : Int) (s : Char)
    (hs : s = Char.ofNat 0 ∨ s = '.') (hg : Grid5 b.board)
    (h : r < 0 ∨ 5 ≤ r ∨ c < 0 ∨ 5 ≤ c) :
    b.update_board ⟨r, c, s⟩ = .error Fault.outOfRange := by
  unfold Large_XO_Board.update_board
  simp only
  rw [if_pos (show s = Char.ofNat 0 ∨ s = Large_XO_Board.emptyCell from hs)]
  have hassign : assignCell b.board r c Large_XO_Board.emptyCell = .error Fault.outOfRange := by
    by_cases h1 : r < 0 ∨ (b.board.length : Int) ≤ r ∨ c < 0
    · exact assignCell_out_of_range b.board r c _ h1
    · rw [hg.1] at h1
      have hc5 : 5 ≤ c := by omega
      obtain ⟨row, hrow, hlen, _⟩ := grid5_row b.board hg r.toNat (by omega)
      unfold assignCell
      rw [if_neg (by omega)]
      simp only [hrow]
      rw [if_neg (by rw [hlen]; omega)]
  rw [hassign]

/-- C24.  On the freshly constructed board, `update_board` with the clearing symbol
(`'.'` or `0`) and coordinates outside `0..4` does not return `false`: it runs the
assignment `board[r][c] = emptyCell`, which is out of range.  With a player symbol
and the same coordinates it returns `false` and changes nothing. -/
theorem update_board_clears_before_range_check :
    Large_XO_Board.ctor.update_board ⟨5, 0, '.'⟩ = .error Fault.outOfRange ∧
    Large_XO_Board.ctor.update_board ⟨0, -1, Char.ofNat 0⟩ = .error Fault.outOfRange ∧
    Large_XO_Board.ctor.update_board ⟨5, 0, 'X'⟩ = .ok (false, Large_XO_Board.ctor) ∧
    Large_XO_Board.ctor.update_board ⟨0, -1, 'X'⟩ = .ok (false, Large_XO_Board.ctor) :=
  ⟨rfl, rfl, rfl, rfl⟩

/-- Every call of `update_board` on a 5 x 5 grid with in-range coordinates, except the
clearing of a cell that is already empty, keeps the difference between the move
count and the number of non-empty cells. -/
theorem update_board_keeps_count (b b1 : Large_XO_Board) (r c : Nat) (s : Char) (ok : Bool)
    (hg : Grid5 b.board) (hr : r < 5) (hc : c < 5)
    (hnot : ¬ ((s = Char.ofNat 0 ∨ s = '.') ∧ b.get_cell r c = '.'))
    (h : b.update_board ⟨(r : Int), (c : Int), s⟩ = .ok (ok, b1)) :
    b1.nMoves - (countCells (fun v => v != '.') b1.board : Int)
      = b.nMoves - (countCells (fun v => v != '.') b.board : Int) := by
  by_cases hs : s = Char.ofNat 0 ∨ s = '.'
  · obtain ⟨b2, hupd, hn, _, _, _, hcount⟩ := update_board_clear b r c s hs hg hr hc
    rw [hupd] at h
    have hb : b2 = b1 := congrArg Prod.snd (Except.ok.inj h)
    subst hb
    have hcell : b.get_cell r c ≠ '.' := fun he => hnot ⟨hs, he⟩
    have := hcount (fun v => v != '.')
    simp only [bne_self_eq_false, Bool.false_eq_true, if_false, bne_iff_ne, ne_eq, hcell,
      not_false_eq_true, if_true] at this
    rw [hn]
    omega
  · have hs0 : s ≠ Char.ofNat 0 := fun he => hs (Or.inl he)
    have hs1 : s ≠ '.' := fun he => hs (Or.inr he)
    by_cases hcell : b.get_cell r c = '.'
    · obtain ⟨b2, hupd, hn, _, _, _, hcount⟩ := update_board_place b r c s hs0 hs1 hg hr hc hcell
      rw [hupd] at h
      have hb : b2 = b1 := congrArg Prod.snd (Except.ok.inj h)
      subst hb
      have := hcount (fun v => v != '.')
      simp only [bne_self_eq_false, Bool.false_eq_true, if_false, bne_iff_ne, ne_eq, hs1,
        not_false_eq_true, if_true] at this
      rw [hn]
      omega
    · have hrej := update_board_reject b (r : Int) (c : Int) s hs0 hs1 hg
        (Or.inr ⟨by omega, by omega, by omega, by omega, by simpa using hcell⟩)
      rw [hrej] at h
      have hb : b = b1 := congrArg Prod.snd (Except.ok.inj h)
      subst hb
      rfl

/-- C30.  On the freshly constructed board the move count is `0` and no cell is
occupied.  The call `update_board` with `(0, 0)` and the clearing symbol `'.'` (or
`0`) returns `true`, leaves the grid as it is and decrements the move count: the
count is `-1` while the number of non-empty cells is still `0`. -/
theorem clearing_an_empty_cell_miscounts :
    (Large_XO_Board.ctor.nMoves = 0 ∧
      countCells (fun v => v != '.') Large_XO_Board.ctor.board = 0) ∧
    Large_XO_Board.ctor.update_board ⟨0, 0, '.'⟩
      = .ok (true, { board := Large_XO_Board.ctor.board, nMoves := -1 }) ∧
    Large_XO_Board.ctor.update_board ⟨0, 0, Char.ofNat 0⟩
      = .ok (true, { board := Large_XO_Board.ctor.board, nMoves := -1 }) ∧
    ((-1 : Int) ≠ (countCells (fun v => v != '.') Large_XO_Board.ctor.board : Int)) :=
  ⟨⟨rfl, by decide⟩, rfl, rfl, by decide⟩

/-- The hypotheses of `outcome_trichotomy` hold for `finishedBoard` (move count 24) and
for the freshly constructed board (move count 0). -/
theorem outcome_trichotomy_witness :
    (finishedBoard.nMoves = 24 ∧ Large_XO_Board.ctor.nMoves ≠ 24) ∧
    (finishedBoard.is_win 'X' = true ↔ finishedBoard.is_lose 'O' = true) ∧
    (finishedBoard.is_draw 'X' = true
      ↔ finishedBoard.countWin 'X' = finishedBoard.countWin 'O') ∧
    (∀ sym, Large_XO_Board.ctor.is_win sym = false ∧ Large_XO_Board.ctor.is_lose sym = false ∧
      Large_XO_Board.ctor.is_draw sym = false) :=
  ⟨⟨rfl, by decide⟩, ((outcome_trichotomy finishedBoard).1 rfl).2.1,
    ((outcome_trichotomy finishedBoard).1 rfl).2.2.2 'X' (Or.inl rfl),
    (outcome_trichotomy Large_XO_Board.ctor).2.2.2 (by decide)⟩

/-- The hypothesis of `encodeBoard_spec` holds for `finishedBoard`; for the symbol `'X'`
its first row `X O X O X` is encoded as `1, -1, 1, -1, 1`, and the empty cell
`(4, 4)` as `0`. -/
theorem encodeBoard_spec_witness :
    Grid5 finishedBoard.board ∧
    (encodeBoard finishedBoard 'X' : List Int).length = 25 ∧
    (encodeBoard finishedBoard 'X' : List Int)[0 * 5 + 0]? = some 1 ∧
    (encodeBoard finishedBoard 'X' : List Int)[0 * 5 + 1]? = some (-1) ∧
    (encodeBoard finishedBoard 'X' : List Int)[4 * 5 + 4]? = some 0 ∧
    (bestMoveInput finishedBoard 'X' : List Int) = encodeBoard finishedBoard 'X' :=
  ⟨by decide, (encodeBoard_spec finishedBoard 'X' (by decide)).1,
    ((encodeBoard_spec finishedBoard 'X' (by decide)).2.1 0 0 (by decide) (by decide)).1
      (by decide),
    ((encodeBoard_spec finishedBoard 'X' (by decide)).2.1 0 1 (by decide) (by decide)).2.2
      (by decide) (by decide),
    ((encodeBoard_spec finishedBoard 'X' (by decide)).2.1 4 4 (by decide) (by decide)).2.1
      (by decide) (by decide),
    (encodeBoard_spec finishedBoard 'X' (by decide)).2.2⟩

/-! ## The evaluation phase: partition of the population -/

theorem perThread_ceil (populationSize numThreads : Nat) (hn : 1 ≤ numThreads) :
    populationSize ≤ perThread populationSize numThreads * numThreads ∧
    ∀ q, populationSize ≤ q * numThreads → perThread populationSize numThreads ≤ q := by
  unfold perThread
  have hdm := Nat.div_add_mod (populationSize + numThreads - 1) numThreads
  have hmod := Nat.mod_lt (populationSize + numThreads - 1) hn
  refine ⟨?_, fun q hq => ?_⟩
  · rw [Nat.mul_comm]
    omega
  · have : (populationSize + numThreads - 1) / numThreads < q + 1 := by
      rw [Nat.div_lt_iff_lt_mul hn, Nat.succ_mul]
      omega
    omega

/-- Every index of the population lies in the range of exactly one worker, and the
ranges stay inside the population. -/
theorem workerRange_partition (populationSize numThreads : Nat) (hn : 1 ≤ numThreads) :
    (∀ t, (workerRange populationSize numThreads t).2 ≤ populationSize) ∧
    (∀ i, i < populationSize → ∃ t, t < numThreads ∧
      (workerRange populationSize numThreads t).1 ≤ i ∧
      i < (workerRange populationSize numThreads t).2) ∧
    (∀ t1 t2 i, (workerRange populationSize numThreads t1).1 ≤ i →
      i < (workerRange populationSize numThreads t1).2 →
      (workerRange populationSize numThreads t2).1 ≤ i →
      i < (workerRange populationSize numThreads t2).2 → t1 = t2) := by
  obtain ⟨hceil, _⟩ := perThread_ceil populationSize numThreads hn
  refine ⟨fun t => Nat.min_le_right _ _, fun i hi => ?_, fun t1 t2 i h1 h2 h3 h4 => ?_⟩
  · have hpos : 0 < perThread populationSize numThreads := by
      rcases Nat.eq_zero_or_pos (perThread populationSize numThreads) with h0 | h0
      · rw [h0, Nat.zero_mul] at hceil; omega
      · exact h0
    refine ⟨i / perThread populationSize numThreads, ?_, ?_, ?_⟩
    · rw [Nat.div_lt_iff_lt_mul hpos, Nat.mul_comm]
      exact Nat.lt_of_lt_of_le hi hceil
    · exact Nat.div_mul_le_self i _
    · simp only [workerRange]
      have hdm := Nat.div_add_mod i (perThread populationSize numThreads)
      have hmod := Nat.mod_lt i hpos
      rw [Nat.mul_comm] at hdm
      rw [Nat.lt_min]
      exact ⟨by omega, hi⟩
  · simp only [workerRange, Nat.lt_min] at h1 h2 h3 h4
    have hpos : 0 < perThread populationSize numThreads := by omega
    have e1 : i / perThread populationSize numThreads = t1 :=
      Nat.div_eq_of_lt_le h1 (by rw [Nat.succ_mul]; exact h2.1)
    have e2 : i / perThread populationSize numThreads = t2 :=
      Nat.div_eq_of_lt_le h3 (by rw [Nat.succ_mul]; exact h4.1)
    rw [← e1, ← e2]

/-- The indices written, worker after worker, are `0, 1, ..., populationSize - 1`. -/
theorem allWrites_indices {R : Type} (populationSize numThreads : Nat) (hn : 1 ≤ numThreads)
    (score : Nat → Nat → R) :
    (allWrites populationSize numThreads score).map Prod.fst = List.range populationSize := by
  obtain ⟨hceil, _⟩ := perThread_ceil populationSize numThreads hn
  have key : ∀ T, (forLoop T (fun t ws => ws ++ workerWrites populationSize numThreads score t)
      []).map Prod.fst
      = List.range (min (T * perThread populationSize numThreads) populationSize) := by
    intro T
    induction T with
    | zero => simp [forLoop]
    | succ T ih =>
      rw [forLoop_succ, List.map_append, ih]
      have hw : (workerWrites populationSize numThreads score T).map Prod.fst
          = List.range' (T * perThread populationSize numThreads)
              (min (T * perThread populationSize numThreads
                  + perThread populationSize numThreads) populationSize
                - T * perThread populationSize numThreads) := by
        unfold workerWrites
        rw [List.map_map, List.range'_eq_map_range]
        rfl
      rw [hw, List.range_eq_range', List.range_eq_range']
      by_cases hle : T * perThread populationSize numThreads ≤ populationSize
      · rw [Nat.min_eq_left hle]
        have := List.range'_append 0 (T * perThread populationSize numThreads)
          (min (T * perThread populationSize numThreads
              + perThread populationSize numThreads) populationSize
            - T * perThread populationSize numThreads) 1
        rw [Nat.zero_add, Nat.one_mul] at this
        rw [this, Nat.succ_mul]
        congr 1
        omega
      · have h1 : min (T * perThread populationSize numThreads) populationSize
            = populationSize := by omega
        have h2 : min (T * perThread populationSize numThreads
              + perThread populationSize numThreads) populationSize
            - T * perThread populationSize numThreads = 0 := by omega
        have h3 : min ((T + 1) * perThread populationSize numThreads) populationSize
            = populationSize := by
          rw [Nat.succ_mul]; omega
        rw [h1, h2, h3]
        simp
  unfold allWrites
  rw [key numThreads, Nat.min_eq_right]
  rw [Nat.mul_comm]
  exact hceil

theorem applyWrites_length {R : Type} (ws : List (Nat × (Nat × R))) (fs : List (Nat × R)) :
    (applyWrites ws fs).length = fs.length := by
  induction ws generalizing fs with
  | nil => rfl
  | cons w rest ih =>
    unfold applyWrites
    rw [List.foldl_cons]
    exact (ih _).trans (List.length_set _ _ _)

theorem applyWrites_untouched {R : Type} (ws : List (Nat × (Nat × R))) (fs : List (Nat × R))
    (j : Nat) (hj : j ∉ ws.map Prod.fst) : (applyWrites ws fs)[j]? = fs[j]? := by
  induction ws generalizing fs with
  | nil => rfl
  | cons w rest ih =>
    simp only [List.map_cons, List.mem_cons, not_or] at hj
    unfold applyWrites
    rw [List.foldl_cons]
    have := ih (fs.set w.1 w.2) hj.2
    unfold applyWrites at this
    rw [this, List.getElem?_set_ne (Ne.symm hj.1)]

/-- Writes at pairwise distinct indices: the table holds at `j` what was written
there. -/
theorem applyWrites_written {R : Type} (ws : List (Nat × (Nat × R))) (fs : List (Nat × R))
    (j : Nat) (v : Nat × R) (hnd : (ws.map Prod.fst).Nodup) (hmem : (j, v) ∈ ws)
    (hj : j < fs.length) : (applyWrites ws fs)[j]? = some v := by
  induction ws generalizing fs with
  | nil => simp at hmem
  | cons w rest ih =>
    simp only [List.map_cons, List.nodup_cons] at hnd
    unfold applyWrites
    rw [List.foldl_cons]
    rcases List.mem_cons.mp hmem with h | h
    · subst h
      have := applyWrites_untouched rest (fs.set j v) j hnd.1
      unfold applyWrites at this
      simp only at this ⊢
      rw [this, List.getElem?_set_self hj]
    · have := ih (fs.set w.1 w.2) hnd.2 h (by rw [List.length_set]; exact hj)
      unfold applyWrites at this
      exact this

/-- Writes at pairwise distinct indices give the same table in whatever order they
are applied. -/
theorem applyWrites_perm {R : Type} (ws ws1 : List (Nat × (Nat × R))) (fs : List (Nat × R))
    (hnd : (ws.map Prod.fst).Nodup) (hp : ws1.Perm ws) :
    applyWrites ws1 fs = applyWrites ws fs := by
  have hnd1 : (ws1.map Prod.fst).Nodup := ((hp.map Prod.fst).nodup_iff).mpr hnd
  apply List.ext_getElem?
  intro j
  by_cases hj : j < fs.length
  · by_cases hmem : j ∈ ws.map Prod.fst
    · obtain ⟨w, hw, hwj⟩ := List.mem_map.mp hmem
      have hw1 : (j, w.2) ∈ ws := by rw [← hwj]; exact hw
      rw [applyWrites_written ws fs j w.2 hnd hw1 hj,
        applyWrites_written ws1 fs j w.2 hnd1 (hp.mem_iff.mpr hw1) hj]
    · have hmem1 : j ∉ ws1.map Prod.fst := fun h => hmem ((hp.map Prod.fst).mem_iff.mp h)
      rw [applyWrites_untouched ws fs j hmem, applyWrites_untouched ws1 fs j hmem1]
  · rw [List.getElem?_eq_none (by rw [applyWrites_length]; omega),
      List.getElem?_eq_none (by rw [applyWrites_length]; omega)]

theorem worker_eq_applyWrites {R : Type} (populationSize numThreads : Nat)
    (score : Nat → Nat → R) (t : Nat) (fs : List (Nat × R)) :
    worker populationSize numThreads score t fs
      = applyWrites (workerWrites populationSize numThreads score t) fs := by
  unfold worker rangeLoop applyWrites workerWrites
  rw [forLoop_eq_foldl, List.foldl_map]

theorem evaluationPhase_eq_applyWrites {R : Type} [Zero R] (populationSize numThreads : Nat)
    (score : Nat → Nat → R) :
    evaluationPhase populationSize numThreads score
      = applyWrites (allWrites populationSize numThreads score)
          (List.replicate populationSize (0, 0)) := by
  have key : ∀ T, forLoop T (fun t fs => worker populationSize numThreads score t fs)
      (List.replicate populationSize ((0 : Nat), (0 : R)))
      = applyWrites
          (forLoop T (fun t ws => ws ++ workerWrites populationSize numThreads score t) [])
          (List.replicate populationSize (0, 0)) := by
    intro T
    induction T with
    | zero => rfl
    | succ T ih =>
      rw [forLoop_succ, forLoop_succ, ih, worker_eq_applyWrites]
      unfold applyWrites
      rw [List.foldl_append]
  exact key numThreads

theorem workerWrites_mem_allWrites {R : Type} (populationSize numThreads : Nat)
    (score : Nat → Nat → R) (t : Nat) (ht : t < numThreads) (w : Nat × (Nat × R))
    (hw : w ∈ workerWrites populationSize numThreads score t) :
    w ∈ allWrites populationSize numThreads score := by
  have key : ∀ T, t < T →
      w ∈ forLoop T (fun t ws => ws ++ workerWrites populationSize numThreads score t) [] := by
    intro T
    induction T with
    | zero => intro h; exact absurd h (Nat.not_lt_zero t)
    | succ T ih =>
      intro h
      rw [forLoop_succ, List.mem_append]
      rcases Nat.lt_succ_iff_lt_or_eq.mp h with h1 | h1
      · exact Or.inl (ih h1)
      · subst h1; exact Or.inr hw
  exact key numThreads ht

theorem mem_workerWrites {R : Type} (populationSize numThreads : Nat)
    (score : Nat → Nat → R) (t i : Nat)
    (h1 : (workerRange populationSize numThreads t).1 ≤ i)
    (h2 : i < (workerRange populationSize numThreads t).2) :
    (i, (i, score t i)) ∈ workerWrites populationSize numThreads score t := by
  unfold workerWrites
  rw [List.mem_map]
  refine ⟨i - (workerRange populationSize numThreads t).1, List.mem_range.mpr (by omega), ?_⟩
  have : (workerRange populationSize numThreads t).1
      + (i - (workerRange populationSize numThreads t).1) = i := by omega
  rw [this]

/-- C27.  For every `populationSize >= 0` and every worker count `n >= 1`: `perThread` is
`ceil(populationSize / n)`; the ranges `[t*perThread, min(t*perThread + perThread,
populationSize))` stay inside the population, every index `0..populationSize-1`
lies in the range of a worker `t < n`, and no index lies in two ranges.  Worker
after worker the indices written are `0, 1, ..., populationSize - 1`, each exactly
once; after the evaluation phase `fitnessScores[i]` holds the index `i` with
the score its worker computed; and the table is the same in whatever order the
writes of the workers are interleaved. -/
theorem evaluation_partition {R : Type} [Zero R] (populationSize numThreads : Nat)
    (hn : 1 ≤ numThreads) (score : Nat → Nat → R) :
    (populationSize ≤ perThread populationSize numThreads * numThreads ∧
      ∀ q, populationSize ≤ q * numThreads → perThread populationSize numThreads ≤ q) ∧
    (∀ t, (workerRange populationSize numThreads t).1 = t * perThread populationSize numThreads ∧
      (workerRange populationSize numThreads t).2
        = min (t * perThread populationSize numThreads + perThread populationSize numThreads)
            populationSize ∧
      (workerRange populationSize numThreads t).2 ≤ populationSize) ∧
    (∀ i, i < populationSize → ∃ t, t < numThreads ∧
      (workerRange populationSize numThreads t).1 ≤ i ∧
      i < (workerRange populationSize numThreads t).2) ∧
    (∀ t1 t2 i, (workerRange populationSize numThreads t1).1 ≤ i →
      i < (workerRange populationSize numThreads t1).2 →
      (workerRange populationSize numThreads t2).1 ≤ i →
      i < (workerRange populationSize numThreads t2).2 → t1 = t2) ∧
    (allWrites populationSize numThreads score).map Prod.fst = List.range populationSize ∧
    ((evaluationPhase populationSize numThreads score).length = populationSize ∧
      ∀ i, i < populationSize → ∃ t, t < numThreads ∧
        (workerRange populationSize numThreads t).1 ≤ i ∧
        i < (workerRange populationSize numThreads t).2 ∧
        (evaluationPhase populationSize numThreads score)[i]? = some (i, score t i)) ∧
    (∀ schedule : List (Nat × (Nat × R)),
      schedule.Perm (allWrites populationSize numThreads score) →
      applyWrites schedule (List.replicate populationSize (0, 0))
        = evaluationPhase populationSize numThreads score) := by
  obtain ⟨hin, hcover, hdisj⟩ := workerRange_partition populationSize numThreads hn
  have hidx := allWrites_indices populationSize numThreads hn score
  have hnd : ((allWrites populationSize numThreads score).map Prod.fst).Nodup := by
    rw [hidx]; exact List.nodup_range _
  have heq := evaluationPhase_eq_applyWrites populationSize numThreads score
  refine ⟨perThread_ceil populationSize numThreads hn, fun t => ⟨rfl, rfl, hin t⟩, hcover, hdisj,
    hidx, ⟨?_, fun i hi => ?_⟩, fun schedule hp => ?_⟩
  · rw [heq, applyWrites_length, List.length_replicate]
  · obtain ⟨t, ht, h1, h2⟩ := hcover i hi
    refine ⟨t, ht, h1, h2, ?_⟩
    rw [heq]
    exact applyWrites_written _ _ i (i, score t i) hnd
      (workerWrites_mem_allWrites populationSize numThreads score t ht _
        (mem_workerWrites populationSize numThreads score t i h1 h2))
      (by rw [List.length_replicate]; exact hi)
  · rw [heq]
    exact applyWrites_perm _ schedule _ hnd hp

/-- The hypothesis of `evaluation_partition` holds for 5 networks and 2 workers, each
scoring a network with its own number: the chunk is 3, worker 0 writes the
entries 0, 1, 2 and worker 1 the entries 3, 4. -/
theorem evaluation_partition_witness :
    (1 ≤ 2 ∧ perThread 5 2 = 3) ∧
    (allWrites 5 2 (fun t _ => (t : Int))).map Prod.fst = List.range 5 ∧
    (evaluationPhase 5 2 (fun t _ => (t : Int))).length = 5 ∧
    evaluationPhase 5 2 (fun t _ => (t : Int)) = [(0, 0), (1, 0), (2, 0), (3, 1), (4, 1)] :=
  ⟨⟨by decide, by decide⟩,
    (evaluation_partition 5 2 (by decide) (fun t _ => (t : Int))).2.2.2.2.1,
    (evaluation_partition 5 2 (by decide) (fun t _ => (t : Int))).2.2.2.2.2.1.1,
    by decide⟩

/-! ## Random initialisation and the clock -/

/-- `Matrix::random` entry by entry: the `i`-th entry is computed from the `i`-th draw
after the generator was seeded with the clock reading. -/
theorem random_entries {R : Type} [Zero R] [One R] [Add R] [Sub R] [Mul R]
    (rows cols : Nat) (min max : R) (rand : Nat → Nat → R) (now : Nat) :
    (Matrix.random rows cols min max rand now).HasShape rows cols ∧
    ∀ i, i < rows * cols →
      (Matrix.random rows cols min max rand now).data.getD i 0
        = min + rand now i * (max - min) := by
  obtain ⟨C, hC, hr, hc, hwf, hent⟩ :=
    fillLoop_spec (fun i => min + rand now i * (max - min)) rows cols
  unfold Matrix.random
  rw [hC]
  exact ⟨⟨hr, hc, hwf⟩, hent⟩

/-- Two constructions from the same widths and activations whose clock readings
agree at every call of `Matrix::random` build the same network. -/
theorem ctor_congr_clock {R : Type} [Zero R] [One R] [Add R] [Sub R] [Mul R] [Neg R]
    (sizes : List Nat) (act dact : R → R) (rand : Nat → Nat → R) (clock1 clock2 : Nat → Nat)
    (h : ∀ k, k < 2 * (sizes.length - 1) → clock1 k = clock2 k) :
    NeuralNetwork.ctor sizes act dact rand clock1
      = NeuralNetwork.ctor sizes act dact rand clock2 := by
  by_cases hlen : 2 ≤ sizes.length
  · rw [ctor_layers sizes act dact rand clock1 hlen, ctor_layers sizes act dact rand clock2 hlen]
    congr 2
    apply List.map_congr_left
    intro k hk
    have hk1 := List.mem_range.mp hk
    rw [h (2 * k) (by omega), h (2 * k + 1) (by omega)]
  · unfold NeuralNetwork.ctor
    rw [if_pos (by omega), if_pos (by omega)]

/-- The loop of `Matrix::random` from any matrix and any generator state: the
matrix is filled from the draws that follow the state, and the state is advanced
once per entry. -/
theorem randomLoop_eq {G R : Type} [Div R] [NatCast R] [Add R] [Sub R] [Mul R]
    (gen : CRand G) (min max : R) (n : Nat) (m : Matrix R) (s : G) :
    forLoop n
      (fun i (st : Matrix R × G) =>
        let draw := gen.rand st.2
        ({ st.1 with
            data := st.1.data.set i
              (min + ((draw.1 : R) / ((gen.RAND_MAX : Nat) : R)) * (max - min)) },
          draw.2))
      (m, s)
    = (forLoop n
        (fun i (t : Matrix R) =>
          { t with
            data := t.data.set i
              (min + (((gen.rand (gen.advance i s)).1 : R) / ((gen.RAND_MAX : Nat) : R))
                * (max - min)) }) m,
       gen.advance n s) := by
  induction n with
  | zero => rfl
  | succ k ih =>
    rw [forLoop_succ, ih, forLoop_succ]
    rfl

/-- The state-threading `Matrix::random` in terms of the draws that follow the
seed: the state the call starts from does not occur in the result. -/
theorem randomFrom_eq {G R : Type} [Zero R] [One R] [Add R] [Sub R] [Mul R] [Div R] [NatCast R]
    (gen : CRand G) (rows cols : Nat) (min max : R) (now : Nat) (g : G) :
    Matrix.randomFrom gen rows cols min max now g
      = (Matrix.random rows cols min max (fun seed i => gen.unitDraw seed i) (now % 4294967296),
         gen.advance (rows * cols) (gen.srand (now % 4294967296))) := by
  unfold Matrix.randomFrom
  simp only
  rw [randomLoop_eq]
  rfl

theorem layer_ctorFrom_eq {G R : Type} [Zero R] [One R] [Add R] [Sub R] [Mul R] [Neg R] [Div R]
    [NatCast R] (gen : CRand G) (inputSize neuronCount : Nat) (act dact : R → R)
    (nowW nowB : Nat) (g : G) :
    (Layer.ctorFrom gen inputSize neuronCount act dact nowW nowB g).1
      = Layer.ctor inputSize neuronCount act dact (fun seed i => gen.unitDraw seed i)
          (nowW % 4294967296) (nowB % 4294967296) := by
  unfold Layer.ctorFrom Layer.ctor
  simp only [randomFrom_eq]

theorem network_ctorFrom_eq {G R : Type} [Zero R] [One R] [Add R] [Sub R] [Mul R] [Neg R]
    [Div R] [NatCast R] (gen : CRand G) (sizes : List Nat) (act dact : R → R)
    (clock : Nat → Nat) (g : G) :
    (NeuralNetwork.ctorFrom gen sizes act dact clock g).1
      = NeuralNetwork.ctor sizes act dact (fun seed i => gen.unitDraw seed i)
          (fun k => clock k % 4294967296) := by
  unfold NeuralNetwork.ctorFrom NeuralNetwork.ctor
  by_cases hlen : sizes.length < 2
  · rw [if_pos hlen, if_pos hlen]
  · rw [if_neg hlen, if_neg hlen]
    simp only
    congr 2
    generalize sizes.length - 1 = n
    induction n with
    | zero => rfl
    | succ k ih =>
      rw [forLoop_succ, forLoop_succ]
      dsimp only
      rw [layer_ctorFrom_eq, ih]

/-- C31.  `Matrix::random` reseeds the generator from the clock second at every call:
whatever state the generator is in when the call is made, entry `i` of the result
is `min + (draw_i / RAND_MAX) * (max - min)` with `draw_i` the `i`-th value of the
sequence that follows `srand(second)`.  Hence two calls with the same arguments in
the same second return equal matrices (and leave the generator in the same state),
from any two generator states; and two networks built from the same widths and
activations while the clock shows the same second `t`, from any two generator
states, are equal: in every layer `W` and `B` are the matrices drawn in second
`t`, the same in both networks. -/
theorem random_depends_on_clock_second {G R : Type} [Zero R] [One R] [Add R] [Sub R] [Mul R]
    [Neg R] [Div R] [NatCast R] (gen : CRand G) (rows cols : Nat) (min max : R)
    (now1 now2 : Nat) (g1 g2 : G) (sizes : List Nat) (act dact : R → R)
    (clock1 clock2 : Nat → Nat) (t : Nat) :
    ((Matrix.randomFrom gen rows cols min max now1 g1).1.HasShape rows cols ∧
      ∀ i, i < rows * cols →
        (Matrix.randomFrom gen rows cols min max now1 g1).1.data.getD i 0
          = min + ((((gen.rand (gen.advance i (gen.srand (now1 % 4294967296)))).1 : Nat) : R)
              / ((gen.RAND_MAX : Nat) : R)) * (max - min)) ∧
    (now1 = now2 →
      Matrix.randomFrom gen rows cols min max now1 g1
        = Matrix.randomFrom gen rows cols min max now2 g2) ∧
    ((∀ k, k < 2 * (sizes.length - 1) → clock1 k = t ∧ clock2 k = t) →
      (NeuralNetwork.ctorFrom gen sizes act dact clock1 g1).1
        = (NeuralNetwork.ctorFrom gen sizes act dact clock2 g2).1 ∧
      ∀ net1 net2 : NeuralNetwork R,
        (NeuralNetwork.ctorFrom gen sizes act dact clock1 g1).1 = .ok net1 →
        (NeuralNetwork.ctorFrom gen sizes act dact clock2 g2).1 = .ok net2 →
        parameters net1.layers = parameters net2.layers ∧
        ∀ l, l ∈ net1.layers →
          l.W = (Matrix.randomFrom gen l.neuronCount l.inputSize (-1) 1 t g1).1 ∧
          l.B = (Matrix.randomFrom gen l.neuronCount 1 (-1) 1 t g2).1) := by
  refine ⟨?_, fun h => ?_, fun hclock => ?_⟩
  · rw [randomFrom_eq]
    exact random_entries rows cols min max (fun seed i => gen.unitDraw seed i)
      (now1 % 4294967296)
  · rw [randomFrom_eq, randomFrom_eq, h]
  · have heq : (NeuralNetwork.ctorFrom gen sizes act dact clock1 g1).1
        = (NeuralNetwork.ctorFrom gen sizes act dact clock2 g2).1 := by
      rw [network_ctorFrom_eq, network_ctorFrom_eq]
      exact ctor_congr_clock sizes act dact _ _ _
        (fun k hk => by
          show clock1 k % 4294967296 = clock2 k % 4294967296
          rw [(hclock k hk).1, (hclock k hk).2])
    refine ⟨heq, fun net1 net2 h1 h2 => ?_⟩
    have hnet : net1 = net2 := Except.ok.inj (h1.symm.trans (heq.trans h2))
    subst hnet
    refine ⟨rfl, fun l hl => ?_⟩
    rw [network_ctorFrom_eq] at h1
    have hlen : 2 ≤ sizes.length := by
      by_contra hcon
      unfold NeuralNetwork.ctor at h1
      rw [if_pos (by omega)] at h1
      cases h1
    rw [ctor_layers sizes act dact _ _ hlen] at h1
    have hls := congrArg NeuralNetwork.layers (Except.ok.inj h1)
    simp only at hls
    rw [← hls] at hl
    obtain ⟨k, hk, hlk⟩ := List.mem_map.mp hl
    have hk1 := List.mem_range.mp hk
    subst hlk
    simp only [Layer.ctor, randomFrom_eq]
    rw [(hclock (2 * k) (by omega)).1, (hclock (2 * k + 1) (by omega)).1]
    exact ⟨rfl, rfl⟩

/-- The hypotheses of `random_depends_on_clock_second` hold for the generator `lcg`, the
widths `[2, 1]` and two constructions in second `7`, one starting with the generator
in state `5` and one in state `99`: the two calls of `Matrix::random` return the
same 1 x 2 matrix, whose entries come from the draws `1282168116` and `642666333`
that follow `srand(7)`, and the two networks are equal. -/
theorem random_depends_on_clock_second_witness :
    ((7 : Nat) = 7 ∧
      ∀ k, k < 2 * ([2, 1].length - 1) → (fun _ => 7) k = 7 ∧ (fun _ => 7) k = 7) ∧
    (Matrix.randomFrom lcg 1 2 (-1 : ℚ) 1 7 5).1.data
      = [-1 + (1282168116 / 2147483647) * (1 - -1), -1 + (642666333 / 2147483647) * (1 - -1)] ∧
    Matrix.randomFrom lcg 1 2 (-1 : ℚ) 1 7 5 = Matrix.randomFrom lcg 1 2 (-1 : ℚ) 1 7 99 ∧
    (NeuralNetwork.ctorFrom lcg [2, 1] (fun x : ℚ => x) (fun _ => 1) (fun _ => 7) 5).1
      = (NeuralNetwork.ctorFrom lcg [2, 1] (fun x : ℚ => x) (fun _ => 1) (fun _ => 7) 99).1 :=
  ⟨⟨rfl, fun _ _ => ⟨rfl, rfl⟩⟩,
    by norm_num [Matrix.randomFrom, lcg, forLoop, Matrix.ctor, List.replicate, List.set],
    (random_depends_on_clock_second lcg 1 2 (-1 : ℚ) 1 7 7 5 99 [2, 1] (fun x => x)
      (fun _ => 1) (fun _ => 7) (fun _ => 7) 7).2.1 rfl,
    ((random_depends_on_clock_second lcg 1 2 (-1 : ℚ) 1 7 7 5 99 [2, 1] (fun x => x)
      (fun _ => 1) (fun _ => 7) (fun _ => 7) 7).2.2 (fun _ _ => ⟨rfl, rfl⟩)).1⟩

/-! ## The memory game: the revealed counter and the end of the game -/

theorem gridGet_of_getElem? {α : Type} (g : List (List α)) (r c : Nat) (d u : α)
    (row : List α) (hrow : g[r]? = some row) (hu : row[c]? = some u) :
    gridGet g r c d = u := by
  simp [gridGet, List.getD_eq_getElem?_getD, hrow, hu]

theorem gridSet_of_getElem? {α : Type} (g : List (List α)) (r c : Nat) (v : α)
    (row : List α) (hrow : g[r]? = some row) :
    gridSet g r c v = g.set r (row.set c v) := by
  simp [gridSet, List.getD_eq_getElem?_getD, hrow]

/-- One write into the matrix of flags moves the number of `true` flags by the
difference between the new and the old flag. -/
theorem countRevealed_set (m : List (List Bool)) (r c : Nat) (v u : Bool)
    (row : List Bool) (hrow : m[r]? = some row) (hu : row[c]? = some u) :
    countRevealed (m.set r (row.set c v)) + (if u then 1 else 0)
      = countRevealed m + (if v then 1 else 0) := by
  unfold countRevealed
  have h1 := sum_map_set (fun row => row.countP (fun v => v)) m r (row.set c v) row hrow
  have h2 := countP_set (fun v => v) row c v u hu
  simp only at h1 h2
  omega

/-- The freshly constructed board satisfies the invariant. -/
theorem memory_ctor_inv : Memory_Board.ctor.Inv := by
  refine ⟨rfl, rfl, rfl, ?_, rfl⟩
  decide

/-- Every call of `update_board` keeps the invariant. -/
theorem memory_update_inv (b : Memory_Board) (move : Move) (h : b.Inv) :
    (b.update_board move).2.Inv := by
  obtain ⟨hr, hc, hlen, hrows, hcount⟩ := h
  unfold Memory_Board.update_board
  simp only
  split
  · exact ⟨hr, hc, hlen, hrows, hcount⟩
  · rename_i hin
    have hx : move.x.toNat < 3 := by omega
    have hy : move.y.toNat < 3 := by omega
    have hrow : b.revealedMatrix[move.x.toNat]? = some (b.revealedMatrix[move.x.toNat]) :=
      List.getElem?_eq_getElem (by omega)
    have hrowlen : (b.revealedMatrix[move.x.toNat]).length = 3 :=
      hrows _ (List.getElem_mem _)
    have hu : (b.revealedMatrix[move.x.toNat])[move.y.toNat]?
        = some ((b.revealedMatrix[move.x.toNat])[move.y.toNat]) :=
      List.getElem?_eq_getElem (by omega)
    have hget := gridGet_of_getElem? b.revealedMatrix _ _ false _ _ hrow hu
    have hshape : ∀ v : Bool, (gridSet b.revealedMatrix move.x.toNat move.y.toNat v).length = 3 ∧
        ∀ row, row ∈ gridSet b.revealedMatrix move.x.toNat move.y.toNat v → row.length = 3 := by
      intro v
      rw [gridSet_of_getElem? _ _ _ _ _ hrow]
      refine ⟨by rw [List.length_set]; exact hlen, fun row hmem => ?_⟩
      rcases List.mem_or_eq_of_mem_set hmem with h1 | h1
      · exact hrows _ h1
      · rw [h1, List.length_set]; exact hrowlen
    have hcnt := fun v : Bool =>
      countRevealed_set b.revealedMatrix move.x.toNat move.y.toNat v _ _ hrow hu
    split
    · split
      · rename_i hrev
        refine ⟨hr, hc, (hshape false).1, (hshape false).2, ?_⟩
        have := hcnt false
        rw [← gridSet_of_getElem? _ _ _ _ _ hrow] at this
        rw [hget] at hrev
        simp only [hrev, if_true] at this
        simp only [hcount]
        simp only [Bool.false_eq_true, if_false] at this
        omega
      · exact ⟨hr, hc, hlen, hrows, hcount⟩
    · split
      · rename_i hrev
        refine ⟨hr, hc, (hshape true).1, (hshape true).2, ?_⟩
        have := hcnt true
        rw [← gridSet_of_getElem? _ _ _ _ _ hrow] at this
        rw [hget] at hrev
        simp only [Bool.not_eq_true', ] at hrev
        simp only [hrev, Bool.false_eq_true, if_false, if_true] at this
        simp only [hcount]
        omega
      · exact ⟨hr, hc, hlen, hrows, hcount⟩

/-- Every board reached from an invariant board by `update_board` calls satisfies the
invariant. -/
theorem memory_run_inv (moves : List Move) (b : Memory_Board) (h : b.Inv) :
    (b.run moves).Inv := by
  induction moves generalizing b with
  | nil => exact h
  | cons move rest ih => exact ih _ (memory_update_inv b move h)

theorem list_length_three {α : Type} (l : List α) (h : l.length = 3) :
    ∃ a b c, l = [a, b, c] := by
  match l, h with
  | [a, b, c], _ => exact ⟨a, b, c, rfl⟩

/-- A row of three flags holds at most three `true` flags, and three only when all are. -/
theorem row_of_three :
    ∀ a b c : Bool, [a, b, c].countP (fun v => v) ≤ 3 ∧
      ([a, b, c].countP (fun v => v) = 3 → a = true ∧ b = true ∧ c = true) := by
  decide

/-- Nine revealed flags on a 3 x 3 matrix reveal a full line. -/
theorem full_grid_wins :
    ∀ a b c d e f g h i : Bool,
      countRevealed [[a, b, c], [d, e, f], [g, h, i]] = 9 →
      ∀ (brd : List (List Char)) (cnt : Int),
        Memory_Board.is_win ⟨3, 3, brd, cnt, [[a, b, c], [d, e, f], [g, h, i]]⟩ = true := by
  intro a b c d e f g h i hcount brd cnt
  have h1 := row_of_three a b c
  have h2 := row_of_three d e f
  have h3 := row_of_three g h i
  simp only [countRevealed, List.map_cons, List.map_nil, List.sum_cons, List.sum_nil] at hcount
  obtain ⟨rfl, rfl, rfl⟩ := h1.2 (by omega)
  obtain ⟨rfl, rfl, rfl⟩ := h2.2 (by omega)
  obtain ⟨rfl, rfl, rfl⟩ := h3.2 (by omega)
  rfl

/-- On a board satisfying the invariant, nine revealed cells give a win. -/
theorem memory_full_wins (b : Memory_Board) (h : b.Inv)
    (hfull : b.revealed_count = ((b.rows * b.columns : Nat) : Int)) : b.is_win = true := by
  obtain ⟨hr, hc, hlen, hrows, hcount⟩ := h
  obtain ⟨rows, columns, brd, cnt, m⟩ := b
  simp only at hr hc hlen hrows hcount hfull
  subst hr hc
  obtain ⟨r0, r1, r2, rfl⟩ := list_length_three m hlen
  obtain ⟨a, b, c, rfl⟩ := list_length_three r0 (hrows _ (by simp))
  obtain ⟨d, e, f, rfl⟩ := list_length_three r1 (hrows _ (by simp))
  obtain ⟨g, h, i, rfl⟩ := list_length_three r2 (hrows _ (by simp))
  apply full_grid_wins
  rw [hcount] at hfull
  exact_mod_cast hfull

/-- C32.  In every state of a `Memory_Board` reached from the freshly constructed
board by `update_board` calls, `revealed_count` is the number of `true` entries of
`revealedMatrix`; when all nine cells are revealed `is_win` holds, so `is_draw`
returns `false` and `game_is_over` returns what `is_win` returns. -/
theorem memory_board_reachable (moves : List Move) :
    (Memory_Board.ctor.run moves).revealed_count
      = (countRevealed (Memory_Board.ctor.run moves).revealedMatrix : Int) ∧
    ((Memory_Board.ctor.run moves).revealed_count = 9 →
      (Memory_Board.ctor.run moves).is_win = true) ∧
    (Memory_Board.ctor.run moves).is_draw = false ∧
    (Memory_Board.ctor.run moves).game_is_over = (Memory_Board.ctor.run moves).is_win := by
  have hinv := memory_run_inv moves Memory_Board.ctor memory_ctor_inv
  have hdraw : (Memory_Board.ctor.run moves).is_draw = false := by
    unfold Memory_Board.is_draw
    by_cases hfull : (Memory_Board.ctor.run moves).revealed_count
        = (((Memory_Board.ctor.run moves).rows * (Memory_Board.ctor.run moves).columns : Nat) : Int)
    · rw [memory_full_wins _ hinv hfull]; simp
    · rw [decide_eq_false hfull, Bool.false_and]
  refine ⟨hinv.2.2.2.2, fun h9 => ?_, hdraw, ?_⟩
  · apply memory_full_wins _ hinv
    rw [hinv.1, hinv.2.1]
    exact h9
  · unfold Memory_Board.game_is_over
    rw [hdraw, Bool.or_false]

/-- The theorem `memory_board_reachable` at the board with every cell revealed: the
counter reads nine, `is_win` holds and `is_draw` is `false`. -/
theorem memory_board_reachable_witness :
    (Memory_Board.ctor.run revealEveryCell).revealed_count = 9 ∧
    (Memory_Board.ctor.run revealEveryCell).is_win = true ∧
    (Memory_Board.ctor.run revealEveryCell).is_draw = false ∧
    (Memory_Board.ctor.run revealEveryCell).game_is_over = true :=
  ⟨by decide, (memory_board_reachable revealEveryCell).2.1 (by decide),
    (memory_board_reachable revealEveryCell).2.2.1,
    (memory_board_reachable revealEveryCell).2.2.2.trans
      ((memory_board_reachable revealEveryCell).2.1 (by decide))⟩

/-- Hiding moves the counter back: reveal `(0,0)`, hide it, hide it again (accepted, no
change), then a move outside the board (rejected). -/
theorem memory_hide_example :
    (Memory_Board.ctor.update_board ⟨0, 0, 'R'⟩).2.revealed_count = 1 ∧
    (Memory_Board.ctor.update_board ⟨0, 0, 'R'⟩).2.board
      = [['A', '?', '?'], ['?', '?', '?'], ['?', '?', '?']] ∧
    Memory_Board.ctor.run [⟨0, 0, 'R'⟩, ⟨0, 0, Char.ofNat 0⟩] = Memory_Board.ctor ∧
    ((Memory_Board.ctor.update_board ⟨0, 0, Char.ofNat 0⟩) = (true, Memory_Board.ctor)) ∧
    ((Memory_Board.ctor.update_board ⟨3, 0, 'R'⟩) = (false, Memory_Board.ctor)) ∧
    ((Memory_Board.ctor.update_board ⟨0, 0, 'R'⟩).2.update_board ⟨0, 0, 'R'⟩).1 = false := by
  decide

/-! ## The library's `std::sort`: order facts and rearrangements -/

theorem sw_asymm {α : Type} {comp : α → α → Bool} (h : StrictWeak comp) {a b : α}
    (hab : comp a b = true) : comp b a = false := by
  cases hba : comp b a with
  | false => rfl
  | true =>
    have := h.2.1 a b a hab hba
    rw [h.1 a] at this
    cases this

/-- The relation "not less than" of a strict weak ordering is transitive:
`a ≤ b` and `b ≤ c` give `a ≤ c`, where `a ≤ b` stands for `comp b a = false`. -/
theorem sw_le_trans {α : Type} {comp : α → α → Bool} (h : StrictWeak comp) {a b c : α}
    (hab : comp b a = false) (hbc : comp c b = false) : comp c a = false := by
  cases hca : comp c a with
  | false => rfl
  | true =>
    have h1 : comp a b = false := by
      cases h' : comp a b with
      | false => rfl
      | true =>
        have := h.2.1 c a b hca h'
        rw [hbc] at this
        cases this
    have h2 : comp b c = false := by
      cases h' : comp b c with
      | false => rfl
      | true =>
        have := h.2.1 b c a h' hca
        rw [hab] at this
        cases this
    have := (h.2.2 a b c h1 hab h2 hbc).2
    rw [hca] at this
    cases this

/-- From `p < v` and `s ≤ p` follows `s ≤ v`. -/
theorem sw_le_of_le_of_lt {α : Type} {comp : α → α → Bool} (h : StrictWeak comp) {p v s : α}
    (hpv : comp p v = true) (hsp : comp p s = false) : comp v s = false := by
  cases hvs : comp v s with
  | false => rfl
  | true =>
    have := h.2.1 p v s hpv hvs
    rw [hsp] at this
    cases this

theorem reorder_refl {α : Type} (a b : Nat) (v : List α) : Reorder a b v v :=
  ⟨rfl, fun _ _ => rfl, fun _ => rfl⟩

theorem reorder_trans {α : Type} {a b : Nat} {v v' v'' : List α}
    (h1 : Reorder a b v v') (h2 : Reorder a b v' v'') : Reorder a b v v'' :=
  ⟨h2.1.trans h1.1, fun i hi => (h2.2.1 i hi).trans (h1.2.1 i hi),
    fun p => (h2.2.2 p).trans (h1.2.2 p)⟩

theorem reorder_mono {α : Type} {a b a' b' : Nat} {v v' : List α}
    (h : Reorder a b v v') (ha : a' ≤ a) (hb : b ≤ b') : Reorder a' b' v v' :=
  ⟨h.1, fun i hi => h.2.1 i (by omega), h.2.2⟩

/-- A write of `x` over `u` moves every count by the difference of the two. -/
theorem countP_writeAt {α : Type} (p : α → Bool) (v v' : List α) (i : Nat) (x u : α)
    (hw : writeAt v i x = some v') (hu : v[i]? = some u) :
    v'.countP p + (if p u then 1 else 0) = v.countP p + (if p x then 1 else 0) := by
  unfold writeAt at hw
  split at hw
  · cases hw
    exact countP_set p v i x u hu
  · cases hw

theorem writeAt_some {α : Type} (v : List α) (i : Nat) (x : α) (h : i < v.length) :
    writeAt v i x = some (v.set i x) := by
  unfold writeAt
  rw [if_pos h]

theorem writeAt_eq {α : Type} {v v' : List α} {i : Nat} {x : α}
    (hw : writeAt v i x = some v') : i < v.length ∧ v' = v.set i x := by
  unfold writeAt at hw
  split at hw
  · rename_i h
    cases hw
    exact ⟨h, rfl⟩
  · cases hw

theorem iter_swap_eq {α : Type} {v v' : List α} {i j : Nat}
    (h : iter_swap v i j = some v') :
    ∃ a b, v[i]? = some a ∧ v[j]? = some b ∧ v' = (v.set i b).set j a := by
  unfold iter_swap at h
  split at h
  · rename_i a b ha hb
    cases h
    exact ⟨a, b, ha, hb, rfl⟩
  · cases h

theorem iter_swap_some {α : Type} (v : List α) (i j : Nat) (a b : α)
    (ha : v[i]? = some a) (hb : v[j]? = some b) :
    iter_swap v i j = some ((v.set i b).set j a) := by
  unfold iter_swap
  rw [ha, hb]

/-- The elements of a vector after a swap. -/
theorem swap_getElem? {α : Type} (v : List α) (i j k : Nat) (a b : α)
    (ha : v[i]? = some a) (hb : v[j]? = some b) :
    ((v.set i b).set j a)[k]?
      = if k = j then some a else if k = i then some b else v[k]? := by
  have hi : i < v.length := (List.getElem?_eq_some_iff.mp ha).1
  have hj : j < v.length := (List.getElem?_eq_some_iff.mp hb).1
  by_cases hkj : k = j
  · subst hkj
    rw [if_pos rfl, List.getElem?_set_self (by rw [List.length_set]; exact hj)]
  · rw [if_neg hkj, List.getElem?_set_ne (fun h => hkj h.symm)]
    by_cases hki : k = i
    · subst hki
      rw [if_pos rfl, List.getElem?_set_self hi]
    · rw [if_neg hki, List.getElem?_set_ne (fun h => hki h.symm)]

/-- A swap of two elements of `[a, b)` rearranges `[a, b)`. -/
theorem reorder_swap {α : Type} {v v' : List α} {i j a b : Nat}
    (h : iter_swap v i j = some v') (hai : a ≤ i) (hib : i < b) (haj : a ≤ j) (hjb : j < b) :
    Reorder a b v v' := by
  obtain ⟨x, y, hx, hy, rfl⟩ := iter_swap_eq h
  refine ⟨by simp, fun k hk => ?_, fun p => ?_⟩
  · rw [swap_getElem? v i j k x y hx hy, if_neg (by omega), if_neg (by omega)]
  · have h1 := countP_set p v i y x hx
    have hy' : (v.set i y)[j]? = some y := by
      by_cases hij : i = j
      · subst hij
        exact List.getElem?_set_self (List.getElem?_eq_some_iff.mp hx).1
      · rw [List.getElem?_set_ne hij]
        exact hy
    have h2 := countP_set p (v.set i y) j x y hy'
    omega

theorem take_eq_of_getElem? {α : Type} (v v' : List α) (a : Nat)
    (h : ∀ i, i < a → v'[i]? = v[i]?) : v'.take a = v.take a := by
  apply List.ext_getElem?
  intro i
  rw [List.getElem?_take, List.getElem?_take]
  split
  · rename_i hi
    exact h i hi
  · rfl

theorem drop_eq_of_getElem? {α : Type} (v v' : List α) (b : Nat)
    (h : ∀ i, b ≤ i → v'[i]? = v[i]?) : v'.drop b = v.drop b := by
  apply List.ext_getElem?
  intro i
  rw [List.getElem?_drop, List.getElem?_drop]
  exact h (b + i) (by omega)

/-- A vector is what stands before `a`, what stands in `[a, b)` and what stands from
`b` on. -/
theorem split_three {α : Type} (v : List α) (a b : Nat) (hab : a ≤ b) :
    v = v.take a ++ ((v.drop a).take (b - a) ++ v.drop b) := by
  have h1 : v = v.take a ++ v.drop a := (List.take_append_drop a v).symm
  have h2 : v.drop a = (v.drop a).take (b - a) ++ (v.drop a).drop (b - a) :=
    (List.take_append_drop (b - a) (v.drop a)).symm
  have h3 : (v.drop a).drop (b - a) = v.drop b := by
    rw [List.drop_drop]
    congr 1
    omega
  rw [h3] at h2
  rw [← h2]
  exact h1

/-- The rearranged part of a vector counts the same. -/
theorem reorder_middle {α : Type} {a b : Nat} {v v' : List α} (h : Reorder a b v v')
    (hab : a ≤ b) (p : α → Bool) :
    ((v'.drop a).take (b - a)).countP p = ((v.drop a).take (b - a)).countP p := by
  have ht := take_eq_of_getElem? v v' a (fun i hi => h.2.1 i (Or.inl hi))
  have hd := drop_eq_of_getElem? v v' b (fun i hi => h.2.1 i (Or.inr hi))
  have h1 := congrArg (List.countP p) (split_three v a b hab)
  have h2 := congrArg (List.countP p) (split_three v' a b hab)
  rw [List.countP_append, List.countP_append] at h1 h2
  rw [ht, hd] at h2
  have := h.2.2 p
  omega

/-- Every element of the rearranged part stood in that part before. -/
theorem reorder_mem {α : Type} [DecidableEq α] {a b : Nat} {v v' : List α}
    (h : Reorder a b v v') {j : Nat} {y : α} (haj : a ≤ j) (hjb : j < b)
    (hy : v'[j]? = some y) : ∃ j', a ≤ j' ∧ j' < b ∧ v[j']? = some y := by
  have hcount := reorder_middle h (by omega) (fun x => decide (x = y))
  have hmem' : y ∈ (v'.drop a).take (b - a) := by
    have : ((v'.drop a).take (b - a))[j - a]? = some y := by
      rw [List.getElem?_take, if_pos (by omega), List.getElem?_drop]
      rw [show a + (j - a) = j by omega]
      exact hy
    exact List.getElem?_mem this
  have hpos : 0 < ((v'.drop a).take (b - a)).countP (fun x => decide (x = y)) :=
    List.countP_pos_iff.mpr ⟨y, hmem', by simp⟩
  rw [hcount] at hpos
  obtain ⟨z, hz, hzy⟩ := List.countP_pos_iff.mp hpos
  have hzy' : z = y := by simpa using hzy
  subst hzy'
  obtain ⟨k, hk⟩ := List.getElem?_of_mem hz
  have hklt : k < b - a := by
    by_contra hcon
    rw [List.getElem?_take, if_neg hcon] at hk
    cases hk
  rw [List.getElem?_take, if_pos hklt, List.getElem?_drop] at hk
  exact ⟨a + k, by omega, by omega, hk⟩

/-- A rearrangement is a permutation. -/
theorem reorder_perm {α : Type} [DecidableEq α] {a b : Nat} {v v' : List α}
    (h : Reorder a b v v') : v'.Perm v := by
  rw [List.perm_iff_count]
  intro x
  have := h.2.2 (fun y => y == x)
  simpa [List.count] using this

/-! ## The library's `std::sort`: partitioning -/

theorem getElem?_of_lt {α : Type} (v : List α) (i : Nat) (h : i < v.length) :
    ∃ x, v[i]? = some x :=
  ⟨v[i], List.getElem?_eq_getElem h⟩

theorem lt_of_getElem? {α : Type} {v : List α} {i : Nat} {x : α} (h : v[i]? = some x) :
    i < v.length :=
  (List.getElem?_eq_some_iff.mp h).1

/-- The upward scan stops at or before an element that is not less than the pivot. -/
theorem scanUp_spec {α : Type} (comp : α → α → Bool) (v : List α) (pivot : Nat) (p : α)
    (hp : v[pivot]? = some p) (fuel first hi : Nat) (s : α) (hfh : first ≤ hi)
    (hs : v[hi]? = some s) (hsp : comp s p = false) (hfuel : hi - first < fuel) :
    ∃ k x, scanUp comp v pivot fuel first = some k ∧ first ≤ k ∧ k ≤ hi ∧
      v[k]? = some x ∧ comp x p = false ∧
      ∀ i y, first ≤ i → i < k → v[i]? = some y → comp y p = true := by
  induction fuel generalizing first with
  | zero => omega
  | succ fuel ih =>
    obtain ⟨x, hx⟩ := getElem?_of_lt v first (by have := lt_of_getElem? hs; omega)
    unfold scanUp
    simp only [hx, hp]
    by_cases hc : comp x p = true
    · rw [if_pos hc]
      have hne : first ≠ hi := by
        intro h
        subst h
        rw [hx] at hs
        cases hs
        rw [hsp] at hc
        cases hc
      obtain ⟨k, y, hk, hfk, hkh, hy, hyp, hbelow⟩ := ih (first + 1) (by omega) (by omega)
      refine ⟨k, y, hk, by omega, hkh, hy, hyp, fun i z hi hik hz => ?_⟩
      by_cases hif : i = first
      · subst hif
        rw [hx] at hz
        cases hz
        exact hc
      · exact hbelow i z (by omega) hik hz
    · rw [if_neg hc]
      exact ⟨first, x, rfl, le_refl _, hfh, hx, by simpa using hc, fun i y hi hik _ => by omega⟩

/-- The downward scan stops at or after an element that the pivot is not less than. -/
theorem scanDown_spec {α : Type} (comp : α → α → Bool) (v : List α) (pivot : Nat) (p : α)
    (hp : v[pivot]? = some p) (last lo : Nat) (s : α) (hll : lo ≤ last)
    (hlast : last < v.length) (hs : v[lo]? = some s) (hps : comp p s = false) :
    ∃ k x, scanDown comp v pivot last = some k ∧ lo ≤ k ∧ k ≤ last ∧
      v[k]? = some x ∧ comp p x = false ∧
      ∀ i y, k < i → i ≤ last → v[i]? = some y → comp p y = true := by
  induction last with
  | zero =>
    have hlo : lo = 0 := by omega
    subst hlo
    unfold scanDown
    simp only [hs, hp, hps]
    exact ⟨0, s, by simp, le_refl _, le_refl _, hs, hps, fun i y h1 h2 _ => by omega⟩
  | succ last ih =>
    obtain ⟨x, hx⟩ := getElem?_of_lt v (last + 1) hlast
    unfold scanDown
    simp only [hx, hp]
    by_cases hc : comp p x = true
    · rw [if_pos hc]
      have hne : lo ≠ last + 1 := by
        intro h
        subst h
        rw [hx] at hs
        cases hs
        rw [hps] at hc
        cases hc
      obtain ⟨k, y, hk, hlk, hkl, hy, hpy, habove⟩ := ih (by omega) (by omega)
      refine ⟨k, y, hk, hlk, by omega, hy, hpy, fun i z hki hil hz => ?_⟩
      by_cases hil' : i = last + 1
      · subst hil'
        rw [hx] at hz
        cases hz
        exact hc
      · exact habove i z hki (by omega) hz
    · rw [if_neg hc]
      exact ⟨last + 1, x, rfl, hll, le_refl _, hx, by simpa using hc,
        fun i y h1 h2 _ => by omega⟩

/-- The loop of `std::__unguarded_partition` between a pivot that stands before `first`
and an element not less than the pivot that stands in `[first, l)`: it returns a
cut in `[first, l)`, having rearranged `[first, last)` so that nothing between the
pivot and the cut exceeds the pivot and nothing in `[cut, l)` is less than it. -/
theorem unguarded_partition_spec {α : Type} (comp : α → α → Bool) (hsw : StrictWeak comp)
    (pivot l : Nat) (p : α) (fuel : Nat) (v : List α) (first last : Nat)
    (hp : v[pivot]? = some p) (hpf : pivot < first) (hfl : first ≤ last) (hll : last ≤ l)
    (hlen : l ≤ v.length)
    (hup : ∃ hi s, first ≤ hi ∧ hi < l ∧ v[hi]? = some s ∧ comp s p = false)
    (hle : ∀ i x, pivot < i → i < first → v[i]? = some x → comp p x = false)
    (hge : ∀ i x, last ≤ i → i < l → v[i]? = some x → comp x p = false)
    (hfuel : last - first < fuel) :
    ∃ v' cut, unguarded_partition comp pivot fuel v first last = some (v', cut) ∧
      Reorder first last v v' ∧ first ≤ cut ∧ cut < l ∧
      (∀ i x, pivot < i → i < cut → v'[i]? = some x → comp p x = false) ∧
      (∀ i x, cut ≤ i → i < l → v'[i]? = some x → comp x p = false) := by
  induction fuel generalizing v first last with
  | zero => omega
  | succ fuel ih =>
    obtain ⟨hi, s, hfhi, hhil, hs, hsp⟩ := hup
    obtain ⟨first1, x1, hscan1, hf1, hf1hi, hx1, hx1p, hbelow⟩ :=
      scanUp_spec comp v pivot p hp (v.length - first) first hi s hfhi hs hsp (by omega)
    obtain ⟨last0, hlast0⟩ : ∃ last0, last = last0 + 1 := ⟨last - 1, by omega⟩
    subst hlast0
    obtain ⟨last1, y1, hscan2, hl1lo, hl1, hy1, hpy1, habove⟩ :=
      scanDown_spec comp v pivot p hp last0 pivot p (by omega) (by omega) hp (hsw.1 p)
    unfold unguarded_partition
    simp only [hscan1, hscan2]
    by_cases hlt : first1 < last1
    · rw [if_pos hlt]
      have hswap := iter_swap_some v first1 last1 x1 y1 hx1 hy1
      rw [hswap]
      simp only
      have hget := swap_getElem? v first1 last1
      have hre1 : Reorder first (last0 + 1) v ((v.set first1 y1).set last1 x1) :=
        reorder_swap hswap hf1 (by omega) (by omega) (by omega)
      obtain ⟨v', cut, hrec, hre2, hc1, hc2, hleft, hright⟩ :=
        ih ((v.set first1 y1).set last1 x1) (first1 + 1) last1
          (by rw [hget pivot x1 y1 hx1 hy1, if_neg (by omega), if_neg (by omega)]; exact hp)
          (by omega) (by omega) (by omega) (by simpa using hlen)
          ⟨last1, x1, by omega, by omega,
            by rw [hget last1 x1 y1 hx1 hy1, if_pos rfl], hx1p⟩
          (fun i x hpi hif hx => by
            rw [hget i x1 y1 hx1 hy1, if_neg (by omega)] at hx
            by_cases hi1 : i = first1
            · rw [if_pos hi1] at hx
              cases hx
              exact hpy1
            · rw [if_neg hi1] at hx
              by_cases hi2 : i < first
              · exact hle i x hpi hi2 hx
              · exact sw_asymm hsw (hbelow i x (by omega) (by omega) hx))
          (fun i x hli hil hx => by
            rw [hget i x1 y1 hx1 hy1] at hx
            by_cases hi1 : i = last1
            · rw [if_pos hi1] at hx
              cases hx
              exact hx1p
            · rw [if_neg hi1, if_neg (by omega)] at hx
              by_cases hi2 : i ≤ last0
              · exact sw_asymm hsw (habove i x (by omega) hi2 hx)
              · exact hge i x (by omega) hil hx)
          (by omega)
      refine ⟨v', cut, hrec, ?_, by omega, hc2, hleft, hright⟩
      exact reorder_trans hre1 (reorder_mono hre2 (by omega) (by omega))
    · rw [if_neg hlt]
      refine ⟨v, first1, rfl, reorder_refl _ _ _, hf1, by omega, fun i x hpi hif hx => ?_,
        fun i x hci hil hx => ?_⟩
      · by_cases hi2 : i < first
        · exact hle i x hpi hi2 hx
        · exact sw_asymm hsw (hbelow i x (by omega) hif hx)
      · by_cases hi1 : i = first1
        · subst hi1
          rw [hx1] at hx
          cases hx
          exact hx1p
        · by_cases hi2 : i ≤ last0
          · exact sw_asymm hsw (habove i x (by omega) hi2 hx)
          · exact hge i x (by omega) hil hx

/-- The median of three goes to `result`: the call is a swap of `result` with one of
`a`, `b`, `c`, and another of the three is not less than the element swapped in. -/
theorem move_median_spec {α : Type} (comp : α → α → Bool) (hsw : StrictWeak comp)
    (v : List α) (result a b c : Nat) (xa xb xc : α)
    (ha : v[a]? = some xa) (hb : v[b]? = some xb) (hc : v[c]? = some xc)
    (hab : a ≠ b) (hac : a ≠ c) (hbc : b ≠ c) :
    ∃ m s xm xs, (m = a ∨ m = b ∨ m = c) ∧ (s = a ∨ s = b ∨ s = c) ∧ m ≠ s ∧
      v[m]? = some xm ∧ v[s]? = some xs ∧ comp xs xm = false ∧
      move_median_to_first comp v result a b c = iter_swap v result m := by
  unfold move_median_to_first
  simp only [ha, hb, hc]
  by_cases h1 : comp xa xb = true
  · by_cases h2 : comp xb xc = true
    · exact ⟨b, c, xb, xc, by simp, by simp, hbc, hb, hc, sw_asymm hsw h2,
        by rw [if_pos h1, if_pos h2]⟩
    · by_cases h3 : comp xa xc = true
      · exact ⟨c, b, xc, xb, by simp, by simp, fun h => hbc h.symm, hc, hb, by simpa using h2,
          by rw [if_pos h1, if_neg h2, if_pos h3]⟩
      · exact ⟨a, b, xa, xb, by simp, by simp, hab, ha, hb, sw_asymm hsw h1,
          by rw [if_pos h1, if_neg h2, if_neg h3]⟩
  · by_cases h3 : comp xa xc = true
    · exact ⟨a, c, xa, xc, by simp, by simp, hac, ha, hc, sw_asymm hsw h3,
        by rw [if_neg h1, if_pos h3]⟩
    · by_cases h2 : comp xb xc = true
      · exact ⟨c, a, xc, xa, by simp, by simp, fun h => hac h.symm, hc, ha, by simpa using h3,
          by rw [if_neg h1, if_neg h3, if_pos h2]⟩
      · exact ⟨b, a, xb, xa, by simp, by simp, fun h => hab h.symm, hb, ha, by simpa using h1,
          by rw [if_neg h1, if_neg h3, if_neg h2]⟩

/-- `std::__unguarded_partition_pivot` on a range of at least four elements: it
returns a cut strictly inside the range, having rearranged the range so that, for
some pivot, nothing before the cut exceeds the pivot and nothing from the cut on
is less than it. -/
theorem unguarded_partition_pivot_spec {α : Type} (comp : α → α → Bool) (hsw : StrictWeak comp)
    (v : List α) (first last : Nat) (hsize : first + 4 ≤ last) (hlen : last ≤ v.length) :
    ∃ v' cut p, unguarded_partition_pivot comp v first last = some (v', cut) ∧
      Reorder first last v v' ∧ first < cut ∧ cut < last ∧
      (∀ i x, first ≤ i → i < cut → v'[i]? = some x → comp p x = false) ∧
      (∀ i x, cut ≤ i → i < last → v'[i]? = some x → comp x p = false) := by
  obtain ⟨xa, ha⟩ := getElem?_of_lt v (first + 1) (by omega)
  obtain ⟨xb, hb⟩ := getElem?_of_lt v (first + (last - first) / 2) (by omega)
  obtain ⟨xc, hc⟩ := getElem?_of_lt v (last - 1) (by omega)
  obtain ⟨xf, hf⟩ := getElem?_of_lt v first (by omega)
  obtain ⟨m, s, xm, xs, hm, hs, hms, hxm, hxs, hcomp, hmed⟩ :=
    move_median_spec comp hsw v first (first + 1) (first + (last - first) / 2) (last - 1)
      xa xb xc ha hb hc (by omega) (by omega) (by omega)
  have hmr : first < m ∧ m < last := by omega
  have hsr : first < s ∧ s < last := by omega
  have hswap := iter_swap_some v first m xf xm hf hxm
  have hget := swap_getElem? v first m
  have hre1 : Reorder first last v ((v.set first xm).set m xf) :=
    reorder_swap hswap (le_refl _) (by omega) (by omega) (by omega)
  obtain ⟨v', cut, hpart, hre2, hc1, hc2, hleft, hright⟩ :=
    unguarded_partition_spec comp hsw first last xm (last - first)
      ((v.set first xm).set m xf) (first + 1) last
      (by rw [hget first xf xm hf hxm, if_neg (by omega), if_pos rfl])
      (by omega) (by omega) (le_refl _) (by simpa using hlen)
      ⟨s, xs, by omega, by omega,
        by rw [hget s xf xm hf hxm, if_neg (fun h => hms h.symm), if_neg (by omega)]; exact hxs,
        hcomp⟩
      (fun i x h1 h2 _ => by omega) (fun i x h1 h2 _ => by omega) (by omega)
  refine ⟨v', cut, xm, ?_, reorder_trans hre1 (reorder_mono hre2 (by omega) (le_refl _)),
    by omega, hc2, fun i x hfi hic hx => ?_, hright⟩
  · unfold unguarded_partition_pivot
    simp only [hmed, hswap, hpart]
  · by_cases hif : i = first
    · subst hif
      rw [hre2.2.1 i (Or.inl (by omega)), hget i xf xm hf hxm, if_neg (by omega),
        if_pos rfl] at hx
      cases hx
      exact hsw.1 _
    · exact hleft i x (by omega) hic hx

/-! ## The library's `std::sort`: insertion -/

theorem getElem?_append_cons {α : Type} (pre : List α) (x : α) (post : List α) :
    (pre ++ x :: post)[pre.length]? = some x := by
  rw [List.getElem?_append_right (le_refl _)]
  simp

/-- The loop of `std::__unguarded_linear_insert` on a vector `pre ++ h :: post` with the
hole at `h`: when some element of `pre` is not greater than `val`, the loop stops
behind the last such element `x` and leaves `val` there, the elements after `x`
moved one place up. -/
theorem uli_loop_spec {α : Type} (comp : α → α → Bool) (val : α) (pre : List α) (h : α)
    (post : List α) (hs : ∃ e, e ∈ pre ∧ comp val e = false) :
    ∃ l x r, pre = l ++ x :: r ∧ comp val x = false ∧ (∀ y, y ∈ r → comp val y = true) ∧
      unguarded_linear_insert_loop comp val (pre ++ h :: post) pre.length
        = some (l ++ x :: val :: (r ++ post)) := by
  induction pre using List.reverseRecOn generalizing h post with
  | nil =>
    obtain ⟨e, he, _⟩ := hs
    cases he
  | append_singleton pre x ih =>
    have hlen : (pre ++ [x]).length = pre.length + 1 := by simp
    have hget : (pre ++ [x] ++ h :: post)[pre.length]? = some x := by
      rw [List.append_assoc]
      exact getElem?_append_cons pre x (h :: post)
    rw [hlen]
    unfold unguarded_linear_insert_loop
    simp only [hget]
    by_cases hc : comp val x = true
    · rw [if_pos hc]
      have hset : (pre ++ [x] ++ h :: post).set (pre.length + 1) x = pre ++ x :: (x :: post) := by
        rw [List.append_assoc, List.set_append_right _ _ (by omega)]
        simp
      rw [hset]
      obtain ⟨l, x', r, hpre, hx', hr, hres⟩ := ih x (x :: post) (by
        obtain ⟨e, he, hec⟩ := hs
        rcases List.mem_append.mp he with h1 | h1
        · exact ⟨e, h1, hec⟩
        · rw [List.mem_singleton.mp h1, hc] at hec
          cases hec)
      refine ⟨l, x', r ++ [x], by rw [hpre]; simp, hx', fun y hy => ?_, ?_⟩
      · rcases List.mem_append.mp hy with h1 | h1
        · exact hr y h1
        · rw [List.mem_singleton.mp h1]
          exact hc
      · rw [hres]
        simp
    · rw [if_neg hc]
      refine ⟨pre, x, [], rfl, by simpa using hc, fun y hy => absurd hy (List.not_mem_nil y), ?_⟩
      rw [List.append_assoc, List.set_append_right _ _ (by omega)]
      simp

/-- Inserting `val` behind the last element not greater than it keeps a sorted list
sorted. -/
theorem insert_sorted {α : Type} (comp : α → α → Bool) (hsw : StrictWeak comp) (val : α)
    (l r : List α) (x : α)
    (hsorted : (l ++ x :: r).Pairwise (fun a b => comp b a = false))
    (hx : comp val x = false) (hr : ∀ y, y ∈ r → comp val y = true) :
    (l ++ x :: val :: r).Pairwise (fun a b => comp b a = false) := by
  rw [List.pairwise_append] at hsorted ⊢
  obtain ⟨hl, hxr, hcross⟩ := hsorted
  rw [List.pairwise_cons] at hxr
  refine ⟨hl, ?_, fun a ha b hb => ?_⟩
  · rw [List.pairwise_cons, List.pairwise_cons]
    refine ⟨fun b hb => ?_, fun b hb => sw_asymm hsw (hr b hb), hxr.2⟩
    rcases List.mem_cons.mp hb with h1 | h1
    · rw [h1]
      exact hx
    · exact hxr.1 b h1
  · rcases List.mem_cons.mp hb with h1 | h1
    · rw [h1]
      exact hcross a ha x (List.mem_cons_self _ _)
    · rcases List.mem_cons.mp h1 with h2 | h2
      · rw [h2]
        exact sw_le_trans hsw (hcross a ha x (List.mem_cons_self _ _)) hx
      · exact hcross a ha b (List.mem_cons_of_mem _ h2)

/-- `std::__unguarded_linear_insert` at the end of a sorted prefix that holds an element
not greater than the one inserted: the prefix grows by that element and stays
sorted; nothing behind it moves. -/
theorem uli_spec {α : Type} (comp : α → α → Bool) (hsw : StrictWeak comp) (val : α)
    (pre post : List α) (hsorted : pre.Pairwise (fun a b => comp b a = false))
    (hs : ∃ e, e ∈ pre ∧ comp val e = false) :
    ∃ pre', unguarded_linear_insert comp (pre ++ val :: post) pre.length = some (pre' ++ post) ∧
      pre'.Perm (pre ++ [val]) ∧ pre'.Pairwise (fun a b => comp b a = false) ∧
      pre'.length = pre.length + 1 := by
  obtain ⟨l, x, r, hpre, hx, hr, hres⟩ := uli_loop_spec comp val pre val post hs
  refine ⟨l ++ x :: val :: r, ?_, ?_, ?_, ?_⟩
  · unfold unguarded_linear_insert
    have hget : (pre ++ val :: post)[pre.length]? = some val :=
      getElem?_append_cons pre val post
    simp only [hget, hres]
    simp
  · rw [hpre]
    have h1 : (l ++ x :: val :: r).Perm (l ++ x :: (r ++ [val])) := by
      apply List.Perm.append_left
      apply List.Perm.cons
      exact (List.perm_append_singleton val r).symm
    simpa using h1
  · rw [hpre] at hsorted
    exact insert_sorted comp hsw val l r x hsorted hx hr
  · rw [hpre]
    simp only [List.length_append, List.length_cons]
    omega

/-- The state of the insertion loops before index `i` is handled: the prefix `[0, i)`
is sorted and holds the elements of the input's prefix, the rest is the input's. -/
theorem insertion_inv_split {α : Type} (v w : List α) (i : Nat) (hi : i < v.length)
    (hdrop : w.drop i = v.drop i) (hlen : w.length = v.length) :
    ∃ val, v[i]? = some val ∧ w[i]? = some val ∧ w = w.take i ++ val :: w.drop (i + 1) ∧
      w.drop (i + 1) = v.drop (i + 1) ∧ v.take (i + 1) = v.take i ++ [val] := by
  have hv : v[i]? = some v[i] := List.getElem?_eq_getElem hi
  have hw : w[i]? = some v[i] := by
    have h1 : (w.drop i)[0]? = (v.drop i)[0]? := by rw [hdrop]
    rw [List.getElem?_drop, List.getElem?_drop] at h1
    simpa [hv] using h1
  have hiw : i < w.length := by omega
  have hwi : w[i] = v[i] := by
    rw [List.getElem?_eq_getElem hiw] at hw
    exact Option.some.inj hw
  have hd1 : w.drop (i + 1) = v.drop (i + 1) := by
    have := congrArg (List.drop 1) hdrop
    simpa [List.drop_drop, Nat.add_comm] using this
  refine ⟨v[i], hv, hw, ?_, hd1, ?_⟩
  · conv_lhs => rw [← List.take_append_drop i w]
    rw [List.drop_eq_getElem_cons hiw, hwi]
  · rw [List.take_succ, hv]
    rfl

/-- One unguarded insertion at index `i`, with an element not greater than `v[i]` in
the prefix. -/
theorem uinsert_step {α : Type} (comp : α → α → Bool) (hsw : StrictWeak comp)
    (v w : List α) (i : Nat) (hi : i < v.length)
    (hsorted : (w.take i).Pairwise (fun a b => comp b a = false))
    (hperm : (w.take i).Perm (v.take i)) (hdrop : w.drop i = v.drop i)
    (hlen : w.length = v.length)
    (hs : ∀ val, v[i]? = some val → ∃ e, e ∈ w.take i ∧ comp val e = false) :
    ∃ w', unguarded_linear_insert comp w i = some w' ∧
      (w'.take (i + 1)).Pairwise (fun a b => comp b a = false) ∧
      (w'.take (i + 1)).Perm (v.take (i + 1)) ∧ w'.drop (i + 1) = v.drop (i + 1) ∧
      w'.length = v.length := by
  obtain ⟨val, hv, hw, hsplit, hd1, htake⟩ := insertion_inv_split v w i hi hdrop hlen
  have hlt : (w.take i).length = i := by
    rw [List.length_take]
    omega
  obtain ⟨pre', hres, hp, hsrt, hl⟩ :=
    uli_spec comp hsw val (w.take i) (w.drop (i + 1)) hsorted (hs val hv)
  rw [hlt, ← hsplit] at hres
  have hl' : pre'.length = i + 1 := by omega
  refine ⟨pre' ++ w.drop (i + 1), hres, ?_, ?_, ?_, ?_⟩
  · rw [List.take_left' hl']
    exact hsrt
  · rw [List.take_left' hl', htake]
    exact hp.trans (List.Perm.append_right _ hperm)
  · rw [List.drop_left' hl']
    exact hd1
  · rw [List.length_append, hl', List.length_drop]
    omega

/-- One iteration of the loop of `std::__insertion_sort` started at index `0`. -/
theorem insert_step {α : Type} (comp : α → α → Bool) (hsw : StrictWeak comp)
    (v w : List α) (i : Nat) (hi0 : 1 ≤ i) (hi : i < v.length)
    (hsorted : (w.take i).Pairwise (fun a b => comp b a = false))
    (hperm : (w.take i).Perm (v.take i)) (hdrop : w.drop i = v.drop i)
    (hlen : w.length = v.length) :
    ∃ w', (match w[i]?, w[0]? with
        | some val, some x =>
          if comp val x then
            some (w.take 0 ++ val :: ((w.take i).drop 0 ++ w.drop (i + 1)))
          else unguarded_linear_insert comp w i
        | _, _ => none) = some w' ∧
      (w'.take (i + 1)).Pairwise (fun a b => comp b a = false) ∧
      (w'.take (i + 1)).Perm (v.take (i + 1)) ∧ w'.drop (i + 1) = v.drop (i + 1) ∧
      w'.length = v.length := by
  obtain ⟨val, hv, hw, hsplit, hd1, htake⟩ := insertion_inv_split v w i hi hdrop hlen
  obtain ⟨x, hx⟩ := getElem?_of_lt w 0 (by omega)
  have hlt : (w.take i).length = i := by
    rw [List.length_take]
    omega
  have hxmem : x ∈ w.take i := by
    apply List.getElem?_mem (n := 0)
    rw [List.getElem?_take, if_pos (by omega)]
    exact hx
  simp only [hw, hx]
  by_cases hc : comp val x = true
  · rw [if_pos hc]
    have hl' : (val :: w.take i).length = i + 1 := by simp [hlt]
    refine ⟨val :: (w.take i ++ w.drop (i + 1)), by simp, ?_, ?_, ?_, ?_⟩
    · rw [← List.cons_append, List.take_left' hl', List.pairwise_cons]
      refine ⟨fun a ha => ?_, hsorted⟩
      have hxa : comp a x = false := by
        obtain ⟨k, hk⟩ := List.getElem?_of_mem ha
        have hk' := hk
        rw [List.getElem?_take] at hk
        by_cases hk0 : k = 0
        · subst hk0
          have h0 : (w.take i)[0]? = some x := by
            rw [List.getElem?_take, if_pos (by omega)]
            exact hx
          rw [h0] at hk'
          cases hk'
          exact hsw.1 _
        · have h0 : (w.take i)[0]? = some x := by
            rw [List.getElem?_take, if_pos (by omega)]
            exact hx
          obtain ⟨hk1, hk2⟩ := List.getElem?_eq_some_iff.mp hk'
          obtain ⟨h01, h02⟩ := List.getElem?_eq_some_iff.mp h0
          have := List.pairwise_iff_getElem.mp hsorted 0 k h01 hk1 (by omega)
          rw [h02, hk2] at this
          exact this
      exact sw_le_trans hsw (sw_asymm hsw hc) hxa
    · rw [← List.cons_append, List.take_left' hl', htake]
      exact (List.Perm.cons val hperm).trans (List.perm_append_singleton val _).symm
    · rw [← List.cons_append, List.drop_left' hl']
      exact hd1
    · simp only [List.length_cons, List.length_append, hlt, List.length_drop]
      omega
  · rw [if_neg hc]
    exact uinsert_step comp hsw v w i hi hsorted hperm hdrop hlen
      (fun val' hval' => by
        rw [hv] at hval'
        cases hval'
        exact ⟨x, hxmem, by simpa using hc⟩)

/-- `std::__insertion_sort(begin, begin + m)`: the first `m` elements sorted, the rest
untouched. -/
theorem insertion_sort_spec {α : Type} (comp : α → α → Bool) (hsw : StrictWeak comp)
    (v : List α) (m : Nat) (hm : m ≤ v.length) :
    ∃ w, insertion_sort comp v 0 m = some w ∧
      (w.take m).Pairwise (fun a b => comp b a = false) ∧
      (w.take m).Perm (v.take m) ∧ w.drop m = v.drop m ∧ w.length = v.length := by
  unfold insertion_sort
  by_cases h0 : 0 = m
  · subst h0
    rw [if_pos rfl]
    exact ⟨v, rfl, by simp, by simp, rfl, rfl⟩
  · rw [if_neg h0]
    unfold rangeLoop
    have key := forLoop_invariant
      (fun k (s : Option (List α)) => ∃ w, s = some w ∧
        (w.take (0 + 1 + k)).Pairwise (fun a b => comp b a = false) ∧
        (w.take (0 + 1 + k)).Perm (v.take (0 + 1 + k)) ∧
        w.drop (0 + 1 + k) = v.drop (0 + 1 + k) ∧ w.length = v.length)
      (m - (0 + 1))
      (fun k (acc : Option (List α)) =>
        match acc with
        | none => none
        | some w =>
          match w[0 + 1 + k]?, w[0]? with
          | some val, some x =>
            if comp val x then
              some (w.take 0 ++ val :: ((w.take (0 + 1 + k)).drop 0 ++ w.drop (0 + 1 + k + 1)))
            else unguarded_linear_insert comp w (0 + 1 + k)
          | _, _ => none)
      (some v)
      ⟨v, rfl, by
        cases v with
        | nil => simp
        | cons a as => simp, List.Perm.refl _, rfl, rfl⟩
      (fun k hk t ⟨w, ht, hsorted, hperm, hdrop, hlen⟩ => by
        subst ht
        obtain ⟨w', hw', h1, h2, h3, h4⟩ :=
          insert_step comp hsw v w (0 + 1 + k) (by omega) (by omega) hsorted hperm hdrop hlen
        exact ⟨w', hw', h1, h2, h3, h4⟩)
    obtain ⟨w, hw, h1, h2, h3, h4⟩ := key
    have hidx : 0 + 1 + (m - (0 + 1)) = m := by omega
    rw [hidx] at h1 h2 h3
    exact ⟨w, hw, h1, h2, h3, h4⟩

/-- `std::__unguarded_insertion_sort(begin + m, end)` behind a sorted prefix, when every
element from `m` on has an element not greater than it before `m`. -/
theorem unguarded_insertion_sort_spec {α : Type} (comp : α → α → Bool) (hsw : StrictWeak comp)
    (v w0 : List α) (m : Nat) (hm : m ≤ v.length)
    (hsorted : (w0.take m).Pairwise (fun a b => comp b a = false))
    (hperm : (w0.take m).Perm (v.take m)) (hdrop : w0.drop m = v.drop m)
    (hlen : w0.length = v.length)
    (hs : ∀ i val, m ≤ i → v[i]? = some val → ∃ e, e ∈ v.take m ∧ comp val e = false) :
    ∃ w, unguarded_insertion_sort comp w0 m v.length = some w ∧
      w.Pairwise (fun a b => comp b a = false) ∧ w.Perm v := by
  unfold unguarded_insertion_sort rangeLoop
  have key := forLoop_invariant
    (fun k (s : Option (List α)) => ∃ w, s = some w ∧
      (w.take (m + k)).Pairwise (fun a b => comp b a = false) ∧
      (w.take (m + k)).Perm (v.take (m + k)) ∧
      w.drop (m + k) = v.drop (m + k) ∧ w.length = v.length)
    (v.length - m)
    (fun k (acc : Option (List α)) =>
      match acc with
      | none => none
      | some w => unguarded_linear_insert comp w (m + k))
    (some w0)
    ⟨w0, rfl, hsorted, hperm, hdrop, hlen⟩
    (fun k hk t ⟨w, ht, hsorted', hperm', hdrop', hlen'⟩ => by
      subst ht
      obtain ⟨w', hw', h1, h2, h3, h4⟩ :=
        uinsert_step comp hsw v w (m + k) (by omega) hsorted' hperm' hdrop' hlen'
          (fun val hval => by
            obtain ⟨e, he, hec⟩ := hs (m + k) val (by omega) hval
            have he' : e ∈ v.take (m + k) := by
              obtain ⟨j, hj⟩ := List.getElem?_of_mem he
              rw [List.getElem?_take] at hj
              split at hj
              · apply List.getElem?_mem (n := j)
                rw [List.getElem?_take, if_pos (by omega)]
                exact hj
              · cases hj
            exact ⟨e, hperm'.symm.subset he', hec⟩)
      exact ⟨w', hw', h1, h2, h3, h4⟩)
  obtain ⟨w, hw, h1, h2, h3, h4⟩ := key
  have hidx : m + (v.length - m) = v.length := by omega
  rw [hidx] at h1 h2
  rw [List.take_of_length_le (by omega)] at h1 h2
  rw [List.take_of_length_le (le_refl _)] at h2
  exact ⟨w, hw, h1, h2⟩

/-- `std::__final_insertion_sort(begin, end)` on a vector in which no element from
index 16 on is less than the first element: the vector sorted. -/
theorem final_insertion_sort_spec {α : Type} (comp : α → α → Bool) (hsw : StrictWeak comp)
    (v : List α)
    (hgap : ∀ i x y, 16 ≤ i → v[i]? = some x → v[0]? = some y → comp x y = false) :
    ∃ w, final_insertion_sort comp v 0 v.length = some w ∧
      w.Pairwise (fun a b => comp b a = false) ∧ w.Perm v := by
  unfold final_insertion_sort
  by_cases hbig : v.length - 0 > 16
  · rw [if_pos hbig]
    obtain ⟨w0, hw0, h1, h2, h3, h4⟩ := insertion_sort_spec comp hsw v (0 + 16) (by omega)
    rw [hw0]
    simp only
    obtain ⟨y, hy⟩ := getElem?_of_lt v 0 (by omega)
    exact unguarded_insertion_sort_spec comp hsw v w0 (0 + 16) (by omega) h1 h2 h3 h4
      (fun i val hi hval => ⟨y, by
        apply List.getElem?_mem (n := 0)
        rw [List.getElem?_take, if_pos (by omega)]
        exact hy, hgap i val y (by omega) hval hy⟩)
  · rw [if_neg hbig]
    obtain ⟨w, hw, h1, h2, h3, h4⟩ := insertion_sort_spec comp hsw v v.length (le_refl _)
    rw [List.take_of_length_le (by omega)] at h1 h2
    rw [List.take_of_length_le (le_refl _)] at h2
    exact ⟨w, hw, h1, h2⟩

/-! ## The library's `std::sort`: the heap sort it falls back on -/

theorem anc_ge {top h : Nat} (ha : Anc top h) : top ≤ h := by
  induction ha with
  | refl => exact le_refl _
  | left _ ih => omega
  | right _ ih => omega

theorem anc_parent {top h : Nat} (ha : Anc top h) (hlt : top < h) : Anc top ((h - 1) / 2) := by
  cases ha with
  | refl => omega
  | left hk =>
    rename_i k
    have : (2 * k + 1 - 1) / 2 = k := by omega
    rw [this]
    exact hk
  | right hk =>
    rename_i k
    have : (2 * k + 2 - 1) / 2 = k := by omega
    rw [this]
    exact hk

theorem getElem?_set_eq_ite {α : Type} (v : List α) (i k : Nat) (x : α) (hi : i < v.length) :
    (v.set i x)[k]? = if k = i then some x else v[k]? := by
  by_cases hk : k = i
  · subst hk
    rw [if_pos rfl, List.getElem?_set_self hi]
  · rw [if_neg hk, List.getElem?_set_ne (fun h => hk h.symm)]

/-- The last statement of `std::__push_heap`: `value` goes into the hole `h`, when it is
not less than the children of `h` and not greater than the parent of `h`. -/
theorem push_heap_final {α : Type} (comp : α → α → Bool) (v : List α)
    (first top len h : Nat) (value : α) (hh : h < len) (hlen : first + len ≤ v.length)
    (hheap : HeapFrom comp v first len top)
    (hchild : ∀ c y, c = 2 * h + 1 ∨ c = 2 * h + 2 → c < len → v[first + c]? = some y →
      comp value y = false)
    (hparent : top < h → ∀ pv, v[first + (h - 1) / 2]? = some pv → comp pv value = false) :
    HeapFrom comp (v.set (first + h) value) first len top := by
  intro k x y hk1 hkl hlo hx hy
  rw [getElem?_set_eq_ite v _ _ _ (by omega)] at hx hy
  by_cases hkh : k = h
  · subst hkh
    rw [if_pos rfl] at hy
    cases hy
    rw [if_neg (by omega)] at hx
    exact hparent (by omega) x hx
  · rw [if_neg (by omega)] at hy
    by_cases hph : (k - 1) / 2 = h
    · rw [if_pos (by omega)] at hx
      cases hx
      exact hchild k y (by omega) hkl hy
    · rw [if_neg (by omega)] at hx
      exact hheap k x y hk1 hkl hlo hx hy

/-- The loop of `std::__push_heap` from a hole `h` below `top`: `value` ends in a hole
on the way up, the heap property holds from `top` on, and the vector holds
`value` in place of what stood in the hole. -/
theorem push_heap_spec {α : Type} (comp : α → α → Bool) (hsw : StrictWeak comp)
    (first top len : Nat) (value : α) (fuel : Nat) (v : List α) (h : Nat)
    (hanc : Anc top h) (hh : h < len) (hlen : first + len ≤ v.length)
    (hheap : HeapFrom comp v first len top)
    (hchild : ∀ c y, c = 2 * h + 1 ∨ c = 2 * h + 2 → c < len → v[first + c]? = some y →
      comp value y = false)
    (hfuel : h < fuel) :
    ∃ v', push_heap comp first top value fuel v h = some v' ∧ v'.length = v.length ∧
      (∀ i, i < first + top ∨ first + len ≤ i → v'[i]? = v[i]?) ∧
      HeapFrom comp v' first len top ∧
      ∀ (p : α → Bool) (u : α), v[first + h]? = some u →
        v'.countP p + (if p u then 1 else 0) = v.countP p + (if p value then 1 else 0) := by
  induction fuel generalizing v h with
  | zero => omega
  | succ fuel ih =>
    have hth := anc_ge hanc
    obtain ⟨u0, hu0⟩ := getElem?_of_lt v (first + h) (by omega)
    have hfinal : ∀ (hpar : top < h → ∀ pv, v[first + (h - 1) / 2]? = some pv →
        comp pv value = false),
        ∃ v', writeAt v (first + h) value = some v' ∧ v'.length = v.length ∧
          (∀ i, i < first + top ∨ first + len ≤ i → v'[i]? = v[i]?) ∧
          HeapFrom comp v' first len top ∧
          ∀ (p : α → Bool) (u : α), v[first + h]? = some u →
            v'.countP p + (if p u then 1 else 0)
              = v.countP p + (if p value then 1 else 0) := by
      intro hpar
      refine ⟨v.set (first + h) value, writeAt_some v _ _ (by omega), by simp,
        fun i hi => ?_,
        push_heap_final comp v first top len h value hh hlen hheap hchild hpar,
        fun p u hu => countP_set p v _ value u hu⟩
      rw [getElem?_set_eq_ite v _ _ _ (by omega), if_neg (by omega)]
    unfold push_heap
    simp only
    by_cases hgt : h > top
    · rw [if_pos hgt]
      obtain ⟨pv, hpv⟩ := getElem?_of_lt v (first + (h - 1) / 2) (by omega)
      simp only [hpv]
      by_cases hc : comp pv value = true
      · rw [if_pos hc, writeAt_some v _ _ (by omega)]
        simp only
        have hq := anc_parent hanc hgt
        have hqt := anc_ge hq
        have hget : ∀ k, (v.set (first + h) pv)[k]? = if k = first + h then some pv else v[k]? :=
          fun k => getElem?_set_eq_ite v (first + h) k pv (by omega)
        obtain ⟨v', hres, hl', hout', hheap', hcount'⟩ :=
          ih (v.set (first + h) pv) ((h - 1) / 2) hq (by omega) (by simpa using hlen)
            (fun k x y hk1 hkl hlo hx hy => by
              rw [hget] at hx hy
              by_cases hkh : k = h
              · subst hkh
                rw [if_pos rfl] at hy
                cases hy
                rw [if_neg (by omega), hpv] at hx
                cases hx
                exact hsw.1 _
              · rw [if_neg (by omega)] at hy
                by_cases hph : (k - 1) / 2 = h
                · rw [if_pos (by omega)] at hx
                  cases hx
                  have h1 : comp pv u0 = false :=
                    hheap h pv u0 (by omega) hh (by omega) hpv hu0
                  have h2 : comp u0 y = false :=
                    hheap k u0 y hk1 hkl hlo (by rw [hph]; exact hu0) hy
                  exact sw_le_trans hsw h2 h1
                · rw [if_neg (by omega)] at hx
                  exact hheap k x y hk1 hkl hlo hx hy)
            (fun c y hc' hcl hy => by
              rw [hget] at hy
              by_cases hch : c = h
              · rw [if_pos (by omega)] at hy
                cases hy
                exact sw_asymm hsw hc
              · rw [if_neg (by omega)] at hy
                have h1 : comp pv y = false :=
                  hheap c pv y (by omega) hcl (by omega)
                    (by rw [show (c - 1) / 2 = (h - 1) / 2 by omega]; exact hpv) hy
                exact sw_le_of_le_of_lt hsw hc h1)
            (by omega)
        refine ⟨v', hres, by simpa using hl', fun i hi => ?_, hheap', fun p u hu => ?_⟩
        · rw [hout' i hi, hget, if_neg (by omega)]
        · have h1 := hcount' p pv (by rw [hget, if_neg (by omega)]; exact hpv)
          have h2 := countP_set p v (first + h) pv u hu
          omega
      · rw [if_neg hc]
        exact hfinal (fun _ pv' hpv' => by
          rw [hpv] at hpv'
          cases hpv'
          simpa using hc)
    · rw [if_neg hgt]
      exact hfinal (fun hlt => absurd hlt hgt)

/-- One step of the first loop of `std::__adjust_heap`: the larger child `z` of the hole
`h` moves into the hole, and the heap property then holds from `top` on. -/
theorem descend_step_heap {α : Type} (comp : α → α → Bool) (hsw : StrictWeak comp)
    (v : List α) (first top len h : Nat) (z x1 x2 : α) (hth : top ≤ h)
    (h2 : 2 * h + 2 < len) (hlen : first + len ≤ v.length)
    (hheap : HeapFrom comp v first len (if h = top then top + 1 else top))
    (hx1 : v[first + (2 * h + 1)]? = some x1) (hx2 : v[first + (2 * h + 2)]? = some x2)
    (hz1 : comp z x1 = false) (hz2 : comp z x2 = false)
    (hz : ∃ c, (c = 2 * h + 1 ∨ c = 2 * h + 2) ∧ v[first + c]? = some z) :
    HeapFrom comp (v.set (first + h) z) first len top := by
  intro k x y hk1 hkl hlo hx hy
  rw [getElem?_set_eq_ite v _ _ _ (by omega)] at hx hy
  obtain ⟨u0, hu0⟩ := getElem?_of_lt v (first + h) (by omega)
  by_cases hkh : k = h
  · subst hkh
    rw [if_pos rfl] at hy
    cases hy
    rw [if_neg (by omega)] at hx
    have hne : k ≠ top := by omega
    rw [if_neg hne] at hheap
    have e1 : comp x u0 = false := hheap k x u0 hk1 hkl hlo hx hu0
    obtain ⟨c, hc, hcz⟩ := hz
    have e2 : comp u0 z = false :=
      hheap c u0 z (by omega) (by omega) (by omega)
        (by rw [show (c - 1) / 2 = k by omega]; exact hu0) hcz
    exact sw_le_trans hsw e2 e1
  · rw [if_neg (by omega)] at hy
    by_cases hph : (k - 1) / 2 = h
    · rw [if_pos (by omega)] at hx
      cases hx
      have hk : k = 2 * h + 1 ∨ k = 2 * h + 2 := by omega
      rcases hk with hk | hk
      · subst hk
        rw [hx1] at hy
        cases hy
        exact hz1
      · subst hk
        rw [hx2] at hy
        cases hy
        exact hz2
    · rw [if_neg (by omega)] at hx
      by_cases hht : h = top
      · rw [if_pos hht] at hheap
        exact hheap k x y hk1 hkl (by omega) hx hy
      · rw [if_neg hht] at hheap
        exact hheap k x y hk1 hkl hlo hx hy

/-- The first loop of `std::__adjust_heap` from the hole `h`: the hole goes down to a
node `h'` without two children; afterwards the heap property holds from `top`
on unless the hole has not moved, and the vector holds what stood in `h'` in place
of what stood in `h`. -/
theorem adjust_heap_descend_spec {α : Type} (comp : α → α → Bool) (hsw : StrictWeak comp)
    (first top len : Nat) (fuel : Nat) (v : List α) (h : Nat)
    (hanc : Anc top h) (hh : h < len) (hlen : first + len ≤ v.length)
    (hheap : HeapFrom comp v first len (if h = top then top + 1 else top))
    (hfuel : len - h ≤ fuel) :
    ∃ v' h', adjust_heap_descend comp first len fuel v h h = some (v', h', h') ∧
      Anc top h' ∧ h' < len ∧ ¬ (h' < (len - 1) / 2) ∧ v'.length = v.length ∧
      (∀ i, i < first + top ∨ first + len ≤ i → v'[i]? = v[i]?) ∧
      HeapFrom comp v' first len (if h' = top then top + 1 else top) ∧
      ∀ (p : α → Bool) (u u' : α), v[first + h]? = some u → v'[first + h']? = some u' →
        v'.countP p + (if p u then 1 else 0) = v.countP p + (if p u' then 1 else 0) := by
  induction fuel generalizing v h with
  | zero => omega
  | succ fuel ih =>
    have hth := anc_ge hanc
    unfold adjust_heap_descend
    by_cases hlt : h < (len - 1) / 2
    · rw [if_pos hlt]
      obtain ⟨x, hx⟩ := getElem?_of_lt v (first + 2 * (h + 1)) (by omega)
      obtain ⟨y, hy⟩ := getElem?_of_lt v (first + (2 * (h + 1) - 1)) (by omega)
      simp only [hx, hy]
      rw [writeAt_some v _ _ (by omega)]
      simp only
      have hx2 : v[first + (2 * h + 2)]? = some x := by
        rw [show 2 * h + 2 = 2 * (h + 1) by omega]
        exact hx
      have hx1 : v[first + (2 * h + 1)]? = some y := by
        rw [show 2 * h + 1 = 2 * (h + 1) - 1 by omega]
        exact hy
      have hstep : ∀ (c : Nat) (z : α), (c = 2 * h + 1 ∨ c = 2 * h + 2) →
          v[first + c]? = some z → comp z y = false → comp z x = false →
          ∃ v' h', adjust_heap_descend comp first len fuel (v.set (first + h) z) c c
              = some (v', h', h') ∧
            Anc top h' ∧ h' < len ∧ ¬ (h' < (len - 1) / 2) ∧ v'.length = v.length ∧
            (∀ i, i < first + top ∨ first + len ≤ i → v'[i]? = v[i]?) ∧
            HeapFrom comp v' first len (if h' = top then top + 1 else top) ∧
            ∀ (p : α → Bool) (u u' : α), v[first + h]? = some u →
              v'[first + h']? = some u' →
              v'.countP p + (if p u then 1 else 0)
                = v.countP p + (if p u' then 1 else 0) := by
        intro c z hc hcz hzy hzx
        have hget : ∀ k, (v.set (first + h) z)[k]?
            = if k = first + h then some z else v[k]? :=
          fun k => getElem?_set_eq_ite v (first + h) k z (by omega)
        have hancc : Anc top c := by
          rcases hc with hc | hc
          · rw [hc]
            exact Anc.left hanc
          · rw [hc]
            exact Anc.right hanc
        obtain ⟨v', h', hres, ha', hl', hex', hlen', hout', hheap', hcount'⟩ :=
          ih (v.set (first + h) z) c hancc (by omega) (by simpa using hlen)
            (by
              rw [if_neg (by omega)]
              exact descend_step_heap comp hsw v first top len h z y x hth (by omega) hlen
                hheap hx1 hx2 hzy hzx ⟨c, hc, hcz⟩)
            (by omega)
        refine ⟨v', h', hres, ha', hl', hex', by simpa using hlen', fun i hi => ?_, hheap',
          fun p u u' hu hu' => ?_⟩
        · rw [hout' i hi, hget, if_neg (by omega)]
        · have e1 := hcount' p z u' (by rw [hget, if_neg (by omega)]; exact hcz) hu'
          have e2 := countP_set p v (first + h) z u hu
          omega
      by_cases hxy : comp x y = true
      · simp only [hxy, if_true]
        exact hstep (2 * (h + 1) - 1) y (by omega) hy (hsw.1 y) (sw_asymm hsw hxy)
      · simp only [hxy, Bool.false_eq_true, if_false]
        exact hstep (2 * (h + 1)) x (by omega) hx (by simpa using hxy) (hsw.1 x)
    · rw [if_neg hlt]
      refine ⟨v, h, rfl, hanc, hh, hlt, rfl, fun _ _ => rfl, hheap, fun p u u' hu hu' => ?_⟩
      rw [hu] at hu'
      cases hu'
      rfl

/-- `std::__adjust_heap(first, top, len, value)` on a vector whose heap property holds
below `top`: afterwards it holds from `top` on, and the vector holds `value` in
place of what stood at `top`; nothing outside the `len - top` elements from `top`
on is touched. -/
theorem adjust_heap_spec {α : Type} (comp : α → α → Bool) (hsw : StrictWeak comp)
    (v : List α) (first top len : Nat) (value : α) (htl : top < len)
    (hlen : first + len ≤ v.length) (hheap : HeapFrom comp v first len (top + 1)) :
    ∃ v', adjust_heap comp v first top len value = some v' ∧ v'.length = v.length ∧
      (∀ i, i < first + top ∨ first + len ≤ i → v'[i]? = v[i]?) ∧
      HeapFrom comp v' first len top ∧
      ∀ (p : α → Bool) (u : α), v[first + top]? = some u →
        v'.countP p + (if p u then 1 else 0) = v.countP p + (if p value then 1 else 0) := by
  obtain ⟨v1, h1, hdesc, hanc1, hh1, hex1, hlen1, hout1, hheap1, hcount1⟩ :=
    adjust_heap_descend_spec comp hsw first top len len v top Anc.refl htl hlen
      (by rw [if_pos rfl]; exact hheap) (by omega)
  have hth1 := anc_ge hanc1
  obtain ⟨u1, hu1⟩ := getElem?_of_lt v1 (first + h1) (by omega)
  unfold adjust_heap
  simp only [hdesc]
  by_cases hspecial : len % 2 = 0 ∧ 2 ≤ len ∧ h1 = (len - 2) / 2
  · rw [if_pos hspecial]
    obtain ⟨hev, hlen2, hh1eq⟩ := hspecial
    obtain ⟨y, hy⟩ := getElem?_of_lt v1 (first + (2 * (h1 + 1) - 1)) (by omega)
    simp only [hy]
    rw [writeAt_some v1 _ _ (by omega)]
    simp only
    have hget : ∀ k, (v1.set (first + h1) y)[k]?
        = if k = first + h1 then some y else v1[k]? :=
      fun k => getElem?_set_eq_ite v1 (first + h1) k y (by omega)
    have hc : 2 * (h1 + 1) - 1 = 2 * h1 + 1 := by omega
    obtain ⟨v', hres, hl', hout', hheap', hcount'⟩ :=
      push_heap_spec comp hsw first top len value (2 * (h1 + 1) - 1 + 1)
        (v1.set (first + h1) y) (2 * (h1 + 1) - 1)
        (by rw [hc]; exact Anc.left hanc1) (by omega) (by simp; omega)
        (fun k x z hk1 hkl hlo hx hz => by
          rw [hget] at hx hz
          by_cases hkh : k = h1
          · subst hkh
            rw [if_pos rfl] at hz
            cases hz
            rw [if_neg (by omega)] at hx
            rw [if_neg (by omega)] at hheap1
            have e1 : comp x u1 = false := hheap1 k x u1 hk1 hkl hlo hx hu1
            have e2 : comp u1 y = false :=
              hheap1 (2 * (k + 1) - 1) u1 y (by omega) (by omega) (by omega)
                (by rw [show (2 * (k + 1) - 1 - 1) / 2 = k by omega]; exact hu1) hy
            exact sw_le_trans hsw e2 e1
          · rw [if_neg (by omega)] at hz
            by_cases hph : (k - 1) / 2 = h1
            · rw [if_pos (by omega)] at hx
              cases hx
              have hk : k = 2 * (h1 + 1) - 1 := by omega
              subst hk
              rw [hy] at hz
              cases hz
              exact hsw.1 _
            · rw [if_neg (by omega)] at hx
              by_cases hht : h1 = top
              · rw [if_pos hht] at hheap1
                exact hheap1 k x z hk1 hkl (by omega) hx hz
              · rw [if_neg hht] at hheap1
                exact hheap1 k x z hk1 hkl hlo hx hz)
        (fun c z hc' hcl _ => by omega)
        (by omega)
    refine ⟨v', hres, by rw [hl']; simpa using hlen1, fun i hi => ?_, hheap',
      fun p u hu => ?_⟩
    · rw [hout' i hi, hget, if_neg (by omega)]
      exact hout1 i hi
    · have e1 := hcount' p y (by rw [hget, if_neg (by omega)]; exact hy)
      have e2 := countP_set p v1 (first + h1) y u1 hu1
      have e3 := hcount1 p u u1 hu hu1
      omega
  · rw [if_neg hspecial]
    obtain ⟨v', hres, hl', hout', hheap', hcount'⟩ :=
      push_heap_spec comp hsw first top len value (h1 + 1) v1 h1 hanc1 hh1
        (by rw [hlen1]; exact hlen)
        (fun k x z hk1 hkl hlo hx hz => by
          by_cases hht : h1 = top
          · rw [if_pos hht] at hheap1
            exact hheap1 k x z hk1 hkl (by omega) hx hz
          · rw [if_neg hht] at hheap1
            exact hheap1 k x z hk1 hkl hlo hx hz)
        (fun c z hc' hcl _ => by omega)
        (by omega)
    refine ⟨v', hres, by rw [hl']; exact hlen1, fun i hi => ?_, hheap', fun p u hu => ?_⟩
    · rw [hout' i hi]
      exact hout1 i hi
    · have e1 := hcount' p u1 hu1
      have e3 := hcount1 p u u1 hu hu1
      omega

/-- The loop of `std::__make_heap` from the node `q` down to the root. -/
theorem make_heap_loop_spec {α : Type} (comp : α → α → Bool) (hsw : StrictWeak comp)
    (first len : Nat) (q : Nat) (v : List α) (hq : q < len) (hlen : first + len ≤ v.length)
    (hheap : HeapFrom comp v first len (q + 1)) :
    ∃ v', make_heap_loop comp first len q v = some v' ∧
      Reorder first (first + len) v v' ∧ HeapFrom comp v' first len 0 := by
  induction q generalizing v with
  | zero =>
    obtain ⟨value, hvalue⟩ := getElem?_of_lt v (first + 0) (by omega)
    obtain ⟨v', hres, hl', hout', hheap', hcount'⟩ :=
      adjust_heap_spec comp hsw v first 0 len value hq hlen hheap
    refine ⟨v', ?_, ⟨hl', fun i hi => hout' i (by omega), fun p => ?_⟩, hheap'⟩
    · unfold make_heap_loop
      simp only [hvalue, hres]
    · have := hcount' p value hvalue
      omega
  | succ q ih =>
    obtain ⟨value, hvalue⟩ := getElem?_of_lt v (first + (q + 1)) (by omega)
    obtain ⟨v1, hres1, hl1, hout1, hheap1, hcount1⟩ :=
      adjust_heap_spec comp hsw v first (q + 1) len value hq hlen hheap
    obtain ⟨v', hres, hre, hheap'⟩ := ih v1 (by omega) (by rw [hl1]; exact hlen) hheap1
    refine ⟨v', ?_, reorder_trans ⟨hl1, fun i hi => hout1 i (by omega), fun p => ?_⟩ hre,
      hheap'⟩
    · unfold make_heap_loop
      simp only [hvalue, hres1, hres]
    · have := hcount1 p value hvalue
      omega

/-- `std::__make_heap(first, first + len)`: the range rearranged into a heap. -/
theorem make_heap_spec {α : Type} (comp : α → α → Bool) (hsw : StrictWeak comp)
    (v : List α) (first len : Nat) (hlen : first + len ≤ v.length) :
    ∃ v', make_heap comp v first (first + len) = some v' ∧
      Reorder first (first + len) v v' ∧ HeapFrom comp v' first len 0 := by
  unfold make_heap
  have hsub : first + len - first = len := by omega
  rw [hsub]
  by_cases hsmall : len < 2
  · rw [if_pos hsmall]
    exact ⟨v, rfl, reorder_refl _ _ _, fun k x y hk1 hkl _ _ _ => by omega⟩
  · rw [if_neg hsmall]
    exact make_heap_loop_spec comp hsw first len ((len - 2) / 2) v (by omega) hlen
      (fun k x y hk1 hkl hlo _ _ => by omega)

/-- In a heap no element is greater than the root. -/
theorem root_max {α : Type} (comp : α → α → Bool) (hsw : StrictWeak comp) (v : List α)
    (first len : Nat) (hlen : first + len ≤ v.length) (hheap : HeapFrom comp v first len 0)
    (x0 : α) (hx0 : v[first]? = some x0) (k : Nat) (y : α) (hk : k < len)
    (hy : v[first + k]? = some y) : comp x0 y = false := by
  induction k using Nat.strong_induction_on generalizing y with
  | _ k ih =>
    by_cases hk0 : k = 0
    · subst hk0
      rw [Nat.add_zero, hx0] at hy
      cases hy
      exact hsw.1 _
    · obtain ⟨z, hz⟩ := getElem?_of_lt v (first + (k - 1) / 2) (by omega)
      have e1 := ih ((k - 1) / 2) (by omega) z (by omega) hz
      have e2 := hheap k z y (by omega) hk (by omega) hz hy
      exact sw_le_trans hsw e2 e1

/-- `std::__pop_heap(first, last, last)` on a heap of `last - first + 1` elements: the
root goes to `last` and the other elements form a heap again. -/
theorem pop_heap_spec {α : Type} (comp : α → α → Bool) (hsw : StrictWeak comp)
    (v : List α) (first last : Nat) (hfl : first < last) (hlen : last < v.length)
    (hheap : HeapFrom comp v first (last - first + 1) 0) :
    ∃ v' top, pop_heap comp v first last last = some v' ∧ v[first]? = some top ∧
      v'[last]? = some top ∧ Reorder first (last + 1) v v' ∧
      HeapFrom comp v' first (last - first) 0 := by
  obtain ⟨value, hvalue⟩ := getElem?_of_lt v last hlen
  obtain ⟨top, htop⟩ := getElem?_of_lt v first (by omega)
  have hget : ∀ k, (v.set last top)[k]? = if k = last then some top else v[k]? :=
    fun k => getElem?_set_eq_ite v last k top hlen
  obtain ⟨v', hres, hl', hout', hheap', hcount'⟩ :=
    adjust_heap_spec comp hsw (v.set last top) first 0 (last - first) value (by omega)
      (by simp; omega)
      (fun k x y hk1 hkl hlo hx hy => by
        rw [hget, if_neg (by omega)] at hx hy
        exact hheap k x y hk1 (by omega) (by omega) hx hy)
  refine ⟨v', top, ?_, htop, ?_, ⟨by rw [hl']; simp, fun i hi => ?_, fun p => ?_⟩, hheap'⟩
  · unfold pop_heap
    simp only [hvalue, htop]
    rw [writeAt_some v _ _ hlen]
    simp only [hres]
  · rw [hout' last (Or.inr (by omega)), hget, if_pos rfl]
  · rw [hout' i (by omega), hget, if_neg (by omega)]
  · have e1 := hcount' p top (by rw [hget, if_neg (by omega)]; exact htop)
    have e2 := countP_set p v last top value hvalue
    omega

/-- `std::__sort_heap` with `last` at `m`: the elements of `[first, m)` form a heap, the
elements of `[m, l)` are sorted and none of them is less than an element of the
heap; afterwards `[first, l)` is sorted. -/
theorem sort_heap_spec {α : Type} [DecidableEq α] (comp : α → α → Bool)
    (hsw : StrictWeak comp) (first l : Nat) (m : Nat) (v : List α) (hfm : first ≤ m)
    (hml : m ≤ l) (hlen : l ≤ v.length) (hheap : HeapFrom comp v first (m - first) 0)
    (hsorted : SortedOn comp m l v)
    (hcross : ∀ i j x y, first ≤ i → i < m → m ≤ j → j < l → v[i]? = some x →
      v[j]? = some y → comp y x = false) :
    ∃ v', sort_heap comp first m v = some v' ∧ Reorder first l v v' ∧
      SortedOn comp first l v' := by
  induction m generalizing v with
  | zero =>
    have : first = 0 := by omega
    subst this
    exact ⟨v, rfl, reorder_refl _ _ _, hsorted⟩
  | succ m ih =>
    unfold sort_heap
    by_cases hbig : m + 1 - first > 1
    · rw [if_pos hbig]
      obtain ⟨v1, top, hpop, htop, hv1m, hre1, hheap1⟩ :=
        pop_heap_spec comp hsw v first m (by omega) (by omega)
          (by rw [show m - first + 1 = m + 1 - first by omega]; exact hheap)
      simp only [hpop]
      have hmax : ∀ i x, first ≤ i → i < m + 1 → v[i]? = some x → comp top x = false :=
        fun i x hfi him hx =>
          root_max comp hsw v first (m + 1 - first) (by omega) hheap top htop (i - first) x
            (by omega) (by rw [show first + (i - first) = i by omega]; exact hx)
      obtain ⟨v', hres, hre, hsrt⟩ := ih v1 (by omega) (by omega) (by rw [hre1.1]; exact hlen)
        hheap1
        (fun i j x y hmi hij hjl hx hy => by
          rw [hre1.2.1 j (Or.inr (by omega))] at hy
          by_cases him : i = m
          · subst him
            rw [hv1m] at hx
            cases hx
            exact hcross first j _ y (le_refl _) (by omega) (by omega) hjl htop hy
          · rw [hre1.2.1 i (Or.inr (by omega))] at hx
            exact hsorted i j x y (by omega) hij hjl hx hy)
        (fun i j x y hfi him hmj hjl hx hy => by
          obtain ⟨i', hfi', hi'm, hx'⟩ := reorder_mem hre1 hfi (by omega) hx
          by_cases hjm : j = m
          · subst hjm
            rw [hv1m] at hy
            cases hy
            exact hmax i' x hfi' hi'm hx'
          · rw [hre1.2.1 j (Or.inr (by omega))] at hy
            exact hcross i' j x y hfi' hi'm (by omega) hjl hx' hy)
      exact ⟨v', hres, reorder_trans (reorder_mono hre1 (le_refl _) (by omega)) hre, hsrt⟩
    · rw [if_neg hbig]
      refine ⟨v, rfl, reorder_refl _ _ _, fun i j x y hfi hij hjl hx hy => ?_⟩
      by_cases him : i < m + 1
      · exact hcross i j x y hfi him (by omega) hjl hx hy
      · exact hsorted i j x y (by omega) hij hjl hx hy

/-- `std::__partial_sort(first, last, last)`, the heap sort: the range sorted. -/
theorem partial_sort_spec {α : Type} [DecidableEq α] (comp : α → α → Bool)
    (hsw : StrictWeak comp) (v : List α) (first last : Nat) (hfl : first ≤ last)
    (hlen : last ≤ v.length) :
    ∃ v', partial_sort comp v first last last = some v' ∧ Reorder first last v v' ∧
      SortedOn comp first last v' := by
  obtain ⟨v1, hmake, hre1, hheap1⟩ :=
    make_heap_spec comp hsw v first (last - first) (by omega)
  rw [show first + (last - first) = last by omega] at hmake hre1
  obtain ⟨v', hres, hre, hsrt⟩ :=
    sort_heap_spec comp hsw first last last v1 hfl (le_refl _) (by rw [hre1.1]; exact hlen)
      hheap1 (fun i j x y h1 h2 h3 _ _ => by omega)
      (fun i j x y h1 h2 h3 h4 _ _ => by omega)
  refine ⟨v', ?_, reorder_trans hre1 hre, hsrt⟩
  unfold partial_sort heap_select
  simp only [hmake]
  unfold rangeLoop
  rw [Nat.sub_self]
  exact hres

/-! ## The ranking step: `std::sort` of the fitness table -/

/-- A sorted range has no element less than one that stands 16 or more places before. -/
theorem gapOn_of_sortedOn {α : Type} {comp : α → α → Bool} {a b : Nat} {v : List α}
    (h : SortedOn comp a b v) : GapOn comp a b v :=
  fun i j x y hai hij hjb hx hy => h i j x y hai (by omega) hjb hx hy

/-- `std::__introsort_loop` returns for every depth limit, with the range rearranged so
that only elements less than 16 places apart may still be out of order. -/
theorem introsort_loop_spec {α : Type} [DecidableEq α] (comp : α → α → Bool)
    (hsw : StrictWeak comp) (depth_limit : Nat) (v : List α) (first last : Nat)
    (hfl : first ≤ last) (hlen : last ≤ v.length) :
    ∃ v', introsort_loop comp depth_limit v first last = some v' ∧
      Reorder first last v v' ∧ GapOn comp first last v' := by
  induction depth_limit generalizing v first last with
  | zero =>
    unfold introsort_loop
    by_cases hbig : last - first > 16
    · rw [if_pos hbig]
      obtain ⟨v', hres, hre, hsrt⟩ := partial_sort_spec comp hsw v first last hfl hlen
      exact ⟨v', hres, hre, gapOn_of_sortedOn hsrt⟩
    · rw [if_neg hbig]
      exact ⟨v, rfl, reorder_refl _ _ _, fun i j x y h1 h2 h3 _ _ => by omega⟩
  | succ d ih =>
    unfold introsort_loop
    by_cases hbig : last - first > 16
    · rw [if_pos hbig]
      obtain ⟨v1, cut, p, hpart, hre1, hfc, hcl, hleft, hright⟩ :=
        unguarded_partition_pivot_spec comp hsw v first last (by omega) hlen
      obtain ⟨v2, hres2, hre2, hgap2⟩ :=
        ih v1 cut last (by omega) (by rw [hre1.1]; exact hlen)
      obtain ⟨v3, hres3, hre3, hgap3⟩ :=
        ih v2 first cut (by omega) (by rw [hre2.1, hre1.1]; omega)
      simp only [hpart, hres2]
      refine ⟨v3, hres3,
        reorder_trans hre1 (reorder_trans (reorder_mono hre2 (by omega) (le_refl _))
          (reorder_mono hre3 (le_refl _) (by omega))),
        fun i j x y hfi hij hjl hx hy => ?_⟩
      by_cases hjc : j < cut
      · exact hgap3 i j x y hfi hij hjc hx hy
      · rw [hre3.2.1 j (Or.inr (by omega))] at hy
        by_cases hic : cut ≤ i
        · rw [hre3.2.1 i (Or.inr hic)] at hx
          exact hgap2 i j x y hic hij hjl hx hy
        · obtain ⟨i', hfi', hi'c, hx'⟩ := reorder_mem hre3 hfi (by omega) hx
          rw [hre2.2.1 i' (Or.inl hi'c)] at hx'
          obtain ⟨j', hcj', hj'l, hy'⟩ := reorder_mem hre2 (by omega) hjl hy
          exact sw_le_trans hsw (hleft i' x hfi' hi'c hx') (hright j' y hcj' hj'l hy')
    · rw [if_neg hbig]
      exact ⟨v, rfl, reorder_refl _ _ _, fun i j x y h1 h2 h3 _ _ => by omega⟩

/-- The call `std::sort(v.begin(), v.end(), comp)` with a strict weak ordering returns,
and what it leaves in `v` is a rearrangement of the elements in which no element is
less than one that stands before it. -/
theorem std_sort_spec {α : Type} [DecidableEq α] (comp : α → α → Bool)
    (hsw : StrictWeak comp) (v : List α) :
    ∃ w, std_sort comp v = some w ∧ w.Perm v ∧
      w.Pairwise (fun a b => comp b a = false) := by
  unfold std_sort sort_range
  by_cases hne : 0 ≠ v.length
  · rw [if_pos hne]
    obtain ⟨v1, hres1, hre1, hgap1⟩ :=
      introsort_loop_spec comp hsw (lg (v.length - 0) * 2) v 0 v.length (Nat.zero_le _)
        (le_refl _)
    obtain ⟨w, hw, hsorted, hperm⟩ :=
      final_insertion_sort_spec comp hsw v1
        (fun i x y hi hx hy =>
          hgap1 0 i y x (le_refl _) (by omega)
            (by rw [← hre1.1]; exact lt_of_getElem? hx) hy hx)
    rw [hre1.1] at hw
    simp only [hres1]
    exact ⟨w, hw, hperm.trans (reorder_perm hre1), hsorted⟩
  · rw [if_neg hne]
    have : v = [] := by
      cases v with
      | nil => rfl
      | cons a t => exact absurd (by simp) hne
    subst this
    exact ⟨[], rfl, List.Perm.refl _, List.Pairwise.nil⟩

/-- The library's `std::sort` as a function on lists meets the contract that the
select-and-breed step is proved under. -/
theorem std_sort_contract {α : Type} [DecidableEq α] :
    StdSortContract (fun (comp : α → α → Bool) l => (std_sort comp l).getD l) := by
  intro comp l hsw
  obtain ⟨w, hw, hperm, hsorted⟩ := std_sort_spec comp hsw l
  simp only [hw, Option.getD_some]
  exact ⟨hperm, hsorted⟩

/-- C15, as the code has it.  The ranking step of both trainers, `std::sort` of the
fitness table with the comparator `a.second > b.second`, returns for every table,
and the table it leaves is a permutation of the `(index, fitness)` pairs in
non-increasing order of fitness: the fitness at a later position never exceeds the
fitness at an earlier one.  Nothing is said of pairs of equal fitness. -/
theorem ranking_is_sorted_permutation {R : Type} [LinearOrder R]
    (fitnessScores : List (Nat × R)) :
    ∃ ranked, std_sort byFitness fitnessScores = some ranked ∧
      ranked.Perm fitnessScores ∧ ranked.length = fitnessScores.length ∧
      ranked.Pairwise (fun a b => b.2 ≤ a.2) ∧
      ∀ (i j : Nat) (a b : Nat × R), i < j → ranked[i]? = some a → ranked[j]? = some b →
        b.2 ≤ a.2 := by
  obtain ⟨ranked, hres, hp, hsorted⟩ :=
    std_sort_spec byFitness byFitness_strictWeak fitnessScores
  have hs : ranked.Pairwise (fun a b => b.2 ≤ a.2) :=
    hsorted.imp (fun {a b} h => (byFitness_false_iff a b).mp h)
  refine ⟨ranked, hres, hp, hp.length_eq, hs, fun i j a b hij ha hb => ?_⟩
  rw [List.getElem?_eq_some_iff] at ha hb
  obtain ⟨hi, ha⟩ := ha
  obtain ⟨hj, hb⟩ := hb
  rw [← ha, ← hb]
  exact List.pairwise_iff_getElem.mp hs i j hi hj hij

/-- The fitness table `tiedScores`, written out. -/
theorem tiedScores_eq :
    tiedScores = [(0, 0), (1, 0), (2, 0), (3, 0), (4, 0), (5, 0), (6, 0), (7, 0), (8, 0),
      (9, 0), (10, 0), (11, 0), (12, 0), (13, 0), (14, 0), (15, 0), (16, 0), (17, 0),
      (18, 0), (19, 0)] := by
  decide

/-- What `std::sort` leaves of twenty tied scores: the median-of-three step of
`std::__unguarded_partition_pivot` swaps the pairs at the positions 0 and 10, the
partition then swaps the positions 1 and 19, 2 and 18, ..., 9 and 11, and the final
insertion sort moves nothing. -/
theorem std_sort_tiedScores :
    std_sort byFitness tiedScores
      = some [(10, 0), (19, 0), (18, 0), (17, 0), (16, 0), (15, 0), (14, 0), (13, 0),
          (12, 0), (11, 0), (0, 0), (9, 0), (8, 0), (7, 0), (6, 0), (5, 0), (4, 0), (3, 0),
          (2, 0), (1, 0)] := by
  rw [tiedScores_eq]
  simp [std_sort, sort_range, introsort_loop, lg, lgAux, unguarded_partition_pivot,
    move_median_to_first, iter_swap, unguarded_partition, scanUp, scanDown,
    final_insertion_sort, insertion_sort, unguarded_insertion_sort,
    unguarded_linear_insert, unguarded_linear_insert_loop, rangeLoop, forLoop, byFitness]

/-- C15, refuted as stated.  On the fitness table of a population of twenty networks
that all scored `0`, the pairs `(0, 0)`, ..., `(19, 0)` in population order,
`std::sort` with the comparator `a.second > b.second` leaves the indices in the order
10, 19, 18, ..., 11, 0, 9, 8, ..., 1.  Network 10 is ranked first and network 0
eleventh though they tie and network 0 stood first, so ties do not keep their
population order and the sort is not stable. -/
theorem ranking_not_stable :
    (std_sort byFitness tiedScores).map (fun ranked => ranked.map Prod.fst)
      = some [10, 19, 18, 17, 16, 15, 14, 13, 12, 11, 0, 9, 8, 7, 6, 5, 4, 3, 2, 1] ∧
    tiedScores.map Prod.fst
      = [0, 1, 2, 3, 4, 5, 6, 7, 8, 9, 10, 11, 12, 13, 14, 15, 16, 17, 18, 19] ∧
    (∀ a ∈ tiedScores, a.2 = 0) ∧
    ¬ StableOn (fun comp l => (std_sort comp l).getD l) byFitness tiedScores := by
  refine ⟨?_, ?_, ?_, fun h => ?_⟩
  · rw [std_sort_tiedScores]
    rfl
  · rw [tiedScores_eq]
    rfl
  · rw [tiedScores_eq]
    simp
  · have h0 := h (0, 0)
    simp only [std_sort_tiedScores, Option.getD_some] at h0
    rw [tiedScores_eq] at h0
    simp [byFitness] at h0

end BicBrickBread
